import Mathlib

/-!
# Gomoku: board state machine, win detection and adversarial search

A shallow embedding of `src/src/headers/types.h`, `src/src/headers/board.h`,
`src/src/headers/ai.h` and of the legacy full-board scan of `src/backup/demo.cpp`.

Modelling conventions.
* C++ `int` values are mathematical integers (`Int`).  Coordinates of in-range points and
  the offsets added to them stay far inside the 32-bit range.
* The grid `std::vector<std::vector<Role>>` is created 15 x 15 by the constructor and never
  resized, so it is a total map from `Fin 15 x Fin 15` to `Role`.
* A write `board[x][y] = r` is `Board.write`.  In the source a write at an out-of-range
  index is undefined behaviour; the embedding leaves the grid unchanged there, and the
  statements that depend on a write say whether the index is in range.
* Methods that mutate the board return the new board next to their result.
-/

namespace Gomoku

/-! ## types.h -/

/-- The constant `BOARD_SIZE`. -/
abbrev BOARD_SIZE : Int := 15

/-- The constant `SEARCH_DEPTH`. -/
abbrev SEARCH_DEPTH : Nat := 4

/-- The constant `SEARCH_RANGE`. -/
abbrev SEARCH_RANGE : Int := 3

/-- The constant `PredefinedScore::WIN`. -/
abbrev WIN : Int := 10000000

/-- The constant `PredefinedScore::LOSE`. -/
abbrev LOSE : Int := -10000000

/-- The constant `PredefinedScore::FIVE`. -/
abbrev FIVE : Int := 1000000

/-- The constant `PredefinedScore::LIVE_4`. -/
abbrev LIVE_4 : Int := 100000

/-- The constant `PredefinedScore::RUSH_4`. -/
abbrev RUSH_4 : Int := 10000

/-- The constant `PredefinedScore::LIVE_3`. -/
abbrev LIVE_3 : Int := 8000

/-- The constant `PredefinedScore::SLEEP_3`. -/
abbrev SLEEP_3 : Int := 1000

/-- The constant `PredefinedScore::LIVE_2`. -/
abbrev LIVE_2 : Int := 500

/-- The constant `PredefinedScore::SLEEP_2`. -/
abbrev SLEEP_2 : Int := 50

/-- The value of `std::numeric_limits<int>::min()` for a 32-bit `int`. -/
abbrev INT_MIN : Int := -2147483648

/-- The value of `std::numeric_limits<int>::max()` (also `INT_MAX`) for a 32-bit `int`. -/
abbrev INT_MAX : Int := 2147483647

/-- The enumeration `Role`. -/
inductive Role where
  | EMPTY
  | USER
  | BOT
  deriving DecidableEq, Repr

/-- The class `Point` (also used as `Direction`). -/
structure Point where
  x : Int
  y : Int
  deriving DecidableEq, Repr

/-! ## board.h : the grid and its primitive operations -/

/-- The class `Board`: its only data member is the 15 x 15 grid `board`. -/
structure Board where
  board : Fin 15 → Fin 15 → Role

/-- The constructor `Board()`: every cell is `EMPTY`. -/
def Board.empty : Board := ⟨fun _ _ => Role.EMPTY⟩

/-- The assignment `board[p.getX()][p.getY()] = r`. -/
def Board.write (b : Board) (p : Point) (r : Role) : Board :=
  ⟨fun i j => if (i.val : Int) = p.x ∧ (j.val : Int) = p.y then r else b.board i j⟩

/-- The method `isRangeValid(int x, int y)`. -/
def isRangeValid (x y : Int) : Bool :=
  decide (x ≥ 0) && decide (x < BOARD_SIZE) && decide (y ≥ 0) && decide (y < BOARD_SIZE)

/-- The method `isRangeValid(const Point &p)`. -/
def isRangeValidP (p : Point) : Bool := isRangeValid p.x p.y

/-- The method `getCell`. -/
def getCell (b : Board) (p : Point) : Role :=
  if h : isRangeValidP p = true then
    b.board ⟨p.x.toNat, by simp [isRangeValidP, isRangeValid, BOARD_SIZE] at h; omega⟩
      ⟨p.y.toNat, by simp [isRangeValidP, isRangeValid, BOARD_SIZE] at h; omega⟩
  else Role.EMPTY

/-- The method `isCellEmpty`. -/
def isCellEmpty (b : Board) (p : Point) : Bool := getCell b p == Role.EMPTY

/-- The method `makeMove`: the returned flag and the board after the call. -/
def makeMove (b : Board) (p : Point) (role : Role) : Bool × Board :=
  if !isCellEmpty b p then (false, b)
  else (true, b.write p role)

/-- The method `undoMove`: the board after the call. -/
def undoMove (b : Board) (p : Point) : Board := b.write p Role.EMPTY

/-! ## board.h : win check and fullness -/

/-- The array `directions` of `checkWinner` and `evaluatePoint`. -/
def directions : List (Int × Int) := [(1, 0), (0, 1), (1, 1), (1, -1)]

/-- One inner `for (int i = 1; i < 5; ++i)` loop of `checkWinner`.  `mk i` is the point
`newP` of iteration `i`, the list holds the values of `i` still to run, and the result is
the value of `count` when the loop is left together with a flag that is `true` when it was
left through `return cell`. -/
def countLoop (b : Board) (cell : Role) (mk : Int → Point) : List Int → Int → Int × Bool
  | [], count => (count, false)
  | i :: is, count =>
    if isRangeValidP (mk i) && (getCell b (mk i) == cell) then
      if count + 1 ≥ 5 then (count + 1, true)
      else countLoop b cell mk is (count + 1)
    else (count, false)

/-- The outer `for (auto &direction : directions)` loop of `checkWinner`. -/
def checkWinnerDirs (b : Board) (p : Point) (cell : Role) : List (Int × Int) → Role
  | [] => Role.EMPTY
  | d :: ds =>
    let pos := countLoop b cell (fun i => ⟨p.x + d.1 * i, p.y + d.2 * i⟩) [1, 2, 3, 4] 1
    if pos.2 then cell
    else
      let neg := countLoop b cell (fun i => ⟨p.x - d.1 * i, p.y - d.2 * i⟩) [1, 2, 3, 4] pos.1
      if neg.2 then cell
      else checkWinnerDirs b p cell ds

/-- The method `checkWinner`. -/
def checkWinner (b : Board) (p : Point) : Role :=
  checkWinnerDirs b p (getCell b p) directions

/-- The method `isFull`. -/
def isFull (b : Board) : Bool :=
  (List.finRange 15).all fun i => (List.finRange 15).all fun j => b.board i j != Role.EMPTY

/-! ## board.h : line views and the line scanner -/

/-- The class `LineView` without its board reference, which is passed separately. -/
structure LineView where
  start : Point
  dir : Point
  length : Int
  deriving DecidableEq

/-- The method `LineView::at`. -/
def LineView.at (b : Board) (l : LineView) (index : Int) : Role :=
  getCell b ⟨l.start.x + l.dir.x * index, l.start.y + l.dir.y * index⟩

/-- The `while` loop of `LineView::getActualLength`; the first argument bounds the number
of iterations. -/
def getActualLengthLoop (b : Board) (l : LineView) : Nat → Int → Point → Int
  | 0, count, _ => count
  | fuel + 1, count, p =>
    if (decide (count < l.length) && (getCell b p != Role.EMPTY)) || isRangeValidP p then
      if !isRangeValidP p then count
      else if count + 1 ≥ l.length then count + 1
      else getActualLengthLoop b l fuel (count + 1) ⟨p.x + l.dir.x, p.y + l.dir.y⟩
    else count

/-- The method `LineView::getActualLength`.  Every iteration that does not leave the loop
increments `count` and keeps it below `length`, so `length + 1` iterations are enough. -/
def getActualLength (b : Board) (l : LineView) : Int :=
  getActualLengthLoop b l (l.length.toNat + 1) 0 l.start

/-- The method `analyzeShape`. -/
def analyzeShape (count : Int) (leftOpen rightOpen hasGap : Bool) : Int :=
  if count ≥ 5 then FIVE
  else if count = 4 then
    if leftOpen && rightOpen then (if hasGap then RUSH_4 else LIVE_4)
    else if leftOpen || rightOpen then RUSH_4
    else 0
  else if count = 3 then
    if leftOpen && rightOpen then (if hasGap then LIVE_3 * 9 / 10 else LIVE_3)
    else if leftOpen || rightOpen then SLEEP_3
    else 0
  else if count = 2 then
    if leftOpen && rightOpen then LIVE_2
    else if leftOpen || rightOpen then SLEEP_2
    else 0
  else 0

/-- The inner loop `while (index < length && line.at(index) == role) { ++index; ++count; }`
of `analyzeLine`; the result is the pair `(index, count)` after the loop. -/
def countRun (cellAt : Int → Role) (role : Role) (length : Int) : Nat → Int → Int → Int × Int
  | 0, index, count => (index, count)
  | fuel + 1, index, count =>
    if decide (index < length) && (cellAt index == role) then
      countRun cellAt role length fuel (index + 1) (count + 1)
    else (index, count)

/-- The branch `if (line.at(index) == role) { ... }` of the outer loop of `analyzeLine`,
entered at `index`: the value of `index` after the group of stones found there and the
value `analyzeShape(count, leftOpen, rightOpen, hasGap)` added to `score`. -/
def scanGroup (cellAt : Int → Role) (role : Role) (length : Int) (index : Int) : Int × Int :=
  let leftOpen := decide (index > 0) && (cellAt (index - 1) == Role.EMPTY)
  let r1 := countRun cellAt role length (length - index).toNat index 0
  let hasGap := decide (r1.1 < length) && (cellAt r1.1 == Role.EMPTY)
    && decide (r1.1 + 1 < length) && (cellAt (r1.1 + 1) == role)
  let r2 := if hasGap then
      countRun cellAt role length (length - (r1.1 + 1)).toNat (r1.1 + 1) r1.2
    else r1
  let rightOpen := decide (r2.1 < length) && (cellAt r2.1 == Role.EMPTY)
  (r2.1, analyzeShape r2.2 leftOpen rightOpen hasGap)

/-- The outer loop `while (index < length)` of `analyzeLine`; the arguments after the
iteration bound are `index` and `score`. -/
def analyzeLineLoop (cellAt : Int → Role) (role : Role) (length : Int) : Nat → Int → Int → Int
  | 0, _, score => score
  | fuel + 1, index, score =>
    if index < length then
      if cellAt index == role then
        let g := scanGroup cellAt role length index
        analyzeLineLoop cellAt role length fuel g.1 (score + g.2)
      else analyzeLineLoop cellAt role length fuel (index + 1) score
    else score

/-- The method `analyzeLine`.  Every iteration of the outer loop advances `index`, so
`length` iterations are enough. -/
def analyzeLine (b : Board) (line : LineView) (role : Role) : Int :=
  let length := getActualLength b line
  analyzeLineLoop (line.at b) role length length.toNat 0 0

/-- The expression `(role == Role::USER) ? Role::BOT : Role::USER`. -/
def opponentOf (role : Role) : Role :=
  if role = Role.USER then Role.BOT else Role.USER

/-- The loop `while (!isRangeValid(startX, startY))` of `evaluatePoint`; the first argument
bounds the number of iterations and the current point is returned when it is used up. -/
def clampStart (dx dy : Int) : Nat → Int → Int → Point
  | 0, startX, startY => ⟨startX, startY⟩
  | fuel + 1, startX, startY =>
    if !isRangeValid startX startY then clampStart dx dy fuel (startX + dx) (startY + dy)
    else ⟨startX, startY⟩

/-- The method `evaluatePoint`.  For each of the four directions a start that reaches the
grid at all does so within `|startX| + |startY| + 15` steps. -/
def evaluatePoint (b : Board) (p : Point) (role : Role) : Int :=
  directions.foldl (fun score dir =>
    let startX := p.x - dir.1 * 4
    let startY := p.y - dir.2 * 4
    let start := clampStart dir.1 dir.2 (startX.natAbs + startY.natAbs + 15) startX startY
    let line : LineView := ⟨start, ⟨dir.1, dir.2⟩, 9⟩
    score + analyzeLine b line role - analyzeLine b line (opponentOf role)) 0

/-! ## board.h : candidate generation and whole-board evaluation -/

/-- The first loop nest of `getCandidates`: the occupied cells in row-major order. -/
def occupiedPoints (b : Board) : List Point :=
  (List.finRange 15).flatMap fun i =>
    (List.finRange 15).filterMap fun j =>
      if b.board i j != Role.EMPTY then some ⟨(i.val : Int), (j.val : Int)⟩ else none

/-- The values of a loop variable running from `-SEARCH_RANGE` to `SEARCH_RANGE`. -/
def searchOffsets : List Int :=
  (List.range (2 * SEARCH_RANGE.toNat + 1)).map fun (k : Nat) => (k : Int) - SEARCH_RANGE

/-- The state of the second loop nest of `getCandidates`: the matrix `visited` and the
vector `candidates`. -/
structure CandState where
  visited : Int → Int → Bool
  candidates : List Point

/-- The body of the innermost loop of `getCandidates` for the occupied point `p` and the
offsets `i`, `j`. -/
def candStep (b : Board) (p : Point) (st : CandState) (i j : Int) : CandState :=
  let newP : Point := ⟨p.x + i, p.y + j⟩
  if isRangeValidP newP && !st.visited newP.x newP.y then
    let visited := fun x y => if x = newP.x ∧ y = newP.y then true else st.visited x y
    if isCellEmpty b newP then ⟨visited, st.candidates ++ [newP]⟩
    else ⟨visited, st.candidates⟩
  else st

/-- The method `getCandidates`. -/
def getCandidates (b : Board) : List Point :=
  let occupied := occupiedPoints b
  if occupied.isEmpty then [⟨BOARD_SIZE / 2, BOARD_SIZE / 2⟩]
  else
    (occupied.foldl (fun st p =>
      searchOffsets.foldl (fun st i =>
        searchOffsets.foldl (fun st j => candStep b p st i j) st) st)
      ⟨fun _ _ => false, []⟩).candidates

/-- The scoring loop of `getSortedCandidates`: the vector `scoredMoves` and the board after
the loop. -/
def scoreMoves (role : Role) : List Point → Board → List (Int × Point) × Board
  | [], b => ([], b)
  | p :: ps, b =>
    let b1 := b.write p role
    let score := evaluatePoint b1 p role
    let b2 := b1.write p Role.EMPTY
    let rest := scoreMoves role ps b2
    ((score, p) :: rest.1, rest.2)

/-- The method `getSortedCandidates`: the returned vector and the board after the call.
`stdSort` is the call `sort(begin, end, [](a, b) { return a.first > b.first; })` of the
standard library, whose order among equal scores is not fixed by the language. -/
def getSortedCandidates (stdSort : List (Int × Point) → List (Int × Point))
    (b : Board) (role : Role) : List Point × Board :=
  let scored := scoreMoves role (getCandidates b) b
  ((stdSort scored.1).map Prod.snd, scored.2)

/-- A reference implementation of the library sort: insertion sort by descending score. -/
def sortDesc (l : List (Int × Point)) : List (Int × Point) :=
  l.insertionSort fun a b => a.1 ≥ b.1

/-- The lines scanned by `evaluate`, in the order of its six loops; the requested length
is the default `INT_MAX`. -/
def evaluateLines : List LineView :=
  ((List.range 15).map fun (i : Nat) => (⟨⟨(i : Int), 0⟩, ⟨0, 1⟩, INT_MAX⟩ : LineView))
  ++ ((List.range 15).map fun (j : Nat) => (⟨⟨0, (j : Int)⟩, ⟨1, 0⟩, INT_MAX⟩ : LineView))
  ++ ((List.range 15).map fun (i : Nat) => (⟨⟨(i : Int), 0⟩, ⟨1, 1⟩, INT_MAX⟩ : LineView))
  ++ ((List.range 14).map fun (j : Nat) => (⟨⟨0, (j : Int) + 1⟩, ⟨1, 1⟩, INT_MAX⟩ : LineView))
  ++ ((List.range 15).map fun (i : Nat) =>
        (⟨⟨(i : Int), BOARD_SIZE - 1⟩, ⟨1, -1⟩, INT_MAX⟩ : LineView))
  ++ ((List.range 14).map fun (j : Nat) => (⟨⟨0, (j : Int)⟩, ⟨1, -1⟩, INT_MAX⟩ : LineView))

/-- The expression `static_cast<int>(DEFENSE_WEIGHT * opponentScore)`: the product with
1.2 truncated toward zero.  The source computes the product in double precision; the
rounding error of that product is far below the distance of `1.2 * n` to the next integer
boundary for every 32-bit `n`, so the truncated value is that of the exact product. -/
def defenseWeighted (opponentScore : Int) : Int :=
  (6 * opponentScore).tdiv 5

/-- The method `evaluate`. -/
def evaluate (b : Board) (role : Role) : Int :=
  let myScore := (evaluateLines.map fun line => analyzeLine b line role).sum
  let opponentScore := (evaluateLines.map fun line => analyzeLine b line (opponentOf role)).sum
  myScore - defenseWeighted opponentScore

/-! ## ai.h : alpha-beta search -/

/-- The candidate loop of a `BOT` node of `minimax`: `search` is the recursive call one
level deeper, and the result is the returned `alpha` with the board after the loop. -/
def maxLoop (search : Board → Point → Int → Int → Int × Board) (role : Role) (beta : Int) :
    List Point → Board → Int → Int × Board
  | [], b, alpha => (alpha, b)
  | p :: ps, b, alpha =>
    let m := makeMove b p role
    if m.1 then
      let r := search m.2 p alpha beta
      let b2 := undoMove r.2 p
      let alpha2 := max alpha r.1
      if alpha2 ≥ beta then (alpha2, b2)
      else maxLoop search role beta ps b2 alpha2
    else maxLoop search role beta ps m.2 alpha

/-- The candidate loop of a `USER` node of `minimax`; the result is the returned `beta`
with the board after the loop. -/
def minLoop (search : Board → Point → Int → Int → Int × Board) (role : Role) (alpha : Int) :
    List Point → Board → Int → Int × Board
  | [], b, beta => (beta, b)
  | p :: ps, b, beta =>
    let m := makeMove b p role
    if m.1 then
      let r := search m.2 p alpha beta
      let b2 := undoMove r.2 p
      let beta2 := min beta r.1
      if alpha ≥ beta2 then (beta2, b2)
      else minLoop search role alpha ps b2 beta2
    else minLoop search role alpha ps m.2 beta

/-- The method `AI::minimax`: the returned score and the board after the call.  The
source is only entered with `depth = SEARCH_DEPTH - 1` and decrements it down to the test
`depth == 0`, so `depth` is a natural number. -/
def minimax (stdSort : List (Int × Point) → List (Int × Point)) (depth : Nat) (b : Board)
    (role : Role) (lastMove : Point) (alpha beta : Int) : Int × Board :=
  let winner := checkWinner b lastMove
  if winner ≠ Role.EMPTY then
    (if winner = Role.BOT then WIN else LOSE, b)
  else
    match depth with
    | 0 => (evaluate b Role.BOT, b)
    | d + 1 =>
      if isFull b then (evaluate b Role.BOT, b)
      else
        let c := getSortedCandidates stdSort b role
        if role = Role.BOT then
          maxLoop (fun b1 p a be => minimax stdSort d b1 Role.USER p a be) role beta c.1 c.2 alpha
        else
          minLoop (fun b1 p a be => minimax stdSort d b1 Role.BOT p a be) role alpha c.1 c.2 beta

/-- The state of the candidate loop of `getBestMove`. -/
structure BestState where
  board : Board
  bestMove : Point
  bestScore : Int

/-- The candidate loop of `getBestMove`; `search` is the call of `minimax` for one
candidate on the board with the candidate placed. -/
def bestLoop (search : Board → Point → Int × Board) : List Point → BestState → BestState
  | [], st => st
  | p :: ps, st =>
    let m := makeMove st.board p Role.BOT
    if m.1 then
      let r := search m.2 p
      let b2 := undoMove r.2 p
      if r.1 > st.bestScore then bestLoop search ps ⟨b2, p, r.1⟩
      else bestLoop search ps ⟨b2, st.bestMove, st.bestScore⟩
    else bestLoop search ps ⟨m.2, st.bestMove, st.bestScore⟩

/-- The method `AI::getBestMove` of `src/src/headers/ai.h`: the returned point and the
board after the call. -/
def getBestMove (stdSort : List (Int × Point) → List (Int × Point)) (b : Board) :
    Point × Board :=
  let c := getSortedCandidates stdSort b Role.BOT
  let st := bestLoop
    (fun b1 p => minimax stdSort (SEARCH_DEPTH - 1) b1 Role.USER p INT_MIN INT_MAX)
    c.1 ⟨c.2, ⟨0, 0⟩, INT_MIN⟩
  (st.bestMove, st.board)

/-- The method `AI::getBestMove` of `src/src/core/ai.h`, which starts from the best score
`LOSE` and searches the window from `LOSE` to `WIN`. -/
def getBestMoveCore (stdSort : List (Int × Point) → List (Int × Point)) (b : Board) :
    Point × Board :=
  let c := getSortedCandidates stdSort b Role.BOT
  let st := bestLoop
    (fun b1 p => minimax stdSort (SEARCH_DEPTH - 1) b1 Role.USER p LOSE WIN)
    c.1 ⟨c.2, ⟨0, 0⟩, LOSE⟩
  (st.bestMove, st.board)

/-! ## backup/demo.cpp : the legacy full-board scan -/

/-- The loop of the legacy `checkRow`, over the same grid type; the cell values
`EMPTY = 0`, `PLAYER = 1`, `BOT = 2` are the three roles.  The first argument bounds the
number of tests of the loop condition, the others are `x`, `y` and `count`. -/
def Legacy.checkRowLoop (b : Board) (role : Role) (dx dy : Int) : Nat → Int → Int → Int → Int
  | 0, _, _, count => count
  | fuel + 1, x, y, count =>
    if isRangeValid x y && (getCell b ⟨x, y⟩ == role) then
      Legacy.checkRowLoop b role dx dy fuel (x + dx) (y + dy) (count + 1)
    else count

/-- The legacy method `checkRow`.  A walk that starts on the grid with a non-zero step
leaves it after at most 14 steps, so 15 tests of the loop condition are enough. -/
def Legacy.checkRow (b : Board) (i j : Fin 15) (dx dy : Int) : Int :=
  Legacy.checkRowLoop b (b.board i j) dx dy 15 (i.val + dx) (j.val + dy) 1

/-- The cell loop of the legacy `checkWin` over the cells still to visit. -/
def Legacy.checkWinCells (b : Board) : List (Fin 15 × Fin 15) → Role
  | [] => Role.EMPTY
  | c :: rest =>
    if b.board c.1 c.2 = Role.EMPTY then Legacy.checkWinCells b rest
    else if directions.any (fun d =>
        decide (Legacy.checkRow b c.1 c.2 d.1 d.2 + Legacy.checkRow b c.1 c.2 (-d.1) (-d.2) - 1 ≥ 5))
      then b.board c.1 c.2
    else Legacy.checkWinCells b rest

/-- The legacy method `checkWin`: the winning side, or `EMPTY` (the value 0) for none. -/
def Legacy.checkWin (b : Board) : Role :=
  Legacy.checkWinCells b ((List.finRange 15).flatMap fun i => (List.finRange 15).map fun j => (i, j))

/-! ## Specification notions for the win check -/

/-- The point at signed distance `i` from `p` along the direction `d`. -/
def along (p : Point) (d : Int × Int) (i : Int) : Point :=
  ⟨p.x + d.1 * i, p.y + d.2 * i⟩

/-- Whether the point at signed distance `i` from `p` along `d` is on the grid and holds
the side `s`. -/
def holdsAt (b : Board) (s : Role) (p : Point) (d : Int × Int) (i : Int) : Bool :=
  isRangeValidP (along p d i) && (getCell b (along p d i) == s)

/-- The number of consecutive cells at the signed distances `i`, `i + step`,
`i + 2 * step`, ... from `p` along `d` that are on the grid and hold `s`, looking at no
more than `n` cells. -/
def extentFrom (b : Board) (s : Role) (p : Point) (d : Int × Int) (step : Int) :
    Nat → Int → Nat
  | 0, _ => 0
  | n + 1, i => if holdsAt b s p d i then extentFrom b s p d step n (i + step) + 1 else 0

/-- The length of the maximal run of cells holding `s` that contains `p` along the axis
`d`: `p` itself, counted once, and its consecutive neighbours in both directions.  A line
of the grid has at most 15 cells, so looking 15 cells each way reaches the end of the run. -/
def runLength (b : Board) (s : Role) (p : Point) (d : Int × Int) : Nat :=
  1 + extentFrom b s p d 1 15 1 + extentFrom b s p d (-1) 15 (-1)

/-- The loop `countLoop` with its test abstracted to a predicate on the loop variable. -/
def countLoopB (c : Int → Bool) : List Int → Int → Int × Bool
  | [], count => (count, false)
  | i :: is, count =>
    if c i then
      if count + 1 ≥ 5 then (count + 1, true)
      else countLoopB c is (count + 1)
    else (count, false)

/-- The board reached from `b` by calling `makeMove` for the listed stones in order. -/
def playAll (b : Board) (stones : List (Point × Role)) : Board :=
  stones.foldl (fun acc st => (makeMove acc st.1 st.2).2) b

/-- The board with `USER` stones at (7,7), (7,8), (7,9) and (7,10), placed in this order
on the empty board. -/
def userFour : Board :=
  playAll Board.empty
    [(⟨7, 7⟩, Role.USER), (⟨7, 8⟩, Role.USER), (⟨7, 9⟩, Role.USER), (⟨7, 10⟩, Role.USER)]

/-- The board with `BOT` stones at (3,3), (4,4), (5,5), (6,6) and (7,7). -/
def botFive : Board :=
  playAll Board.empty
    [(⟨3, 3⟩, Role.BOT), (⟨4, 4⟩, Role.BOT), (⟨5, 5⟩, Role.BOT), (⟨6, 6⟩, Role.BOT),
     (⟨7, 7⟩, Role.BOT)]

/-- Whether some row, column or diagonal of the board contains five consecutive cells
holding stones of one side: the cells `q`, `q + d`, ..., `q + 4 * d` for a cell `q` of the
grid, one of the four directions `d` and a side `s`. -/
def hasFive (b : Board) : Bool :=
  (List.finRange 15).any fun i => (List.finRange 15).any fun j =>
    directions.any fun d => [Role.USER, Role.BOT].any fun s =>
      (List.range 5).all fun k => holdsAt b s ⟨(i.val : Int), (j.val : Int)⟩ d (k : Int)

/-! ## Specification notions for the search -/

/-- The scores of the children of a node: one for each candidate that `makeMove` accepts
on the board `b`, computed by `val` on the board with the candidate placed. -/
def childScores (val : Board → Point → Int) (b : Board) (role : Role) (cands : List Point) :
    List Int :=
  (cands.filter fun p => (makeMove b p role).1).map fun p => val (makeMove b p role).2 p

/-- The exhaustive minimax of the pruning claim: the terminal tests of `minimax` and the
candidate list of `getSortedCandidates`, but no window and no cut-off.  A `BOT` node takes
the maximum of the scores of all its children (starting from `INT_MIN`), any other node
the minimum (starting from `INT_MAX`). -/
def exhaustive (stdSort : List (Int × Point) → List (Int × Point)) (depth : Nat) (b : Board)
    (role : Role) (lastMove : Point) : Int :=
  let winner := checkWinner b lastMove
  if winner ≠ Role.EMPTY then
    (if winner = Role.BOT then WIN else LOSE)
  else
    match depth with
    | 0 => evaluate b Role.BOT
    | d + 1 =>
      if isFull b then evaluate b Role.BOT
      else
        let cands := (getSortedCandidates stdSort b role).1
        if role = Role.BOT then
          (childScores (fun b1 p => exhaustive stdSort d b1 Role.USER p) b role cands).foldl
            max INT_MIN
        else
          (childScores (fun b1 p => exhaustive stdSort d b1 Role.BOT p) b role cands).foldl
            min INT_MAX

/-- The selection loop of `getBestMove` run over the exhaustive scores. -/
def getBestMoveExhaustive (stdSort : List (Int × Point) → List (Int × Point)) (b : Board) :
    Point :=
  let c := getSortedCandidates stdSort b Role.BOT
  (bestLoop (fun b1 p => (exhaustive stdSort (SEARCH_DEPTH - 1) b1 Role.USER p, b1))
    c.1 ⟨c.2, ⟨0, 0⟩, INT_MIN⟩).bestMove

/-- How the result `r` of a search with the window from `alpha` to `beta` is tied to the
exhaustive value `v` of the same node: `r` is a 32-bit value, it is exact when `v` lies
strictly inside the window, and it lies on the same side of the window as `v` otherwise. -/
def WindowSpec (alpha beta v r : Int) : Prop :=
  INT_MIN ≤ r ∧ r ≤ INT_MAX ∧ (v ≤ alpha → r ≤ alpha) ∧ (beta ≤ v → beta ≤ r)
    ∧ (alpha < v → v < beta → r = v)

/-- The point `p` computed by `LineView::at` for the index `index`: the cell of the line at
that index. -/
def LineView.point (l : LineView) (index : Int) : Point :=
  ⟨l.start.x + l.dir.x * index, l.start.y + l.dir.y * index⟩

/-- The board with `USER` stones at (7,7), (7,8) and (7,10). -/
def userGapped : Board :=
  playAll Board.empty [(⟨7, 7⟩, Role.USER), (⟨7, 8⟩, Role.USER), (⟨7, 10⟩, Role.USER)]

/-- The line of nine cells from (7,3) to (7,11), as built by `evaluatePoint` for the point
(7,7) and the direction (0,1). -/
def rowSevenWindow : LineView := ⟨⟨7, 3⟩, ⟨0, 1⟩, 9⟩

/-! ## The double-precision product of `evaluate` -/

/-- The number of binary digits of `n`, counted by halving at most `fuel` times. -/
def bitLengthAux : Nat → Nat → Nat
  | 0, _ => 0
  | fuel + 1, n => if n = 0 then 0 else bitLengthAux fuel (n / 2) + 1

/-- The number of binary digits of `n` (0 for 0); `n` halvings are always enough. -/
def bitLength (n : Nat) : Nat := bitLengthAux n n

/-- Rounding of the rational `n / 2 ^ s` to the nearest integer, ties to even. -/
def roundHalfEven (n s : Nat) : Nat :=
  let q := n / 2 ^ s
  let r := n % 2 ^ s
  if 2 * r < 2 ^ s then q
  else if 2 ^ s < 2 * r then q + 1
  else if q % 2 = 0 then q
  else q + 1

/-- The expression `static_cast<int>(DEFENSE_WEIGHT * opponentScore)` for a non-negative
`opponentScore` below `2 ^ 53`, computed as IEEE 754 binary64 arithmetic does it.  The
constant `1.2` is the double `5404319552844595 / 2 ^ 52`; the conversion of the integer is
exact; the exact product `n * 5404319552844595 / 2 ^ 52` is rounded to a 53-bit significand
(nearest, ties to even), dropping `s` bits; the cast truncates the result toward zero. -/
def doubleTimes12Trunc (n : Nat) : Nat :=
  let exact := n * 5404319552844595
  let s := bitLength exact - 53
  roundHalfEven exact s * 2 ^ s / 2 ^ 52

/-- The expression `static_cast<int>(DEFENSE_WEIGHT * opponentScore)` in binary64
arithmetic for an `opponentScore` of either sign (the product and the cast are symmetric
in the sign). -/
def defenseWeightedDouble (opponentScore : Int) : Int :=
  if opponentScore ≥ 0 then (doubleTimes12Trunc opponentScore.toNat : Int)
  else -(doubleTimes12Trunc (-opponentScore).toNat : Int)

/-! ## Specification notions for the stone count -/

/-- The number of cells among the `n` cells at the indices `i`, `i + 1`, ... of a line that
hold `role`. -/
def roleCells (cellAt : Int → Role) (role : Role) : Nat → Int → Nat
  | 0, _ => 0
  | n + 1, i => (if cellAt i = role then 1 else 0) + roleCells cellAt role n (i + 1)

/-- The cells of the grid in row-major order. -/
def allPoints : List Point :=
  (List.finRange 15).flatMap fun i =>
    (List.finRange 15).map fun j => (⟨(i.val : Int), (j.val : Int)⟩ : Point)

/-- The number of cells of the grid that hold `role`. -/
def stoneCount (b : Board) (role : Role) : Nat :=
  allPoints.countP fun p => getCell b p == role

/-- The cells of a line view in scan order: the points at the indices from 0 up to the
actual length. -/
def linePoints (b : Board) (l : LineView) : List Point :=
  (List.range (getActualLength b l).toNat).map fun (k : Nat) => l.point (k : Int)

/-- The board with `BOT` stones at (7,7), (7,8), (7,9) and (7,10) only: an open four. -/
def botFour : Board :=
  playAll Board.empty
    [(⟨7, 7⟩, Role.BOT), (⟨7, 8⟩, Role.BOT), (⟨7, 9⟩, Role.BOT), (⟨7, 10⟩, Role.BOT)]

/-- The board with the open `BOT` four (7,7), (7,8), (7,9), (7,10) and the further `BOT`
stones (9,5), (9,6), (9,9) and (9,10): two pairs of row 9 with two empty cells between
them. -/
def botFourSplit : Board :=
  playAll Board.empty
    [(⟨7, 7⟩, Role.BOT), (⟨7, 8⟩, Role.BOT), (⟨7, 9⟩, Role.BOT), (⟨7, 10⟩, Role.BOT),
     (⟨9, 5⟩, Role.BOT), (⟨9, 6⟩, Role.BOT), (⟨9, 9⟩, Role.BOT), (⟨9, 10⟩, Role.BOT)]

/-- The witness board of the blocking claim: `USER` stones at (7,7), (7,8), (7,9), (7,10)
and a `BOT` stone at (7,6), so that (7,11) is the only open end of the four. -/
def userFourBlocked : Board :=
  playAll Board.empty
    [(⟨7, 7⟩, Role.USER), (⟨7, 8⟩, Role.USER), (⟨7, 9⟩, Role.USER), (⟨7, 10⟩, Role.USER),
     (⟨7, 6⟩, Role.BOT)]

/-- The board `userFourBlocked` with four further `BOT` stones at (9,7), (9,8), (9,9) and
(9,10): `BOT` can make five itself at (9,6) or (9,11). -/
def userFourBotFour : Board :=
  playAll userFourBlocked
    [(⟨9, 7⟩, Role.BOT), (⟨9, 8⟩, Role.BOT), (⟨9, 9⟩, Role.BOT), (⟨9, 10⟩, Role.BOT)]

/-- The board `userFourBlocked` with a second `USER` four at (9,7), (9,8), (9,9), (9,10)
and a `BOT` stone at (9,6): two fours, each with exactly one open end. -/
def userDoubleFour : Board :=
  playAll userFourBlocked
    [(⟨9, 7⟩, Role.USER), (⟨9, 8⟩, Role.USER), (⟨9, 9⟩, Role.USER), (⟨9, 10⟩, Role.USER),
     (⟨9, 6⟩, Role.BOT)]

/-! ## Specification notions for the side swap -/

/-- The other side of a stone: `USER` for `BOT`, `BOT` for `USER`; an `EMPTY` cell stays
`EMPTY`. -/
def swapRole : Role → Role
  | Role.EMPTY => Role.EMPTY
  | Role.USER => Role.BOT
  | Role.BOT => Role.USER

/-- The board with every `USER` stone replaced by a `BOT` stone and every `BOT` stone by a
`USER` stone. -/
def swapSides (b : Board) : Board := ⟨fun i j => swapRole (b.board i j)⟩

/-! ## ai.h : the search with a bound on the nesting of its calls -/

/-- The candidate loop of a `BOT` node when the recursive call may fail to return: `search`
answers `none` for a call that does not return, and then the loop does not return
either. -/
def maxLoopFuel (search : Board → Point → Int → Int → Option (Int × Board)) (role : Role)
    (beta : Int) : List Point → Board → Int → Option (Int × Board)
  | [], b, alpha => some (alpha, b)
  | p :: ps, b, alpha =>
    let m := makeMove b p role
    if m.1 then
      match search m.2 p alpha beta with
      | none => none
      | some r =>
        let b2 := undoMove r.2 p
        let alpha2 := max alpha r.1
        if alpha2 ≥ beta then some (alpha2, b2)
        else maxLoopFuel search role beta ps b2 alpha2
    else maxLoopFuel search role beta ps m.2 alpha

/-- The candidate loop of a `USER` node when the recursive call may fail to return. -/
def minLoopFuel (search : Board → Point → Int → Int → Option (Int × Board)) (role : Role)
    (alpha : Int) : List Point → Board → Int → Option (Int × Board)
  | [], b, beta => some (beta, b)
  | p :: ps, b, beta =>
    let m := makeMove b p role
    if m.1 then
      match search m.2 p alpha beta with
      | none => none
      | some r =>
        let b2 := undoMove r.2 p
        let beta2 := min beta r.1
        if alpha ≥ beta2 then some (beta2, b2)
        else minLoopFuel search role alpha ps b2 beta2
    else minLoopFuel search role alpha ps m.2 beta

/-- The method `AI::minimax` with its parameter `int depth` as an integer and no
assumption that the recursion ends: the first argument bounds the nesting of the calls,
and the result is `none` when a call would be nested deeper than that. -/
def minimaxFuel (stdSort : List (Int × Point) → List (Int × Point)) :
    Nat → Int → Board → Role → Point → Int → Int → Option (Int × Board)
  | 0, _, _, _, _, _, _ => none
  | fuel + 1, depth, b, role, lastMove, alpha, beta =>
    let winner := checkWinner b lastMove
    if winner ≠ Role.EMPTY then
      some (if winner = Role.BOT then WIN else LOSE, b)
    else if depth = 0 ∨ isFull b = true then some (evaluate b Role.BOT, b)
    else
      let c := getSortedCandidates stdSort b role
      if role = Role.BOT then
        maxLoopFuel (fun b1 p a be => minimaxFuel stdSort fuel (depth - 1) b1 Role.USER p a be)
          role beta c.1 c.2 alpha
      else
        minLoopFuel (fun b1 p a be => minimaxFuel stdSort fuel (depth - 1) b1 Role.BOT p a be)
          role alpha c.1 c.2 beta

/-- The loop `while (!isRangeValid(startX, startY))` of `evaluatePoint` with a bound on the
number of tests of its condition: `none` when the bound is used up while the loop is still
running, otherwise the point at which the loop ends. -/
def clampStartFuel (dx dy : Int) : Nat → Int → Int → Option Point
  | 0, _, _ => none
  | fuel + 1, startX, startY =>
    if !isRangeValid startX startY then clampStartFuel dx dy fuel (startX + dx) (startY + dy)
    else some ⟨startX, startY⟩

/-- The line view that `evaluatePoint` builds for the direction `dir`. -/
def pointLine (p : Point) (dir : Int × Int) : LineView :=
  ⟨clampStart dir.1 dir.2 ((p.x - dir.1 * 4).natAbs + (p.y - dir.2 * 4).natAbs + 15)
    (p.x - dir.1 * 4) (p.y - dir.2 * 4), ⟨dir.1, dir.2⟩, 9⟩

/-- The value of `score` in `evaluatePoint` after the iterations of its loop for the
directions `dirs`. -/
def pointScoreAfter (b : Board) (p : Point) (role : Role) (dirs : List (Int × Int)) : Int :=
  dirs.foldl (fun score dir =>
    score + analyzeLine b (pointLine p dir) role
      - analyzeLine b (pointLine p dir) (opponentOf role)) 0

/-- The board with `USER` stones at (7,4), (7,5), (7,7), (7,9) and (7,10): three runs of
row 7 with one empty cell between consecutive runs. -/
def userThreeRuns : Board :=
  playAll Board.empty
    [(⟨7, 4⟩, Role.USER), (⟨7, 5⟩, Role.USER), (⟨7, 7⟩, Role.USER), (⟨7, 9⟩, Role.USER),
     (⟨7, 10⟩, Role.USER)]

/-- The board with `USER` stones at (7,4), (7,5), (7,6), (7,8) and (7,9): a run of three
and a run of two of row 7 with the empty cell (7,7) between them. -/
def userGappedFive : Board :=
  playAll Board.empty
    [(⟨7, 4⟩, Role.USER), (⟨7, 5⟩, Role.USER), (⟨7, 6⟩, Role.USER), (⟨7, 8⟩, Role.USER),
     (⟨7, 9⟩, Role.USER)]

/-- The line view that runs over the cells of `line` on the board `b` in the opposite
order: it starts at the last cell of `line` and steps against the direction of `line`. -/
def reverseLine (b : Board) (line : LineView) : LineView :=
  ⟨line.point (getActualLength b line - 1), ⟨-line.dir.x, -line.dir.y⟩, getActualLength b line⟩

/-- The mirror image of a board: the cell (x, y) of the image is the cell (x, 14 - y) of
the board. -/
def mirrorBoard (b : Board) : Board :=
  ⟨fun i j => b.board i (Fin.rev j)⟩

/-- The board with `USER` stones at (7,0), (7,1), (7,3) and (7,5): three runs of row 7
with one empty cell between consecutive runs, the first run at the edge. -/
def userChain : Board :=
  playAll Board.empty
    [(⟨7, 0⟩, Role.USER), (⟨7, 1⟩, Role.USER), (⟨7, 3⟩, Role.USER), (⟨7, 5⟩, Role.USER)]

/-- The stones of `role` among the first `n` cells of a line form at most one group: there
is none, or they form one maximal run, or they form two maximal runs with exactly one
`EMPTY` cell between them. -/
def AtMostOneGroup (cellAt : Int → Role) (n : Int) (role : Role) : Prop :=
  (∀ j : Int, 0 ≤ j → j < n → cellAt j ≠ role)
  ∨ (∃ s k : Nat, 1 ≤ k ∧ (s : Int) + k ≤ n
      ∧ (∀ j : Int, (s : Int) ≤ j → j < s + k → cellAt j = role)
      ∧ (∀ j : Int, 0 ≤ j → j < n → (j < s ∨ (s : Int) + k ≤ j) → cellAt j ≠ role))
  ∨ (∃ s a c : Nat, 1 ≤ a ∧ 1 ≤ c ∧ (s : Int) + a + 1 + c ≤ n
      ∧ (∀ j : Int, (s : Int) ≤ j → j < s + a → cellAt j = role)
      ∧ cellAt ((s : Int) + a) = Role.EMPTY
      ∧ (∀ j : Int, (s : Int) + a + 1 ≤ j → j < s + a + 1 + c → cellAt j = role)
      ∧ (∀ j : Int, 0 ≤ j → j < n → (j < s ∨ (s : Int) + a + 1 + c ≤ j) → cellAt j ≠ role))

/-- The line view over the mirror images of the cells of `l`, in the same order. -/
def mirrorLine (l : LineView) : LineView :=
  ⟨⟨l.start.x, 14 - l.start.y⟩, ⟨l.dir.x, -l.dir.y⟩, l.length⟩

/-- The board with `USER` stones at (7,7), (7,8), (7,9) and (7,10), a four that is open at
both ends, and one `BOT` stone at (0,0). -/
def userFourCorner : Board :=
  playAll Board.empty
    [(⟨7, 7⟩, Role.USER), (⟨7, 8⟩, Role.USER), (⟨7, 9⟩, Role.USER), (⟨7, 10⟩, Role.USER),
     (⟨0, 0⟩, Role.BOT)]

/-- The comparator of the `sort` call in `getSortedCandidates`, the lambda
`[](const auto &a, const auto &b) { return a.first > b.first; }`. -/
def scoreGreater (a b : Int × Point) : Bool := decide (a.1 > b.1)

/-- The method `getSortedCandidates` with the call of the library `sort` spelled out:
`sortWith comp v` is `sort(v.begin(), v.end(), comp)` as a function of the comparator and
of the vector, and the source passes the comparator `scoreGreater`. -/
def getSortedCandidatesWith
    (sortWith : ((Int × Point) → (Int × Point) → Bool) → List (Int × Point) → List (Int × Point))
    (b : Board) (role : Role) : List Point × Board :=
  let scored := scoreMoves role (getCandidates b) b
  ((sortWith scoreGreater scored.1).map Prod.snd, scored.2)

/-- The requirement of the library `sort` on its comparator, a strict weak ordering: no
element comes before itself, coming before is transitive, and so is being unordered. -/
def StrictWeakOrdering {α : Type} (comp : α → α → Bool) : Prop :=
  (∀ a, comp a a = false)
  ∧ (∀ a b c, comp a b = true → comp b c = true → comp a c = true)
  ∧ (∀ a b c, comp a b = false → comp b a = false → comp b c = false → comp c b = false →
      comp a c = false ∧ comp c a = false)

/-- The contract of the library `sort`: for every comparator that is a strict weak
ordering the result is a rearrangement of the input in which no element is followed by one
that the comparator puts before it. -/
def SortContract
    (sortWith : ((Int × Point) → (Int × Point) → Bool) → List (Int × Point) → List (Int × Point)) :
    Prop :=
  ∀ comp, StrictWeakOrdering comp →
    ∀ l, (sortWith comp l).Perm l ∧ (sortWith comp l).Pairwise (fun a c => comp c a = false)

/-- A reference implementation of the library `sort` for every comparator: insertion sort
that keeps `a` before `c` unless the comparator puts `c` before `a`. -/
def insertionSortWith (comp : (Int × Point) → (Int × Point) → Bool) (l : List (Int × Point)) :
    List (Int × Point) :=
  l.insertionSort fun a c => comp c a = false

/-- No group of stones of `role` extends across the cut between the cells `m - 1` and `m`:
the two cells at the cut are not both stones, and neither of them is an `EMPTY` cell with
stones on both of its sides. -/
def NoSpan (cellAt : Int → Role) (m : Int) (role : Role) : Prop :=
  ¬ (cellAt (m - 1) = role ∧ cellAt m = role)
  ∧ ¬ (cellAt (m - 2) = role ∧ cellAt (m - 1) = Role.EMPTY ∧ cellAt m = role)
  ∧ ¬ (cellAt (m - 1) = role ∧ cellAt m = Role.EMPTY ∧ cellAt (m + 1) = role)

/-- The cells of a line before the cut `m`, seen as a line of their own: the cells from the
cut on are replaced by `wall`, except that the cell at the cut stays `EMPTY` when it is. -/
def leftPart (cellAt : Int → Role) (m : Int) (wall : Role) : Int → Role :=
  fun j => if j < m then cellAt j
    else if j = m ∧ cellAt m = Role.EMPTY then Role.EMPTY else wall

/-- The cells of a line from the cut `m` on, seen as a line of their own: the cells before
the cut are replaced by `wall`, except that the cell next to the cut stays `EMPTY` when it
is. -/
def rightPart (cellAt : Int → Role) (m : Int) (wall : Role) : Int → Role :=
  fun j => if m ≤ j then cellAt j
    else if j = m - 1 ∧ cellAt (m - 1) = Role.EMPTY then Role.EMPTY else wall

/-- Among the first `n` cells of a line no three runs of `role` are chained by single gaps:
no run of `role` has, on both of its sides, exactly one `EMPTY` cell followed by another
stone of `role`.  The run in the middle is the cells `p + 2` to `q`. -/
def NoTripleChain (cellAt : Int → Role) (n : Int) (role : Role) : Prop :=
  ∀ p q : Int, 0 ≤ p → p + 2 ≤ q → q + 2 < n →
    cellAt p = role → cellAt (p + 1) = Role.EMPTY →
    (∀ j : Int, p + 2 ≤ j → j ≤ q → cellAt j = role) →
    cellAt (q + 1) = Role.EMPTY → cellAt (q + 2) ≠ role

/-- The board with `USER` stones at (7,0), (7,1), (7,5), (7,6) and `BOT` stones at (8,3),
(8,4): row 7 holds two groups of `USER` with three empty cells between them. -/
def userTwoPairs : Board :=
  playAll Board.empty
    [(⟨7, 0⟩, Role.USER), (⟨7, 1⟩, Role.USER), (⟨7, 5⟩, Role.USER), (⟨7, 6⟩, Role.USER),
     (⟨8, 3⟩, Role.BOT), (⟨8, 4⟩, Role.BOT)]

/-! ## Basic facts about the grid -/

theorem isRangeValid_iff (x y : Int) :
    isRangeValid x y = true ↔ 0 ≤ x ∧ x < 15 ∧ 0 ≤ y ∧ y < 15 := by
  simp [isRangeValid, BOARD_SIZE, and_assoc]

theorem isRangeValidP_iff (p : Point) :
    isRangeValidP p = true ↔ 0 ≤ p.x ∧ p.x < 15 ∧ 0 ≤ p.y ∧ p.y < 15 :=
  isRangeValid_iff p.x p.y

theorem Board.ext_board {b c : Board} (h : ∀ i j, b.board i j = c.board i j) : b = c := by
  cases b; cases c
  congr
  funext i j
  exact h i j

theorem getCell_of_not_valid (b : Board) (p : Point) (h : isRangeValidP p = false) :
    getCell b p = Role.EMPTY := by
  simp [getCell, h]

theorem getCell_coe (b : Board) (i j : Fin 15) :
    getCell b ⟨(i.val : Int), (j.val : Int)⟩ = b.board i j := by
  have hv : isRangeValidP ⟨(i.val : Int), (j.val : Int)⟩ = true := by
    rw [isRangeValidP_iff]
    have h1 := i.isLt
    have h2 := j.isLt
    refine ⟨?_, ?_, ?_, ?_⟩ <;> simp only [] <;> omega
  simp [getCell, hv]

theorem exists_fin_of_valid (p : Point) (h : isRangeValidP p = true) :
    ∃ i j : Fin 15, p = ⟨(i.val : Int), (j.val : Int)⟩ := by
  rw [isRangeValidP_iff] at h
  refine ⟨⟨p.x.toNat, by omega⟩, ⟨p.y.toNat, by omega⟩, ?_⟩
  cases p
  simp at h ⊢
  omega

theorem getCell_write (b : Board) (p q : Point) (r : Role) :
    getCell (b.write p r) q = if q = p ∧ isRangeValidP p = true then r else getCell b q := by
  by_cases hq : isRangeValidP q = true
  · obtain ⟨i, j, rfl⟩ := exists_fin_of_valid q hq
    rw [getCell_coe, getCell_coe]
    by_cases hp : (⟨(i.val : Int), (j.val : Int)⟩ : Point) = p
    · subst hp
      simp [Board.write, hq]
    · have : ¬ ((i.val : Int) = p.x ∧ (j.val : Int) = p.y) := by
        intro h
        apply hp
        cases p
        simp at h ⊢
        exact h
      simp [Board.write, this, hp]
  · have hq2 : isRangeValidP q = false := by simpa using hq
    rw [getCell_of_not_valid _ _ hq2, getCell_of_not_valid _ _ hq2]
    by_cases hp : q = p
    · subst hp
      simp [hq2]
    · simp [hp]

theorem Board.ext_getCell {b c : Board} (h : ∀ q, getCell b q = getCell c q) : b = c := by
  apply Board.ext_board
  intro i j
  rw [← getCell_coe b i j, ← getCell_coe c i j]
  exact h _

theorem write_write_empty (b : Board) (p : Point) (r : Role) (h : getCell b p = Role.EMPTY) :
    (b.write p r).write p Role.EMPTY = b := by
  apply Board.ext_getCell
  intro q
  rw [getCell_write, getCell_write]
  by_cases hq : q = p
  · subst hq
    by_cases hv : isRangeValidP q = true
    · simp [hv, h]
    · simp [hv]
  · simp [hq]

theorem makeMove_fst (b : Board) (p : Point) (s : Role) :
    (makeMove b p s).1 = isCellEmpty b p := by
  unfold makeMove
  cases isCellEmpty b p <;> simp

theorem makeMove_snd_of_true (b : Board) (p : Point) (s : Role)
    (h : (makeMove b p s).1 = true) : (makeMove b p s).2 = b.write p s := by
  rw [makeMove_fst] at h
  simp [makeMove, h]

theorem makeMove_snd_of_false (b : Board) (p : Point) (s : Role)
    (h : (makeMove b p s).1 = false) : (makeMove b p s).2 = b := by
  rw [makeMove_fst] at h
  simp [makeMove, h]

theorem isCellEmpty_iff (b : Board) (p : Point) :
    isCellEmpty b p = true ↔ getCell b p = Role.EMPTY := by
  simp [isCellEmpty]

theorem undo_makeMove (b : Board) (p : Point) (s : Role) (h : (makeMove b p s).1 = true) :
    undoMove (makeMove b p s).2 p = b := by
  rw [makeMove_snd_of_true b p s h]
  rw [makeMove_fst, isCellEmpty_iff] at h
  exact write_write_empty b p s h

theorem makeMove_false_iff_of_valid (b : Board) (p : Point) (s : Role) :
    (makeMove b p s).1 = false ↔ getCell b p ≠ Role.EMPTY := by
  rw [makeMove_fst]
  simp [isCellEmpty]

/-! ## Placement and removal -/

/-- C1 (the code at the failing input): on the empty board `makeMove` is called with the
out-of-range point (15, 0).  `getCell` answers `EMPTY` for it, so `isCellEmpty` holds, the
guard of `makeMove` does not fire, and the flag returned is `true`, not the failure the
claim requires for an out-of-range point. -/
theorem makeMove_out_of_range_not_rejected :
    isRangeValidP ⟨15, 0⟩ = false ∧ (makeMove Board.empty ⟨15, 0⟩ Role.USER).1 = true := by
  decide

/-- C2: whenever `makeMove` returns `false`, the board after the call is the board before
it. -/
theorem makeMove_failure_unmodified (b : Board) (p : Point) (s : Role)
    (h : (makeMove b p s).1 = false) : (makeMove b p s).2 = b :=
  makeMove_snd_of_false b p s h

theorem makeMove_failure_unmodified_witness :
    (makeMove (Board.empty.write ⟨7, 7⟩ Role.USER) ⟨7, 7⟩ Role.BOT).1 = false
    ∧ (makeMove (Board.empty.write ⟨7, 7⟩ Role.USER) ⟨7, 7⟩ Role.BOT).2
        = Board.empty.write ⟨7, 7⟩ Role.USER :=
  ⟨by decide, makeMove_failure_unmodified _ _ _ (by decide)⟩

/-- C3: on an in-range point whose cell is `EMPTY`, `makeMove` returns `true`, afterwards
the cell at the point holds the side, and every other point reads as before. -/
theorem makeMove_success (b : Board) (p : Point) (s : Role)
    (hr : isRangeValidP p = true) (he : getCell b p = Role.EMPTY) :
    (makeMove b p s).1 = true
    ∧ getCell (makeMove b p s).2 p = s
    ∧ ∀ q, q ≠ p → getCell (makeMove b p s).2 q = getCell b q := by
  have h1 : (makeMove b p s).1 = true := by
    rw [makeMove_fst, isCellEmpty_iff]
    exact he
  refine ⟨h1, ?_, ?_⟩
  · rw [makeMove_snd_of_true b p s h1, getCell_write]
    simp [hr]
  · intro q hq
    rw [makeMove_snd_of_true b p s h1, getCell_write]
    simp [hq]

theorem makeMove_success_witness :
    (makeMove Board.empty ⟨7, 7⟩ Role.USER).1 = true
    ∧ getCell (makeMove Board.empty ⟨7, 7⟩ Role.USER).2 ⟨7, 7⟩ = Role.USER
    ∧ ∀ q, q ≠ ⟨7, 7⟩ →
        getCell (makeMove Board.empty ⟨7, 7⟩ Role.USER).2 q = getCell Board.empty q :=
  makeMove_success Board.empty ⟨7, 7⟩ Role.USER (by decide) (by decide)

/-- C4: after a successful `makeMove` at an in-range point, `undoMove` at the same point
gives back the board before the placement: the point reads as before, every other point
reads as before, and the two boards are equal. -/
theorem makeMove_undoMove_roundtrip (b : Board) (p : Point) (s : Role)
    (hr : isRangeValidP p = true) (hs : (makeMove b p s).1 = true) :
    getCell (undoMove (makeMove b p s).2 p) p = getCell b p
    ∧ (∀ q, q ≠ p → getCell (undoMove (makeMove b p s).2 p) q = getCell b q)
    ∧ undoMove (makeMove b p s).2 p = b := by
  have h := undo_makeMove b p s hs
  have _ := hr
  rw [h]
  exact ⟨rfl, fun _ _ => rfl, rfl⟩

theorem makeMove_undoMove_roundtrip_witness :
    getCell (undoMove (makeMove Board.empty ⟨7, 7⟩ Role.BOT).2 ⟨7, 7⟩) ⟨7, 7⟩
      = getCell Board.empty ⟨7, 7⟩
    ∧ (∀ q, q ≠ ⟨7, 7⟩ →
        getCell (undoMove (makeMove Board.empty ⟨7, 7⟩ Role.BOT).2 ⟨7, 7⟩) q
          = getCell Board.empty q)
    ∧ undoMove (makeMove Board.empty ⟨7, 7⟩ Role.BOT).2 ⟨7, 7⟩ = Board.empty :=
  makeMove_undoMove_roundtrip Board.empty ⟨7, 7⟩ Role.BOT (by decide) (by decide)

/-! ## The local win check -/

theorem countLoop_eq_countLoopB (b : Board) (cell : Role) (mk : Int → Point) (c : Int → Bool) :
    ∀ (is : List Int) (n : Int),
      (∀ i ∈ is, (isRangeValidP (mk i) && (getCell b (mk i) == cell)) = c i) →
      countLoop b cell mk is n = countLoopB c is n := by
  intro is
  induction is with
  | nil => intro n _; rfl
  | cons i is ih =>
    intro n h
    have hi := h i (List.mem_cons_self _ _)
    have ht : ∀ j ∈ is, (isRangeValidP (mk j) && (getCell b (mk j) == cell)) = c j :=
      fun j hj => h j (List.mem_cons_of_mem _ hj)
    simp only [countLoop, countLoopB, hi, ih _ ht]

theorem extentFrom_succ_le (b : Board) (s : Role) (p : Point) (d : Int × Int) (step : Int)
    (n k : Nat) (i : Int) :
    k + 1 ≤ extentFrom b s p d step (n + 1) i
      ↔ holdsAt b s p d i = true ∧ k ≤ extentFrom b s p d step n (i + step) := by
  simp only [extentFrom]
  split <;> simp_all

theorem le_extentFrom_iff (b : Board) (s : Role) (p : Point) (d : Int × Int) (step : Int) :
    ∀ (n k : Nat) (i : Int),
      k ≤ extentFrom b s p d step n i
        ↔ k ≤ n ∧ ∀ j : Nat, j < k → holdsAt b s p d (i + step * j) = true := by
  intro n
  induction n with
  | zero =>
    intro k i
    simp only [extentFrom]
    constructor
    · intro h
      have hk : k = 0 := by omega
      subst hk
      exact ⟨le_refl _, fun j hj => absurd hj (Nat.not_lt_zero _)⟩
    · intro h; exact h.1
  | succ n ih =>
    intro k i
    cases k with
    | zero => simp
    | succ k =>
      rw [extentFrom_succ_le, ih]
      constructor
      · rintro ⟨h0, hk, hj⟩
        refine ⟨by omega, ?_⟩
        intro j hjlt
        cases j with
        | zero => simpa using h0
        | succ j =>
          have := hj j (by omega)
          have e : i + step + step * (j : Int) = i + step * ((j + 1 : Nat) : Int) := by
            push_cast; ring
          rw [← e]; exact this
      · rintro ⟨hk, hj⟩
        refine ⟨?_, by omega, ?_⟩
        · have := hj 0 (by omega)
          simpa using this
        · intro j hjlt
          have := hj (j + 1) (by omega)
          have e : i + step + step * (j : Int) = i + step * ((j + 1 : Nat) : Int) := by
            push_cast; ring
          rw [e]; exact this

theorem five_le_runLength_iff (b : Board) (s : Role) (p : Point) (d : Int × Int) :
    5 ≤ runLength b s p d ↔
      ((holdsAt b s p d 1 && holdsAt b s p d 2 && holdsAt b s p d 3 && holdsAt b s p d 4)
      || (holdsAt b s p d 1 && holdsAt b s p d 2 && holdsAt b s p d 3 && holdsAt b s p d (-1))
      || (holdsAt b s p d 1 && holdsAt b s p d 2 && holdsAt b s p d (-1) && holdsAt b s p d (-2))
      || (holdsAt b s p d 1 && holdsAt b s p d (-1) && holdsAt b s p d (-2)
            && holdsAt b s p d (-3))
      || (holdsAt b s p d (-1) && holdsAt b s p d (-2) && holdsAt b s p d (-3)
            && holdsAt b s p d (-4))) = true := by
  have hp : ∀ k : Nat, k ≤ extentFrom b s p d 1 15 1
      ↔ k ≤ 15 ∧ ∀ j : Nat, j < k → holdsAt b s p d (1 + 1 * (j : Int)) = true :=
    fun k => le_extentFrom_iff b s p d 1 15 k 1
  have hn : ∀ k : Nat, k ≤ extentFrom b s p d (-1) 15 (-1)
      ↔ k ≤ 15 ∧ ∀ j : Nat, j < k → holdsAt b s p d (-1 + -1 * (j : Int)) = true :=
    fun k => le_extentFrom_iff b s p d (-1) 15 k (-1)
  have hp1 := hp 1
  have hp2 := hp 2
  have hp3 := hp 3
  have hp4 := hp 4
  have hn1 := hn 1
  have hn2 := hn 2
  have hn3 := hn 3
  have hn4 := hn 4
  simp only [Nat.forall_lt_succ, Nat.lt_one_iff, forall_eq, Nat.reduceLeDiff, true_and,
    Nat.cast_ofNat, Nat.cast_zero, Nat.cast_one, Int.reduceMul, Int.reduceAdd, mul_zero,
    add_zero, mul_one, Int.reduceNeg] at hp1 hp2 hp3 hp4 hn1 hn2 hn3 hn4
  have key : 5 ≤ runLength b s p d ↔
      (4 ≤ extentFrom b s p d 1 15 1)
      ∨ (3 ≤ extentFrom b s p d 1 15 1 ∧ 1 ≤ extentFrom b s p d (-1) 15 (-1))
      ∨ (2 ≤ extentFrom b s p d 1 15 1 ∧ 2 ≤ extentFrom b s p d (-1) 15 (-1))
      ∨ (1 ≤ extentFrom b s p d 1 15 1 ∧ 3 ≤ extentFrom b s p d (-1) 15 (-1))
      ∨ (4 ≤ extentFrom b s p d (-1) 15 (-1)) := by
    unfold runLength
    omega
  rw [key, hp1, hp2, hp3, hp4, hn1, hn2, hn3, hn4]
  generalize holdsAt b s p d 1 = c1
  generalize holdsAt b s p d 2 = c2
  generalize holdsAt b s p d 3 = c3
  generalize holdsAt b s p d 4 = c4
  generalize holdsAt b s p d (-1) = n1
  generalize holdsAt b s p d (-2) = n2
  generalize holdsAt b s p d (-3) = n3
  generalize holdsAt b s p d (-4) = n4
  cases c1 <;> cases c2 <;> cases c3 <;> cases c4 <;> cases n1 <;> cases n2 <;> cases n3
    <;> cases n4 <;> decide

theorem checkWinnerDirs_cons (b : Board) (p : Point) (s : Role) (d : Int × Int)
    (ds : List (Int × Int)) :
    checkWinnerDirs b p s (d :: ds)
      = if 5 ≤ runLength b s p d then s else checkWinnerDirs b p s ds := by
  have hpos : countLoop b s (fun i => ⟨p.x + d.1 * i, p.y + d.2 * i⟩) [1, 2, 3, 4] 1
      = countLoopB (fun i => holdsAt b s p d i) [1, 2, 3, 4] 1 :=
    countLoop_eq_countLoopB _ _ _ _ _ _ (fun i _ => rfl)
  have hneg : ∀ n, countLoop b s (fun i => ⟨p.x - d.1 * i, p.y - d.2 * i⟩) [1, 2, 3, 4] n
      = countLoopB (fun i => holdsAt b s p d (-i)) [1, 2, 3, 4] n := by
    intro n
    apply countLoop_eq_countLoopB
    intro i _
    have e : (⟨p.x - d.1 * i, p.y - d.2 * i⟩ : Point) = along p d (-i) := by
      simp only [along, Point.mk.injEq]
      constructor <;> ring
    simp only [holdsAt, e]
  have hW := five_le_runLength_iff b s p d
  simp only [checkWinnerDirs, hpos, hneg, countLoopB, hW]
  cases holdsAt b s p d 1 <;> cases holdsAt b s p d 2 <;> cases holdsAt b s p d 3
    <;> cases holdsAt b s p d 4 <;> cases holdsAt b s p d (-1) <;> cases holdsAt b s p d (-2)
    <;> cases holdsAt b s p d (-3) <;> cases holdsAt b s p d (-4) <;> simp

theorem checkWinnerDirs_eq (b : Board) (p : Point) (s : Role) (ds : List (Int × Int)) :
    checkWinnerDirs b p s ds
      = if ∃ d ∈ ds, 5 ≤ runLength b s p d then s else Role.EMPTY := by
  induction ds with
  | nil => simp [checkWinnerDirs]
  | cons d ds ih =>
    rw [checkWinnerDirs_cons, ih]
    by_cases h : 5 ≤ runLength b s p d
    · have h2 : ∃ e ∈ d :: ds, 5 ≤ runLength b s p e := ⟨d, List.mem_cons_self _ _, h⟩
      rw [if_pos h, if_pos h2]
    · rw [if_neg h]
      by_cases h3 : ∃ e ∈ ds, 5 ≤ runLength b s p e
      · obtain ⟨e, he, hle⟩ := h3
        rw [if_pos ⟨e, he, hle⟩, if_pos ⟨e, List.mem_cons_of_mem _ he, hle⟩]
      · have h4 : ¬ ∃ e ∈ d :: ds, 5 ≤ runLength b s p e := by
          rintro ⟨e, he, hle⟩
          rcases List.mem_cons.mp he with rfl | he2
          · exact h hle
          · exact h3 ⟨e, he2, hle⟩
        rw [if_neg h3, if_neg h4]

theorem checkWinner_eq (b : Board) (p : Point) :
    checkWinner b p
      = if ∃ d ∈ directions, 5 ≤ runLength b (getCell b p) p d then getCell b p
        else Role.EMPTY := by
  unfold checkWinner
  exact checkWinnerDirs_eq b p (getCell b p) directions

theorem checkWinner_eq_side_iff (b : Board) (p : Point) (s : Role) (hne : s ≠ Role.EMPTY)
    (hp : getCell b p = s) :
    checkWinner b p = s ↔ ∃ d ∈ directions, 5 ≤ runLength b s p d := by
  rw [checkWinner_eq, hp]
  by_cases h : ∃ d ∈ directions, 5 ≤ runLength b s p d
  · rw [if_pos h]
    exact ⟨fun _ => h, fun _ => rfl⟩
  · rw [if_neg h]
    exact ⟨fun e => absurd e.symm hne, fun hc => absurd hc h⟩

/-- C5: for an in-range point holding a side `s`, `checkWinner` returns `s` exactly when on
one of the four axes the maximal run of `s` through the point has length at least 5, and
it returns `EMPTY` in every other case. -/
theorem checkWinner_iff_run (b : Board) (p : Point) (s : Role)
    (hr : isRangeValidP p = true) (hs : s = Role.USER ∨ s = Role.BOT)
    (hp : getCell b p = s) :
    (checkWinner b p = s ↔ ∃ d ∈ directions, 5 ≤ runLength b s p d)
    ∧ (checkWinner b p ≠ s → checkWinner b p = Role.EMPTY) := by
  have _ := hr
  have hne : s ≠ Role.EMPTY := by
    rcases hs with h | h <;> rw [h] <;> decide
  refine ⟨checkWinner_eq_side_iff b p s hne hp, ?_⟩
  intro hns
  rw [checkWinner_eq, hp] at hns ⊢
  by_cases h : ∃ d ∈ directions, 5 ≤ runLength b s p d
  · rw [if_pos h] at hns
    exact absurd rfl hns
  · rw [if_neg h]

theorem checkWinner_iff_run_witness :
    (checkWinner botFive ⟨5, 5⟩ = Role.BOT
      ↔ ∃ d ∈ directions, 5 ≤ runLength botFive Role.BOT ⟨5, 5⟩ d)
    ∧ (checkWinner botFive ⟨5, 5⟩ ≠ Role.BOT → checkWinner botFive ⟨5, 5⟩ = Role.EMPTY) :=
  checkWinner_iff_run botFive ⟨5, 5⟩ Role.BOT (by decide) (Or.inr rfl) (by decide)

/-- C6: for a point that is out of range or whose cell is `EMPTY`, `checkWinner` returns
`EMPTY`, whatever the neighbouring cells hold. -/
theorem checkWinner_of_empty (b : Board) (p : Point)
    (h : isRangeValidP p = false ∨ getCell b p = Role.EMPTY) :
    checkWinner b p = Role.EMPTY := by
  have he : getCell b p = Role.EMPTY := by
    rcases h with h | h
    · exact getCell_of_not_valid b p h
    · exact h
  rw [checkWinner_eq, he]
  split <;> rfl

theorem checkWinner_of_empty_witness :
    (getCell Board.empty ⟨7, 7⟩ = Role.EMPTY
      ∧ holdsAt Board.empty Role.EMPTY ⟨7, 7⟩ (0, 1) 4 = true
      ∧ checkWinner Board.empty ⟨7, 7⟩ = Role.EMPTY)
    ∧ (isRangeValidP ⟨-1, 20⟩ = false ∧ checkWinner userFour ⟨-1, 20⟩ = Role.EMPTY) :=
  ⟨⟨by decide, by decide, checkWinner_of_empty Board.empty ⟨7, 7⟩ (Or.inr (by decide))⟩,
   ⟨by decide, checkWinner_of_empty userFour ⟨-1, 20⟩ (Or.inl (by decide))⟩⟩

/-- C7: the four placements of `USER` at (7,7), (7,8), (7,9), (7,10) on the empty board
succeed and `checkWinner` at (7,10) then reports no winner; placing `USER` at (7,11)
makes `checkWinner` at (7,11) report `USER`, and placing `USER` at (7,6) instead makes
`checkWinner` at (7,6) report `USER`. -/
theorem scenario_four_then_five :
    getCell userFour ⟨7, 7⟩ = Role.USER ∧ getCell userFour ⟨7, 8⟩ = Role.USER
    ∧ getCell userFour ⟨7, 9⟩ = Role.USER ∧ getCell userFour ⟨7, 10⟩ = Role.USER
    ∧ checkWinner userFour ⟨7, 10⟩ = Role.EMPTY
    ∧ (makeMove userFour ⟨7, 11⟩ Role.USER).1 = true
    ∧ checkWinner (makeMove userFour ⟨7, 11⟩ Role.USER).2 ⟨7, 11⟩ = Role.USER
    ∧ (makeMove userFour ⟨7, 6⟩ Role.USER).1 = true
    ∧ checkWinner (makeMove userFour ⟨7, 6⟩ Role.USER).2 ⟨7, 6⟩ = Role.USER := by
  decide

/-! ## The local win check against the full-board scan -/

theorem along_along (p : Point) (d : Int × Int) (i j : Int) :
    along (along p d i) d j = along p d (i + j) := by
  simp only [along, Point.mk.injEq]
  constructor <;> ring

theorem along_zero (p : Point) (d : Int × Int) : along p d 0 = p := by
  simp [along]

theorem holdsAt_along (b : Board) (s : Role) (p : Point) (d : Int × Int) (i j : Int) :
    holdsAt b s (along p d i) d j = holdsAt b s p d (i + j) := by
  simp only [holdsAt, along_along]

theorem holdsAt_zero_iff (b : Board) (s : Role) (p : Point) (d : Int × Int) :
    holdsAt b s p d 0 = true ↔ isRangeValidP p = true ∧ getCell b p = s := by
  simp [holdsAt, along_zero]

theorem five_le_runLength_of_window (b : Board) (s : Role) (p : Point) (d : Int × Int)
    (k : Nat) (hk : k < 5)
    (h : ∀ i : Nat, i < 5 → holdsAt b s p d ((i : Int) - (k : Int)) = true) :
    5 ≤ runLength b s p d := by
  rw [five_le_runLength_iff]
  have h0 := h 0 (by omega)
  have h1 := h 1 (by omega)
  have h2 := h 2 (by omega)
  have h3 := h 3 (by omega)
  have h4 := h 4 (by omega)
  interval_cases k <;> simp at h0 h1 h2 h3 h4 <;> simp [h0, h1, h2, h3, h4]

theorem window_of_five_le_runLength (b : Board) (s : Role) (p : Point) (d : Int × Int)
    (h0 : holdsAt b s p d 0 = true) (h : 5 ≤ runLength b s p d) :
    ∃ k : Nat, k < 5 ∧ ∀ i : Nat, i < 5 → holdsAt b s p d ((i : Int) - (k : Int)) = true := by
  rw [five_le_runLength_iff] at h
  simp only [Bool.or_eq_true, Bool.and_eq_true] at h
  rcases h with (((h | h) | h) | h) | h
  · refine ⟨0, by omega, ?_⟩
    intro i hi
    interval_cases i <;> simp [h0, h]
  · refine ⟨1, by omega, ?_⟩
    intro i hi
    interval_cases i <;> simp [h0, h]
  · refine ⟨2, by omega, ?_⟩
    intro i hi
    interval_cases i <;> simp [h0, h]
  · refine ⟨3, by omega, ?_⟩
    intro i hi
    interval_cases i <;> simp [h0, h]
  · refine ⟨4, by omega, ?_⟩
    intro i hi
    interval_cases i <;> simp [h0, h]

theorem hasFive_iff (b : Board) :
    hasFive b = true ↔
      ∃ q : Point, isRangeValidP q = true ∧ ∃ d ∈ directions, ∃ s : Role, s ≠ Role.EMPTY ∧
        ∀ i : Nat, i < 5 → holdsAt b s q d (i : Int) = true := by
  unfold hasFive
  simp only [List.any_eq_true, List.all_eq_true, List.mem_finRange, true_and, List.mem_range,
    List.mem_cons, List.mem_singleton, List.not_mem_nil, or_false]
  constructor
  · rintro ⟨i, j, d, hd, s, hs, h⟩
    refine ⟨⟨(i.val : Int), (j.val : Int)⟩, ?_, d, hd, s, ?_, h⟩
    · rw [isRangeValidP_iff]
      have := i.isLt
      have := j.isLt
      refine ⟨?_, ?_, ?_, ?_⟩ <;> simp only [] <;> omega
    · rcases hs with rfl | rfl <;> decide
  · rintro ⟨q, hq, d, hd, s, hs, h⟩
    obtain ⟨i, j, rfl⟩ := exists_fin_of_valid q hq
    refine ⟨i, j, d, hd, s, ?_, h⟩
    cases s
    · exact absurd rfl hs
    · exact Or.inl rfl
    · exact Or.inr rfl
theorem checkRowLoop_eq (b : Board) (role : Role) (p : Point) (dx dy : Int) :
    ∀ (fuel : Nat) (k count : Int),
      Legacy.checkRowLoop b role dx dy fuel (p.x + dx * k) (p.y + dy * k) count
        = count + (extentFrom b role p (dx, dy) 1 fuel k : Int) := by
  intro fuel
  induction fuel with
  | zero => intro k count; simp [Legacy.checkRowLoop, extentFrom]
  | succ n ih =>
    intro k count
    have hc : (isRangeValid (p.x + dx * k) (p.y + dy * k)
        && (getCell b ⟨p.x + dx * k, p.y + dy * k⟩ == role)) = holdsAt b role p (dx, dy) k := rfl
    have e1 : p.x + dx * k + dx = p.x + dx * (k + 1) := by ring
    have e2 : p.y + dy * k + dy = p.y + dy * (k + 1) := by ring
    simp only [Legacy.checkRowLoop, extentFrom, hc]
    cases h : holdsAt b role p (dx, dy) k
    · simp
    · simp only [if_true]
      rw [e1, e2, ih]
      push_cast
      ring

theorem checkRow_eq (b : Board) (i j : Fin 15) (dx dy : Int) :
    Legacy.checkRow b i j dx dy
      = 1 + (extentFrom b (b.board i j) ⟨(i.val : Int), (j.val : Int)⟩ (dx, dy) 1 15 1 : Int) := by
  have h := checkRowLoop_eq b (b.board i j) ⟨(i.val : Int), (j.val : Int)⟩ dx dy 15 1 1
  simp only [mul_one] at h
  exact h

theorem extentFrom_neg_dir (b : Board) (s : Role) (p : Point) (d : Int × Int) :
    ∀ (n : Nat) (i : Int),
      extentFrom b s p (-d.1, -d.2) 1 n i = extentFrom b s p d (-1) n (-i) := by
  intro n
  induction n with
  | zero => intro i; rfl
  | succ n ih =>
    intro i
    have ha : along p (-d.1, -d.2) i = along p d (-i) := by
      simp only [along, Point.mk.injEq]
      constructor <;> ring
    have hh : holdsAt b s p (-d.1, -d.2) i = holdsAt b s p d (-i) := by
      simp only [holdsAt, ha]
    have e : -(i + 1) = -i + -1 := by ring
    simp only [extentFrom, hh, ih, e]

theorem legacy_count_eq (b : Board) (i j : Fin 15) (d : Int × Int) :
    Legacy.checkRow b i j d.1 d.2 + Legacy.checkRow b i j (-d.1) (-d.2) - 1
      = (runLength b (b.board i j) ⟨(i.val : Int), (j.val : Int)⟩ d : Int) := by
  rw [checkRow_eq, checkRow_eq, extentFrom_neg_dir]
  unfold runLength
  push_cast
  ring

theorem checkWinCells_ne_empty_iff (b : Board) (cells : List (Fin 15 × Fin 15)) :
    Legacy.checkWinCells b cells ≠ Role.EMPTY ↔
      ∃ c ∈ cells, b.board c.1 c.2 ≠ Role.EMPTY ∧
        ∃ d ∈ directions,
          5 ≤ runLength b (b.board c.1 c.2) ⟨(c.1.val : Int), (c.2.val : Int)⟩ d := by
  induction cells with
  | nil => simp [Legacy.checkWinCells]
  | cons c rest ih =>
    have hany : (directions.any fun d =>
        decide (Legacy.checkRow b c.1 c.2 d.1 d.2 + Legacy.checkRow b c.1 c.2 (-d.1) (-d.2) - 1
          ≥ 5)) = true
        ↔ ∃ d ∈ directions,
          5 ≤ runLength b (b.board c.1 c.2) ⟨(c.1.val : Int), (c.2.val : Int)⟩ d := by
      simp only [List.any_eq_true, decide_eq_true_eq, legacy_count_eq]
      constructor
      · rintro ⟨d, hd, h⟩
        exact ⟨d, hd, by exact_mod_cast h⟩
      · rintro ⟨d, hd, h⟩
        exact ⟨d, hd, by exact_mod_cast h⟩
    simp only [Legacy.checkWinCells]
    by_cases he : b.board c.1 c.2 = Role.EMPTY
    · rw [if_pos he, ih]
      constructor
      · rintro ⟨c2, hc2, h⟩
        exact ⟨c2, List.mem_cons_of_mem _ hc2, h⟩
      · rintro ⟨c2, hc2, h⟩
        rcases List.mem_cons.mp hc2 with rfl | hc3
        · exact absurd he h.1
        · exact ⟨c2, hc3, h⟩
    · rw [if_neg he]
      by_cases ha : ∃ d ∈ directions,
          5 ≤ runLength b (b.board c.1 c.2) ⟨(c.1.val : Int), (c.2.val : Int)⟩ d
      · rw [if_pos (hany.mpr ha)]
        constructor
        · intro _
          exact ⟨c, List.mem_cons_self _ _, he, ha⟩
        · intro _
          exact he
      · have hany2 : ¬ ((directions.any fun d =>
            decide (Legacy.checkRow b c.1 c.2 d.1 d.2
              + Legacy.checkRow b c.1 c.2 (-d.1) (-d.2) - 1 ≥ 5)) = true) :=
          fun h => ha (hany.mp h)
        rw [if_neg hany2, ih]
        constructor
        · rintro ⟨c2, hc2, h⟩
          exact ⟨c2, List.mem_cons_of_mem _ hc2, h⟩
        · rintro ⟨c2, hc2, h⟩
          rcases List.mem_cons.mp hc2 with rfl | hc3
          · exact absurd h.2 ha
          · exact ⟨c2, hc3, h⟩

theorem checkWin_ne_empty_iff_hasFive (b : Board) :
    Legacy.checkWin b ≠ Role.EMPTY ↔ hasFive b = true := by
  unfold Legacy.checkWin
  rw [checkWinCells_ne_empty_iff, hasFive_iff]
  constructor
  · rintro ⟨c, _, hne, d, hd, h⟩
    have hv : holdsAt b (b.board c.1 c.2) ⟨(c.1.val : Int), (c.2.val : Int)⟩ d 0 = true := by
      rw [holdsAt_zero_iff]
      refine ⟨?_, getCell_coe b c.1 c.2⟩
      rw [isRangeValidP_iff]
      have := c.1.isLt
      have := c.2.isLt
      refine ⟨?_, ?_, ?_, ?_⟩ <;> simp only [] <;> omega
    obtain ⟨k, _, hw⟩ := window_of_five_le_runLength b _ _ d hv h
    refine ⟨along ⟨(c.1.val : Int), (c.2.val : Int)⟩ d (-(k : Int)), ?_, d, hd, b.board c.1 c.2,
      hne, ?_⟩
    · have h0 := hw 0 (by omega)
      simp only [holdsAt, Bool.and_eq_true] at h0
      have e : ((0 : Nat) : Int) - (k : Int) = -(k : Int) := by simp
      rw [e] at h0
      exact h0.1
    · intro i hi
      rw [holdsAt_along]
      have e : -(k : Int) + (i : Int) = (i : Int) - (k : Int) := by ring
      rw [e]
      exact hw i hi
  · rintro ⟨q, hq, d, hd, s, hs, h⟩
    obtain ⟨i, j, rfl⟩ := exists_fin_of_valid q hq
    have h0 := h 0 (by omega)
    simp only [Nat.cast_zero] at h0
    rw [holdsAt_zero_iff, getCell_coe] at h0
    refine ⟨(i, j), ?_, ?_, d, hd, ?_⟩
    · simp [List.mem_flatMap, List.mem_finRange]
    · rw [h0.2]; exact hs
    · show 5 ≤ runLength b (b.board i j) _ d
      rw [h0.2]
      apply five_le_runLength_of_window b s _ d 0 (by omega)
      intro k hk
      simpa using h k hk
theorem hasFive_after_write_iff (b : Board) (p : Point) (s : Role)
    (hs : s = Role.USER ∨ s = Role.BOT) (hr : isRangeValidP p = true)
    (hno : hasFive b = false) :
    hasFive (b.write p s) = true ↔ checkWinner (b.write p s) p = s := by
  have hp : getCell (b.write p s) p = s := by
    rw [getCell_write]; simp [hr]
  have hne : s ≠ Role.EMPTY := by
    rcases hs with h | h <;> rw [h] <;> decide
  rw [checkWinner_eq_side_iff (b.write p s) p s hne hp]
  constructor
  · intro h5
    rw [hasFive_iff] at h5
    obtain ⟨q, hq, d, hd, t, ht, hw⟩ := h5
    by_cases hin : ∃ i0 : Nat, i0 < 5 ∧ along q d (i0 : Int) = p
    · obtain ⟨i0, hi0, hpe⟩ := hin
      have hts : t = s := by
        have h := hw i0 hi0
        simp only [holdsAt, Bool.and_eq_true, beq_iff_eq] at h
        rw [hpe, hp] at h
        exact h.2.symm
      subst hts
      refine ⟨d, hd, five_le_runLength_of_window _ t p d i0 hi0 ?_⟩
      intro i hi
      have e2 : holdsAt (b.write p t) t p d ((i : Int) - (i0 : Int))
          = holdsAt (b.write p t) t (along q d (i0 : Int)) d ((i : Int) - (i0 : Int)) := by
        rw [hpe]
      have e : (i0 : Int) + ((i : Int) - (i0 : Int)) = (i : Int) := by ring
      rw [e2, holdsAt_along, e]
      exact hw i hi
    · exfalso
      have hb : hasFive b = true := by
        rw [hasFive_iff]
        refine ⟨q, hq, d, hd, t, ht, ?_⟩
        intro i hi
        have h := hw i hi
        have hne2 : along q d (i : Int) ≠ p := fun e => hin ⟨i, hi, e⟩
        simp only [holdsAt, getCell_write, hne2, false_and, if_false] at h ⊢
        exact h
      rw [hno] at hb
      exact Bool.noConfusion hb
  · rintro ⟨d, hd, h⟩
    have h0 : holdsAt (b.write p s) s p d 0 = true := by
      rw [holdsAt_zero_iff]; exact ⟨hr, hp⟩
    obtain ⟨k, _, hw⟩ := window_of_five_le_runLength _ s p d h0 h
    rw [hasFive_iff]
    refine ⟨along p d (-(k : Int)), ?_, d, hd, s, hne, ?_⟩
    · have h1 := hw 0 (by omega)
      simp only [holdsAt, Bool.and_eq_true] at h1
      have e : ((0 : Nat) : Int) - (k : Int) = -(k : Int) := by simp
      rw [e] at h1
      exact h1.1
    · intro i hi
      rw [holdsAt_along]
      have e : -(k : Int) + (i : Int) = (i : Int) - (k : Int) := by ring
      rw [e]
      exact hw i hi

/-- C8: on a board without five consecutive stones of one side in any row, column or
diagonal, after `makeMove` places a side `s` on an in-range `EMPTY` point `p`, the board
contains five consecutive stones of one side somewhere exactly when `checkWinner` at `p`
returns `s`, and the legacy full-board scan `checkWin` reports a winner exactly in that
case. -/
theorem checkWinner_matches_full_scan (b : Board) (p : Point) (s : Role)
    (hs : s = Role.USER ∨ s = Role.BOT) (hr : isRangeValidP p = true)
    (he : getCell b p = Role.EMPTY) (hno : hasFive b = false) :
    (hasFive (makeMove b p s).2 = true ↔ checkWinner (makeMove b p s).2 p = s)
    ∧ (Legacy.checkWin (makeMove b p s).2 ≠ Role.EMPTY ↔ checkWinner (makeMove b p s).2 p = s) := by
  have h1 : (makeMove b p s).1 = true := by
    rw [makeMove_fst, isCellEmpty_iff]; exact he
  rw [makeMove_snd_of_true b p s h1, checkWin_ne_empty_iff_hasFive]
  exact ⟨hasFive_after_write_iff b p s hs hr hno, hasFive_after_write_iff b p s hs hr hno⟩

theorem checkWinner_matches_full_scan_witness :
    (hasFive (makeMove userFour ⟨7, 11⟩ Role.USER).2 = true
      ↔ checkWinner (makeMove userFour ⟨7, 11⟩ Role.USER).2 ⟨7, 11⟩ = Role.USER)
    ∧ (Legacy.checkWin (makeMove userFour ⟨7, 11⟩ Role.USER).2 ≠ Role.EMPTY
      ↔ checkWinner (makeMove userFour ⟨7, 11⟩ Role.USER).2 ⟨7, 11⟩ = Role.USER) :=
  checkWinner_matches_full_scan userFour ⟨7, 11⟩ Role.USER (Or.inl rfl) (by decide) (by decide)
    (by decide)

/-! ## Range of the evaluation -/

theorem analyzeShape_bounds (count : Int) (l r g : Bool) :
    0 ≤ analyzeShape count l r g ∧ analyzeShape count l r g ≤ FIVE := by
  unfold analyzeShape
  have h72 : LIVE_3 * 9 / 10 = 7200 := by decide
  rw [h72]
  simp only [FIVE, LIVE_4, RUSH_4, LIVE_3, SLEEP_3, LIVE_2, SLEEP_2]
  split_ifs <;> constructor <;> norm_num

theorem scanGroup_bounds (cellAt : Int → Role) (role : Role) (length index : Int) :
    0 ≤ (scanGroup cellAt role length index).2
    ∧ (scanGroup cellAt role length index).2 ≤ FIVE :=
  analyzeShape_bounds _ _ _ _

theorem analyzeLineLoop_bounds (cellAt : Int → Role) (role : Role) (length : Int) :
    ∀ (fuel : Nat) (index score : Int),
      score ≤ analyzeLineLoop cellAt role length fuel index score
      ∧ analyzeLineLoop cellAt role length fuel index score ≤ score + FIVE * fuel := by
  intro fuel
  induction fuel with
  | zero => intro index score; simp [analyzeLineLoop]
  | succ n ih =>
    intro index score
    simp only [analyzeLineLoop]
    have hg := scanGroup_bounds cellAt role length index
    have h1 := ih (scanGroup cellAt role length index).1
      (score + (scanGroup cellAt role length index).2)
    have h2 := ih (index + 1) score
    simp only [FIVE] at hg h1 h2 ⊢
    push_cast
    split_ifs <;> constructor <;> omega

theorem getActualLengthLoop_ge (b : Board) (l : LineView) :
    ∀ (fuel : Nat) (count : Int) (p : Point), count ≤ getActualLengthLoop b l fuel count p := by
  intro fuel
  induction fuel with
  | zero => intro count p; simp [getActualLengthLoop]
  | succ n ih =>
    intro count p
    simp only [getActualLengthLoop]
    have h := ih (count + 1) ⟨p.x + l.dir.x, p.y + l.dir.y⟩
    split_ifs <;> omega

theorem getActualLengthLoop_le_x (b : Board) (l : LineView) (hd : l.dir.x = 1) :
    ∀ (fuel : Nat) (count : Int) (p : Point), 0 ≤ p.x →
      getActualLengthLoop b l fuel count p ≤ count + max (15 - p.x) 0 := by
  intro fuel
  induction fuel with
  | zero => intro count p _; simp [getActualLengthLoop]
  | succ n ih =>
    intro count p hp
    simp only [getActualLengthLoop]
    have h := ih (count + 1) ⟨p.x + l.dir.x, p.y + l.dir.y⟩ (by simp only [hd]; omega)
    dsimp only at h
    by_cases hv : isRangeValidP p = true
    · have hx := (isRangeValidP_iff p).mp hv
      simp only [hv, Bool.or_true, if_true, Bool.not_true, Bool.false_eq_true, if_false]
      split_ifs <;> omega
    · have hv2 : isRangeValidP p = false := by simpa using hv
      simp only [hv2, getCell_of_not_valid b p hv2, Bool.or_false, bne_self_eq_false,
        Bool.and_false, Bool.false_eq_true, if_false]
      omega

theorem getActualLengthLoop_le_y (b : Board) (l : LineView) (hd : l.dir.y = 1) :
    ∀ (fuel : Nat) (count : Int) (p : Point), 0 ≤ p.y →
      getActualLengthLoop b l fuel count p ≤ count + max (15 - p.y) 0 := by
  intro fuel
  induction fuel with
  | zero => intro count p _; simp [getActualLengthLoop]
  | succ n ih =>
    intro count p hp
    simp only [getActualLengthLoop]
    have h := ih (count + 1) ⟨p.x + l.dir.x, p.y + l.dir.y⟩ (by simp only [hd]; omega)
    dsimp only at h
    by_cases hv : isRangeValidP p = true
    · have hx := (isRangeValidP_iff p).mp hv
      simp only [hv, Bool.or_true, if_true, Bool.not_true, Bool.false_eq_true, if_false]
      split_ifs <;> omega
    · have hv2 : isRangeValidP p = false := by simpa using hv
      simp only [hv2, getCell_of_not_valid b p hv2, Bool.or_false, bne_self_eq_false,
        Bool.and_false, Bool.false_eq_true, if_false]
      omega
theorem evaluateLines_shape :
    ∀ l ∈ evaluateLines, (l.dir.x = 1 ∧ 0 ≤ l.start.x) ∨ (l.dir.y = 1 ∧ 0 ≤ l.start.y) := by
  intro l hl
  simp only [evaluateLines, List.mem_append, List.mem_map, List.mem_range] at hl
  rcases hl with ((((h | h) | h) | h) | h) | h <;> obtain ⟨i, _, rfl⟩ := h <;> simp

theorem getActualLength_bounds (b : Board) (l : LineView) (hl : l ∈ evaluateLines) :
    0 ≤ getActualLength b l ∧ getActualLength b l ≤ 15 := by
  unfold getActualLength
  refine ⟨getActualLengthLoop_ge b l _ 0 l.start, ?_⟩
  rcases evaluateLines_shape l hl with ⟨hd, hs⟩ | ⟨hd, hs⟩
  · have h := getActualLengthLoop_le_x b l hd (l.length.toNat + 1) 0 l.start hs
    omega
  · have h := getActualLengthLoop_le_y b l hd (l.length.toNat + 1) 0 l.start hs
    omega

theorem analyzeLine_bounds (b : Board) (l : LineView) (role : Role) (hl : l ∈ evaluateLines) :
    0 ≤ analyzeLine b l role ∧ analyzeLine b l role ≤ 15000000 := by
  simp only [analyzeLine]
  have hlen := getActualLength_bounds b l hl
  have h := analyzeLineLoop_bounds (l.at b) role (getActualLength b l)
    (getActualLength b l).toNat 0 0
  simp only [FIVE] at h
  have ht : ((getActualLength b l).toNat : Int) ≤ 15 := by omega
  constructor
  · exact h.1
  · omega

theorem sum_map_bounds {α : Type} (f : α → Int) (lo hi : Int) :
    ∀ l : List α, (∀ x ∈ l, lo ≤ f x ∧ f x ≤ hi) →
      lo * l.length ≤ (l.map f).sum ∧ (l.map f).sum ≤ hi * l.length := by
  intro l
  induction l with
  | nil => intro _; simp
  | cons a l ih =>
    intro h
    have ha := h a (List.mem_cons_self _ _)
    have hl := ih (fun x hx => h x (List.mem_cons_of_mem _ hx))
    simp only [List.map_cons, List.sum_cons, List.length_cons]
    push_cast
    constructor <;> nlinarith [ha.1, ha.2, hl.1, hl.2]

theorem evaluateLines_length : evaluateLines.length = 88 := by
  rfl

theorem evaluate_range (b : Board) (role : Role) :
    -1584000000 ≤ evaluate b role ∧ evaluate b role ≤ 1320000000 := by
  simp only [evaluate, defenseWeighted]
  have h1 := sum_map_bounds (fun line => analyzeLine b line role) 0 15000000 evaluateLines
    (fun l hl => analyzeLine_bounds b l role hl)
  have h2 := sum_map_bounds (fun line => analyzeLine b line (opponentOf role)) 0 15000000
    evaluateLines (fun l hl => analyzeLine_bounds b l (opponentOf role) hl)
  rw [evaluateLines_length] at h1 h2
  rw [Int.tdiv_eq_ediv (by omega) (by omega)]
  omega

theorem evaluate_in_int (b : Board) (role : Role) :
    INT_MIN < evaluate b role ∧ evaluate b role < INT_MAX := by
  have h := evaluate_range b role
  simp only [INT_MIN, INT_MAX]
  omega

/-! ## The board is restored by the candidate scoring and by the search -/

theorem foldl_invariant {σ α : Type} (P : σ → Prop) (f : σ → α → σ)
    (hf : ∀ st x, P st → P (f st x)) : ∀ (l : List α) (init : σ), P init → P (l.foldl f init) := by
  intro l
  induction l with
  | nil => intro init h; exact h
  | cons a l ih => intro init h; exact ih _ (hf _ _ h)

theorem candStep_empty (b : Board) (p : Point) (st : CandState) (i j : Int)
    (h : ∀ q ∈ st.candidates, getCell b q = Role.EMPTY) :
    ∀ q ∈ (candStep b p st i j).candidates, getCell b q = Role.EMPTY := by
  unfold candStep
  simp only []
  split_ifs with h1 h2
  · intro q hq
    simp only [List.mem_append, List.mem_singleton] at hq
    rcases hq with hq | rfl
    · exact h q hq
    · exact (isCellEmpty_iff b _).mp h2
  · exact h
  · exact h

theorem occupiedPoints_nil (b : Board) (h : occupiedPoints b = []) (i j : Fin 15) :
    b.board i j = Role.EMPTY := by
  by_contra hne
  have hm : (⟨(i.val : Int), (j.val : Int)⟩ : Point) ∈ occupiedPoints b := by
    unfold occupiedPoints
    simp only [List.mem_flatMap, List.mem_finRange, true_and, List.mem_filterMap]
    refine ⟨i, j, ?_⟩
    simp [hne]
  rw [h] at hm
  exact absurd hm (List.not_mem_nil _)

theorem getCandidates_empty_cells (b : Board) :
    ∀ q ∈ getCandidates b, getCell b q = Role.EMPTY := by
  unfold getCandidates
  simp only []
  split_ifs with h
  · intro q hq
    have hn : occupiedPoints b = [] := by simpa [List.isEmpty_iff] using h
    simp only [List.mem_singleton] at hq
    subst hq
    have e : (⟨BOARD_SIZE / 2, BOARD_SIZE / 2⟩ : Point)
        = ⟨(((7 : Fin 15)).val : Int), (((7 : Fin 15)).val : Int)⟩ := by decide
    rw [e, getCell_coe]
    exact occupiedPoints_nil b hn 7 7
  · apply foldl_invariant (fun st : CandState => ∀ q ∈ st.candidates, getCell b q = Role.EMPTY)
    · intro st p hst
      apply foldl_invariant
        (fun st : CandState => ∀ q ∈ st.candidates, getCell b q = Role.EMPTY)
      · intro st i hst
        apply foldl_invariant
          (fun st : CandState => ∀ q ∈ st.candidates, getCell b q = Role.EMPTY)
        · intro st j hst
          exact candStep_empty b p st i j hst
        · exact hst
      · exact hst
    · intro q hq
      exact absurd hq (List.not_mem_nil _)

theorem scoreMoves_board (role : Role) :
    ∀ (ps : List Point) (b : Board), (∀ p ∈ ps, getCell b p = Role.EMPTY) →
      (scoreMoves role ps b).2 = b := by
  intro ps
  induction ps with
  | nil => intro b _; rfl
  | cons p ps ih =>
    intro b h
    simp only [scoreMoves]
    rw [write_write_empty b p role (h p (List.mem_cons_self _ _))]
    exact ih b (fun q hq => h q (List.mem_cons_of_mem _ hq))

theorem getSortedCandidates_board (stdSort : List (Int × Point) → List (Int × Point))
    (b : Board) (role : Role) : (getSortedCandidates stdSort b role).2 = b := by
  simp only [getSortedCandidates]
  exact scoreMoves_board role _ b (getCandidates_empty_cells b)

theorem maxLoop_board (search : Board → Point → Int → Int → Int × Board)
    (hb : ∀ b1 p a be, (search b1 p a be).2 = b1) (role : Role) (beta : Int) :
    ∀ (ps : List Point) (b : Board) (alpha : Int),
      (maxLoop search role beta ps b alpha).2 = b := by
  intro ps
  induction ps with
  | nil => intro b alpha; rfl
  | cons p ps ih =>
    intro b alpha
    simp only [maxLoop]
    by_cases hm : (makeMove b p role).1 = true
    · simp only [hm, if_true, hb, undo_makeMove b p role hm]
      split_ifs
      · rfl
      · exact ih _ _
    · have hm2 : (makeMove b p role).1 = false := by simpa using hm
      simp only [hm2, Bool.false_eq_true, if_false, makeMove_snd_of_false b p role hm2]
      exact ih _ _

theorem minLoop_board (search : Board → Point → Int → Int → Int × Board)
    (hb : ∀ b1 p a be, (search b1 p a be).2 = b1) (role : Role) (alpha : Int) :
    ∀ (ps : List Point) (b : Board) (beta : Int),
      (minLoop search role alpha ps b beta).2 = b := by
  intro ps
  induction ps with
  | nil => intro b beta; rfl
  | cons p ps ih =>
    intro b beta
    simp only [minLoop]
    by_cases hm : (makeMove b p role).1 = true
    · simp only [hm, if_true, hb, undo_makeMove b p role hm]
      split_ifs
      · rfl
      · exact ih _ _
    · have hm2 : (makeMove b p role).1 = false := by simpa using hm
      simp only [hm2, Bool.false_eq_true, if_false, makeMove_snd_of_false b p role hm2]
      exact ih _ _

theorem minimax_board (stdSort : List (Int × Point) → List (Int × Point)) :
    ∀ (depth : Nat) (b : Board) (role : Role) (lastMove : Point) (alpha beta : Int),
      (minimax stdSort depth b role lastMove alpha beta).2 = b := by
  intro depth
  induction depth with
  | zero =>
    intro b role lastMove alpha beta
    unfold minimax
    simp only []
    split_ifs <;> rfl
  | succ d ih =>
    intro b role lastMove alpha beta
    unfold minimax
    simp only []
    split_ifs
    · rfl
    · rfl
    · rfl
    · rw [maxLoop_board _ (fun b1 p a be => ih b1 Role.USER p a be)]
      exact getSortedCandidates_board stdSort b role
    · rw [minLoop_board _ (fun b1 p a be => ih b1 Role.BOT p a be)]
      exact getSortedCandidates_board stdSort b role

/-! ## Pruning never changes the result -/

theorem foldl_max_ge (l : List Int) : ∀ c : Int, c ≤ l.foldl max c := by
  induction l with
  | nil => intro c; exact le_refl _
  | cons a l ih => intro c; exact le_trans (le_max_left c a) (ih (max c a))

theorem foldl_min_le (l : List Int) : ∀ c : Int, l.foldl min c ≤ c := by
  induction l with
  | nil => intro c; exact le_refl _
  | cons a l ih => intro c; exact le_trans (ih (min c a)) (min_le_left c a)

theorem foldl_max_le (l : List Int) (hi : Int) (h : ∀ x ∈ l, x ≤ hi) :
    ∀ c : Int, c ≤ hi → l.foldl max c ≤ hi := by
  induction l with
  | nil => intro c hc; exact hc
  | cons a l ih =>
    intro c hc
    exact ih (fun x hx => h x (List.mem_cons_of_mem _ hx)) (max c a)
      (max_le hc (h a (List.mem_cons_self _ _)))

theorem foldl_min_ge (l : List Int) (lo : Int) (h : ∀ x ∈ l, lo ≤ x) :
    ∀ c : Int, lo ≤ c → lo ≤ l.foldl min c := by
  induction l with
  | nil => intro c hc; exact hc
  | cons a l ih =>
    intro c hc
    exact ih (fun x hx => h x (List.mem_cons_of_mem _ hx)) (min c a)
      (le_min hc (h a (List.mem_cons_self _ _)))

theorem childScores_cons_of_true (val : Board → Point → Int) (b : Board) (role : Role)
    (p : Point) (ps : List Point) (h : (makeMove b p role).1 = true) :
    childScores val b role (p :: ps)
      = val (makeMove b p role).2 p :: childScores val b role ps := by
  simp [childScores, List.filter_cons, h]

theorem childScores_cons_of_false (val : Board → Point → Int) (b : Board) (role : Role)
    (p : Point) (ps : List Point) (h : (makeMove b p role).1 = false) :
    childScores val b role (p :: ps) = childScores val b role ps := by
  simp [childScores, List.filter_cons, h]

theorem maxLoop_spec (search : Board → Point → Int → Int → Int × Board)
    (val : Board → Point → Int) (role : Role) (beta : Int)
    (hb : ∀ b1 p a be, (search b1 p a be).2 = b1)
    (hs : ∀ b1 p a, INT_MIN ≤ a → a < beta → WindowSpec a beta (val b1 p) (search b1 p a beta).1)
    (hbeta : beta ≤ INT_MAX) (b : Board) :
    ∀ (ps : List Point) (a c : Int), INT_MIN ≤ a → a < beta → c ≤ a →
      a ≤ (maxLoop search role beta ps b a).1
      ∧ (maxLoop search role beta ps b a).1 ≤ INT_MAX
      ∧ ((childScores val b role ps).foldl max c ≤ a → (maxLoop search role beta ps b a).1 = a)
      ∧ (beta ≤ (childScores val b role ps).foldl max c
          → beta ≤ (maxLoop search role beta ps b a).1)
      ∧ (a < (childScores val b role ps).foldl max c
          → (childScores val b role ps).foldl max c < beta
          → (maxLoop search role beta ps b a).1 = (childScores val b role ps).foldl max c) := by
  intro ps
  induction ps with
  | nil =>
    intro a c h1 h2 h3
    simp only [maxLoop, childScores, List.filter_nil, List.map_nil, List.foldl_nil]
    refine ⟨le_refl _, by omega, by simp, by omega, by omega⟩
  | cons p ps ih =>
    intro a c h1 h2 h3
    by_cases hm : (makeMove b p role).1 = true
    · rw [childScores_cons_of_true val b role p ps hm, List.foldl_cons]
      have W := hs (makeMove b p role).2 p a h1 h2
      unfold WindowSpec at W
      obtain ⟨W1, W2, W3, W4, W5⟩ := W
      have hge := foldl_max_ge (childScores val b role ps)
        (max c (val (makeMove b p role).2 p))
      have hge1 := le_trans (le_max_left _ _) hge
      have hge2 := le_trans (le_max_right _ _) hge
      have hmax : ∀ x y : Int, (if x ≤ y then y else x) = max x y :=
        fun x y => (max_def x y).symm
      simp only [maxLoop, hm, if_true, hb, undo_makeMove b p role hm, hmax]
      have ha1 := le_max_left a (search (makeMove b p role).2 p a beta).1
      have ha2 := le_max_right a (search (makeMove b p role).2 p a beta).1
      have ha3 := max_choice a (search (makeMove b p role).2 p a beta).1
      have hc1 := le_max_left c (val (makeMove b p role).2 p)
      have hc2 := le_max_right c (val (makeMove b p role).2 p)
      have hc3 := max_choice c (val (makeMove b p role).2 p)
      have IH := ih (max a (search (makeMove b p role).2 p a beta).1)
        (max c (val (makeMove b p role).2 p))
      generalize (childScores val b role ps).foldl max (max c (val (makeMove b p role).2 p))
        = m at *
      generalize max c (val (makeMove b p role).2 p) = c2 at *
      generalize max a (search (makeMove b p role).2 p a beta).1 = a2 at *
      generalize (search (makeMove b p role).2 p a beta).1 = r at *
      generalize val (makeMove b p role).2 p = v at *
      by_cases hcut : a2 ≥ beta
      · rw [if_pos hcut]
        refine ⟨by omega, by omega, by omega, by omega, by omega⟩
      · rw [if_neg hcut]
        obtain ⟨I1, I2, I3, I4, I5⟩ := IH (by omega) (by omega) (by omega)
        refine ⟨by omega, I2, ?_, I4, ?_⟩
        · intro hle
          rw [I3 (by omega)]
          omega
        · intro hlt1 hlt2
          by_cases hc4 : m ≤ a2
          · rw [I3 hc4]
            omega
          · exact I5 (by omega) hlt2
    · have hm2 : (makeMove b p role).1 = false := by simpa using hm
      rw [childScores_cons_of_false val b role p ps hm2]
      simp only [maxLoop, hm2, Bool.false_eq_true, if_false,
        makeMove_snd_of_false b p role hm2]
      exact ih a c h1 h2 h3

theorem minLoop_spec (search : Board → Point → Int → Int → Int × Board)
    (val : Board → Point → Int) (role : Role) (alpha : Int)
    (hb : ∀ b1 p a be, (search b1 p a be).2 = b1)
    (hs : ∀ b1 p be, alpha < be → be ≤ INT_MAX →
      WindowSpec alpha be (val b1 p) (search b1 p alpha be).1)
    (halpha : INT_MIN ≤ alpha) (b : Board) :
    ∀ (ps : List Point) (be c : Int), alpha < be → be ≤ INT_MAX → be ≤ c →
      (minLoop search role alpha ps b be).1 ≤ be
      ∧ INT_MIN ≤ (minLoop search role alpha ps b be).1
      ∧ (be ≤ (childScores val b role ps).foldl min c → (minLoop search role alpha ps b be).1 = be)
      ∧ ((childScores val b role ps).foldl min c ≤ alpha
          → (minLoop search role alpha ps b be).1 ≤ alpha)
      ∧ (alpha < (childScores val b role ps).foldl min c
          → (childScores val b role ps).foldl min c < be
          → (minLoop search role alpha ps b be).1 = (childScores val b role ps).foldl min c) := by
  intro ps
  induction ps with
  | nil =>
    intro be c h1 h2 h3
    simp only [minLoop, childScores, List.filter_nil, List.map_nil, List.foldl_nil]
    refine ⟨le_refl _, by omega, by simp, by omega, by omega⟩
  | cons p ps ih =>
    intro be c h1 h2 h3
    by_cases hm : (makeMove b p role).1 = true
    · rw [childScores_cons_of_true val b role p ps hm, List.foldl_cons]
      have W := hs (makeMove b p role).2 p be h1 h2
      unfold WindowSpec at W
      obtain ⟨W1, W2, W3, W4, W5⟩ := W
      have hle := foldl_min_le (childScores val b role ps)
        (min c (val (makeMove b p role).2 p))
      have hle1 := le_trans hle (min_le_left _ _)
      have hle2 := le_trans hle (min_le_right _ _)
      have hmin : ∀ x y : Int, (if x ≤ y then x else y) = min x y :=
        fun x y => (min_def x y).symm
      simp only [minLoop, hm, if_true, hb, undo_makeMove b p role hm, hmin]
      have ha1 := min_le_left be (search (makeMove b p role).2 p alpha be).1
      have ha2 := min_le_right be (search (makeMove b p role).2 p alpha be).1
      have ha3 := min_choice be (search (makeMove b p role).2 p alpha be).1
      have hc1 := min_le_left c (val (makeMove b p role).2 p)
      have hc2 := min_le_right c (val (makeMove b p role).2 p)
      have hc3 := min_choice c (val (makeMove b p role).2 p)
      have IH := ih (min be (search (makeMove b p role).2 p alpha be).1)
        (min c (val (makeMove b p role).2 p))
      generalize (childScores val b role ps).foldl min (min c (val (makeMove b p role).2 p))
        = m at *
      generalize min c (val (makeMove b p role).2 p) = c2 at *
      generalize min be (search (makeMove b p role).2 p alpha be).1 = b2 at *
      generalize (search (makeMove b p role).2 p alpha be).1 = r at *
      generalize val (makeMove b p role).2 p = v at *
      by_cases hcut : alpha ≥ b2
      · rw [if_pos hcut]
        refine ⟨by omega, by omega, by omega, by omega, by omega⟩
      · rw [if_neg hcut]
        obtain ⟨I1, I2, I3, I4, I5⟩ := IH (by omega) (by omega) (by omega)
        refine ⟨by omega, I2, ?_, I4, ?_⟩
        · intro hge
          rw [I3 (by omega)]
          omega
        · intro hlt1 hlt2
          by_cases hc4 : b2 ≤ m
          · rw [I3 hc4]
            omega
          · exact I5 hlt1 (by omega)
    · have hm2 : (makeMove b p role).1 = false := by simpa using hm
      rw [childScores_cons_of_false val b role p ps hm2]
      simp only [minLoop, hm2, Bool.false_eq_true, if_false,
        makeMove_snd_of_false b p role hm2]
      exact ih be c h1 h2 h3

theorem windowSpec_self (alpha beta v : Int) (h1 : INT_MIN ≤ v) (h2 : v ≤ INT_MAX) :
    WindowSpec alpha beta v v :=
  ⟨h1, h2, fun h => h, fun h => h, fun _ _ => rfl⟩

theorem childScores_mem (val : Board → Point → Int) (b : Board) (role : Role)
    (cands : List Point) (x : Int) (hx : x ∈ childScores val b role cands) :
    ∃ b1 p, x = val b1 p := by
  simp only [childScores, List.mem_map, List.mem_filter] at hx
  obtain ⟨p, _, rfl⟩ := hx
  exact ⟨_, _, rfl⟩

theorem leaf_in_int (b : Board) :
    (INT_MIN ≤ WIN ∧ WIN ≤ INT_MAX) ∧ (INT_MIN ≤ LOSE ∧ LOSE ≤ INT_MAX)
    ∧ (INT_MIN ≤ evaluate b Role.BOT ∧ evaluate b Role.BOT ≤ INT_MAX) := by
  have h := evaluate_in_int b Role.BOT
  refine ⟨by decide, by decide, ?_, ?_⟩ <;> omega

theorem exhaustive_range (stdSort : List (Int × Point) → List (Int × Point)) :
    ∀ (depth : Nat) (b : Board) (role : Role) (lastMove : Point),
      INT_MIN ≤ exhaustive stdSort depth b role lastMove
      ∧ exhaustive stdSort depth b role lastMove ≤ INT_MAX := by
  intro depth
  induction depth with
  | zero =>
    intro b role lastMove
    have h := leaf_in_int b
    unfold exhaustive
    simp only []
    split_ifs
    · exact h.1
    · exact h.2.1
    · exact h.2.2
  | succ d ih =>
    intro b role lastMove
    have h := leaf_in_int b
    unfold exhaustive
    simp only []
    split_ifs
    · exact h.1
    · exact h.2.1
    · exact h.2.2
    · refine ⟨foldl_max_ge _ _, foldl_max_le _ _ ?_ _ (by decide)⟩
      intro x hx
      obtain ⟨b1, p, rfl⟩ := childScores_mem _ _ _ _ _ hx
      exact (ih b1 Role.USER p).2
    · refine ⟨foldl_min_ge _ _ ?_ _ (by decide), foldl_min_le _ _⟩
      intro x hx
      obtain ⟨b1, p, rfl⟩ := childScores_mem _ _ _ _ _ hx
      exact (ih b1 Role.BOT p).1

theorem minimax_spec (stdSort : List (Int × Point) → List (Int × Point)) :
    ∀ (depth : Nat) (b : Board) (role : Role) (lastMove : Point) (alpha beta : Int),
      INT_MIN ≤ alpha → alpha < beta → beta ≤ INT_MAX →
      WindowSpec alpha beta (exhaustive stdSort depth b role lastMove)
        (minimax stdSort depth b role lastMove alpha beta).1 := by
  intro depth
  induction depth with
  | zero =>
    intro b role lastMove alpha beta _ _ _
    have h := leaf_in_int b
    unfold minimax exhaustive
    simp only []
    split_ifs
    · exact windowSpec_self _ _ _ h.1.1 h.1.2
    · exact windowSpec_self _ _ _ h.2.1.1 h.2.1.2
    · exact windowSpec_self _ _ _ h.2.2.1 h.2.2.2
  | succ d ih =>
    intro b role lastMove alpha beta h1 h2 h3
    have h := leaf_in_int b
    unfold minimax exhaustive
    simp only []
    split_ifs
    · exact windowSpec_self _ _ _ h.1.1 h.1.2
    · exact windowSpec_self _ _ _ h.2.1.1 h.2.1.2
    · exact windowSpec_self _ _ _ h.2.2.1 h.2.2.2
    · rw [getSortedCandidates_board]
      obtain ⟨M1, M2, M3, M4, M5⟩ := maxLoop_spec
        (fun b1 p a be => minimax stdSort d b1 Role.USER p a be)
        (fun b1 p => exhaustive stdSort d b1 Role.USER p) role beta
        (fun b1 p a be => minimax_board stdSort d b1 Role.USER p a be)
        (fun b1 p a ha1 ha2 => ih b1 Role.USER p a beta ha1 ha2 h3) h3 b
        (getSortedCandidates stdSort b role).1 alpha INT_MIN h1 h2 h1
      exact ⟨le_trans h1 M1, M2, fun hle => le_of_eq (M3 hle), M4, M5⟩
    · rw [getSortedCandidates_board]
      obtain ⟨M1, M2, M3, M4, M5⟩ := minLoop_spec
        (fun b1 p a be => minimax stdSort d b1 Role.BOT p a be)
        (fun b1 p => exhaustive stdSort d b1 Role.BOT p) role alpha
        (fun b1 p a be => minimax_board stdSort d b1 Role.BOT p a be)
        (fun b1 p be hb1 hb2 => ih b1 Role.BOT p alpha be h1 hb1 hb2) h1 b
        (getSortedCandidates stdSort b role).1 beta INT_MAX h2 h3 h3
      exact ⟨M2, le_trans M1 h3, M4, fun hge => le_of_eq (M3 hge).symm, M5⟩

theorem minimax_full_window (stdSort : List (Int × Point) → List (Int × Point))
    (depth : Nat) (b : Board) (role : Role) (lastMove : Point) :
    minimax stdSort depth b role lastMove INT_MIN INT_MAX
      = (exhaustive stdSort depth b role lastMove, b) := by
  have hW := minimax_spec stdSort depth b role lastMove INT_MIN INT_MAX (le_refl _)
    (by decide) (le_refl _)
  have hr := exhaustive_range stdSort depth b role lastMove
  have hb := minimax_board stdSort depth b role lastMove INT_MIN INT_MAX
  obtain ⟨W1, W2, W3, W4, W5⟩ := hW
  have hv : (minimax stdSort depth b role lastMove INT_MIN INT_MAX).1
      = exhaustive stdSort depth b role lastMove := by
    generalize (minimax stdSort depth b role lastMove INT_MIN INT_MAX).1 = r at *
    generalize exhaustive stdSort depth b role lastMove = v at *
    omega
  exact Prod.ext hv hb

/-- C9: called with the full window from `INT_MIN` to `INT_MAX`, `minimax` returns exactly
the score of the exhaustive minimax over the same terminal tests and candidate lists, for
every implementation `stdSort` of the library sort; and `getBestMove` returns the move
that its selection loop picks over the exhaustive scores. -/
theorem pruning_preserves_result (stdSort : List (Int × Point) → List (Int × Point))
    (depth : Nat) (b : Board) (role : Role) (lastMove : Point) :
    (minimax stdSort depth b role lastMove INT_MIN INT_MAX).1
      = exhaustive stdSort depth b role lastMove
    ∧ (getBestMove stdSort b).1 = getBestMoveExhaustive stdSort b := by
  constructor
  · rw [minimax_full_window]
  · unfold getBestMove getBestMoveExhaustive
    simp only [minimax_full_window]

/-- C10: whatever the depth, the side to move, the window and the fullness of the board,
`minimax` returns `WIN` when `checkWinner` at the last move reports `BOT` and `LOSE` when
it reports `USER`, and leaves the board as it is. -/
theorem minimax_terminal_priority (stdSort : List (Int × Point) → List (Int × Point))
    (depth : Nat) (b : Board) (role : Role) (lastMove : Point) (alpha beta : Int) :
    (checkWinner b lastMove = Role.BOT →
      minimax stdSort depth b role lastMove alpha beta = (WIN, b))
    ∧ (checkWinner b lastMove = Role.USER →
      minimax stdSort depth b role lastMove alpha beta = (LOSE, b)) := by
  constructor
  · intro h
    unfold minimax
    simp [h]
  · intro h
    unfold minimax
    simp [h]

theorem minimax_terminal_priority_witness :
    checkWinner botFive ⟨7, 7⟩ = Role.BOT
    ∧ minimax sortDesc 0 botFive Role.USER ⟨7, 7⟩ 0 1 = (WIN, botFive)
    ∧ checkWinner (makeMove userFour ⟨7, 11⟩ Role.USER).2 ⟨7, 11⟩ = Role.USER
    ∧ minimax sortDesc 3 (makeMove userFour ⟨7, 11⟩ Role.USER).2 Role.BOT ⟨7, 11⟩
        INT_MIN INT_MAX = (LOSE, (makeMove userFour ⟨7, 11⟩ Role.USER).2) :=
  ⟨by decide,
   (minimax_terminal_priority sortDesc 0 botFive Role.USER ⟨7, 7⟩ 0 1).1 (by decide),
   by decide,
   (minimax_terminal_priority sortDesc 3 (makeMove userFour ⟨7, 11⟩ Role.USER).2 Role.BOT
      ⟨7, 11⟩ INT_MIN INT_MAX).2 (by decide)⟩

/-! ## The run length is the length of the maximal run -/

theorem extentFrom_stop (b : Board) (s : Role) (p : Point) (d : Int × Int) (step : Int) :
    ∀ (n : Nat) (i : Int), extentFrom b s p d step n i < n →
      holdsAt b s p d (i + step * (extentFrom b s p d step n i : Int)) = false := by
  intro n
  induction n with
  | zero => intro i h; exact absurd h (Nat.not_lt_zero _)
  | succ n ih =>
    intro i h
    simp only [extentFrom] at h ⊢
    by_cases hc : holdsAt b s p d i = true
    · simp only [hc, if_true] at h ⊢
      have h2 := ih (i + step) (by omega)
      have e : i + step * (((extentFrom b s p d step n (i + step) + 1 : Nat)) : Int)
          = i + step + step * (extentFrom b s p d step n (i + step) : Int) := by
        push_cast; ring
      rw [e]
      exact h2
    · have hc2 : holdsAt b s p d i = false := by simpa using hc
      simp [hc2]

theorem extentFrom_lt_limit (b : Board) (s : Role) (p : Point) (d : Int × Int)
    (hr : isRangeValidP p = true) (hd : d ∈ directions) (step : Int)
    (hstep : step = 1 ∨ step = -1) :
    extentFrom b s p d step 15 step < 15 := by
  by_contra hge
  have h15 : 15 ≤ extentFrom b s p d step 15 step := by omega
  rw [le_extentFrom_iff] at h15
  have h := h15.2 14 (by omega)
  simp only [holdsAt, Bool.and_eq_true] at h
  have hv := (isRangeValidP_iff _).mp h.1
  have hp := (isRangeValidP_iff p).mp hr
  simp only [along] at hv
  simp only [directions, List.mem_cons, List.mem_singleton, List.not_mem_nil, or_false] at hd
  rcases hstep with rfl | rfl <;> rcases hd with rfl | rfl | rfl | rfl <;>
    simp only [] at hv <;> omega

/-- The run counted by `runLength` is maximal: on an in-range point and one of the four
axes the cells counted in each direction hold the side, and the next cell in each
direction is off the grid or does not hold it. -/
theorem runLength_maximal (b : Board) (s : Role) (p : Point) (d : Int × Int)
    (hr : isRangeValidP p = true) (hd : d ∈ directions) :
    (∀ j : Nat, j < extentFrom b s p d 1 15 1 → holdsAt b s p d (1 + (j : Int)) = true)
    ∧ holdsAt b s p d (1 + (extentFrom b s p d 1 15 1 : Int)) = false
    ∧ (∀ j : Nat, j < extentFrom b s p d (-1) 15 (-1) → holdsAt b s p d (-1 - (j : Int)) = true)
    ∧ holdsAt b s p d (-1 - (extentFrom b s p d (-1) 15 (-1) : Int)) = false := by
  have h1 := (le_extentFrom_iff b s p d 1 15 (extentFrom b s p d 1 15 1) 1).mp (le_refl _)
  have h2 := (le_extentFrom_iff b s p d (-1) 15 (extentFrom b s p d (-1) 15 (-1)) (-1)).mp
    (le_refl _)
  have s1 := extentFrom_stop b s p d 1 15 1 (extentFrom_lt_limit b s p d hr hd 1 (Or.inl rfl))
  have s2 := extentFrom_stop b s p d (-1) 15 (-1)
    (extentFrom_lt_limit b s p d hr hd (-1) (Or.inr rfl))
  refine ⟨?_, ?_, ?_, ?_⟩
  · intro j hj
    have := h1.2 j hj
    simpa using this
  · simpa using s1
  · intro j hj
    have := h2.2 j hj
    have e : -1 + -1 * (j : Int) = -1 - (j : Int) := by ring
    rw [e] at this
    exact this
  · have e : -1 + -1 * (extentFrom b s p d (-1) 15 (-1) : Int)
        = -1 - (extentFrom b s p d (-1) 15 (-1) : Int) := by ring
    rw [e] at s2
    exact s2

/-! ## Leaf rule, purity of the move selection, shape table -/

theorem minimax_of_no_winner_zero (stdSort : List (Int × Point) → List (Int × Point))
    (b : Board) (role : Role) (lastMove : Point) (alpha beta : Int)
    (hw : checkWinner b lastMove = Role.EMPTY) :
    minimax stdSort 0 b role lastMove alpha beta = (evaluate b Role.BOT, b) := by
  unfold minimax
  simp [hw]

theorem minimax_of_no_winner_full (stdSort : List (Int × Point) → List (Int × Point))
    (depth : Nat) (b : Board) (role : Role) (lastMove : Point) (alpha beta : Int)
    (hw : checkWinner b lastMove = Role.EMPTY) (hf : isFull b = true) :
    minimax stdSort depth b role lastMove alpha beta = (evaluate b Role.BOT, b) := by
  cases depth with
  | zero => exact minimax_of_no_winner_zero stdSort b role lastMove alpha beta hw
  | succ d =>
    unfold minimax
    simp [hw, hf]

/-- C11: when `checkWinner` at the last move reports no winner and the depth is 0 or the
board is full, `minimax` returns `evaluate(BOT)` (and leaves the board as it is), whatever
the side to move and the window are. -/
theorem minimax_leaf_rule (stdSort : List (Int × Point) → List (Int × Point))
    (depth : Nat) (b : Board) (role : Role) (lastMove : Point) (alpha beta : Int)
    (hw : checkWinner b lastMove = Role.EMPTY) (hl : depth = 0 ∨ isFull b = true) :
    minimax stdSort depth b role lastMove alpha beta = (evaluate b Role.BOT, b) := by
  rcases hl with h | h
  · subst h
    exact minimax_of_no_winner_zero stdSort b role lastMove alpha beta hw
  · exact minimax_of_no_winner_full stdSort depth b role lastMove alpha beta hw h

theorem minimax_leaf_rule_witness :
    checkWinner userFour ⟨7, 10⟩ = Role.EMPTY
    ∧ minimax sortDesc 0 userFour Role.USER ⟨7, 10⟩ (-5) 5 = (evaluate userFour Role.BOT, userFour) :=
  ⟨by decide, minimax_leaf_rule sortDesc 0 userFour Role.USER ⟨7, 10⟩ (-5) 5 (by decide)
    (Or.inl rfl)⟩

theorem bestLoop_board (search : Board → Point → Int × Board)
    (hb : ∀ b1 p, (search b1 p).2 = b1) :
    ∀ (ps : List Point) (st : BestState), (bestLoop search ps st).board = st.board := by
  intro ps
  induction ps with
  | nil => intro st; rfl
  | cons p ps ih =>
    intro st
    simp only [bestLoop]
    by_cases hm : (makeMove st.board p Role.BOT).1 = true
    · simp only [hm, if_true, hb, undo_makeMove st.board p Role.BOT hm]
      split_ifs
      · rw [ih]
      · rw [ih]
    · have hm2 : (makeMove st.board p Role.BOT).1 = false := by simpa using hm
      simp only [hm2, Bool.false_eq_true, if_false, makeMove_snd_of_false st.board p Role.BOT hm2]
      rw [ih]

theorem getBestMove_board (stdSort : List (Int × Point) → List (Int × Point)) (b : Board) :
    (getBestMove stdSort b).2 = b := by
  simp only [getBestMove]
  rw [bestLoop_board _ (fun b1 p => minimax_board stdSort _ b1 Role.USER p INT_MIN INT_MAX)]
  exact getSortedCandidates_board stdSort b Role.BOT

/-- C13: the board after `getBestMove` returns is the board before the call, for every
board and every implementation of the library sort. -/
theorem getBestMove_pure (stdSort : List (Int × Point) → List (Int × Point)) (b : Board) :
    (getBestMove stdSort b).2 = b
    ∧ ∀ q, getCell (getBestMove stdSort b).2 q = getCell b q := by
  rw [getBestMove_board]
  exact ⟨rfl, fun _ => rfl⟩

/-- C17: the shape classification table of `analyzeShape`, for every integer `count` and
all values of `leftOpen`, `rightOpen` and `hasGap`. -/
theorem analyzeShape_table (count : Int) (leftOpen rightOpen hasGap : Bool) :
    (count ≥ 5 → analyzeShape count leftOpen rightOpen hasGap = 1000000)
    ∧ (count = 4 → leftOpen = true → rightOpen = true → hasGap = false →
        analyzeShape count leftOpen rightOpen hasGap = 100000)
    ∧ (count = 4 → leftOpen = true → rightOpen = true → hasGap = true →
        analyzeShape count leftOpen rightOpen hasGap = 10000)
    ∧ (count = 4 → leftOpen ≠ rightOpen →
        analyzeShape count leftOpen rightOpen hasGap = 10000)
    ∧ (count = 4 → leftOpen = false → rightOpen = false →
        analyzeShape count leftOpen rightOpen hasGap = 0)
    ∧ (count = 3 → leftOpen = true → rightOpen = true → hasGap = false →
        analyzeShape count leftOpen rightOpen hasGap = 8000)
    ∧ (count = 3 → leftOpen = true → rightOpen = true → hasGap = true →
        analyzeShape count leftOpen rightOpen hasGap = 7200)
    ∧ (count = 3 → leftOpen ≠ rightOpen →
        analyzeShape count leftOpen rightOpen hasGap = 1000)
    ∧ (count = 3 → leftOpen = false → rightOpen = false →
        analyzeShape count leftOpen rightOpen hasGap = 0)
    ∧ (count = 2 → leftOpen = true → rightOpen = true →
        analyzeShape count leftOpen rightOpen hasGap = 500)
    ∧ (count = 2 → leftOpen ≠ rightOpen →
        analyzeShape count leftOpen rightOpen hasGap = 50)
    ∧ (count = 2 → leftOpen = false → rightOpen = false →
        analyzeShape count leftOpen rightOpen hasGap = 0)
    ∧ (count ≤ 1 → analyzeShape count leftOpen rightOpen hasGap = 0) := by
  have h72 : LIVE_3 * 9 / 10 = 7200 := by decide
  unfold analyzeShape
  rw [h72]
  simp only [FIVE, LIVE_4, RUSH_4, LIVE_3, SLEEP_3, LIVE_2, SLEEP_2]
  refine ⟨?_, ?_, ?_, ?_, ?_, ?_, ?_, ?_, ?_, ?_, ?_, ?_, ?_⟩
  · intro h; simp [h]
  all_goals
    first
    | (intro h1 h2 h3 h4; subst h1; subst h2; subst h3; subst h4; decide)
    | (intro h1 h2 h3; subst h1; subst h2; subst h3; cases hasGap <;> decide)
    | (intro h1 h2; subst h1; cases leftOpen <;> cases rightOpen <;> cases hasGap <;>
        first | decide | exact absurd rfl h2)
    | (intro h1
       have c5 : ¬ count ≥ 5 := by omega
       have c4 : ¬ count = 4 := by omega
       have c3 : ¬ count = 3 := by omega
       have c2 : ¬ count = 2 := by omega
       simp [c5, c4, c3, c2])

theorem analyzeShape_table_witness :
    analyzeShape 7 false false true = 1000000
    ∧ analyzeShape 4 true true false = 100000
    ∧ analyzeShape 4 true false false = 10000
    ∧ analyzeShape 3 true true true = 7200
    ∧ analyzeShape 2 false true false = 50
    ∧ analyzeShape 1 true true false = 0 :=
  ⟨(analyzeShape_table 7 false false true).1 (by decide),
   (analyzeShape_table 4 true true false).2.1 rfl rfl rfl rfl,
   (analyzeShape_table 4 true false false).2.2.2.1 rfl (by decide),
   (analyzeShape_table 3 true true true).2.2.2.2.2.2.1 rfl rfl rfl rfl,
   (analyzeShape_table 2 false true false).2.2.2.2.2.2.2.2.2.2.1 rfl (by decide),
   (analyzeShape_table 1 true true false).2.2.2.2.2.2.2.2.2.2.2.2 (by decide)⟩

/-! ## Membership in the candidate list -/

theorem foldl_establish {σ α : Type} (f : σ → α → σ) (Q : σ → Prop) (t : α)
    (hest : ∀ st, Q (f st t)) (hpres : ∀ st x, Q st → Q (f st x)) :
    ∀ (l : List α) (init : σ), t ∈ l → Q (l.foldl f init) := by
  intro l
  induction l with
  | nil => intro init h; exact absurd h (List.not_mem_nil _)
  | cons a l ih =>
    intro init h
    rcases List.mem_cons.mp h with rfl | h2
    · exact foldl_invariant Q f hpres l _ (hest init)
    · exact ih _ h2

theorem searchOffsets_eq : searchOffsets = [-3, -2, -1, 0, 1, 2, 3] := by
  decide

theorem mem_searchOffsets (i : Int) : i ∈ searchOffsets ↔ -3 ≤ i ∧ i ≤ 3 := by
  rw [searchOffsets_eq]
  simp only [List.mem_cons, List.mem_singleton, List.not_mem_nil, or_false]
  omega

theorem mem_occupiedPoints (b : Board) (q : Point) :
    q ∈ occupiedPoints b ↔ isRangeValidP q = true ∧ getCell b q ≠ Role.EMPTY := by
  unfold occupiedPoints
  simp only [List.mem_flatMap, List.mem_finRange, true_and, List.mem_filterMap]
  constructor
  · rintro ⟨i, j, h⟩
    by_cases hne : b.board i j = Role.EMPTY
    · simp [hne] at h
    · simp only [bne_iff_ne, ne_eq, hne, not_false_eq_true, if_true, Option.some.injEq] at h
      subst h
      refine ⟨?_, by rw [getCell_coe]; exact hne⟩
      rw [isRangeValidP_iff]
      have := i.isLt
      have := j.isLt
      refine ⟨?_, ?_, ?_, ?_⟩ <;> simp only [] <;> omega
  · rintro ⟨hv, hne⟩
    obtain ⟨i, j, rfl⟩ := exists_fin_of_valid q hv
    rw [getCell_coe] at hne
    exact ⟨i, j, by simp [hne]⟩

theorem candStep_visited_mono (b : Board) (p : Point) (st : CandState) (i j x y : Int)
    (h : st.visited x y = true) : (candStep b p st i j).visited x y = true := by
  unfold candStep
  simp only []
  split_ifs <;> simp [h]

theorem candStep_candidates_mono (b : Board) (p : Point) (st : CandState) (i j : Int)
    (q : Point) (h : q ∈ st.candidates) : q ∈ (candStep b p st i j).candidates := by
  unfold candStep
  simp only []
  split_ifs
  · exact List.mem_append_left _ h
  · exact h
  · exact h

theorem candStep_inv (b : Board) (p : Point) (st : CandState) (i j : Int)
    (h : ∀ x y, st.visited x y = true → isRangeValidP ⟨x, y⟩ = true →
      getCell b ⟨x, y⟩ = Role.EMPTY → (⟨x, y⟩ : Point) ∈ st.candidates) :
    ∀ x y, (candStep b p st i j).visited x y = true → isRangeValidP ⟨x, y⟩ = true →
      getCell b ⟨x, y⟩ = Role.EMPTY → (⟨x, y⟩ : Point) ∈ (candStep b p st i j).candidates := by
  intro x y hv hr he
  by_cases hold : st.visited x y = true
  · exact candStep_candidates_mono b p st i j _ (h x y hold hr he)
  · unfold candStep at hv ⊢
    simp only [] at hv ⊢
    split_ifs at hv ⊢ with h1 h2
    · by_cases hxy : x = p.x + i ∧ y = p.y + j
      · rw [hxy.1, hxy.2]
        exact List.mem_append_right _ (List.mem_singleton.mpr rfl)
      · simp [hxy] at hv
        exact absurd hv hold
    · by_cases hxy : x = p.x + i ∧ y = p.y + j
      · rw [hxy.1, hxy.2] at he
        exact absurd ((isCellEmpty_iff b _).mpr he) h2
      · simp [hxy] at hv
        exact absurd hv hold
    · exact absurd hv hold

theorem candStep_visits (b : Board) (p : Point) (st : CandState) (i j : Int)
    (hr : isRangeValidP ⟨p.x + i, p.y + j⟩ = true) :
    (candStep b p st i j).visited (p.x + i) (p.y + j) = true := by
  unfold candStep
  simp only []
  by_cases hv : st.visited (p.x + i) (p.y + j) = true
  · simp [hr, hv]
  · have hv2 : st.visited (p.x + i) (p.y + j) = false := by simpa using hv
    simp only [hr, hv2, Bool.not_false, Bool.and_self, if_true]
    split_ifs <;> simp

theorem candStep_valid (b : Board) (p : Point) (st : CandState) (i j : Int)
    (h : ∀ q ∈ st.candidates, isRangeValidP q = true) :
    ∀ q ∈ (candStep b p st i j).candidates, isRangeValidP q = true := by
  unfold candStep
  simp only []
  split_ifs with h1 h2
  · intro q hq
    simp only [List.mem_append, List.mem_singleton] at hq
    rcases hq with hq | rfl
    · exact h q hq
    · simp only [Bool.and_eq_true] at h1
      exact h1.1
  · exact h
  · exact h

theorem candFold_invariant (b : Board) (P : CandState → Prop)
    (hstep : ∀ p st i j, P st → P (candStep b p st i j)) (occupied : List Point)
    (init : CandState) (h : P init) :
    P (occupied.foldl (fun st p =>
      searchOffsets.foldl (fun st i =>
        searchOffsets.foldl (fun st j => candStep b p st i j) st) st) init) := by
  apply foldl_invariant P
  · intro st p hst
    apply foldl_invariant P
    · intro st i hst
      apply foldl_invariant P
      · intro st j hst
        exact hstep p st i j hst
      · exact hst
    · exact hst
  · exact h

theorem candFold_visits (b : Board) (occupied : List Point) (init : CandState)
    (q p : Point) (hq : q ∈ occupied) (hp : isRangeValidP p = true)
    (hx : -3 ≤ p.x - q.x ∧ p.x - q.x ≤ 3) (hy : -3 ≤ p.y - q.y ∧ p.y - q.y ≤ 3) :
    (occupied.foldl (fun st p =>
      searchOffsets.foldl (fun st i =>
        searchOffsets.foldl (fun st j => candStep b p st i j) st) st) init).visited p.x p.y
      = true := by
  have hpj : ∀ (q2 : Point) (i : Int) (st : CandState) (j : Int),
      st.visited p.x p.y = true → (candStep b q2 st i j).visited p.x p.y = true :=
    fun q2 i st j h => candStep_visited_mono b q2 st i j _ _ h
  have hpi : ∀ (q2 : Point) (st : CandState) (i : Int), st.visited p.x p.y = true →
      (searchOffsets.foldl (fun st j => candStep b q2 st i j) st).visited p.x p.y = true := by
    intro q2 st i h
    exact foldl_invariant (fun st : CandState => st.visited p.x p.y = true) _
      (fun st j hst => hpj q2 i st j hst) _ _ h
  have hpq : ∀ (st : CandState) (q2 : Point), st.visited p.x p.y = true →
      (searchOffsets.foldl (fun st i =>
        searchOffsets.foldl (fun st j => candStep b q2 st i j) st) st).visited p.x p.y
        = true := by
    intro st q2 h
    exact foldl_invariant (fun st : CandState => st.visited p.x p.y = true) _
      (fun st i hst => hpi q2 st i hst) _ _ h
  apply foldl_establish _ (fun st : CandState => st.visited p.x p.y = true) q _ hpq _ _ hq
  intro st
  apply foldl_establish _ (fun st : CandState => st.visited p.x p.y = true) (p.x - q.x) _
    (fun st i hst => hpi q st i hst) _ _ ((mem_searchOffsets _).mpr hx)
  intro st
  apply foldl_establish _ (fun st : CandState => st.visited p.x p.y = true) (p.y - q.y) _
    (fun st j hst => hpj q (p.x - q.x) st j hst) _ _ ((mem_searchOffsets _).mpr hy)
  intro st
  have e1 : q.x + (p.x - q.x) = p.x := by ring
  have e2 : q.y + (p.y - q.y) = p.y := by ring
  have h := candStep_visits b q st (p.x - q.x) (p.y - q.y) (by rw [e1, e2]; exact hp)
  rw [e1, e2] at h
  exact h

theorem getCandidates_valid (b : Board) :
    ∀ q ∈ getCandidates b, isRangeValidP q = true := by
  unfold getCandidates
  simp only []
  split_ifs with h
  · intro q hq
    simp only [List.mem_singleton] at hq
    subst hq
    decide
  · apply candFold_invariant b (fun st : CandState => ∀ q ∈ st.candidates, isRangeValidP q = true)
    · intro p st i j hst
      exact candStep_valid b p st i j hst
    · intro q hq
      exact absurd hq (List.not_mem_nil _)

theorem mem_getCandidates_of_near (b : Board) (q p : Point)
    (hq : isRangeValidP q = true ∧ getCell b q ≠ Role.EMPTY)
    (hp : isRangeValidP p = true) (he : getCell b p = Role.EMPTY)
    (hx : -3 ≤ p.x - q.x ∧ p.x - q.x ≤ 3) (hy : -3 ≤ p.y - q.y ∧ p.y - q.y ≤ 3) :
    p ∈ getCandidates b := by
  have hocc : q ∈ occupiedPoints b := (mem_occupiedPoints b q).mpr hq
  have hne : (occupiedPoints b).isEmpty = false := by
    cases hl : occupiedPoints b with
    | nil => rw [hl] at hocc; exact absurd hocc (List.not_mem_nil _)
    | cons a l => rfl
  unfold getCandidates
  simp only [hne, Bool.false_eq_true, if_false]
  have hinv := candFold_invariant b
    (fun st : CandState => ∀ x y, st.visited x y = true → isRangeValidP ⟨x, y⟩ = true →
      getCell b ⟨x, y⟩ = Role.EMPTY → (⟨x, y⟩ : Point) ∈ st.candidates)
    (fun p st i j hst => candStep_inv b p st i j hst) (occupiedPoints b)
    ⟨fun _ _ => false, []⟩ (by intro x y h; simp at h)
  have hvis := candFold_visits b (occupiedPoints b) ⟨fun _ _ => false, []⟩ q p hocc hp hx hy
  exact hinv p.x p.y hvis hp he

theorem int_step_up (P : Int → Prop) :
    ∀ (n : Nat) (a : Int), P a → ¬ P (a + n) →
      ∃ k : Nat, k < n ∧ P (a + k) ∧ ¬ P (a + k + 1) := by
  intro n
  induction n with
  | zero =>
    intro a ha hc
    simp only [Nat.cast_zero, add_zero] at hc
    exact absurd ha hc
  | succ n ih =>
    intro a ha hc
    by_cases hn : P (a + n)
    · refine ⟨n, by omega, hn, ?_⟩
      have e : a + (n : Int) + 1 = a + ((n + 1 : Nat) : Int) := by push_cast; ring
      rw [e]
      exact hc
    · obtain ⟨k, hk, h1, h2⟩ := ih a ha hn
      exact ⟨k, by omega, h1, h2⟩

theorem int_step_between (P : Int → Prop) (a c : Int) (ha : P a) (hc : ¬ P c) :
    ∃ t t' : Int, P t ∧ ¬ P t' ∧ -1 ≤ t' - t ∧ t' - t ≤ 1
      ∧ min a c ≤ t ∧ t ≤ max a c ∧ min a c ≤ t' ∧ t' ≤ max a c := by
  rcases le_total a c with h | h
  · have e : a + (((c - a).toNat : Nat) : Int) = c := by omega
    obtain ⟨k, hk, h1, h2⟩ := int_step_up P (c - a).toNat a ha (by rw [e]; exact hc)
    refine ⟨a + k, a + k + 1, h1, h2, by omega, by omega, ?_, ?_, ?_, ?_⟩ <;>
      simp only [min_def, max_def] <;> split_ifs <;> omega
  · have e : -a + (((a - c).toNat : Nat) : Int) = -c := by omega
    obtain ⟨k, hk, h1, h2⟩ := int_step_up (fun t => P (-t)) (a - c).toNat (-a)
      (by simpa using ha) (by rw [e]; simpa using hc)
    refine ⟨-(-a + k), -(-a + k + 1), h1, h2, by omega, by omega, ?_, ?_, ?_, ?_⟩ <;>
      simp only [min_def, max_def] <;> split_ifs <;> omega

theorem exists_empty_of_not_full (b : Board) (h : isFull b = false) :
    ∃ p : Point, isRangeValidP p = true ∧ getCell b p = Role.EMPTY := by
  have h2 : ¬ (isFull b = true) := by simp [h]
  simp only [isFull, List.all_eq_true, List.mem_finRange, true_implies, bne_iff_ne, ne_eq,
    not_forall, not_not] at h2
  obtain ⟨i, j, hij⟩ := h2
  refine ⟨⟨(i.val : Int), (j.val : Int)⟩, ?_, by rw [getCell_coe]; exact hij⟩
  rw [isRangeValidP_iff]
  have := i.isLt
  have := j.isLt
  refine ⟨?_, ?_, ?_, ?_⟩ <;> simp only [] <;> omega

theorem getCandidates_ne_nil (b : Board) (h : isFull b = false) : getCandidates b ≠ [] := by
  obtain ⟨p0, hp0, he0⟩ := exists_empty_of_not_full b h
  cases hocc : occupiedPoints b with
  | nil =>
    unfold getCandidates
    simp [hocc]
  | cons q0 rest =>
    have hq0 : q0 ∈ occupiedPoints b := by rw [hocc]; exact List.mem_cons_self _ _
    obtain ⟨hq0v, hq0o⟩ := (mem_occupiedPoints b q0).mp hq0
    have hq := (isRangeValidP_iff q0).mp hq0v
    have hp := (isRangeValidP_iff p0).mp hp0
    have key : ∃ q p : Point, (isRangeValidP q = true ∧ getCell b q ≠ Role.EMPTY)
        ∧ isRangeValidP p = true ∧ getCell b p = Role.EMPTY
        ∧ (-3 ≤ p.x - q.x ∧ p.x - q.x ≤ 3) ∧ (-3 ≤ p.y - q.y ∧ p.y - q.y ≤ 3) := by
      by_cases hcorner : getCell b ⟨q0.x, p0.y⟩ ≠ Role.EMPTY
      · obtain ⟨t, t', h1, h2, h3, h4, h5, h6, h7, h8⟩ :=
          int_step_between (fun t => getCell b ⟨t, p0.y⟩ ≠ Role.EMPTY) q0.x p0.x hcorner
            (by simpa using he0)
        simp only [min_def, max_def] at h5 h6 h7 h8
        refine ⟨⟨t, p0.y⟩, ⟨t', p0.y⟩, ⟨?_, h1⟩, ?_, by simpa using h2,
          ⟨by simp only []; omega, by simp only []; omega⟩, by simp⟩
        · rw [isRangeValidP_iff]
          refine ⟨?_, ?_, hp.2.2.1, hp.2.2.2⟩ <;> simp only [] <;> split_ifs at h5 h6 <;> omega
        · rw [isRangeValidP_iff]
          refine ⟨?_, ?_, hp.2.2.1, hp.2.2.2⟩ <;> simp only [] <;> split_ifs at h7 h8 <;> omega
      · obtain ⟨t, t', h1, h2, h3, h4, h5, h6, h7, h8⟩ :=
          int_step_between (fun t => getCell b ⟨q0.x, t⟩ ≠ Role.EMPTY) q0.y p0.y hq0o hcorner
        simp only [min_def, max_def] at h5 h6 h7 h8
        refine ⟨⟨q0.x, t⟩, ⟨q0.x, t'⟩, ⟨?_, h1⟩, ?_, by simpa using h2, by simp,
          ⟨by simp only []; omega, by simp only []; omega⟩⟩
        · rw [isRangeValidP_iff]
          refine ⟨hq.1, hq.2.1, ?_, ?_⟩ <;> simp only [] <;> split_ifs at h5 h6 <;> omega
        · rw [isRangeValidP_iff]
          refine ⟨hq.1, hq.2.1, ?_, ?_⟩ <;> simp only [] <;> split_ifs at h7 h8 <;> omega
    obtain ⟨q, p, hq1, hp1, he1, hx, hy⟩ := key
    intro hnil
    have hm := mem_getCandidates_of_near b q p hq1 hp1 he1 hx hy
    rw [hnil] at hm
    exact absurd hm (List.not_mem_nil _)

/-! ## The move selection -/

theorem scoreMoves_map_snd (role : Role) :
    ∀ (ps : List Point) (b : Board), (scoreMoves role ps b).1.map Prod.snd = ps := by
  intro ps
  induction ps with
  | nil => intro b; rfl
  | cons p ps ih =>
    intro b
    simp only [scoreMoves, List.map_cons, ih]

theorem getSortedCandidates_perm (stdSort : List (Int × Point) → List (Int × Point))
    (hperm : ∀ l, (stdSort l).Perm l) (b : Board) (role : Role) :
    (getSortedCandidates stdSort b role).1.Perm (getCandidates b) := by
  simp only [getSortedCandidates]
  have h := (hperm (scoreMoves role (getCandidates b) b).1).map Prod.snd
  rw [scoreMoves_map_snd] at h
  exact h

theorem sortedCandidates_legal (stdSort : List (Int × Point) → List (Int × Point))
    (hperm : ∀ l, (stdSort l).Perm l) (b : Board) (role role2 : Role) :
    ∀ p ∈ (getSortedCandidates stdSort b role).1, (makeMove b p role2).1 = true := by
  intro p hp
  have hm := (getSortedCandidates_perm stdSort hperm b role).mem_iff.mp hp
  rw [makeMove_fst, isCellEmpty_iff]
  exact getCandidates_empty_cells b p hm

theorem sortedCandidates_ne_nil (stdSort : List (Int × Point) → List (Int × Point))
    (hperm : ∀ l, (stdSort l).Perm l) (b : Board) (role : Role) (h : isFull b = false) :
    (getSortedCandidates stdSort b role).1 ≠ [] := by
  intro hnil
  have hp := getSortedCandidates_perm stdSort hperm b role
  rw [hnil] at hp
  exact getCandidates_ne_nil b h (List.Perm.nil_eq hp).symm

theorem childScores_of_legal (val : Board → Point → Int) (b : Board) (role : Role)
    (cands : List Point) (h : ∀ p ∈ cands, (makeMove b p role).1 = true) :
    childScores val b role cands = cands.map fun p => val (makeMove b p role).2 p := by
  unfold childScores
  rw [List.filter_eq_self.mpr h]

theorem foldl_max_bounds (l : List Int) (lo hi c : Int) (hne : l ≠ [])
    (h : ∀ x ∈ l, lo ≤ x ∧ x ≤ hi) (hc : c ≤ hi) :
    lo ≤ l.foldl max c ∧ l.foldl max c ≤ hi := by
  refine ⟨?_, foldl_max_le l hi (fun x hx => (h x hx).2) c hc⟩
  cases l with
  | nil => exact absurd rfl hne
  | cons a l =>
    simp only [List.foldl_cons]
    exact le_trans (le_trans (h a (List.mem_cons_self _ _)).1 (le_max_right c a))
      (foldl_max_ge l _)

theorem foldl_min_bounds (l : List Int) (lo hi c : Int) (hne : l ≠ [])
    (h : ∀ x ∈ l, lo ≤ x ∧ x ≤ hi) (hc : lo ≤ c) :
    lo ≤ l.foldl min c ∧ l.foldl min c ≤ hi := by
  refine ⟨foldl_min_ge l lo (fun x hx => (h x hx).1) c hc, ?_⟩
  cases l with
  | nil => exact absurd rfl hne
  | cons a l =>
    simp only [List.foldl_cons]
    exact le_trans (foldl_min_le l _)
      (le_trans (min_le_right c a) (h a (List.mem_cons_self _ _)).2)

theorem exhaustive_bounds (stdSort : List (Int × Point) → List (Int × Point))
    (hperm : ∀ l, (stdSort l).Perm l) :
    ∀ (depth : Nat) (b : Board) (role : Role) (lastMove : Point),
      -1584000000 ≤ exhaustive stdSort depth b role lastMove
      ∧ exhaustive stdSort depth b role lastMove ≤ 1320000000 := by
  intro depth
  induction depth with
  | zero =>
    intro b role lastMove
    have h := evaluate_range b Role.BOT
    unfold exhaustive
    simp only []
    split_ifs
    · decide
    · decide
    · exact h
  | succ d ih =>
    intro b role lastMove
    have h := evaluate_range b Role.BOT
    unfold exhaustive
    simp only []
    split_ifs with hw hb hf hr
    · decide
    · decide
    · exact h
    · have hf2 : isFull b = false := by simpa using hf
      rw [childScores_of_legal _ _ _ _ (sortedCandidates_legal stdSort hperm b role role)]
      apply foldl_max_bounds
      · intro hnil
        exact sortedCandidates_ne_nil stdSort hperm b role hf2 (List.map_eq_nil_iff.mp hnil)
      · intro x hx
        obtain ⟨p, _, rfl⟩ := List.mem_map.mp hx
        exact ih _ _ _
      · decide
    · have hf2 : isFull b = false := by simpa using hf
      rw [childScores_of_legal _ _ _ _ (sortedCandidates_legal stdSort hperm b role role)]
      apply foldl_min_bounds
      · intro hnil
        exact sortedCandidates_ne_nil stdSort hperm b role hf2 (List.map_eq_nil_iff.mp hnil)
      · intro x hx
        obtain ⟨p, _, rfl⟩ := List.mem_map.mp hx
        exact ih _ _ _
      · decide

theorem bestLoop_spec (search : Board → Point → Int × Board)
    (hb : ∀ b1 p, (search b1 p).2 = b1) (b : Board) :
    ∀ (ps : List Point) (st : BestState), st.board = b →
      (∀ p ∈ ps, (makeMove b p Role.BOT).1 = true) →
      ((bestLoop search ps st).bestMove = st.bestMove
        ∧ (bestLoop search ps st).bestScore = st.bestScore
        ∧ ∀ q ∈ ps, (search (makeMove b q Role.BOT).2 q).1 ≤ st.bestScore)
      ∨ (∃ pre post, ps = pre ++ (bestLoop search ps st).bestMove :: post
        ∧ (bestLoop search ps st).bestScore
            = (search (makeMove b (bestLoop search ps st).bestMove Role.BOT).2
                (bestLoop search ps st).bestMove).1
        ∧ st.bestScore < (bestLoop search ps st).bestScore
        ∧ (∀ q ∈ pre, (search (makeMove b q Role.BOT).2 q).1
            < (bestLoop search ps st).bestScore)
        ∧ (∀ q ∈ post, (search (makeMove b q Role.BOT).2 q).1
            ≤ (bestLoop search ps st).bestScore)) := by
  intro ps
  induction ps with
  | nil =>
    intro st _ _
    left
    exact ⟨rfl, rfl, fun q hq => absurd hq (List.not_mem_nil _)⟩
  | cons p ps ih =>
    intro st hst hlegal
    have hm : (makeMove b p Role.BOT).1 = true := hlegal p (List.mem_cons_self _ _)
    have hl2 : ∀ q ∈ ps, (makeMove b q Role.BOT).1 = true :=
      fun q hq => hlegal q (List.mem_cons_of_mem _ hq)
    simp only [bestLoop, hst, hm, if_true, hb, undo_makeMove b p Role.BOT hm]
    by_cases hgt : (search (makeMove b p Role.BOT).2 p).1 > st.bestScore
    · rw [if_pos hgt]
      rcases ih ⟨b, p, (search (makeMove b p Role.BOT).2 p).1⟩ rfl hl2 with
        ⟨h1, h2, h3⟩ | ⟨pre, post, h1, h2, h3, h4, h5⟩
      · right
        refine ⟨[], ps, ?_, ?_, ?_, ?_, ?_⟩
        · rw [h1]; rfl
        · rw [h2, h1]
        · rw [h2]; exact hgt
        · intro q hq; exact absurd hq (List.not_mem_nil _)
        · intro q hq; rw [h2]; exact h3 q hq
      · right
        refine ⟨p :: pre, post, ?_, h2, ?_, ?_, h5⟩
        · rw [List.cons_append, ← h1]
        · simp only [] at h3
          omega
        · intro q hq
          rcases List.mem_cons.mp hq with rfl | hq2
          · exact h3
          · exact h4 q hq2
    · rw [if_neg hgt]
      rcases ih ⟨b, st.bestMove, st.bestScore⟩ rfl hl2 with
        ⟨h1, h2, h3⟩ | ⟨pre, post, h1, h2, h3, h4, h5⟩
      · left
        refine ⟨h1, h2, ?_⟩
        intro q hq
        rcases List.mem_cons.mp hq with rfl | hq2
        · omega
        · exact h3 q hq2
      · right
        refine ⟨p :: pre, post, ?_, h2, h3, ?_, h5⟩
        · rw [List.cons_append, ← h1]
        · intro q hq
          rcases List.mem_cons.mp hq with rfl | hq2
          · simp only [] at h3
            omega
          · exact h4 q hq2

theorem getBestMove_selection (stdSort : List (Int × Point) → List (Int × Point))
    (hperm : ∀ l, (stdSort l).Perm l) (b : Board) (hnf : isFull b = false) :
    ∃ pre post,
      (getSortedCandidates stdSort b Role.BOT).1 = pre ++ (getBestMove stdSort b).1 :: post
      ∧ (∀ q ∈ pre,
          (minimax stdSort (SEARCH_DEPTH - 1) (makeMove b q Role.BOT).2 Role.USER q
            INT_MIN INT_MAX).1
          < (minimax stdSort (SEARCH_DEPTH - 1) (makeMove b (getBestMove stdSort b).1 Role.BOT).2
              Role.USER (getBestMove stdSort b).1 INT_MIN INT_MAX).1)
      ∧ (∀ q ∈ post,
          (minimax stdSort (SEARCH_DEPTH - 1) (makeMove b q Role.BOT).2 Role.USER q
            INT_MIN INT_MAX).1
          ≤ (minimax stdSort (SEARCH_DEPTH - 1) (makeMove b (getBestMove stdSort b).1 Role.BOT).2
              Role.USER (getBestMove stdSort b).1 INT_MIN INT_MAX).1) := by
  have hspec := bestLoop_spec
    (fun b1 p => minimax stdSort (SEARCH_DEPTH - 1) b1 Role.USER p INT_MIN INT_MAX)
    (fun b1 p => minimax_board stdSort _ b1 Role.USER p INT_MIN INT_MAX) b
    (getSortedCandidates stdSort b Role.BOT).1
    ⟨(getSortedCandidates stdSort b Role.BOT).2, ⟨0, 0⟩, INT_MIN⟩
    (getSortedCandidates_board stdSort b Role.BOT)
    (sortedCandidates_legal stdSort hperm b Role.BOT Role.BOT)
  have hne := sortedCandidates_ne_nil stdSort hperm b Role.BOT hnf
  simp only [getBestMove]
  rcases hspec with ⟨_, _, h3⟩ | ⟨pre, post, h1, h2, _, h4, h5⟩
  · exfalso
    cases hc : (getSortedCandidates stdSort b Role.BOT).1 with
    | nil => exact hne hc
    | cons p ps =>
      have hp := h3 p (by rw [hc]; exact List.mem_cons_self _ _)
      simp only [] at hp
      rw [minimax_full_window] at hp
      have hb := (exhaustive_bounds stdSort hperm (SEARCH_DEPTH - 1) (makeMove b p Role.BOT).2
        Role.USER p).1
      simp only [INT_MIN] at hp
      omega
  · refine ⟨pre, post, h1, ?_, ?_⟩
    · intro q hq
      have := h4 q hq
      rw [h2] at this
      exact this
    · intro q hq
      have := h5 q hq
      rw [h2] at this
      exact this

/-- C12: on a board that is not full, with a library sort that returns a permutation of
its input, the point returned by `getBestMove` occurs in the list of
`getSortedCandidates(BOT)`; every candidate before that occurrence has a strictly smaller
search score and every candidate after it a score that is not greater, so it is the
earliest candidate of maximal score. -/
theorem getBestMove_earliest_max (stdSort : List (Int × Point) → List (Int × Point))
    (hperm : ∀ l, (stdSort l).Perm l) (b : Board) (hnf : isFull b = false) :
    ∃ pre post,
      (getSortedCandidates stdSort b Role.BOT).1 = pre ++ (getBestMove stdSort b).1 :: post
      ∧ (∀ q ∈ pre,
          (minimax stdSort (SEARCH_DEPTH - 1) (makeMove b q Role.BOT).2 Role.USER q
            INT_MIN INT_MAX).1
          < (minimax stdSort (SEARCH_DEPTH - 1) (makeMove b (getBestMove stdSort b).1 Role.BOT).2
              Role.USER (getBestMove stdSort b).1 INT_MIN INT_MAX).1)
      ∧ (∀ q ∈ post,
          (minimax stdSort (SEARCH_DEPTH - 1) (makeMove b q Role.BOT).2 Role.USER q
            INT_MIN INT_MAX).1
          ≤ (minimax stdSort (SEARCH_DEPTH - 1) (makeMove b (getBestMove stdSort b).1 Role.BOT).2
              Role.USER (getBestMove stdSort b).1 INT_MIN INT_MAX).1) :=
  getBestMove_selection stdSort hperm b hnf

theorem sortDesc_perm : ∀ l, (sortDesc l).Perm l :=
  fun l => List.perm_insertionSort _ l

theorem getBestMove_earliest_max_witness :
    isFull userFour = false ∧
    ∃ pre post,
      (getSortedCandidates sortDesc userFour Role.BOT).1
        = pre ++ (getBestMove sortDesc userFour).1 :: post
      ∧ (∀ q ∈ pre,
          (minimax sortDesc (SEARCH_DEPTH - 1) (makeMove userFour q Role.BOT).2 Role.USER q
            INT_MIN INT_MAX).1
          < (minimax sortDesc (SEARCH_DEPTH - 1)
              (makeMove userFour (getBestMove sortDesc userFour).1 Role.BOT).2
              Role.USER (getBestMove sortDesc userFour).1 INT_MIN INT_MAX).1)
      ∧ (∀ q ∈ post,
          (minimax sortDesc (SEARCH_DEPTH - 1) (makeMove userFour q Role.BOT).2 Role.USER q
            INT_MIN INT_MAX).1
          ≤ (minimax sortDesc (SEARCH_DEPTH - 1)
              (makeMove userFour (getBestMove sortDesc userFour).1 Role.BOT).2
              Role.USER (getBestMove sortDesc userFour).1 INT_MIN INT_MAX).1) :=
  ⟨by decide, getBestMove_earliest_max sortDesc sortDesc_perm userFour (by decide)⟩

theorem getBestMove_mem (stdSort : List (Int × Point) → List (Int × Point))
    (hperm : ∀ l, (stdSort l).Perm l) (b : Board) (hnf : isFull b = false) :
    (getBestMove stdSort b).1 ∈ getCandidates b := by
  obtain ⟨pre, post, h1, _, _⟩ := getBestMove_selection stdSort hperm b hnf
  apply (getSortedCandidates_perm stdSort hperm b Role.BOT).mem_iff.mp
  rw [h1]
  exact List.mem_append_right _ (List.mem_cons_self _ _)

/-- C14: on a board that is not full, with a library sort that returns a permutation of
its input, the point returned by `getBestMove` is a member of `getCandidates()`, is in
range, its cell is `EMPTY` on the input board, and `makeMove` with `BOT` at that point on
the board left by `getBestMove` succeeds. -/
theorem getBestMove_legal (stdSort : List (Int × Point) → List (Int × Point))
    (hperm : ∀ l, (stdSort l).Perm l) (b : Board) (hnf : isFull b = false) :
    (getBestMove stdSort b).1 ∈ getCandidates b
    ∧ isRangeValidP (getBestMove stdSort b).1 = true
    ∧ getCell b (getBestMove stdSort b).1 = Role.EMPTY
    ∧ (makeMove (getBestMove stdSort b).2 (getBestMove stdSort b).1 Role.BOT).1 = true := by
  have hm := getBestMove_mem stdSort hperm b hnf
  have he := getCandidates_empty_cells b _ hm
  refine ⟨hm, getCandidates_valid b _ hm, he, ?_⟩
  rw [getBestMove_board, makeMove_fst, isCellEmpty_iff]
  exact he

theorem getBestMove_legal_witness :
    isFull userFour = false
    ∧ (getBestMove sortDesc userFour).1 ∈ getCandidates userFour
    ∧ isRangeValidP (getBestMove sortDesc userFour).1 = true
    ∧ getCell userFour (getBestMove sortDesc userFour).1 = Role.EMPTY
    ∧ (makeMove (getBestMove sortDesc userFour).2 (getBestMove sortDesc userFour).1
        Role.BOT).1 = true :=
  ⟨by decide, getBestMove_legal sortDesc sortDesc_perm userFour (by decide)⟩

/-! ## The lines scanned by the whole-board evaluation -/

theorem getActualLengthLoop_spec (b : Board) (l : LineView) :
    ∀ (fuel : Nat) (count : Int) (p : Point),
      (∀ j : Nat, (j : Int) < getActualLengthLoop b l fuel count p - count →
        isRangeValidP ⟨p.x + l.dir.x * j, p.y + l.dir.y * j⟩ = true)
      ∧ (getActualLengthLoop b l fuel count p - count < fuel →
          getActualLengthLoop b l fuel count p < l.length →
          isRangeValidP ⟨p.x + l.dir.x * (getActualLengthLoop b l fuel count p - count),
            p.y + l.dir.y * (getActualLengthLoop b l fuel count p - count)⟩ = false) := by
  intro fuel
  induction fuel with
  | zero =>
    intro count p
    simp only [getActualLengthLoop, sub_self]
    exact ⟨fun j hj => by omega, fun h _ => by simp at h⟩
  | succ n ih =>
    intro count p
    by_cases hv : isRangeValidP p = true
    · by_cases hcap : count + 1 ≥ l.length
      · simp only [getActualLengthLoop, hv, Bool.or_true, if_true, Bool.not_true,
          Bool.false_eq_true, if_false, hcap]
        refine ⟨?_, fun _ h => by omega⟩
        intro j hj
        have hj0 : j = 0 := by omega
        subst hj0
        simpa using hv
      · simp only [getActualLengthLoop, hv, Bool.or_true, if_true, Bool.not_true,
          Bool.false_eq_true, if_false, hcap]
        obtain ⟨I1, I2⟩ := ih (count + 1) ⟨p.x + l.dir.x, p.y + l.dir.y⟩
        have hge := getActualLengthLoop_ge b l n (count + 1) ⟨p.x + l.dir.x, p.y + l.dir.y⟩
        generalize getActualLengthLoop b l n (count + 1) ⟨p.x + l.dir.x, p.y + l.dir.y⟩ = r at *
        constructor
        · intro j hj
          cases j with
          | zero => simpa using hv
          | succ j =>
            have h := I1 j (by push_cast at hj; omega)
            simp only [] at h
            have e1 : p.x + l.dir.x * (((j + 1 : Nat)) : Int) = p.x + l.dir.x + l.dir.x * j := by
              push_cast; ring
            have e2 : p.y + l.dir.y * (((j + 1 : Nat)) : Int) = p.y + l.dir.y + l.dir.y * j := by
              push_cast; ring
            rw [e1, e2]
            exact h
        · intro h1 h2
          have h := I2 (by push_cast at h1; omega) h2
          simp only [] at h
          have e1 : p.x + l.dir.x * (r - count) = p.x + l.dir.x + l.dir.x * (r - (count + 1)) := by
            ring
          have e2 : p.y + l.dir.y * (r - count) = p.y + l.dir.y + l.dir.y * (r - (count + 1)) := by
            ring
          rw [e1, e2]
          exact h
    · have hv2 : isRangeValidP p = false := by simpa using hv
      simp only [getActualLengthLoop, hv2, getCell_of_not_valid b p hv2, Bool.or_false,
        bne_self_eq_false, Bool.and_false, Bool.false_eq_true, if_false, sub_self]
      refine ⟨fun j hj => by omega, fun _ _ => ?_⟩
      simpa using hv2

theorem mem_evaluateLines (l : LineView) :
    l ∈ evaluateLines ↔
      l.length = INT_MAX ∧
      ((l.dir = ⟨0, 1⟩ ∧ l.start.y = 0 ∧ 0 ≤ l.start.x ∧ l.start.x < 15)
      ∨ (l.dir = ⟨1, 0⟩ ∧ l.start.x = 0 ∧ 0 ≤ l.start.y ∧ l.start.y < 15)
      ∨ (l.dir = ⟨1, 1⟩ ∧ l.start.y = 0 ∧ 0 ≤ l.start.x ∧ l.start.x < 15)
      ∨ (l.dir = ⟨1, 1⟩ ∧ l.start.x = 0 ∧ 1 ≤ l.start.y ∧ l.start.y < 15)
      ∨ (l.dir = ⟨1, -1⟩ ∧ l.start.y = 14 ∧ 0 ≤ l.start.x ∧ l.start.x < 15)
      ∨ (l.dir = ⟨1, -1⟩ ∧ l.start.x = 0 ∧ 0 ≤ l.start.y ∧ l.start.y < 14)) := by
  simp only [evaluateLines, List.mem_append, List.mem_map, List.mem_range]
  constructor
  · rintro (((((h | h) | h) | h) | h) | h) <;> obtain ⟨i, hi, rfl⟩ := h <;>
      refine ⟨rfl, ?_⟩ <;> simp [BOARD_SIZE] <;> omega
  · rintro ⟨hlen, h⟩
    obtain ⟨⟨sx, sy⟩, d, len⟩ := l
    simp only [] at hlen h
    subst hlen
    rcases h with h | h | h | h | h | h <;> obtain ⟨rfl, h1, h2, h3⟩ := h
    · subst h1
      refine Or.inl (Or.inl (Or.inl (Or.inl (Or.inl ⟨sx.toNat, ?_, ?_⟩))))
      · omega
      · simp only [LineView.mk.injEq, Point.mk.injEq, and_true, true_and]; omega
    · subst h1
      refine Or.inl (Or.inl (Or.inl (Or.inl (Or.inr ⟨sy.toNat, ?_, ?_⟩))))
      · omega
      · simp only [LineView.mk.injEq, Point.mk.injEq, and_true, true_and]; omega
    · subst h1
      refine Or.inl (Or.inl (Or.inl (Or.inr ⟨sx.toNat, ?_, ?_⟩)))
      · omega
      · simp only [LineView.mk.injEq, Point.mk.injEq, and_true, true_and]; omega
    · subst h1
      refine Or.inl (Or.inl (Or.inr ⟨(sy - 1).toNat, ?_, ?_⟩))
      · omega
      · simp only [LineView.mk.injEq, Point.mk.injEq, and_true, true_and]; omega
    · subst h1
      refine Or.inl (Or.inr ⟨sx.toNat, ?_, ?_⟩)
      · omega
      · simp only [LineView.mk.injEq, Point.mk.injEq, and_true, true_and, BOARD_SIZE]; omega
    · subst h1
      refine Or.inr ⟨sy.toNat, ?_, ?_⟩
      · omega
      · simp only [LineView.mk.injEq, Point.mk.injEq, and_true, true_and]; omega

theorem evaluateLine_span (b : Board) (l : LineView) (hl : l ∈ evaluateLines) :
    0 ≤ getActualLength b l ∧ getActualLength b l ≤ 15
    ∧ (∀ j : Int, 0 ≤ j → j < getActualLength b l → isRangeValidP (l.point j) = true)
    ∧ isRangeValidP (l.point (getActualLength b l)) = false := by
  have hb := getActualLength_bounds b l hl
  have hlen := ((mem_evaluateLines l).mp hl).1
  obtain ⟨S1, S2⟩ := getActualLengthLoop_spec b l (l.length.toNat + 1) 0 l.start
  have hn : getActualLengthLoop b l (l.length.toNat + 1) 0 l.start = getActualLength b l := rfl
  rw [hn] at S1 S2
  simp only [sub_zero] at S1 S2
  refine ⟨hb.1, hb.2, ?_, ?_⟩
  · intro j hj0 hj
    have h := S1 j.toNat (by omega)
    have e : ((j.toNat : Nat) : Int) = j := by omega
    rw [e] at h
    exact h
  · apply S2
    · rw [hlen]
      simp only [INT_MAX]
      omega
    · rw [hlen]
      simp only [INT_MAX]
      omega

theorem evaluateLine_starts_at_edge (l : LineView) (hl : l ∈ evaluateLines) :
    isRangeValidP l.start = true ∧ isRangeValidP (l.point (-1)) = false := by
  obtain ⟨_, h⟩ := (mem_evaluateLines l).mp hl
  obtain ⟨⟨sx, sy⟩, d, len⟩ := l
  simp only [] at h
  have hf : ∀ q : Point, ¬ (0 ≤ q.x ∧ q.x < 15 ∧ 0 ≤ q.y ∧ q.y < 15) → isRangeValidP q = false := by
    intro q hq
    cases hv : isRangeValidP q
    · rfl
    · exact absurd ((isRangeValidP_iff q).mp hv) hq
  rcases h with h | h | h | h | h | h <;> obtain ⟨rfl, h1, h2, h3⟩ := h <;>
    refine ⟨(isRangeValidP_iff _).mpr ⟨by simp only []; omega, by simp only []; omega,
      by simp only []; omega, by simp only []; omega⟩, hf _ ?_⟩ <;>
    simp only [LineView.point] <;> omega

theorem evaluateLines_cover_exists (b : Board) (p : Point) (hp : isRangeValidP p = true)
    (d : Point) (hd : d ∈ [(⟨0, 1⟩ : Point), ⟨1, 0⟩, ⟨1, 1⟩, ⟨1, -1⟩]) :
    ∃ l ∈ evaluateLines, l.dir = d ∧
      ∃ k : Int, 0 ≤ k ∧ k < getActualLength b l ∧ l.point k = p := by
  have hr := (isRangeValidP_iff p).mp hp
  obtain ⟨px, py⟩ := p
  simp only [] at hr
  have key : ∀ (l : LineView) (k : Int), l ∈ evaluateLines → 0 ≤ k → l.point k = ⟨px, py⟩ →
      (∀ n : Int, 0 ≤ n → n ≤ k → isRangeValidP (l.point n) = true) →
      k < getActualLength b l := by
    intro l k hl hk _ hconv
    obtain ⟨h0, _, _, hend⟩ := evaluateLine_span b l hl
    by_contra hlt
    have := hconv (getActualLength b l) h0 (by omega)
    rw [hend] at this
    exact Bool.noConfusion this
  simp only [List.mem_cons, List.mem_singleton, List.not_mem_nil, or_false] at hd
  rcases hd with rfl | rfl | rfl | rfl
  · refine ⟨⟨⟨px, 0⟩, ⟨0, 1⟩, INT_MAX⟩, ?_, rfl, py, hr.2.2.1, ?_, ?_⟩
    · exact (mem_evaluateLines _).mpr ⟨rfl, Or.inl ⟨rfl, rfl, hr.1, hr.2.1⟩⟩
    · apply key _ _ ((mem_evaluateLines _).mpr ⟨rfl, Or.inl ⟨rfl, rfl, hr.1, hr.2.1⟩⟩) hr.2.2.1
      · simp [LineView.point]
      · intro n hn0 hnk
        rw [isRangeValidP_iff]
        simp only [LineView.point]
        omega
    · simp [LineView.point]
  · refine ⟨⟨⟨0, py⟩, ⟨1, 0⟩, INT_MAX⟩, ?_, rfl, px, hr.1, ?_, ?_⟩
    · exact (mem_evaluateLines _).mpr ⟨rfl, Or.inr (Or.inl ⟨rfl, rfl, hr.2.2.1, hr.2.2.2⟩)⟩
    · apply key _ _ ((mem_evaluateLines _).mpr
        ⟨rfl, Or.inr (Or.inl ⟨rfl, rfl, hr.2.2.1, hr.2.2.2⟩)⟩) hr.1
      · simp [LineView.point]
      · intro n hn0 hnk
        rw [isRangeValidP_iff]
        simp only [LineView.point]
        omega
    · simp [LineView.point]
  · by_cases hxy : py ≤ px
    · have hm : (⟨⟨px - py, 0⟩, ⟨1, 1⟩, INT_MAX⟩ : LineView) ∈ evaluateLines :=
        (mem_evaluateLines _).mpr ⟨rfl, Or.inr (Or.inr (Or.inl
          ⟨rfl, rfl, by simp only []; omega, by simp only []; omega⟩))⟩
      refine ⟨_, hm, rfl, py, hr.2.2.1, ?_, ?_⟩
      · apply key _ _ hm hr.2.2.1
        · simp [LineView.point]
        · intro n hn0 hnk
          rw [isRangeValidP_iff]
          simp only [LineView.point]
          omega
      · simp [LineView.point]
    · have hm : (⟨⟨0, py - px⟩, ⟨1, 1⟩, INT_MAX⟩ : LineView) ∈ evaluateLines :=
        (mem_evaluateLines _).mpr ⟨rfl, Or.inr (Or.inr (Or.inr (Or.inl
          ⟨rfl, rfl, by simp only []; omega, by simp only []; omega⟩)))⟩
      refine ⟨_, hm, rfl, px, hr.1, ?_, ?_⟩
      · apply key _ _ hm hr.1
        · simp [LineView.point]
        · intro n hn0 hnk
          rw [isRangeValidP_iff]
          simp only [LineView.point]
          omega
      · simp [LineView.point]
  · by_cases hxy : 14 ≤ px + py
    · have hm : (⟨⟨px + py - 14, 14⟩, ⟨1, -1⟩, INT_MAX⟩ : LineView) ∈ evaluateLines :=
        (mem_evaluateLines _).mpr ⟨rfl, Or.inr (Or.inr (Or.inr (Or.inr (Or.inl
          ⟨rfl, rfl, by simp only []; omega, by simp only []; omega⟩))))⟩
      refine ⟨_, hm, rfl, 14 - py, by omega, ?_, ?_⟩
      · apply key _ _ hm (by omega)
        · simp only [LineView.point, Point.mk.injEq]
          omega
        · intro n hn0 hnk
          rw [isRangeValidP_iff]
          simp only [LineView.point]
          omega
      · simp only [LineView.point, Point.mk.injEq]
        omega
    · have hm : (⟨⟨0, px + py⟩, ⟨1, -1⟩, INT_MAX⟩ : LineView) ∈ evaluateLines :=
        (mem_evaluateLines _).mpr ⟨rfl, Or.inr (Or.inr (Or.inr (Or.inr (Or.inr
          ⟨rfl, rfl, by simp only []; omega, by simp only []; omega⟩))))⟩
      refine ⟨_, hm, rfl, px, hr.1, ?_, ?_⟩
      · apply key _ _ hm hr.1
        · simp only [LineView.point, Point.mk.injEq]
          omega
        · intro n hn0 hnk
          rw [isRangeValidP_iff]
          simp only [LineView.point]
          omega
      · simp only [LineView.point, Point.mk.injEq]
        omega

theorem evaluateLines_cover_unique (l1 l2 : LineView) (k1 k2 : Int)
    (h1 : l1 ∈ evaluateLines) (h2 : l2 ∈ evaluateLines) (hd : l1.dir = l2.dir)
    (hp : l1.point k1 = l2.point k2) :
    l1 = l2 ∧ k1 = k2 := by
  obtain ⟨e1, g1⟩ := (mem_evaluateLines l1).mp h1
  obtain ⟨e2, g2⟩ := (mem_evaluateLines l2).mp h2
  obtain ⟨⟨sx1, sy1⟩, ⟨dx1, dy1⟩, len1⟩ := l1
  obtain ⟨⟨sx2, sy2⟩, ⟨dx2, dy2⟩, len2⟩ := l2
  simp only [LineView.point, Point.mk.injEq] at e1 e2 g1 g2 hd hp ⊢
  simp only [LineView.mk.injEq, Point.mk.injEq]
  obtain ⟨hdx, hdy⟩ := hd
  subst hdx; subst hdy; subst e1; subst e2
  obtain ⟨hp1, hp2⟩ := hp
  rcases g1 with g | g | g | g | g | g <;> obtain ⟨⟨rfl, rfl⟩, a1, a2, a3⟩ := g <;>
    rcases g2 with g | g | g | g | g | g <;> obtain ⟨⟨c1, c2⟩, c3, c4, c5⟩ := g <;>
    first
    | (exfalso; omega)
    | (refine ⟨⟨⟨?_, ?_⟩, ⟨?_, ?_⟩, ?_⟩, ?_⟩ <;> first | rfl | omega)

/-- C19: the lines scanned by `evaluate` are 15 lines of direction (0,1), 15 of direction
(1,0), 29 of direction (1,1) and 29 of direction (1,-1), no line occurs twice, every line
starts on the grid at an edge (the cell before its start is off the grid) and its actual
length runs to the opposite edge (all its cells are on the grid, the next one is not), and
every in-range cell is a cell of exactly one scanned line for each of the four directions,
at exactly one index. -/
theorem evaluate_line_coverage (b : Board) :
    ((evaluateLines.filter fun l => decide (l.dir = ⟨0, 1⟩)).length = 15
      ∧ (evaluateLines.filter fun l => decide (l.dir = ⟨1, 0⟩)).length = 15
      ∧ (evaluateLines.filter fun l => decide (l.dir = ⟨1, 1⟩)).length = 29
      ∧ (evaluateLines.filter fun l => decide (l.dir = ⟨1, -1⟩)).length = 29
      ∧ evaluateLines.length = 88)
    ∧ evaluateLines.Nodup
    ∧ (∀ l ∈ evaluateLines,
        isRangeValidP l.start = true ∧ isRangeValidP (l.point (-1)) = false
        ∧ (∀ j : Int, 0 ≤ j → j < getActualLength b l → isRangeValidP (l.point j) = true)
        ∧ isRangeValidP (l.point (getActualLength b l)) = false)
    ∧ (∀ p : Point, isRangeValidP p = true →
        ∀ d ∈ [(⟨0, 1⟩ : Point), ⟨1, 0⟩, ⟨1, 1⟩, ⟨1, -1⟩],
          ∃ l ∈ evaluateLines, l.dir = d ∧
            ∃ k : Int, 0 ≤ k ∧ k < getActualLength b l ∧ l.point k = p
              ∧ ∀ l2 ∈ evaluateLines, ∀ k2 : Int, l2.dir = d → 0 ≤ k2 →
                  k2 < getActualLength b l2 → l2.point k2 = p → l2 = l ∧ k2 = k) := by
  refine ⟨by decide, by decide, ?_, ?_⟩
  · intro l hl
    obtain ⟨h1, h2⟩ := evaluateLine_starts_at_edge l hl
    obtain ⟨_, _, h3, h4⟩ := evaluateLine_span b l hl
    exact ⟨h1, h2, h3, h4⟩
  · intro p hp d hd
    obtain ⟨l, hl, hdir, k, hk0, hk, hpt⟩ := evaluateLines_cover_exists b p hp d hd
    refine ⟨l, hl, hdir, k, hk0, hk, hpt, ?_⟩
    intro l2 hl2 k2 hd2 _ _ hp2
    exact evaluateLines_cover_unique l2 l k2 k hl2 hl (by rw [hd2, hdir]) (by rw [hp2, hpt])

/-! ## Group scoring of the line scanner -/

theorem analyzeLineLoop_skip (cellAt : Int → Role) (role : Role) (length : Int) :
    ∀ (n fuel : Nat) (i score : Int),
      (∀ j : Int, i ≤ j → j < i + n → cellAt j ≠ role) → i + n ≤ length →
      analyzeLineLoop cellAt role length (fuel + n) i score
        = analyzeLineLoop cellAt role length fuel (i + n) score := by
  intro n
  induction n with
  | zero => intro fuel i score _ _; simp
  | succ n ih =>
    intro fuel i score h hle
    have hi : cellAt i ≠ role := h i (le_refl _) (by push_cast; omega)
    have hlt : i < length := by push_cast at hle; omega
    have e : fuel + (n + 1) = (fuel + n) + 1 := by omega
    rw [e]
    simp only [analyzeLineLoop, hlt, if_true, beq_iff_eq, hi, if_false]
    rw [ih fuel (i + 1) score (fun j h1 h2 => h j (by omega) (by push_cast; omega))
      (by push_cast at hle ⊢; omega)]
    congr 1
    push_cast
    ring

theorem analyzeLineLoop_rest (cellAt : Int → Role) (role : Role) (length : Int) :
    ∀ (fuel : Nat) (i score : Int),
      (∀ j : Int, i ≤ j → j < length → cellAt j ≠ role) →
      analyzeLineLoop cellAt role length fuel i score = score := by
  intro fuel
  induction fuel with
  | zero => intro i score _; rfl
  | succ n ih =>
    intro i score h
    simp only [analyzeLineLoop]
    by_cases hlt : i < length
    · have hi : cellAt i ≠ role := h i (le_refl _) hlt
      simp only [hlt, if_true, beq_iff_eq, hi, if_false]
      exact ih (i + 1) score (fun j h1 h2 => h j (by omega) h2)
    · simp only [hlt, if_false]

theorem countRun_run (cellAt : Int → Role) (role : Role) (length : Int) :
    ∀ (n fuel : Nat) (i c : Int), n ≤ fuel →
      (∀ j : Int, i ≤ j → j < i + n → cellAt j = role) → i + n ≤ length →
      (i + n < length → cellAt (i + n) ≠ role) →
      countRun cellAt role length fuel i c = (i + n, c + n) := by
  intro n
  induction n with
  | zero =>
    intro fuel i c _ _ _ hstop
    simp only [Nat.cast_zero, add_zero] at hstop ⊢
    cases fuel with
    | zero => rfl
    | succ f =>
      simp only [countRun]
      by_cases hlt : i < length
      · simp [hlt, hstop hlt]
      · simp [hlt]
  | succ n ih =>
    intro fuel i c hf h hle hstop
    cases fuel with
    | zero => omega
    | succ f =>
      have hi : cellAt i = role := h i (le_refl _) (by push_cast; omega)
      have hlt : i < length := by push_cast at hle; omega
      simp only [countRun, hlt, hi, decide_True, beq_self_eq_true, Bool.and_self, if_true]
      rw [ih f (i + 1) (c + 1) (by omega) (fun j h1 h2 => h j (by omega) (by push_cast; omega))
        (by push_cast at hle ⊢; omega)
        (by
          intro h1
          have e : i + 1 + (n : Int) = i + ((n + 1 : Nat) : Int) := by push_cast; ring
          rw [e]
          exact hstop (by rw [← e]; exact h1))]
      congr 1 <;> (push_cast; ring)

theorem scanGroup_single (cellAt : Int → Role) (role : Role) (length : Int) (s k : Nat)
    (hk : 1 ≤ k) (hle : (s : Int) + k ≤ length)
    (hrun : ∀ j : Int, (s : Int) ≤ j → j < s + k → cellAt j = role)
    (hother : ∀ j : Int, (s : Int) + k ≤ j → j < length → cellAt j ≠ role) :
    scanGroup cellAt role length s
      = ((s : Int) + k, analyzeShape k
          (decide ((s : Int) > 0) && (cellAt ((s : Int) - 1) == Role.EMPTY))
          (decide ((s : Int) + k < length) && (cellAt ((s : Int) + k) == Role.EMPTY)) false) := by
  have h1 : countRun cellAt role length (length - (s : Int)).toNat s 0 = ((s : Int) + k, (k : Int)) := by
    have := countRun_run cellAt role length k (length - (s : Int)).toNat s 0 (by omega) hrun hle
      (fun h => hother _ (le_refl _) h)
    simpa using this
  have hgap : (decide ((s : Int) + k < length) && (cellAt ((s : Int) + k) == Role.EMPTY)
      && decide ((s : Int) + k + 1 < length) && (cellAt ((s : Int) + k + 1) == role)) = false := by
    by_cases h2 : (s : Int) + k + 1 < length
    · have := hother ((s : Int) + k + 1) (by omega) h2
      simp [this]
    · simp [h2]
  simp only [scanGroup, h1, hgap, Bool.false_eq_true, if_false]

theorem scanGroup_gapped (cellAt : Int → Role) (role : Role) (length : Int) (s a c : Nat)
    (ha : 1 ≤ a) (hc : 1 ≤ c) (hle : (s : Int) + a + 1 + c ≤ length)
    (hrun1 : ∀ j : Int, (s : Int) ≤ j → j < s + a → cellAt j = role)
    (hgap : cellAt ((s : Int) + a) = Role.EMPTY) (hne : role ≠ Role.EMPTY)
    (hrun2 : ∀ j : Int, (s : Int) + a + 1 ≤ j → j < s + a + 1 + c → cellAt j = role)
    (hother : ∀ j : Int, (s : Int) + a + 1 + c ≤ j → j < length → cellAt j ≠ role) :
    scanGroup cellAt role length s
      = ((s : Int) + a + 1 + c, analyzeShape ((a : Int) + c)
          (decide ((s : Int) > 0) && (cellAt ((s : Int) - 1) == Role.EMPTY))
          (decide ((s : Int) + a + 1 + c < length)
            && (cellAt ((s : Int) + a + 1 + c) == Role.EMPTY)) true) := by
  have h1 : countRun cellAt role length (length - (s : Int)).toNat s 0 = ((s : Int) + a, (a : Int)) := by
    have := countRun_run cellAt role length a (length - (s : Int)).toNat s 0 (by omega) hrun1
      (by omega) (fun _ => by rw [hgap]; exact fun e => hne e.symm)
    simpa using this
  have h2 : countRun cellAt role length (length - ((s : Int) + a + 1)).toNat ((s : Int) + a + 1) a
      = ((s : Int) + a + 1 + c, (a : Int) + c) :=
    countRun_run cellAt role length c (length - ((s : Int) + a + 1)).toNat ((s : Int) + a + 1) a
      (by omega) hrun2 hle (fun h => hother _ (le_refl _) h)
  have hg : (decide ((s : Int) + a < length) && (cellAt ((s : Int) + a) == Role.EMPTY)
      && decide ((s : Int) + a + 1 < length) && (cellAt ((s : Int) + a + 1) == role)) = true := by
    have e1 : (s : Int) + a < length := by omega
    have e2 : (s : Int) + a + 1 < length := by omega
    have e3 := hrun2 ((s : Int) + a + 1) (le_refl _) (by omega)
    simp [e1, e2, e3, hgap]
  simp only [scanGroup, h1, hg, if_true, h2]

theorem analyzeLineLoop_one_group (cellAt : Int → Role) (role : Role) (length : Int)
    (s : Nat) (e v : Int) (hs : (s : Int) < length) (hrole : cellAt s = role)
    (hg : scanGroup cellAt role length s = (e, v))
    (hbefore : ∀ j : Int, 0 ≤ j → j < s → cellAt j ≠ role)
    (hafter : ∀ j : Int, e ≤ j → j < length → cellAt j ≠ role) :
    analyzeLineLoop cellAt role length length.toNat 0 0 = v := by
  have hf : length.toNat = (length.toNat - s - 1 + 1) + s := by omega
  rw [hf, analyzeLineLoop_skip cellAt role length s _ 0 0
    (fun j h1 h2 => hbefore j h1 (by omega)) (by omega)]
  simp only [analyzeLineLoop, zero_add, hs, if_true, hrole, beq_self_eq_true, hg]
  exact analyzeLineLoop_rest cellAt role length _ e v hafter

theorem analyzeLine_single_run (b : Board) (line : LineView) (role : Role) (s k : Nat)
    (hk : 1 ≤ k) (hle : (s : Int) + k ≤ getActualLength b line)
    (hrun : ∀ j : Int, (s : Int) ≤ j → j < s + k → line.at b j = role)
    (hother : ∀ j : Int, 0 ≤ j → j < getActualLength b line → (j < s ∨ (s : Int) + k ≤ j) →
      line.at b j ≠ role) :
    analyzeLine b line role
      = analyzeShape k
          (decide ((s : Int) > 0) && (line.at b ((s : Int) - 1) == Role.EMPTY))
          (decide ((s : Int) + k < getActualLength b line)
            && (line.at b ((s : Int) + k) == Role.EMPTY)) false := by
  simp only [analyzeLine]
  exact analyzeLineLoop_one_group (line.at b) role (getActualLength b line) s _ _ (by omega)
    (hrun s (le_refl _) (by omega))
    (scanGroup_single (line.at b) role (getActualLength b line) s k hk hle hrun
      (fun j h1 h2 => hother j (by omega) h2 (Or.inr h1)))
    (fun j h1 h2 => hother j h1 (by omega) (Or.inl h2))
    (fun j h1 h2 => hother j (by omega) h2 (Or.inr h1))

theorem analyzeLine_gapped_run (b : Board) (line : LineView) (role : Role) (s a c : Nat)
    (hne : role ≠ Role.EMPTY) (ha : 1 ≤ a) (hc : 1 ≤ c)
    (hle : (s : Int) + a + 1 + c ≤ getActualLength b line)
    (hrun1 : ∀ j : Int, (s : Int) ≤ j → j < s + a → line.at b j = role)
    (hgap : line.at b ((s : Int) + a) = Role.EMPTY)
    (hrun2 : ∀ j : Int, (s : Int) + a + 1 ≤ j → j < s + a + 1 + c → line.at b j = role)
    (hother : ∀ j : Int, 0 ≤ j → j < getActualLength b line →
      (j < s ∨ (s : Int) + a + 1 + c ≤ j) → line.at b j ≠ role) :
    analyzeLine b line role
      = analyzeShape ((a : Int) + c)
          (decide ((s : Int) > 0) && (line.at b ((s : Int) - 1) == Role.EMPTY))
          (decide ((s : Int) + a + 1 + c < getActualLength b line)
            && (line.at b ((s : Int) + a + 1 + c) == Role.EMPTY)) true := by
  simp only [analyzeLine]
  exact analyzeLineLoop_one_group (line.at b) role (getActualLength b line) s _ _ (by omega)
    (hrun1 s (le_refl _) (by omega))
    (scanGroup_gapped (line.at b) role (getActualLength b line) s a c ha hc hle hrun1 hgap hne
      hrun2 (fun j h1 h2 => hother j (by omega) h2 (Or.inr h1)))
    (fun j h1 h2 => hother j h1 (by omega) (Or.inl h2))
    (fun j h1 h2 => hother j (by omega) h2 (Or.inr h1))

/-- C18: for a line whose stones of `role` form one group, `analyzeLine` returns the shape
score of that group.  For a single maximal run of `k` stones at the indices `s` to
`s + k - 1` it is `analyzeShape(k, leftOpen, rightOpen, false)`; for two maximal runs of
`a` and `c` stones separated by one `EMPTY` cell it is
`analyzeShape(a + c, leftOpen, rightOpen, true)`.  In both cases `leftOpen` holds iff the
group does not start at index 0 and the cell before it is `EMPTY`, and `rightOpen` holds
iff the group does not end at the last index and the cell after it is `EMPTY`. -/
theorem analyzeLine_one_group (b : Board) (line : LineView) (role : Role)
    (hs : role = Role.USER ∨ role = Role.BOT) :
    (∀ s k : Nat, 1 ≤ k → (s : Int) + k ≤ getActualLength b line →
      (∀ j : Int, (s : Int) ≤ j → j < s + k → line.at b j = role) →
      (∀ j : Int, 0 ≤ j → j < getActualLength b line → (j < s ∨ (s : Int) + k ≤ j) →
        line.at b j ≠ role) →
      analyzeLine b line role
        = analyzeShape k
            (decide ((s : Int) > 0) && (line.at b ((s : Int) - 1) == Role.EMPTY))
            (decide ((s : Int) + k < getActualLength b line)
              && (line.at b ((s : Int) + k) == Role.EMPTY)) false)
    ∧ (∀ s a c : Nat, 1 ≤ a → 1 ≤ c → (s : Int) + a + 1 + c ≤ getActualLength b line →
      (∀ j : Int, (s : Int) ≤ j → j < s + a → line.at b j = role) →
      line.at b ((s : Int) + a) = Role.EMPTY →
      (∀ j : Int, (s : Int) + a + 1 ≤ j → j < s + a + 1 + c → line.at b j = role) →
      (∀ j : Int, 0 ≤ j → j < getActualLength b line →
        (j < s ∨ (s : Int) + a + 1 + c ≤ j) → line.at b j ≠ role) →
      analyzeLine b line role
        = analyzeShape ((a : Int) + c)
            (decide ((s : Int) > 0) && (line.at b ((s : Int) - 1) == Role.EMPTY))
            (decide ((s : Int) + a + 1 + c < getActualLength b line)
              && (line.at b ((s : Int) + a + 1 + c) == Role.EMPTY)) true) := by
  have hne : role ≠ Role.EMPTY := by
    rcases hs with h | h <;> rw [h] <;> decide
  exact ⟨fun s k hk hle hrun hother => analyzeLine_single_run b line role s k hk hle hrun hother,
    fun s a c ha hc hle hrun1 hgap hrun2 hother =>
      analyzeLine_gapped_run b line role s a c hne ha hc hle hrun1 hgap hrun2 hother⟩

theorem analyzeLine_one_group_witness :
    analyzeLine userFour rowSevenWindow Role.USER = 100000
    ∧ analyzeLine userGapped rowSevenWindow Role.USER = 7200 := by
  have hL1 : getActualLength userFour rowSevenWindow = 9 := by decide
  have hL2 : getActualLength userGapped rowSevenWindow = 9 := by decide
  constructor
  · have h := (analyzeLine_one_group userFour rowSevenWindow Role.USER (Or.inl rfl)).1 4 4
      (by decide) (by rw [hL1]; decide)
      (by intro j h1 h2; have : j = 4 ∨ j = 5 ∨ j = 6 ∨ j = 7 := by omega
          rcases this with rfl | rfl | rfl | rfl <;> decide)
      (by intro j h1 h2 h3; rw [hL1] at h2
          have : j = 0 ∨ j = 1 ∨ j = 2 ∨ j = 3 ∨ j = 8 := by omega
          rcases this with rfl | rfl | rfl | rfl | rfl <;> decide)
    rw [h, hL1]
    decide
  · have h := (analyzeLine_one_group userGapped rowSevenWindow Role.USER (Or.inl rfl)).2 4 2 1
      (by decide) (by decide) (by rw [hL2]; decide)
      (by intro j h1 h2; have : j = 4 ∨ j = 5 := by omega
          rcases this with rfl | rfl <;> decide)
      (by decide)
      (by intro j h1 h2; have : j = 7 := by omega
          subst this; decide)
      (by intro j h1 h2 h3; rw [hL2] at h2
          have : j = 0 ∨ j = 1 ∨ j = 2 ∨ j = 3 ∨ j = 8 := by omega
          rcases this with rfl | rfl | rfl | rfl | rfl <;> decide)
    rw [h, hL2]
    decide

/-! ## The defence weighting is exact -/

theorem bitLengthAux_spec :
    ∀ (fuel n : Nat), n < 2 ^ fuel → n ≠ 0 →
      1 ≤ bitLengthAux fuel n ∧ 2 ^ (bitLengthAux fuel n - 1) ≤ n
        ∧ n < 2 ^ bitLengthAux fuel n := by
  intro fuel
  induction fuel with
  | zero =>
    intro n h hn
    simp at h
    exact absurd h hn
  | succ f ih =>
    intro n h hn
    simp only [bitLengthAux, hn, if_false]
    by_cases h2 : n / 2 = 0
    · have h1 : n = 1 := by omega
      subst h1
      cases f <;> simp [bitLengthAux]
    · have hlt : n / 2 < 2 ^ f := by
        rw [pow_succ] at h
        omega
      obtain ⟨I1, I2, I3⟩ := ih (n / 2) hlt h2
      refine ⟨by omega, ?_, ?_⟩
      · have e : bitLengthAux f (n / 2) + 1 - 1 = (bitLengthAux f (n / 2) - 1) + 1 := by omega
        rw [e, pow_succ]
        omega
      · rw [pow_succ]
        omega

theorem bitLength_eq (n t : Nat) (h1 : 2 ^ t ≤ n) (h2 : n < 2 ^ (t + 1)) :
    bitLength n = t + 1 := by
  have hn : n ≠ 0 := by
    have := Nat.two_pow_pos t
    omega
  obtain ⟨B1, B2, B3⟩ := bitLengthAux_spec n n (Nat.lt_two_pow n) hn
  unfold bitLength
  generalize bitLengthAux n n = u at *
  have a1 : t < u := by
    by_contra hc
    have := Nat.pow_le_pow_right (by decide : 0 < 2) (by omega : u ≤ t)
    omega
  have a2 : u - 1 < t + 1 := by
    by_contra hc
    have := Nat.pow_le_pow_right (by decide : 0 < 2) (by omega : t + 1 ≤ u - 1)
    omega
  omega

theorem three_not_dvd_two_pow (e : Nat) : ¬ 3 ∣ 2 ^ e := by
  intro h
  have := (Nat.Prime.dvd_of_dvd_pow Nat.prime_three h)
  omega

theorem doubleTimes12Trunc_multiple_of_five (k : Nat) (hk : 6 * k < 2 ^ 32) :
    doubleTimes12Trunc (5 * k) = 6 * k := by
  by_cases hk0 : k = 0
  · subst hk0
    decide
  have h6 : 6 * k ≠ 0 := by omega
  generalize he : Nat.log2 (6 * k) = e
  have hP1 : 2 ^ e ≤ 6 * k := by rw [← he]; exact Nat.log2_self_le h6
  have hP2 : 6 * k < 2 ^ (e + 1) := by rw [← he]; exact Nat.lt_log2_self
  have he32 : e < 32 := by rw [← he]; exact (Nat.log2_lt h6).mpr hk
  have hPne : 2 ^ e ≠ 6 * k := by
    intro h
    exact three_not_dvd_two_pow e ⟨2 * k, by omega⟩
  have hPQ : 2 ^ e * 2 ^ (52 - e) = 2 ^ 52 := by
    rw [← pow_add]
    congr 1
    omega
  have hP52 : 2 ^ (e + 52) = 2 ^ e * 2 ^ 52 := pow_add 2 e 52
  have hP53 : 2 ^ (e + 52 + 1) = 2 * (2 ^ e * 2 ^ 52) := by
    rw [pow_succ, hP52]; ring
  have hP1' : 2 ^ (e + 1) = 2 * 2 ^ e := by rw [pow_succ]; ring
  generalize hP : 2 ^ e = P at *
  generalize hQ : 2 ^ (52 - e) = Q at *
  have hPpos : 0 < P := by omega
  -- the exact product
  have hN : 5 * k * 5404319552844595 + k = 6 * k * (P * Q) := by
    rw [hPQ]
    norm_num
    ring
  have hkQ : 1 ≤ 6 * k * Q := by
    have : 0 < Q := by
      rcases Nat.eq_zero_or_pos Q with h | h
      · rw [h] at hPQ; simp at hPQ
      · exact h
    exact Nat.mul_pos (by omega) this
  obtain ⟨m, hm⟩ : ∃ m, m + 1 = 6 * k * Q := ⟨6 * k * Q - 1, by omega⟩
  have hmP : 6 * k * (P * Q) = P * m + P := by
    have : 6 * k * (P * Q) = P * (6 * k * Q) := by ring
    rw [this, ← hm]
    ring
  have hdecomp : 5 * k * 5404319552844595 = P * m + (P - k) := by omega
  have h252 : (2 : Nat) ^ 52 = 4503599627370496 := by norm_num
  have hbl : bitLength (5 * k * 5404319552844595) = e + 52 + 1 := by
    apply bitLength_eq
    · rw [hP52, ← hPQ]
      have : P * (P * Q) ≤ P * m + (P - k) := by
        have h1 : (P + 1) * (P * Q) ≤ 6 * k * (P * Q) := Nat.mul_le_mul_right _ (by omega)
        have h2 : (P + 1) * (P * Q) = P * (P * Q) + P * Q := by ring
        rw [hPQ] at h1 h2 ⊢
        omega
      omega
    · rw [hP53, ← hPQ]
      have h1 : 6 * k * (P * Q) < 2 * P * (P * Q) := by
        apply Nat.mul_lt_mul_of_pos_right (by omega)
        rw [hPQ]; norm_num
      have h2 : 2 * P * (P * Q) = 2 * (P * (P * Q)) := by ring
      omega
  have hdiv : (5 * k * 5404319552844595) / P = m := by
    rw [hdecomp, Nat.mul_add_div hPpos, Nat.div_eq_of_lt (by omega)]
    rfl
  have hmod : (5 * k * 5404319552844595) % P = P - k := by
    rw [hdecomp, Nat.mul_add_mod, Nat.mod_eq_of_lt (by omega)]
  have hround : roundHalfEven (5 * k * 5404319552844595) e = m + 1 := by
    simp only [roundHalfEven, hP, hdiv, hmod]
    have c1 : ¬ 2 * (P - k) < P := by omega
    have c2 : P < 2 * (P - k) := by omega
    simp [c1, c2]
  simp only [doubleTimes12Trunc, hbl]
  have es : e + 52 + 1 - 53 = e := by omega
  rw [es, hround, hP, hm]
  have : 6 * k * Q * P = 6 * k * 2 ^ 52 := by
    rw [← hPQ]; ring
  rw [this]
  exact Nat.mul_div_cancel _ (by norm_num)

theorem analyzeShape_dvd (count : Int) (l r g : Bool) : 50 ∣ analyzeShape count l r g := by
  unfold analyzeShape
  have h72 : LIVE_3 * 9 / 10 = 7200 := by decide
  rw [h72]
  simp only [FIVE, LIVE_4, RUSH_4, LIVE_3, SLEEP_3, LIVE_2, SLEEP_2]
  split_ifs <;> norm_num

theorem analyzeLineLoop_dvd (cellAt : Int → Role) (role : Role) (length : Int) :
    ∀ (fuel : Nat) (index score : Int), 50 ∣ score →
      50 ∣ analyzeLineLoop cellAt role length fuel index score := by
  intro fuel
  induction fuel with
  | zero => intro index score h; exact h
  | succ n ih =>
    intro index score h
    simp only [analyzeLineLoop]
    split_ifs
    · exact ih _ _ (dvd_add h (analyzeShape_dvd _ _ _ _))
    · exact ih _ _ h
    · exact h

theorem analyzeLine_dvd (b : Board) (line : LineView) (role : Role) :
    50 ∣ analyzeLine b line role := by
  simp only [analyzeLine]
  exact analyzeLineLoop_dvd _ _ _ _ _ _ (dvd_zero 50)

theorem lineSum_facts (b : Board) (role : Role) :
    0 ≤ (evaluateLines.map fun line => analyzeLine b line role).sum
    ∧ (evaluateLines.map fun line => analyzeLine b line role).sum ≤ 1320000000
    ∧ 50 ∣ (evaluateLines.map fun line => analyzeLine b line role).sum := by
  have h1 := sum_map_bounds (fun line => analyzeLine b line role) 0 15000000 evaluateLines
    (fun l hl => analyzeLine_bounds b l role hl)
  rw [evaluateLines_length] at h1
  refine ⟨by omega, by omega, ?_⟩
  apply List.dvd_sum
  intro x hx
  obtain ⟨l, _, rfl⟩ := List.mem_map.mp hx
  exact analyzeLine_dvd b l role

theorem defenseWeighted_exact (n : Int) (h0 : 0 ≤ n) (hle : n ≤ 1320000000) (h5 : 5 ∣ n) :
    defenseWeightedDouble n = 6 * n / 5
    ∧ defenseWeighted n = 6 * n / 5
    ∧ 5 * (6 * n / 5) = 6 * n := by
  obtain ⟨k, rfl⟩ := h5
  have hk0 : 0 ≤ k := by omega
  obtain ⟨m, rfl⟩ := Int.eq_ofNat_of_zero_le hk0
  refine ⟨?_, ?_, by omega⟩
  · have hm : 6 * m < 2 ^ 32 := by
      norm_num
      omega
    have ht : (5 * (m : Int)).toNat = 5 * m := by omega
    simp only [defenseWeightedDouble, ge_iff_le, h0, if_true, ht,
      doubleTimes12Trunc_multiple_of_five m hm]
    push_cast
    omega
  · unfold defenseWeighted
    rw [Int.tdiv_eq_ediv (by omega) (by omega)]

/-- C20: `evaluate(side)` is the line sum of the side minus the cast of the
double-precision product of 1.2 with the line sum of the opponent; that line sum is a
non-negative multiple of 50, the binary64 product and its truncation toward zero give
exactly `6 * S_opp / 5`, and this division leaves no remainder. -/
theorem evaluate_exact (b : Board) (role : Role) :
    0 ≤ (evaluateLines.map fun line => analyzeLine b line (opponentOf role)).sum
    ∧ 50 ∣ (evaluateLines.map fun line => analyzeLine b line (opponentOf role)).sum
    ∧ evaluate b role
        = (evaluateLines.map fun line => analyzeLine b line role).sum
          - defenseWeightedDouble
              (evaluateLines.map fun line => analyzeLine b line (opponentOf role)).sum
    ∧ evaluate b role
        = (evaluateLines.map fun line => analyzeLine b line role).sum
          - 6 * (evaluateLines.map fun line => analyzeLine b line (opponentOf role)).sum / 5
    ∧ 5 * (6 * (evaluateLines.map fun line => analyzeLine b line (opponentOf role)).sum / 5)
        = 6 * (evaluateLines.map fun line => analyzeLine b line (opponentOf role)).sum := by
  obtain ⟨s0, s1, s50⟩ := lineSum_facts b (opponentOf role)
  have h5 : (5 : Int) ∣ (evaluateLines.map fun line => analyzeLine b line (opponentOf role)).sum :=
    dvd_trans (by norm_num) s50
  obtain ⟨d1, d2, d3⟩ := defenseWeighted_exact _ s0 s1 h5
  refine ⟨s0, s50, ?_, ?_, d3⟩
  · rw [d1]
    simp only [evaluate]
    rw [d2]
  · simp only [evaluate]
    rw [d2]

/-! ## Scores and stone counts -/

theorem roleCells_add (cellAt : Int → Role) (role : Role) :
    ∀ (m n : Nat) (i : Int),
      roleCells cellAt role (m + n) i
        = roleCells cellAt role m i + roleCells cellAt role n (i + m) := by
  intro m
  induction m with
  | zero => intro n i; simp [roleCells]
  | succ m ih =>
    intro n i
    have h : m + 1 + n = (m + n) + 1 := by omega
    rw [h]
    simp only [roleCells]
    rw [ih n (i + 1)]
    have h2 : i + 1 + (m : Int) = i + ((m + 1 : Nat) : Int) := by push_cast; omega
    rw [h2]
    omega

theorem analyzeShape_le_count (count : Int) (l r g : Bool) (h0 : 0 ≤ count) :
    analyzeShape count l r g ≤ 200000 * count := by
  unfold analyzeShape
  have h72 : LIVE_3 * 9 / 10 = 7200 := by decide
  rw [h72]
  simp only [FIVE, LIVE_4, RUSH_4, LIVE_3, SLEEP_3, LIVE_2, SLEEP_2]
  split_ifs <;> omega

theorem countRun_count (cellAt : Int → Role) (role : Role) (length : Int) :
    ∀ (fuel : Nat) (i c : Int),
      ∃ n : Nat, countRun cellAt role length fuel i c = (i + n, c + n)
        ∧ (n = 0 ∨ i + n ≤ length) ∧ roleCells cellAt role n i = n := by
  intro fuel
  induction fuel with
  | zero => intro i c; exact ⟨0, by simp [countRun], Or.inl rfl, rfl⟩
  | succ f ih =>
    intro i c
    simp only [countRun]
    by_cases h : (decide (i < length) && (cellAt i == role)) = true
    · rw [if_pos h]
      simp only [Bool.and_eq_true, decide_eq_true_eq, beq_iff_eq] at h
      obtain ⟨n, h1, h2, h3⟩ := ih (i + 1) (c + 1)
      refine ⟨n + 1, ?_, Or.inr ?_, ?_⟩
      · rw [h1]; push_cast; congr 1 <;> omega
      · rcases h2 with h2 | h2
        · subst h2; push_cast; omega
        · push_cast; omega
      · simp only [roleCells]; rw [if_pos h.2, h3]; omega
    · rw [if_neg h]
      exact ⟨0, by simp, Or.inl rfl, rfl⟩

theorem scanGroup_count (cellAt : Int → Role) (role : Role) (length index : Int)
    (hi : index < length) :
    ∃ n : Nat, (scanGroup cellAt role length index).1 = index + n ∧ index + n ≤ length
      ∧ (scanGroup cellAt role length index).2 ≤ 200000 * (roleCells cellAt role n index : Int) := by
  obtain ⟨n1, h1, h1b, h1c⟩ := countRun_count cellAt role length (length - index).toNat index 0
  have hn1 : index + n1 ≤ length := by
    rcases h1b with h | h
    · subst h; push_cast; omega
    · exact h
  simp only [scanGroup]
  rw [h1]
  simp only []
  by_cases hg : (decide (index + (n1 : Int) < length) && (cellAt (index + n1) == Role.EMPTY)
      && decide (index + (n1 : Int) + 1 < length) && (cellAt (index + n1 + 1) == role)) = true
  · rw [if_pos hg, hg]
    obtain ⟨n2, h2, h2b, h2c⟩ := countRun_count cellAt role length
      (length - (index + n1 + 1)).toNat (index + n1 + 1) (0 + n1)
    rw [h2]
    dsimp only
    simp only [Bool.and_eq_true, decide_eq_true_eq, beq_iff_eq] at hg
    refine ⟨n1 + (1 + n2), by push_cast; omega, ?_, ?_⟩
    · rcases h2b with h | h
      · subst h; push_cast; omega
      · push_cast; omega
    · have ha := roleCells_add cellAt role n1 (1 + n2) index
      have hb := roleCells_add cellAt role 1 n2 (index + n1)
      have hc : index + (n1 : Int) + ((1 : Nat) : Int) = index + n1 + 1 := by push_cast; rfl
      rw [hc, h2c] at hb
      rw [ha, hb, h1c]
      have hs := analyzeShape_le_count (0 + (n1 : Int) + n2)
        (decide (index > 0) && (cellAt (index - 1) == Role.EMPTY))
        (decide (index + (n1 : Int) + 1 + n2 < length)
          && (cellAt (index + n1 + 1 + n2) == Role.EMPTY)) true (by omega)
      push_cast
      omega
  · rw [if_neg hg]
    dsimp only
    refine ⟨n1, rfl, hn1, ?_⟩
    rw [h1c]
    have hs := analyzeShape_le_count (0 + (n1 : Int))
      (decide (index > 0) && (cellAt (index - 1) == Role.EMPTY))
      (decide (index + (n1 : Int) < length) && (cellAt (index + n1) == Role.EMPTY))
      false (by omega)
    simp only [Bool.not_eq_true] at hg
    rw [hg]
    omega

theorem analyzeLineLoop_le_cells (cellAt : Int → Role) (role : Role) (length : Int) :
    ∀ (fuel n : Nat) (index score : Int), index + n = length →
      analyzeLineLoop cellAt role length fuel index score
        ≤ score + 200000 * (roleCells cellAt role n index : Int) := by
  intro fuel
  induction fuel with
  | zero => intro n index score _; simp only [analyzeLineLoop]; omega
  | succ f ih =>
    intro n index score hn
    simp only [analyzeLineLoop]
    by_cases hi : index < length
    · rw [if_pos hi]
      by_cases hc : (cellAt index == role) = true
      · rw [if_pos hc]
        obtain ⟨ng, hg1, hg2, hg3⟩ := scanGroup_count cellAt role length index hi
        obtain ⟨m, hm⟩ : ∃ m : Nat, n = ng + m := ⟨n - ng, by omega⟩
        have h := ih m (scanGroup cellAt role length index).1
          (score + (scanGroup cellAt role length index).2) (by rw [hg1]; omega)
        rw [hg1] at h
        rw [hm, roleCells_add]
        rw [hg1]
        push_cast
        omega
      · rw [if_neg hc]
        obtain ⟨m, hm⟩ : ∃ m : Nat, n = m + 1 := ⟨n - 1, by omega⟩
        have h := ih m (index + 1) score (by omega)
        subst hm
        simp only [roleCells]
        have hc2 : ¬ cellAt index = role := by simpa using hc
        rw [if_neg hc2]
        omega
    · rw [if_neg hi]; omega

theorem roleCells_eq_countP (cellAt : Int → Role) (role : Role) :
    ∀ (n : Nat) (i : Int),
      roleCells cellAt role n i
        = (List.range n).countP fun (k : Nat) => cellAt (i + (k : Int)) == role := by
  intro n
  induction n with
  | zero => intro i; simp [roleCells]
  | succ n ih =>
    intro i
    simp only [roleCells]
    rw [List.range_succ_eq_map, List.countP_cons, List.countP_map, ih (i + 1)]
    have hf : ((fun (k : Nat) => cellAt (i + (k : Int)) == role) ∘ Nat.succ)
        = fun (k : Nat) => cellAt (i + 1 + (k : Int)) == role := by
      funext k
      simp only [Function.comp, Nat.succ_eq_add_one]
      have : i + ((k + 1 : Nat) : Int) = i + 1 + (k : Int) := by push_cast; omega
      rw [this]
    rw [hf]
    simp only [Nat.cast_zero, add_zero, beq_iff_eq]
    omega

theorem roleCells_line (b : Board) (l : LineView) (role : Role) :
    roleCells (l.at b) role (getActualLength b l).toNat 0
      = (linePoints b l).countP fun p => getCell b p == role := by
  rw [roleCells_eq_countP, linePoints, List.countP_map]
  congr 1
  funext k
  simp [LineView.at, LineView.point, Function.comp]

theorem analyzeLine_le_cells (b : Board) (l : LineView) (role : Role)
    (hl : l ∈ evaluateLines) :
    analyzeLine b l role
      ≤ 200000 * (((linePoints b l).countP fun p => getCell b p == role : Nat) : Int) := by
  have h0 := (getActualLength_bounds b l hl).1
  have h := analyzeLineLoop_le_cells (l.at b) role (getActualLength b l)
    (getActualLength b l).toNat (getActualLength b l).toNat 0 0 (by omega)
  rw [roleCells_line] at h
  simp only [analyzeLine]
  omega

theorem mem_allPoints (x : Point) : x ∈ allPoints ↔ isRangeValidP x = true := by
  constructor
  · intro h
    simp only [allPoints, List.mem_flatMap, List.mem_map, List.mem_finRange, true_and] at h
    obtain ⟨i, j, rfl⟩ := h
    rw [isRangeValidP_iff]
    have := i.isLt
    have := j.isLt
    refine ⟨?_, ?_, ?_, ?_⟩ <;> simp only [] <;> omega
  · intro h
    obtain ⟨i, j, rfl⟩ := exists_fin_of_valid x h
    simp only [allPoints, List.mem_flatMap, List.mem_map, List.mem_finRange, true_and]
    exact ⟨i, j, rfl⟩

theorem allPoints_nodup : allPoints.Nodup := by
  unfold allPoints
  rw [List.nodup_flatMap]
  constructor
  · intro i _
    refine (List.nodup_finRange 15).map ?_
    intro j1 j2 h
    have hy : ((j1.val : Int)) = (j2.val : Int) := congrArg Point.y h
    exact Fin.ext (by omega)
  · refine (List.nodup_finRange 15).imp ?_
    intro i1 i2 hne
    simp only [Function.onFun]
    rw [List.disjoint_left]
    intro p h1 h2
    obtain ⟨j1, _, rfl⟩ := List.mem_map.mp h1
    obtain ⟨j2, _, h⟩ := List.mem_map.mp h2
    have hx : ((i2.val : Int)) = (i1.val : Int) := congrArg Point.x h
    exact hne (Fin.ext (by omega))

set_option maxRecDepth 100000 in
theorem evaluateLines_nodup : evaluateLines.Nodup := by decide!

theorem countP_tagged {α β : Type} (P : α → Bool) (tag : β → α → α × α)
    (htag : ∀ l p, (tag l p).1 = p) (f : β → List α) :
    ∀ ls : List β, (ls.flatMap fun l => (f l).map (tag l)).countP (fun q => P q.1)
      = (ls.flatMap f).countP P := by
  intro ls
  induction ls with
  | nil => rfl
  | cons l ls ih =>
    simp only [List.flatMap_cons, List.countP_append, ih, List.countP_map]
    congr 1
    apply List.countP_congr
    intro p _
    simp [htag]

theorem countP_product {α β : Type} (P : α → Bool) (ds : List β) :
    ∀ ps : List α, (ps.flatMap fun p => ds.map fun d => (p, d)).countP (fun q => P q.1)
      = ds.length * ps.countP P := by
  intro ps
  induction ps with
  | nil => simp
  | cons p ps ih =>
    simp only [List.flatMap_cons, List.countP_append, ih, List.countP_map, List.countP_cons]
    have h : ds.countP ((fun q : α × β => P q.1) ∘ fun d => (p, d))
        = if P p = true then ds.length else 0 := by
      cases hP : P p
      · simp [Function.comp, hP]
      · simp [Function.comp, hP]
    rw [h]
    split_ifs <;> ring

/-- The cells of the scanned lines, each with the direction of its line, are pairwise
different: a cell lies on one scanned line of each direction, once. -/
theorem taggedCells_nodup (b : Board) :
    (evaluateLines.flatMap fun l => (linePoints b l).map fun p => (p, l.dir)).Nodup := by
  rw [List.nodup_flatMap]
  constructor
  · intro l hl
    refine List.Nodup.map (fun p1 p2 h => congrArg Prod.fst h) ?_
    unfold linePoints
    refine (List.nodup_range _).map_on ?_
    intro k1 _ k2 _ h
    have := (evaluateLines_cover_unique l l k1 k2 hl hl rfl h).2
    omega
  · refine evaluateLines_nodup.imp_of_mem ?_
    intro l1 l2 h1 h2 hne
    simp only [Function.onFun]
    rw [List.disjoint_left]
    intro x hx1 hx2
    obtain ⟨p1, hp1, rfl⟩ := List.mem_map.mp hx1
    obtain ⟨p2, hp2, heq⟩ := List.mem_map.mp hx2
    obtain ⟨k1, _, rfl⟩ := List.mem_map.mp hp1
    obtain ⟨k2, _, rfl⟩ := List.mem_map.mp hp2
    have hp : l1.point k1 = l2.point k2 := (congrArg Prod.fst heq).symm
    have hd : l1.dir = l2.dir := (congrArg Prod.snd heq).symm
    exact hne (evaluateLines_cover_unique l1 l2 k1 k2 h1 h2 hd hp).1

theorem lineCells_le (b : Board) (P : Point → Bool) :
    (evaluateLines.flatMap (linePoints b)).countP P ≤ 4 * allPoints.countP P := by
  have hsub : (evaluateLines.flatMap fun l => (linePoints b l).map fun p => (p, l.dir))
      ⊆ allPoints.flatMap fun p =>
        [(⟨0, 1⟩ : Point), ⟨1, 0⟩, ⟨1, 1⟩, ⟨1, -1⟩].map fun d => (p, d) := by
    intro x hx
    obtain ⟨l, hl, hx2⟩ := List.mem_flatMap.mp hx
    obtain ⟨p, hp, rfl⟩ := List.mem_map.mp hx2
    obtain ⟨k, hk, rfl⟩ := List.mem_map.mp hp
    have hspan := evaluateLine_span b l hl
    have hk2 := List.mem_range.mp hk
    refine List.mem_flatMap.mpr ⟨l.point k, (mem_allPoints _).mpr
      (hspan.2.2.1 k (by omega) (by omega)), List.mem_map.mpr ⟨l.dir, ?_, rfl⟩⟩
    have hm := (mem_evaluateLines l).mp hl
    rcases hm.2 with h | h | h | h | h | h <;> simp [h.1]
  have h1 := (List.subperm_of_subset (taggedCells_nodup b) hsub).countP_le (fun q => P q.1)
  rw [countP_product P _ allPoints,
    countP_tagged P (fun (l : LineView) p => (p, l.dir)) (fun _ _ => rfl) (linePoints b)] at h1
  simpa using h1

theorem sum_countP_flatMap {α β : Type} (P : β → Bool) (f : α → List β) :
    ∀ l : List α, ((l.map fun x => (((f x).countP P : Nat) : Int)).sum)
      = (((l.flatMap f).countP P : Nat) : Int) := by
  intro l
  induction l with
  | nil => simp
  | cons x xs ih =>
    simp only [List.map_cons, List.sum_cons, List.flatMap_cons, List.countP_append, ih]
    push_cast
    rfl

theorem sum_map_le_sum_map {α : Type} (f g : α → Int) :
    ∀ l : List α, (∀ x ∈ l, f x ≤ g x) → (l.map f).sum ≤ (l.map g).sum := by
  intro l
  induction l with
  | nil => intro _; simp
  | cons x xs ih =>
    intro h
    simp only [List.map_cons, List.sum_cons]
    have h1 := h x (List.mem_cons_self x xs)
    have h2 := ih fun y hy => h y (List.mem_cons_of_mem x hy)
    omega

theorem sum_map_mul_left {α : Type} (c : Int) (f : α → Int) :
    ∀ l : List α, (l.map fun x => c * f x).sum = c * (l.map f).sum := by
  intro l
  induction l with
  | nil => simp
  | cons x xs ih => simp only [List.map_cons, List.sum_cons, ih]; ring

/-- The sum of the line scores of a side is at most 800000 for each of its stones: a group
scores at most 200000 for each of its stones, the groups of a line are disjoint, and a cell
lies on four scanned lines. -/
theorem lineSum_le_stones (b : Board) (role : Role) :
    (evaluateLines.map fun line => analyzeLine b line role).sum
      ≤ 800000 * (stoneCount b role : Int) := by
  have h1 := sum_map_le_sum_map (fun line => analyzeLine b line role)
    (fun line => 200000 * (((linePoints b line).countP
      fun p => getCell b p == role : Nat) : Int)) evaluateLines
    (fun l hl => analyzeLine_le_cells b l role hl)
  rw [sum_map_mul_left 200000
    (fun line => (((linePoints b line).countP
      fun p => getCell b p == role : Nat) : Int)) evaluateLines,
    sum_countP_flatMap (fun p => getCell b p == role) (linePoints b) evaluateLines] at h1
  have h2 := lineCells_le b (fun p => getCell b p == role)
  simp only [stoneCount]
  omega

theorem evaluate_stone_bounds (b : Board) :
    -960000 * (stoneCount b Role.USER : Int) ≤ evaluate b Role.BOT
    ∧ evaluate b Role.BOT ≤ 800000 * (stoneCount b Role.BOT : Int) := by
  have h1 := lineSum_le_stones b Role.BOT
  have h2 := lineSum_le_stones b Role.USER
  have h3 := (lineSum_facts b Role.BOT).1
  have h4 := (lineSum_facts b Role.USER).1
  simp only [evaluate, defenseWeighted]
  have ho : opponentOf Role.BOT = Role.USER := by decide
  rw [ho, Int.tdiv_eq_ediv (by omega) (by omega)]
  omega

theorem countP_or_le {α : Type} (P Q : α → Bool) :
    ∀ l : List α, l.countP (fun x => P x || Q x) ≤ l.countP P + l.countP Q := by
  intro l
  induction l with
  | nil => simp
  | cons x xs ih =>
    simp only [List.countP_cons]
    cases hP : P x <;> cases hQ : Q x <;> simp <;> omega

theorem stoneCount_write_le (b : Board) (p : Point) (r s : Role) :
    stoneCount (b.write p r) s ≤ stoneCount b s + (if r = s then 1 else 0) := by
  simp only [stoneCount]
  by_cases hrs : r = s
  · rw [if_pos hrs]
    have h1 : allPoints.countP (fun q => getCell (b.write p r) q == s)
        ≤ allPoints.countP (fun q => (getCell b q == s) || (q == p)) := by
      apply List.countP_mono_left
      intro q _ hq
      rw [getCell_write] at hq
      by_cases hqp : q = p
      · simp [hqp]
      · rw [if_neg (fun h => hqp h.1)] at hq
        simp [hq]
    have h2 := countP_or_le (fun q => getCell b q == s) (fun q => q == p) allPoints
    have h3 : allPoints.countP (fun q => q == p) ≤ 1 := by
      have := List.nodup_iff_count_le_one.mp allPoints_nodup p
      rwa [List.count] at this
    omega
  · rw [if_neg hrs]
    have h1 : allPoints.countP (fun q => getCell (b.write p r) q == s)
        ≤ allPoints.countP (fun q => getCell b q == s) := by
      apply List.countP_mono_left
      intro q _ hq
      rw [getCell_write] at hq
      by_cases hc : q = p ∧ isRangeValidP p = true
      · rw [if_pos hc] at hq
        exact absurd (by simpa using hq) hrs
      · rw [if_neg hc] at hq; exact hq
    omega

/-- With at most 12 `BOT` stones on the board at every leaf below a node, the search value
of the node does not exceed `WIN`. -/
theorem exhaustive_le_win (stdSort : List (Int × Point) → List (Int × Point))
    (hperm : ∀ l, (stdSort l).Perm l) :
    ∀ (depth : Nat) (b : Board) (role : Role) (lastMove : Point),
      stoneCount b Role.BOT + (if role = Role.BOT then (depth + 1) / 2 else depth / 2) ≤ 12 →
      exhaustive stdSort depth b role lastMove ≤ WIN := by
  intro depth
  induction depth with
  | zero =>
    intro b role lastMove hs
    have h := (evaluate_stone_bounds b).2
    unfold exhaustive
    simp only []
    split_ifs
    · decide
    · decide
    · simp only [WIN]; omega
  | succ d ih =>
    intro b role lastMove hs
    have h := (evaluate_stone_bounds b).2
    unfold exhaustive
    simp only []
    split_ifs with hw hb hf hr
    · decide
    · decide
    · simp only [WIN]; omega
    · rw [childScores_of_legal _ _ _ _ (sortedCandidates_legal stdSort hperm b role role)]
      apply foldl_max_le
      · intro x hx
        obtain ⟨p, hp, rfl⟩ := List.mem_map.mp hx
        apply ih
        rw [makeMove_snd_of_true _ _ _ (sortedCandidates_legal stdSort hperm b role role p hp)]
        have hw := stoneCount_write_le b p role Role.BOT
        rw [if_pos hr] at hw hs
        rw [if_neg (by decide)]
        omega
      · decide
    · have hf2 : isFull b = false := by simpa using hf
      rw [childScores_of_legal _ _ _ _ (sortedCandidates_legal stdSort hperm b role role)]
      refine (foldl_min_bounds _ (-1584000000) WIN INT_MAX ?_ ?_ (by decide)).2
      · intro hnil
        exact sortedCandidates_ne_nil stdSort hperm b role hf2 (List.map_eq_nil_iff.mp hnil)
      · intro x hx
        obtain ⟨p, hp, rfl⟩ := List.mem_map.mp hx
        refine ⟨(exhaustive_bounds stdSort hperm _ _ _ _).1, ?_⟩
        apply ih
        rw [makeMove_snd_of_true _ _ _ (sortedCandidates_legal stdSort hperm b role role p hp)]
        have hw := stoneCount_write_le b p role Role.BOT
        rw [if_neg hr] at hw hs
        rw [if_pos rfl]
        omega

/-! ## Search values of single nodes -/

theorem isFull_false_of_empty (b : Board) (p : Point) (hr : isRangeValidP p = true)
    (he : getCell b p = Role.EMPTY) : isFull b = false := by
  obtain ⟨i, j, rfl⟩ := exists_fin_of_valid p hr
  rw [getCell_coe] at he
  cases hf : isFull b with
  | false => rfl
  | true =>
    simp only [isFull, List.all_eq_true, List.mem_finRange, true_implies, bne_iff_ne,
      ne_eq] at hf
    exact absurd he (hf i j)

theorem le_foldl_max_of_mem (l : List Int) (x : Int) (hx : x ∈ l) :
    ∀ c : Int, x ≤ l.foldl max c := by
  induction l with
  | nil => cases hx
  | cons y ys ih =>
    intro c
    simp only [List.foldl_cons]
    rcases List.mem_cons.mp hx with h | h
    · subst h
      exact le_trans (le_max_right c x) (foldl_max_ge ys _)
    · exact ih h _

theorem foldl_min_le_of_mem (l : List Int) (x : Int) (hx : x ∈ l) :
    ∀ c : Int, l.foldl min c ≤ x := by
  induction l with
  | nil => cases hx
  | cons y ys ih =>
    intro c
    simp only [List.foldl_cons]
    rcases List.mem_cons.mp hx with h | h
    · subst h
      exact le_trans (foldl_min_le ys _) (min_le_right c x)
    · exact ih h _

theorem checkWinner_own (b : Board) (p : Point) :
    checkWinner b p = getCell b p ∨ checkWinner b p = Role.EMPTY := by
  rw [checkWinner_eq]
  split_ifs
  · exact Or.inl rfl
  · exact Or.inr rfl

theorem exhaustive_of_winner (stdSort : List (Int × Point) → List (Int × Point))
    (depth : Nat) (b : Board) (role : Role) (lastMove : Point)
    (hw : checkWinner b lastMove ≠ Role.EMPTY) :
    exhaustive stdSort depth b role lastMove
      = if checkWinner b lastMove = Role.BOT then WIN else LOSE := by
  unfold exhaustive
  simp only []
  rw [if_pos hw]

theorem mem_sortedCandidates (stdSort : List (Int × Point) → List (Int × Point))
    (hperm : ∀ l, (stdSort l).Perm l) (b : Board) (role : Role) (p : Point) :
    p ∈ (getSortedCandidates stdSort b role).1 ↔ p ∈ getCandidates b :=
  (getSortedCandidates_perm stdSort hperm b role).mem_iff

/-- The value of a `BOT` node that is searched further is at least the value of each of
its children. -/
theorem botNode_ge_child (stdSort : List (Int × Point) → List (Int × Point))
    (hperm : ∀ l, (stdSort l).Perm l) (d : Nat) (b : Board) (lastMove c : Point)
    (hw : checkWinner b lastMove = Role.EMPTY) (hf : isFull b = false)
    (hc : c ∈ getCandidates b) :
    exhaustive stdSort d (b.write c Role.BOT) Role.USER c
      ≤ exhaustive stdSort (d + 1) b Role.BOT lastMove := by
  have hleg := sortedCandidates_legal stdSort hperm b Role.BOT Role.BOT
  have hc2 := (mem_sortedCandidates stdSort hperm b Role.BOT c).mpr hc
  conv_rhs => unfold exhaustive
  simp only []
  rw [if_neg (by rw [hw]; simp), hf]
  simp only [Bool.false_eq_true, if_false, if_true]
  rw [childScores_of_legal _ _ _ _ hleg]
  apply le_foldl_max_of_mem
  refine List.mem_map.mpr ⟨c, hc2, ?_⟩
  rw [makeMove_snd_of_true _ _ _ (hleg c hc2)]

/-- The value of a node of the other side that is searched further is at most the value of
each of its children. -/
theorem userNode_le_child (stdSort : List (Int × Point) → List (Int × Point))
    (hperm : ∀ l, (stdSort l).Perm l) (d : Nat) (b : Board) (lastMove u : Point)
    (hw : checkWinner b lastMove = Role.EMPTY) (hf : isFull b = false)
    (hu : u ∈ getCandidates b) :
    exhaustive stdSort (d + 1) b Role.USER lastMove
      ≤ exhaustive stdSort d (b.write u Role.USER) Role.BOT u := by
  have hleg := sortedCandidates_legal stdSort hperm b Role.USER Role.USER
  have hu2 := (mem_sortedCandidates stdSort hperm b Role.USER u).mpr hu
  conv_lhs => unfold exhaustive
  simp only []
  rw [if_neg (by rw [hw]; simp), hf]
  simp only [Bool.false_eq_true, if_false]
  rw [if_neg (by decide), childScores_of_legal _ _ _ _ hleg]
  apply foldl_min_le_of_mem
  refine List.mem_map.mpr ⟨u, hu2, ?_⟩
  rw [makeMove_snd_of_true _ _ _ (hleg u hu2)]

/-- The value of a node of the other side that is searched further is at least every lower
bound of the values of its children. -/
theorem userNode_ge (stdSort : List (Int × Point) → List (Int × Point))
    (hperm : ∀ l, (stdSort l).Perm l) (d : Nat) (b : Board) (lastMove : Point) (lo : Int)
    (hw : checkWinner b lastMove = Role.EMPTY) (hf : isFull b = false) (hlo : lo ≤ INT_MAX)
    (h : ∀ u ∈ getCandidates b, lo ≤ exhaustive stdSort d (b.write u Role.USER) Role.BOT u) :
    lo ≤ exhaustive stdSort (d + 1) b Role.USER lastMove := by
  have hleg := sortedCandidates_legal stdSort hperm b Role.USER Role.USER
  unfold exhaustive
  simp only []
  rw [if_neg (by rw [hw]; simp), hf]
  simp only [Bool.false_eq_true, if_false]
  rw [if_neg (by decide), childScores_of_legal _ _ _ _ hleg]
  apply foldl_min_ge _ _ _ _ hlo
  intro x hx
  obtain ⟨u, hu, rfl⟩ := List.mem_map.mp hx
  rw [makeMove_snd_of_true _ _ _ (hleg u hu)]
  exact h u ((mem_sortedCandidates stdSort hperm b Role.USER u).mp hu)

/-! ## Fives made by one placement -/

theorem directions_cases (d : Int × Int) (hd : d ∈ directions) :
    d = (1, 0) ∨ d = (0, 1) ∨ d = (1, 1) ∨ d = (1, -1) := by
  simpa [directions] using hd

theorem along_ne_self (p : Point) (d : Int × Int) (hd : d ∈ directions) (i : Int)
    (hi : i ≠ 0) : along p d i ≠ p := by
  intro h
  have hx : p.x + d.1 * i = p.x := congrArg Point.x h
  have hy : p.y + d.2 * i = p.y := congrArg Point.y h
  rcases directions_cases d hd with rfl | rfl | rfl | rfl <;> simp only [] at hx hy <;> omega

theorem holdsAt_iff (b : Board) (s : Role) (p : Point) (d : Int × Int) (i : Int) :
    holdsAt b s p d i = true ↔ isRangeValidP (along p d i) = true ∧ getCell b (along p d i) = s := by
  simp [holdsAt]

theorem holdsAt_mono (b c : Board) (s : Role) (h : ∀ x, getCell b x = s → getCell c x = s)
    (p : Point) (d : Int × Int) (i : Int) (hb : holdsAt b s p d i = true) :
    holdsAt c s p d i = true := by
  rw [holdsAt_iff] at hb ⊢
  exact ⟨hb.1, h _ hb.2⟩

theorem checkWinner_mono (b c : Board) (s : Role) (hs : s ≠ Role.EMPTY)
    (h : ∀ x, getCell b x = s → getCell c x = s) (u : Point)
    (hb : checkWinner b u = s) : checkWinner c u = s := by
  have hcell : getCell b u = s := by
    rcases checkWinner_own b u with h1 | h1
    · rw [← h1]; exact hb
    · rw [h1] at hb; exact absurd hb.symm hs
  obtain ⟨d, hd, h5⟩ := (checkWinner_eq_side_iff b u s hs hcell).mp hb
  by_cases hr : isRangeValidP u = true
  · have h0 : holdsAt b s u d 0 = true := (holdsAt_zero_iff b s u d).mpr ⟨hr, hcell⟩
    obtain ⟨k, hk, hwin⟩ := window_of_five_le_runLength b s u d h0 h5
    exact (checkWinner_eq_side_iff c u s hs (h u hcell)).mpr
      ⟨d, hd, five_le_runLength_of_window c s u d k hk
        (fun i hi => holdsAt_mono b c s h u d _ (hwin i hi))⟩
  · have : getCell b u = Role.EMPTY := getCell_of_not_valid b u (by simpa using hr)
    rw [this] at hcell
    exact absurd hcell.symm hs

theorem checkWinner_ne_of_alone (b : Board) (u : Point) (s : Role) (hs : s ≠ Role.EMPTY)
    (h : ∀ x, x ≠ u → getCell b x ≠ s) : checkWinner b u ≠ s := by
  intro hw
  have hcell : getCell b u = s := by
    rcases checkWinner_own b u with h1 | h1
    · rw [← h1]; exact hw
    · rw [h1] at hw; exact absurd hw.symm hs
  obtain ⟨d, hd, h5⟩ := (checkWinner_eq_side_iff b u s hs hcell).mp hw
  have hno : ∀ i : Int, i ≠ 0 → holdsAt b s u d i = false := by
    intro i hi
    cases hh : holdsAt b s u d i with
    | false => rfl
    | true => exact absurd ((holdsAt_iff b s u d i).mp hh).2 (h _ (along_ne_self u d hd i hi))
  rw [five_le_runLength_iff] at h5
  rw [hno 1 (by decide), hno (-1) (by decide)] at h5
  simp at h5

theorem getCell_ne_of_stoneCount_zero (b : Board) (s : Role) (hs : s ≠ Role.EMPTY)
    (h0 : stoneCount b s = 0) : ∀ x, getCell b x ≠ s := by
  intro x hx
  by_cases hr : isRangeValidP x = true
  · have hmem := (mem_allPoints x).mpr hr
    simp only [stoneCount, List.countP_eq_zero] at h0
    exact h0 x hmem (by simpa using hx)
  · rw [getCell_of_not_valid b x (by simpa using hr)] at hx
    exact hs hx.symm

/-- Placing a stone of the side `s` on a cell next to four consecutive stones of `s`
(the cell before the first or after the last of them) makes five through that cell. -/
theorem completes_five (b : Board) (s : Role) (hs : s ≠ Role.EMPTY) (q : Point)
    (d : Int × Int) (hd : d ∈ directions)
    (h4 : ∀ i : Nat, i < 4 → holdsAt b s q d (i : Int) = true)
    (c : Point) (hc : c = along q d (-1) ∨ c = along q d 4) (hcr : isRangeValidP c = true) :
    checkWinner (b.write c s) c = s := by
  have hcell : getCell (b.write c s) c = s := by
    rw [getCell_write, if_pos ⟨rfl, hcr⟩]
  have hkeep : ∀ i : Nat, i < 4 → holdsAt (b.write c s) s q d (i : Int) = true := by
    intro i hi
    refine holdsAt_mono b _ s ?_ q d _ (h4 i hi)
    intro x hx
    rw [getCell_write]
    split_ifs
    · rfl
    · exact hx
  have hself : holdsAt (b.write c s) s c d 0 = true :=
    (holdsAt_zero_iff _ s c d).mpr ⟨hcr, hcell⟩
  refine (checkWinner_eq_side_iff _ c s hs hcell).mpr ⟨d, hd, ?_⟩
  rcases hc with hc | hc
  · subst hc
    refine five_le_runLength_of_window _ s _ d 0 (by decide) ?_
    intro i hi
    rcases Nat.eq_zero_or_pos i with h0 | hpos
    · subst h0; exact hself
    · rw [holdsAt_along]
      have h := hkeep (i - 1) (by omega)
      have he : (-1 : Int) + ((i : Int) - ((0 : Nat) : Int)) = ((i - 1 : Nat) : Int) := by omega
      rw [he]; exact h
  · subst hc
    refine five_le_runLength_of_window _ s _ d 4 (by decide) ?_
    intro i hi
    by_cases h4i : i = 4
    · subst h4i; simpa using hself
    · rw [holdsAt_along]
      have h := hkeep i (by omega)
      have he : (4 : Int) + ((i : Int) - ((4 : Nat) : Int)) = (i : Int) := by push_cast; omega
      rw [he]; exact h

/-- On a board with four consecutive `BOT` stones whose two adjacent end cells are open,
and on which `USER` cannot make five with one stone, every candidate has a search value of
at least `WIN`: whatever `BOT` plays and `USER` answers, one of the two end cells is still
a candidate that makes five. -/
theorem open_four_scores (stdSort : List (Int × Point) → List (Int × Point))
    (hperm : ∀ l, (stdSort l).Perm l) (b : Board) (q : Point) (d : Int × Int)
    (hd : d ∈ directions)
    (h4 : ∀ i : Nat, i < 4 → holdsAt b Role.BOT q d (i : Int) = true)
    (he1 : isRangeValidP (along q d (-1)) = true ∧ getCell b (along q d (-1)) = Role.EMPTY)
    (he2 : isRangeValidP (along q d 4) = true ∧ getCell b (along q d 4) = Role.EMPTY)
    (hu : ∀ u, isRangeValidP u = true → getCell b u = Role.EMPTY →
      checkWinner (b.write u Role.USER) u ≠ Role.USER)
    (p : Point) (hp : p ∈ getCandidates b) :
    WIN ≤ exhaustive stdSort 3 (b.write p Role.BOT) Role.USER p := by
  have hpr := getCandidates_valid b p hp
  have hcell1 : getCell (b.write p Role.BOT) p = Role.BOT := by
    rw [getCell_write, if_pos ⟨rfl, hpr⟩]
  rcases checkWinner_own (b.write p Role.BOT) p with hw | hw
  · rw [hcell1] at hw
    rw [exhaustive_of_winner _ _ _ _ _ (by rw [hw]; decide), if_pos hw]
  · have hp1 : p ≠ along q d (-1) := by
      intro h
      have h5 := completes_five b Role.BOT (by decide) q d hd h4 p (Or.inl h) hpr
      rw [hw] at h5; exact absurd h5 (by decide)
    have hp2 : p ≠ along q d 4 := by
      intro h
      have h5 := completes_five b Role.BOT (by decide) q d hd h4 p (Or.inr h) hpr
      rw [hw] at h5; exact absurd h5 (by decide)
    have hends : along q d 4 ≠ along q d (-1) := by
      have h := along_ne_self (along q d (-1)) d hd 5 (by decide)
      rw [along_along] at h
      exact h
    have h1e1 : getCell (b.write p Role.BOT) (along q d (-1)) = Role.EMPTY := by
      rw [getCell_write, if_neg (fun h => hp1 h.1.symm)]; exact he1.2
    refine userNode_ge stdSort hperm 2 _ p WIN hw
      (isFull_false_of_empty _ _ he1.1 h1e1) (by decide) ?_
    intro u hu1
    have hur := getCandidates_valid _ u hu1
    have hue1 := getCandidates_empty_cells _ u hu1
    have hup : u ≠ p := by
      intro h; rw [h, hcell1] at hue1; exact absurd hue1 (by decide)
    have hue : getCell b u = Role.EMPTY := by
      rw [getCell_write, if_neg (fun h => hup h.1)] at hue1; exact hue1
    have hcell2 : getCell ((b.write p Role.BOT).write u Role.USER) u = Role.USER := by
      rw [getCell_write, if_pos ⟨rfl, hur⟩]
    have hw2 : checkWinner ((b.write p Role.BOT).write u Role.USER) u = Role.EMPTY := by
      rcases checkWinner_own ((b.write p Role.BOT).write u Role.USER) u with h | h
      · rw [hcell2] at h
        refine absurd (checkWinner_mono _ (b.write u Role.USER) Role.USER (by decide) ?_ u h)
          (hu u hur hue)
        intro x hx
        rw [getCell_write] at hx ⊢
        by_cases hxu : x = u ∧ isRangeValidP u = true
        · rw [if_pos hxu]
        · rw [if_neg hxu] at hx ⊢
          rw [getCell_write] at hx
          by_cases hxp : x = p ∧ isRangeValidP p = true
          · rw [if_pos hxp] at hx; exact absurd hx (by decide)
          · rw [if_neg hxp] at hx; exact hx
      · exact h
    have h4b2 : ∀ i : Nat, i < 4 →
        holdsAt ((b.write p Role.BOT).write u Role.USER) Role.BOT q d (i : Int) = true := by
      intro i hi
      refine holdsAt_mono b _ Role.BOT ?_ q d _ (h4 i hi)
      intro x hx
      have hxu : x ≠ u := by
        intro h; rw [h, hue] at hx; exact absurd hx (by decide)
      rw [getCell_write, if_neg (fun h => hxu h.1), getCell_write]
      split_ifs
      · rfl
      · exact hx
    have hkeep : ∀ c, c ≠ p → c ≠ u → getCell b c = Role.EMPTY →
        getCell ((b.write p Role.BOT).write u Role.USER) c = Role.EMPTY := by
      intro c hcp hcu hce
      rw [getCell_write, if_neg (fun h => hcu h.1), getCell_write, if_neg (fun h => hcp h.1)]
      exact hce
    obtain ⟨c, hc, hcr, hce⟩ : ∃ c, (c = along q d (-1) ∨ c = along q d 4)
        ∧ isRangeValidP c = true
        ∧ getCell ((b.write p Role.BOT).write u Role.USER) c = Role.EMPTY := by
      by_cases hu1 : u = along q d (-1)
      · exact ⟨along q d 4, Or.inr rfl, he2.1,
          hkeep _ (fun h => hp2 h.symm) (by rw [hu1]; exact hends) he2.2⟩
      · exact ⟨along q d (-1), Or.inl rfl, he1.1,
          hkeep _ (fun h => hp1 h.symm) (fun h => hu1 h.symm) he1.2⟩
    have hq0 := (holdsAt_iff _ _ _ _ _).mp (h4b2 0 (by decide))
    have hq3 := (holdsAt_iff _ _ _ _ _).mp (h4b2 3 (by decide))
    have hcand : c ∈ getCandidates ((b.write p Role.BOT).write u Role.USER) := by
      rcases hc with hc | hc
      · subst hc
        refine mem_getCandidates_of_near _ (along q d ((0 : Nat) : Int)) _
          ⟨hq0.1, by rw [hq0.2]; decide⟩ hcr hce ?_ ?_
        · simp only [along]
          rcases directions_cases d hd with rfl | rfl | rfl | rfl <;> simp
        · simp only [along]
          rcases directions_cases d hd with rfl | rfl | rfl | rfl <;> simp
      · subst hc
        refine mem_getCandidates_of_near _ (along q d ((3 : Nat) : Int)) _
          ⟨hq3.1, by rw [hq3.2]; decide⟩ hcr hce ?_ ?_
        · simp only [along]
          rcases directions_cases d hd with rfl | rfl | rfl | rfl <;> simp
        · simp only [along]
          rcases directions_cases d hd with rfl | rfl | rfl | rfl <;> simp
    have hwin := completes_five _ Role.BOT (by decide) q d hd h4b2 c hc hcr
    have h1 := botNode_ge_child stdSort hperm 1 _ u c hw2
      (isFull_false_of_empty _ c hcr hce) hcand
    rw [exhaustive_of_winner _ _ _ _ _ (by rw [hwin]; decide), if_pos hwin] at h1
    exact h1

theorem makeMove_snd_of_empty (b : Board) (p : Point) (s : Role)
    (he : getCell b p = Role.EMPTY) : (makeMove b p s).2 = b.write p s :=
  makeMove_snd_of_true b p s (by rw [makeMove_fst, isCellEmpty_iff]; exact he)

theorem searchDepth_pred : SEARCH_DEPTH - 1 = 3 := rfl

/-- The search value that `getBestMove` computes for a candidate is the exhaustive value
of the board with the candidate placed. -/
theorem candidate_score_eq (stdSort : List (Int × Point) → List (Int × Point)) (b : Board)
    (p : Point) (hp : p ∈ getCandidates b) :
    (minimax stdSort (SEARCH_DEPTH - 1) (makeMove b p Role.BOT).2 Role.USER p
      INT_MIN INT_MAX).1 = exhaustive stdSort 3 (b.write p Role.BOT) Role.USER p := by
  rw [minimax_full_window, makeMove_snd_of_empty b p _ (getCandidates_empty_cells b p hp),
    searchDepth_pred]

theorem open_four_all_win (stdSort : List (Int × Point) → List (Int × Point))
    (hperm : ∀ l, (stdSort l).Perm l) (b : Board) (q : Point) (d : Int × Int)
    (hd : d ∈ directions)
    (h4 : ∀ i : Nat, i < 4 → holdsAt b Role.BOT q d (i : Int) = true)
    (he1 : isRangeValidP (along q d (-1)) = true ∧ getCell b (along q d (-1)) = Role.EMPTY)
    (he2 : isRangeValidP (along q d 4) = true ∧ getCell b (along q d 4) = Role.EMPTY)
    (hu : ∀ u, isRangeValidP u = true → getCell b u = Role.EMPTY →
      checkWinner (makeMove b u Role.USER).2 u ≠ Role.USER)
    (hs : stoneCount b Role.BOT ≤ 10) :
    ∀ p ∈ getCandidates b,
      (minimax stdSort (SEARCH_DEPTH - 1) (makeMove b p Role.BOT).2 Role.USER p
        INT_MIN INT_MAX).1 = WIN := by
  intro p hp
  rw [candidate_score_eq stdSort b p hp]
  apply le_antisymm
  · apply exhaustive_le_win stdSort hperm
    have hw := stoneCount_write_le b p Role.BOT Role.BOT
    rw [if_pos rfl] at hw
    rw [if_neg (by decide)]
    omega
  · refine open_four_scores stdSort hperm b q d hd h4 he1 he2 ?_ p hp
    intro u hur hue
    have h := hu u hur hue
    rw [makeMove_snd_of_empty b u _ hue] at h
    exact h

/-- When all candidates have the same search value, `getBestMove` returns the first
candidate of `getSortedCandidates`. -/
theorem getBestMove_first_of_tie (stdSort : List (Int × Point) → List (Int × Point))
    (hperm : ∀ l, (stdSort l).Perm l) (b : Board) (hnf : isFull b = false) (v : Int)
    (hv : ∀ p ∈ getCandidates b,
      (minimax stdSort (SEARCH_DEPTH - 1) (makeMove b p Role.BOT).2 Role.USER p
        INT_MIN INT_MAX).1 = v) :
    (getSortedCandidates stdSort b Role.BOT).1.head? = some (getBestMove stdSort b).1 := by
  obtain ⟨pre, post, h1, h2, _⟩ := getBestMove_selection stdSort hperm b hnf
  have hr := hv _ (getBestMove_mem stdSort hperm b hnf)
  cases pre with
  | nil => rw [h1]; rfl
  | cons x xs =>
    have hx : x ∈ getCandidates b := by
      apply (mem_sortedCandidates stdSort hperm b Role.BOT x).mp
      rw [h1]; exact List.mem_append_left _ (List.mem_cons_self _ _)
    have hlt := h2 x (List.mem_cons_self _ _)
    rw [hv x hx, hr] at hlt
    exact absurd hlt (lt_irrefl v)

theorem user_cannot_five_of_no_stones (b : Board) (h0 : stoneCount b Role.USER = 0) :
    ∀ u, isRangeValidP u = true → getCell b u = Role.EMPTY →
      checkWinner (makeMove b u Role.USER).2 u ≠ Role.USER := by
  intro u _ hue
  rw [makeMove_snd_of_empty b u _ hue]
  apply checkWinner_ne_of_alone _ u Role.USER (by decide)
  intro x hx
  rw [getCell_write, if_neg (fun h => hx h.1)]
  exact getCell_ne_of_stoneCount_zero b Role.USER (by decide) h0 x

/-- C15 (amended): on a board on which `BOT` has four consecutive stones `q`, `q + d`,
`q + 2d`, `q + 3d` on one axis whose two adjacent end cells are both in range and `EMPTY`,
on which `USER` cannot make five with a single placement, and on which `BOT` has at most
10 stones, every candidate has the search value `WIN`, and `getBestMove` returns the first
candidate of `getSortedCandidates(BOT)`; the library sort is assumed to return a
permutation of its input. -/
theorem getBestMove_open_four (stdSort : List (Int × Point) → List (Int × Point))
    (hperm : ∀ l, (stdSort l).Perm l) (b : Board) (q : Point) (d : Int × Int)
    (hd : d ∈ directions)
    (h4 : ∀ i : Nat, i < 4 → holdsAt b Role.BOT q d (i : Int) = true)
    (he1 : isRangeValidP (along q d (-1)) = true ∧ getCell b (along q d (-1)) = Role.EMPTY)
    (he2 : isRangeValidP (along q d 4) = true ∧ getCell b (along q d 4) = Role.EMPTY)
    (hu : ∀ u, isRangeValidP u = true → getCell b u = Role.EMPTY →
      checkWinner (makeMove b u Role.USER).2 u ≠ Role.USER)
    (hs : stoneCount b Role.BOT ≤ 10) :
    (∀ p ∈ getCandidates b,
      (minimax stdSort (SEARCH_DEPTH - 1) (makeMove b p Role.BOT).2 Role.USER p
        INT_MIN INT_MAX).1 = WIN)
    ∧ (getSortedCandidates stdSort b Role.BOT).1.head? = some (getBestMove stdSort b).1 :=
  ⟨open_four_all_win stdSort hperm b q d hd h4 he1 he2 hu hs,
   getBestMove_first_of_tie stdSort hperm b (isFull_false_of_empty b _ he1.1 he1.2) WIN
    (open_four_all_win stdSort hperm b q d hd h4 he1 he2 hu hs)⟩

theorem forall_mem_of_take_drop {α : Type} (P : α → Prop) (l : List α) (n : Nat)
    (h1 : ∀ x ∈ l.take n, P x) (h2 : ∀ x ∈ l.drop n, P x) : ∀ x ∈ l, P x := by
  intro x hx
  rw [← List.take_append_drop n l] at hx
  rcases List.mem_append.mp hx with h | h
  · exact h1 x h
  · exact h2 x h

set_option maxRecDepth 1000000 in
theorem botFour_top_1 :
    ∀ p ∈ (getCandidates botFour).take 15,
      1000000 ≤ evaluatePoint (botFour.write p Role.BOT) p Role.BOT →
        p = ⟨7, 6⟩ ∨ p = ⟨7, 11⟩ := by decide!

set_option maxRecDepth 1000000 in
theorem botFour_top_2 :
    ∀ p ∈ ((getCandidates botFour).drop 15).take 15,
      1000000 ≤ evaluatePoint (botFour.write p Role.BOT) p Role.BOT →
        p = ⟨7, 6⟩ ∨ p = ⟨7, 11⟩ := by decide!

set_option maxRecDepth 1000000 in
theorem botFour_top_3 :
    ∀ p ∈ (((getCandidates botFour).drop 15).drop 15).take 15,
      1000000 ≤ evaluatePoint (botFour.write p Role.BOT) p Role.BOT →
        p = ⟨7, 6⟩ ∨ p = ⟨7, 11⟩ := by decide!

set_option maxRecDepth 1000000 in
theorem botFour_top_4 :
    ∀ p ∈ (((getCandidates botFour).drop 15).drop 15).drop 15,
      1000000 ≤ evaluatePoint (botFour.write p Role.BOT) p Role.BOT →
        p = ⟨7, 6⟩ ∨ p = ⟨7, 11⟩ := by decide!

/-- On the board `botFour` only the two end cells of the four have a heuristic score of
1000000 or more. -/
theorem botFour_top :
    ∀ p ∈ getCandidates botFour,
      1000000 ≤ evaluatePoint (botFour.write p Role.BOT) p Role.BOT →
        p = ⟨7, 6⟩ ∨ p = ⟨7, 11⟩ :=
  forall_mem_of_take_drop _ _ 15 botFour_top_1
    (forall_mem_of_take_drop _ _ 15 botFour_top_2
      (forall_mem_of_take_drop _ _ 15 botFour_top_3 botFour_top_4))

/-! ## The order of the candidates -/

theorem sortDesc_sorted (l : List (Int × Point)) :
    (sortDesc l).Pairwise (fun a b => a.1 ≥ b.1) := by
  haveI : IsTotal (Int × Point) (fun a b => a.1 ≥ b.1) := ⟨fun a b => le_total b.1 a.1⟩
  haveI : IsTrans (Int × Point) (fun a b => a.1 ≥ b.1) :=
    ⟨fun a b c h1 h2 => le_trans h2 h1⟩
  exact List.sorted_insertionSort _ l

theorem scoreMoves_fst (role : Role) :
    ∀ (ps : List Point) (b : Board), (∀ p ∈ ps, getCell b p = Role.EMPTY) →
      (scoreMoves role ps b).1
        = ps.map fun p => (evaluatePoint (b.write p role) p role, p) := by
  intro ps
  induction ps with
  | nil => intro b _; rfl
  | cons p ps ih =>
    intro b h
    simp only [scoreMoves, List.map_cons]
    rw [write_write_empty b p role (h p (List.mem_cons_self _ _))]
    rw [ih b (fun q hq => h q (List.mem_cons_of_mem _ hq))]

/-- With a sort by descending heuristic score, a candidate whose heuristic score is
greater than that of another candidate stands before it in `getSortedCandidates`. -/
theorem earlier_of_higher_key (b : Board) (pre post : List Point) (r h : Point)
    (hsplit : (getSortedCandidates sortDesc b Role.BOT).1 = pre ++ r :: post)
    (hh : h ∈ getCandidates b)
    (hgt : evaluatePoint (b.write r Role.BOT) r Role.BOT
      < evaluatePoint (b.write h Role.BOT) h Role.BOT) : h ∈ pre := by
  simp only [getSortedCandidates] at hsplit
  rw [scoreMoves_fst Role.BOT _ b (getCandidates_empty_cells b)] at hsplit
  obtain ⟨L1, L2, hL, hL1, hL2⟩ := List.map_eq_append_iff.mp hsplit
  obtain ⟨x, L3, hx, hxr, hL3⟩ := List.map_eq_cons_iff.mp hL2
  have hsorted := sortDesc_sorted
    ((getCandidates b).map fun p => (evaluatePoint (b.write p Role.BOT) p Role.BOT, p))
  have hkey : ∀ y ∈ sortDesc
      ((getCandidates b).map fun p => (evaluatePoint (b.write p Role.BOT) p Role.BOT, p)),
      y.1 = evaluatePoint (b.write y.2 Role.BOT) y.2 Role.BOT := by
    intro y hy
    obtain ⟨p, _, rfl⟩ := List.mem_map.mp ((sortDesc_perm _).mem_iff.mp hy)
    rfl
  have hmem : (evaluatePoint (b.write h Role.BOT) h Role.BOT, h) ∈ sortDesc
      ((getCandidates b).map fun p => (evaluatePoint (b.write p Role.BOT) p Role.BOT, p)) :=
    (sortDesc_perm _).mem_iff.mpr (List.mem_map.mpr ⟨h, hh, rfl⟩)
  rw [hL, hx] at hmem hsorted hkey
  rcases List.mem_append.mp hmem with h1 | h1
  · rw [← hL1]
    exact List.mem_map.mpr ⟨_, h1, rfl⟩
  · have hxk := hkey x (List.mem_append_right _ (List.mem_cons_self _ _))
    rw [hxr] at hxk
    rcases List.mem_cons.mp h1 with h2 | h2
    · rw [← h2] at hxr
      simp only [] at hxr
      rw [hxr] at hgt
      exact absurd hgt (lt_irrefl _)
    · have hp := List.rel_of_pairwise_cons (List.pairwise_append.mp hsorted).2.1 h2
      simp only [] at hp
      omega

set_option maxRecDepth 100000 in
theorem getBestMove_open_four_witness :
    (0, 1) ∈ directions
    ∧ (∀ i : Nat, i < 4 → holdsAt botFour Role.BOT ⟨7, 7⟩ (0, 1) (i : Int) = true)
    ∧ (isRangeValidP (along ⟨7, 7⟩ (0, 1) (-1)) = true
        ∧ getCell botFour (along ⟨7, 7⟩ (0, 1) (-1)) = Role.EMPTY)
    ∧ (isRangeValidP (along ⟨7, 7⟩ (0, 1) 4) = true
        ∧ getCell botFour (along ⟨7, 7⟩ (0, 1) 4) = Role.EMPTY)
    ∧ (∀ u, isRangeValidP u = true → getCell botFour u = Role.EMPTY →
        checkWinner (makeMove botFour u Role.USER).2 u ≠ Role.USER)
    ∧ stoneCount botFour Role.BOT ≤ 10
    ∧ ((getBestMove sortDesc botFour).1 = ⟨7, 6⟩ ∨ (getBestMove sortDesc botFour).1 = ⟨7, 11⟩)
    ∧ checkWinner (makeMove botFour (getBestMove sortDesc botFour).1 Role.BOT).2
        (getBestMove sortDesc botFour).1 = Role.BOT := by
  have h := getBestMove_open_four sortDesc sortDesc_perm botFour ⟨7, 7⟩ (0, 1) (by decide)
    (by decide) (by decide) (by decide)
    (user_cannot_five_of_no_stones botFour (by decide!)) (by decide!)
  obtain ⟨post, hpost⟩ := List.head?_eq_some_iff.mp h.2
  have hnf : isFull botFour = false := by decide
  have hrm := getBestMove_mem sortDesc sortDesc_perm botFour hnf
  have hh : (⟨7, 6⟩ : Point) ∈ getCandidates botFour :=
    mem_getCandidates_of_near botFour ⟨7, 7⟩ ⟨7, 6⟩ (by decide) (by decide) (by decide)
      (by decide) (by decide)
  have hk : evaluatePoint (botFour.write ⟨7, 6⟩ Role.BOT) ⟨7, 6⟩ Role.BOT = 1000000 := by
    decide!
  have hge : 1000000 ≤ evaluatePoint (botFour.write (getBestMove sortDesc botFour).1 Role.BOT)
      (getBestMove sortDesc botFour).1 Role.BOT := by
    by_contra hlt
    have hmem := earlier_of_higher_key botFour [] post (getBestMove sortDesc botFour).1
      ⟨7, 6⟩ (by rw [hpost]; rfl) hh (by rw [hk]; omega)
    exact absurd hmem (List.not_mem_nil _)
  have hr := botFour_top _ hrm hge
  refine ⟨by decide, by decide, by decide, by decide,
    user_cannot_five_of_no_stones botFour (by decide!), by decide!, hr, ?_⟩
  rcases hr with hr | hr <;> rw [hr] <;> decide

set_option maxRecDepth 1000000 in
theorem botFourSplit_completing_1 :
    ∀ p ∈ (getCandidates botFourSplit).take 24,
      checkWinner (botFourSplit.write p Role.BOT) p = Role.BOT →
        p = ⟨7, 6⟩ ∨ p = ⟨7, 11⟩ := by decide!

set_option maxRecDepth 1000000 in
theorem botFourSplit_completing_2 :
    ∀ p ∈ ((getCandidates botFourSplit).drop 24).take 24,
      checkWinner (botFourSplit.write p Role.BOT) p = Role.BOT →
        p = ⟨7, 6⟩ ∨ p = ⟨7, 11⟩ := by decide!

set_option maxRecDepth 1000000 in
theorem botFourSplit_completing_3 :
    ∀ p ∈ (((getCandidates botFourSplit).drop 24).drop 24).take 24,
      checkWinner (botFourSplit.write p Role.BOT) p = Role.BOT →
        p = ⟨7, 6⟩ ∨ p = ⟨7, 11⟩ := by decide!

set_option maxRecDepth 1000000 in
theorem botFourSplit_completing_4 :
    ∀ p ∈ ((((getCandidates botFourSplit).drop 24).drop 24).drop 24),
      checkWinner (botFourSplit.write p Role.BOT) p = Role.BOT →
        p = ⟨7, 6⟩ ∨ p = ⟨7, 11⟩ := by decide!

/-- On the board `botFourSplit` the end cells (7,6) and (7,11) are the only candidates
that make five for `BOT`. -/
theorem botFourSplit_completing :
    ∀ p ∈ getCandidates botFourSplit,
      checkWinner (botFourSplit.write p Role.BOT) p = Role.BOT →
        p = ⟨7, 6⟩ ∨ p = ⟨7, 11⟩ :=
  forall_mem_of_take_drop _ _ 24 botFourSplit_completing_1
    (forall_mem_of_take_drop _ _ 24 botFourSplit_completing_2
      (forall_mem_of_take_drop _ _ 24 botFourSplit_completing_3 botFourSplit_completing_4))

set_option maxRecDepth 1000000 in
theorem botFourSplit_keys :
    evaluatePoint (botFourSplit.write ⟨7, 6⟩ Role.BOT) ⟨7, 6⟩ Role.BOT
      < evaluatePoint (botFourSplit.write ⟨9, 7⟩ Role.BOT) ⟨9, 7⟩ Role.BOT
    ∧ evaluatePoint (botFourSplit.write ⟨7, 11⟩ Role.BOT) ⟨7, 11⟩ Role.BOT
      < evaluatePoint (botFourSplit.write ⟨9, 7⟩ Role.BOT) ⟨9, 7⟩ Role.BOT := by decide!

theorem botFourSplit_premises :
    (∀ i : Nat, i < 4 → holdsAt botFourSplit Role.BOT ⟨7, 7⟩ (0, 1) (i : Int) = true)
    ∧ (isRangeValidP (along ⟨7, 7⟩ (0, 1) (-1)) = true
        ∧ getCell botFourSplit (along ⟨7, 7⟩ (0, 1) (-1)) = Role.EMPTY)
    ∧ (isRangeValidP (along ⟨7, 7⟩ (0, 1) 4) = true
        ∧ getCell botFourSplit (along ⟨7, 7⟩ (0, 1) 4) = Role.EMPTY)
    ∧ (∀ u, isRangeValidP u = true → getCell botFourSplit u = Role.EMPTY →
        checkWinner (makeMove botFourSplit u Role.USER).2 u ≠ Role.USER) :=
  ⟨by decide, by decide, by decide, user_cannot_five_of_no_stones botFourSplit (by decide!)⟩

theorem botFourSplit_not_end (e : Point) (he : e = ⟨7, 6⟩ ∨ e = ⟨7, 11⟩) :
    (getBestMove sortDesc botFourSplit).1 ≠ e := by
  intro hr
  obtain ⟨h4, he1, he2, hu⟩ := botFourSplit_premises
  have hnf : isFull botFourSplit = false := isFull_false_of_empty _ _ he1.1 he1.2
  obtain ⟨pre, post, hsplit, hpre, _⟩ :=
    getBestMove_selection sortDesc sortDesc_perm botFourSplit hnf
  have hrm := getBestMove_mem sortDesc sortDesc_perm botFourSplit hnf
  have hh : (⟨9, 7⟩ : Point) ∈ getCandidates botFourSplit :=
    mem_getCandidates_of_near botFourSplit ⟨9, 6⟩ ⟨9, 7⟩ (by decide) (by decide) (by decide)
      (by decide) (by decide)
  rw [hr] at hsplit hpre hrm
  have hgt : evaluatePoint (botFourSplit.write e Role.BOT) e Role.BOT
      < evaluatePoint (botFourSplit.write ⟨9, 7⟩ Role.BOT) ⟨9, 7⟩ Role.BOT := by
    rcases he with rfl | rfl
    · exact botFourSplit_keys.1
    · exact botFourSplit_keys.2
  have hlt := hpre _ (earlier_of_higher_key botFourSplit pre post e ⟨9, 7⟩ hsplit hh hgt)
  rw [candidate_score_eq sortDesc _ _ hh, candidate_score_eq sortDesc _ _ hrm] at hlt
  have hwin : checkWinner (botFourSplit.write e Role.BOT) e = Role.BOT := by
    rcases he with rfl | rfl <;> decide
  rw [exhaustive_of_winner sortDesc 3 (botFourSplit.write e Role.BOT) Role.USER e
    (by rw [hwin]; decide), if_pos hwin] at hlt
  have hge := open_four_scores sortDesc sortDesc_perm botFourSplit ⟨7, 7⟩ (0, 1) (by decide)
    h4 he1 he2 (fun u hur hue => by
      have h := hu u hur hue
      rw [makeMove_snd_of_empty _ u _ hue] at h
      exact h) ⟨9, 7⟩ hh
  omega

/-- C15 (counterexample): on the board `botFourSplit` the premises of the claim hold for
the four (7,7), (7,8), (7,9), (7,10) with the open ends (7,6) and (7,11), and `USER` has
no stone at all, yet `getBestMove` returns neither end cell, and the point it returns does
not make five. -/
theorem getBestMove_open_four_not_completing :
    (∀ i : Nat, i < 4 → holdsAt botFourSplit Role.BOT ⟨7, 7⟩ (0, 1) (i : Int) = true)
    ∧ (isRangeValidP ⟨7, 6⟩ = true ∧ getCell botFourSplit ⟨7, 6⟩ = Role.EMPTY)
    ∧ (isRangeValidP ⟨7, 11⟩ = true ∧ getCell botFourSplit ⟨7, 11⟩ = Role.EMPTY)
    ∧ (∀ u, isRangeValidP u = true → getCell botFourSplit u = Role.EMPTY →
        checkWinner (makeMove botFourSplit u Role.USER).2 u ≠ Role.USER)
    ∧ (getBestMove sortDesc botFourSplit).1 ≠ ⟨7, 6⟩
    ∧ (getBestMove sortDesc botFourSplit).1 ≠ ⟨7, 11⟩
    ∧ checkWinner (makeMove botFourSplit (getBestMove sortDesc botFourSplit).1 Role.BOT).2
        (getBestMove sortDesc botFourSplit).1 ≠ Role.BOT := by
  obtain ⟨h4, he1, he2, hu⟩ := botFourSplit_premises
  refine ⟨h4, he1, he2, hu, botFourSplit_not_end _ (Or.inl rfl),
    botFourSplit_not_end _ (Or.inr rfl), ?_⟩
  intro hw
  have hnf : isFull botFourSplit = false := isFull_false_of_empty _ _ he1.1 he1.2
  have hrm := getBestMove_mem sortDesc sortDesc_perm botFourSplit hnf
  rw [makeMove_snd_of_empty _ _ _ (getCandidates_empty_cells _ _ hrm)] at hw
  exact (botFourSplit_not_end _ (botFourSplit_completing _ hrm hw)) rfl

/-! ## Blocking a four -/

theorem end_mem_getCandidates (b : Board) (s : Role) (hs : s ≠ Role.EMPTY) (q : Point)
    (d : Int × Int) (hd : d ∈ directions)
    (h4 : ∀ i : Nat, i < 4 → holdsAt b s q d (i : Int) = true)
    (e : Point) (he : e = along q d (-1) ∨ e = along q d 4)
    (her : isRangeValidP e = true) (hee : getCell b e = Role.EMPTY) :
    e ∈ getCandidates b := by
  have hq0 := (holdsAt_iff _ _ _ _ _).mp (h4 0 (by decide))
  have hq3 := (holdsAt_iff _ _ _ _ _).mp (h4 3 (by decide))
  rcases he with he | he
  · subst he
    refine mem_getCandidates_of_near _ (along q d ((0 : Nat) : Int)) _
      ⟨hq0.1, by rw [hq0.2]; exact hs⟩ her hee ?_ ?_
    · simp only [along]
      rcases directions_cases d hd with rfl | rfl | rfl | rfl <;> simp
    · simp only [along]
      rcases directions_cases d hd with rfl | rfl | rfl | rfl <;> simp
  · subst he
    refine mem_getCandidates_of_near _ (along q d ((3 : Nat) : Int)) _
      ⟨hq3.1, by rw [hq3.2]; exact hs⟩ her hee ?_ ?_
    · simp only [along]
      rcases directions_cases d hd with rfl | rfl | rfl | rfl <;> simp
    · simp only [along]
      rcases directions_cases d hd with rfl | rfl | rfl | rfl <;> simp

/-- A candidate other than the open end of a `USER` four that does not make five for `BOT`
has a search value of at most `LOSE`: `USER` answers at the open end and wins. -/
theorem unblocked_four_loses (stdSort : List (Int × Point) → List (Int × Point))
    (hperm : ∀ l, (stdSort l).Perm l) (b : Board) (q : Point) (d : Int × Int)
    (hd : d ∈ directions)
    (h4 : ∀ i : Nat, i < 4 → holdsAt b Role.USER q d (i : Int) = true)
    (e : Point) (he : e = along q d (-1) ∨ e = along q d 4)
    (her : isRangeValidP e = true) (hee : getCell b e = Role.EMPTY)
    (p : Point) (hp : p ∈ getCandidates b) (hpe : p ≠ e)
    (hnow : checkWinner (b.write p Role.BOT) p ≠ Role.BOT) :
    exhaustive stdSort 3 (b.write p Role.BOT) Role.USER p ≤ LOSE := by
  have hpr := getCandidates_valid b p hp
  have hpc := getCandidates_empty_cells b p hp
  have hcell1 : getCell (b.write p Role.BOT) p = Role.BOT := by
    rw [getCell_write, if_pos ⟨rfl, hpr⟩]
  have hw : checkWinner (b.write p Role.BOT) p = Role.EMPTY := by
    rcases checkWinner_own (b.write p Role.BOT) p with h | h
    · rw [hcell1] at h; exact absurd h hnow
    · exact h
  have hee1 : getCell (b.write p Role.BOT) e = Role.EMPTY := by
    rw [getCell_write, if_neg (fun h => hpe h.1.symm)]; exact hee
  have h41 : ∀ i : Nat, i < 4 → holdsAt (b.write p Role.BOT) Role.USER q d (i : Int) = true := by
    intro i hi
    refine holdsAt_mono b _ Role.USER ?_ q d _ (h4 i hi)
    intro x hx
    have hxp : x ≠ p := by
      intro h; rw [h, hpc] at hx; exact absurd hx (by decide)
    rw [getCell_write, if_neg (fun h => hxp h.1)]; exact hx
  have hcand := end_mem_getCandidates _ Role.USER (by decide) q d hd h41 e he her hee1
  have h1 := userNode_le_child stdSort hperm 2 _ p e hw
    (isFull_false_of_empty _ e her hee1) hcand
  have hwin := completes_five _ Role.USER (by decide) q d hd h41 e he her
  rw [exhaustive_of_winner stdSort 2 ((b.write p Role.BOT).write e Role.USER) Role.BOT e
    (by rw [hwin]; decide), if_neg (by rw [hwin]; decide)] at h1
  exact h1

theorem blocks_four (stdSort : List (Int × Point) → List (Int × Point))
    (hperm : ∀ l, (stdSort l).Perm l) (b : Board) (q : Point) (d : Int × Int)
    (hd : d ∈ directions)
    (h4 : ∀ i : Nat, i < 4 → holdsAt b Role.USER q d (i : Int) = true)
    (e : Point) (he : e = along q d (-1) ∨ e = along q d 4)
    (her : isRangeValidP e = true) (hee : getCell b e = Role.EMPTY)
    (hnow : ∀ p ∈ getCandidates b, p ≠ e →
      checkWinner (makeMove b p Role.BOT).2 p ≠ Role.BOT)
    (hsafe : LOSE < (minimax stdSort (SEARCH_DEPTH - 1) (makeMove b e Role.BOT).2 Role.USER e
      INT_MIN INT_MAX).1) :
    (getBestMove stdSort b).1 = e := by
  have hnf : isFull b = false := isFull_false_of_empty b e her hee
  have hec := end_mem_getCandidates b Role.USER (by decide) q d hd h4 e he her hee
  have hrm := getBestMove_mem stdSort hperm b hnf
  obtain ⟨pre, post, hsplit, hpre, hpost⟩ := getBestMove_selection stdSort hperm b hnf
  by_contra hne
  have hr : (minimax stdSort (SEARCH_DEPTH - 1) (makeMove b (getBestMove stdSort b).1
      Role.BOT).2 Role.USER (getBestMove stdSort b).1 INT_MIN INT_MAX).1 ≤ LOSE := by
    rw [candidate_score_eq stdSort b _ hrm]
    refine unblocked_four_loses stdSort hperm b q d hd h4 e he her hee _ hrm hne ?_
    have h := hnow _ hrm hne
    rw [makeMove_snd_of_empty b _ _ (getCandidates_empty_cells b _ hrm)] at h
    exact h
  have hes : e ∈ (getSortedCandidates stdSort b Role.BOT).1 :=
    (mem_sortedCandidates stdSort hperm b Role.BOT e).mpr hec
  rw [hsplit] at hes
  rcases List.mem_append.mp hes with h | h
  · have := hpre e h; omega
  · rcases List.mem_cons.mp h with h | h
    · exact hne h.symm
    · have := hpost e h; omega

set_option maxRecDepth 1000000 in
theorem userFourBotFour_keys :
    evaluatePoint (userFourBotFour.write ⟨7, 11⟩ Role.BOT) ⟨7, 11⟩ Role.BOT
      < evaluatePoint (userFourBotFour.write ⟨9, 6⟩ Role.BOT) ⟨9, 6⟩ Role.BOT := by decide!

theorem userFourBotFour_premises :
    (∀ i : Nat, i < 4 → holdsAt userFourBotFour Role.USER ⟨7, 7⟩ (0, 1) (i : Int) = true)
    ∧ (isRangeValidP (along ⟨7, 7⟩ (0, 1) (-1)) = true
        ∧ getCell userFourBotFour (along ⟨7, 7⟩ (0, 1) (-1)) = Role.BOT)
    ∧ (isRangeValidP (along ⟨7, 7⟩ (0, 1) 4) = true
        ∧ getCell userFourBotFour (along ⟨7, 7⟩ (0, 1) 4) = Role.EMPTY) :=
  ⟨by decide, by decide, by decide⟩

set_option maxRecDepth 100000 in
theorem userFourBotFour_not_block :
    (getBestMove sortDesc userFourBotFour).1 ≠ ⟨7, 11⟩
    ∧ checkWinner (makeMove userFourBotFour (getBestMove sortDesc userFourBotFour).1
        Role.BOT).2 (getBestMove sortDesc userFourBotFour).1 = Role.BOT := by
  obtain ⟨h4, _, he2⟩ := userFourBotFour_premises
  have hnf : isFull userFourBotFour = false := isFull_false_of_empty _ _ he2.1 he2.2
  obtain ⟨pre, post, hsplit, hpre, hpost⟩ :=
    getBestMove_selection sortDesc sortDesc_perm userFourBotFour hnf
  have hrm := getBestMove_mem sortDesc sortDesc_perm userFourBotFour hnf
  have hh : (⟨9, 6⟩ : Point) ∈ getCandidates userFourBotFour :=
    mem_getCandidates_of_near userFourBotFour ⟨9, 7⟩ ⟨9, 6⟩ (by decide) (by decide) (by decide)
      (by decide) (by decide)
  have hwin : checkWinner (userFourBotFour.write ⟨9, 6⟩ Role.BOT) ⟨9, 6⟩ = Role.BOT := by
    decide
  have hscore : exhaustive sortDesc 3 (userFourBotFour.write ⟨9, 6⟩ Role.BOT) Role.USER
      ⟨9, 6⟩ = WIN := by
    rw [exhaustive_of_winner _ _ _ _ _ (by rw [hwin]; decide), if_pos hwin]
  have hble : ∀ p : Point, exhaustive sortDesc 3 (userFourBotFour.write p Role.BOT)
      Role.USER p ≤ WIN := by
    intro p
    apply exhaustive_le_win sortDesc sortDesc_perm
    have hw := stoneCount_write_le userFourBotFour p Role.BOT Role.BOT
    have hc : stoneCount userFourBotFour Role.BOT ≤ 5 := by decide!
    rw [if_pos rfl] at hw
    rw [if_neg (by decide)]
    omega
  have hne : (getBestMove sortDesc userFourBotFour).1 ≠ ⟨7, 11⟩ := by
    intro hr
    rw [hr] at hsplit hpre hrm
    have hlt := hpre _ (earlier_of_higher_key userFourBotFour pre post ⟨7, 11⟩ ⟨9, 6⟩ hsplit hh
      userFourBotFour_keys)
    rw [candidate_score_eq sortDesc _ _ hh, candidate_score_eq sortDesc _ _ hrm, hscore] at hlt
    have := hble ⟨7, 11⟩
    omega
  refine ⟨hne, ?_⟩
  by_contra hnw
  rw [makeMove_snd_of_empty _ _ _ (getCandidates_empty_cells _ _ hrm)] at hnw
  have hlose := unblocked_four_loses sortDesc sortDesc_perm userFourBotFour ⟨7, 7⟩ (0, 1)
    (by decide) h4 ⟨7, 11⟩ (Or.inr (by decide)) he2.1 he2.2 _ hrm hne hnw
  have hge : exhaustive sortDesc 3 (userFourBotFour.write ⟨9, 6⟩ Role.BOT) Role.USER ⟨9, 6⟩
      ≤ exhaustive sortDesc 3
          (userFourBotFour.write (getBestMove sortDesc userFourBotFour).1 Role.BOT)
          Role.USER (getBestMove sortDesc userFourBotFour).1 := by
    rw [← candidate_score_eq sortDesc _ _ hh, ← candidate_score_eq sortDesc _ _ hrm]
    have hs : (⟨9, 6⟩ : Point) ∈ (getSortedCandidates sortDesc userFourBotFour Role.BOT).1 :=
      (mem_sortedCandidates sortDesc sortDesc_perm _ Role.BOT _).mpr hh
    rw [hsplit] at hs
    rcases List.mem_append.mp hs with h | h
    · exact le_of_lt (hpre _ h)
    · rcases List.mem_cons.mp h with h | h
      · rw [← h]
      · exact hpost _ h
  rw [hscore] at hge
  simp only [WIN, LOSE] at hge hlose
  omega

theorem userDoubleFour_premises :
    (∀ i : Nat, i < 4 → holdsAt userDoubleFour Role.USER ⟨7, 7⟩ (0, 1) (i : Int) = true)
    ∧ (isRangeValidP (along ⟨7, 7⟩ (0, 1) (-1)) = true
        ∧ getCell userDoubleFour (along ⟨7, 7⟩ (0, 1) (-1)) = Role.BOT)
    ∧ (isRangeValidP (along ⟨7, 7⟩ (0, 1) 4) = true
        ∧ getCell userDoubleFour (along ⟨7, 7⟩ (0, 1) 4) = Role.EMPTY)
    ∧ (∀ i : Nat, i < 4 → holdsAt userDoubleFour Role.USER ⟨9, 7⟩ (0, 1) (i : Int) = true)
    ∧ (isRangeValidP (along ⟨9, 7⟩ (0, 1) (-1)) = true
        ∧ getCell userDoubleFour (along ⟨9, 7⟩ (0, 1) (-1)) = Role.BOT)
    ∧ (isRangeValidP (along ⟨9, 7⟩ (0, 1) 4) = true
        ∧ getCell userDoubleFour (along ⟨9, 7⟩ (0, 1) 4) = Role.EMPTY) :=
  ⟨by decide, by decide, by decide, by decide, by decide, by decide⟩

/-- C16 (counterexample): on the board `userFourBotFour` the `USER` four (7,7), (7,8),
(7,9), (7,10) has the `BOT` stone (7,6) at one end and the open cell (7,11) at the other,
yet `getBestMove` does not return (7,11): it returns a point that makes five for `BOT`.
On the board `userDoubleFour` two `USER` fours have exactly one open end each, (7,11) and
(9,11), and no move is both. -/
theorem getBestMove_blocks_four_counterexample :
    ((∀ i : Nat, i < 4 → holdsAt userFourBotFour Role.USER ⟨7, 7⟩ (0, 1) (i : Int) = true)
      ∧ (isRangeValidP (along ⟨7, 7⟩ (0, 1) (-1)) = true
          ∧ getCell userFourBotFour (along ⟨7, 7⟩ (0, 1) (-1)) = Role.BOT)
      ∧ (isRangeValidP (along ⟨7, 7⟩ (0, 1) 4) = true
          ∧ getCell userFourBotFour (along ⟨7, 7⟩ (0, 1) 4) = Role.EMPTY)
      ∧ (getBestMove sortDesc userFourBotFour).1 ≠ along ⟨7, 7⟩ (0, 1) 4
      ∧ checkWinner (makeMove userFourBotFour (getBestMove sortDesc userFourBotFour).1
          Role.BOT).2 (getBestMove sortDesc userFourBotFour).1 = Role.BOT)
    ∧ ((∀ i : Nat, i < 4 → holdsAt userDoubleFour Role.USER ⟨7, 7⟩ (0, 1) (i : Int) = true)
      ∧ (isRangeValidP (along ⟨7, 7⟩ (0, 1) (-1)) = true
          ∧ getCell userDoubleFour (along ⟨7, 7⟩ (0, 1) (-1)) = Role.BOT)
      ∧ (isRangeValidP (along ⟨7, 7⟩ (0, 1) 4) = true
          ∧ getCell userDoubleFour (along ⟨7, 7⟩ (0, 1) 4) = Role.EMPTY)
      ∧ (∀ i : Nat, i < 4 → holdsAt userDoubleFour Role.USER ⟨9, 7⟩ (0, 1) (i : Int) = true)
      ∧ (isRangeValidP (along ⟨9, 7⟩ (0, 1) (-1)) = true
          ∧ getCell userDoubleFour (along ⟨9, 7⟩ (0, 1) (-1)) = Role.BOT)
      ∧ (isRangeValidP (along ⟨9, 7⟩ (0, 1) 4) = true
          ∧ getCell userDoubleFour (along ⟨9, 7⟩ (0, 1) 4) = Role.EMPTY)
      ∧ ¬ ((getBestMove sortDesc userDoubleFour).1 = along ⟨7, 7⟩ (0, 1) 4
          ∧ (getBestMove sortDesc userDoubleFour).1 = along ⟨9, 7⟩ (0, 1) 4)) := by
  obtain ⟨a1, a2, a3⟩ := userFourBotFour_premises
  obtain ⟨c1, c2, c3, c4, c5, c6⟩ := userDoubleFour_premises
  refine ⟨⟨a1, a2, a3, userFourBotFour_not_block.1, userFourBotFour_not_block.2⟩,
    c1, c2, c3, c4, c5, c6, ?_⟩
  rintro ⟨h1, h2⟩
  rw [h1] at h2
  exact absurd h2 (by decide)

theorem along_injective (z : Point) (d : Int × Int) (hd : d ∈ directions) (a c : Int)
    (h : along z d a = along z d c) : a = c := by
  have hx : z.x + d.1 * a = z.x + d.1 * c := congrArg Point.x h
  have hy : z.y + d.2 * a = z.y + d.2 * c := congrArg Point.y h
  rcases directions_cases d hd with rfl | rfl | rfl | rfl <;> simp only [] at hx hy <;> omega

theorem exists_two_avoiding (ib ic : Nat) :
    ∃ i j : Nat, i < j ∧ j < 5 ∧ i ≠ ib ∧ i ≠ ic ∧ j ≠ ib ∧ j ≠ ic := by
  by_cases h0 : 0 ≠ ib ∧ 0 ≠ ic
  · by_cases h1 : 1 ≠ ib ∧ 1 ≠ ic
    · exact ⟨0, 1, by omega, by omega, h0.1, h0.2, h1.1, h1.2⟩
    · by_cases h2 : 2 ≠ ib ∧ 2 ≠ ic
      · exact ⟨0, 2, by omega, by omega, h0.1, h0.2, h2.1, h2.2⟩
      · exact ⟨0, 3, by omega, by omega, h0.1, h0.2, by omega, by omega⟩
  · by_cases h1 : 1 ≠ ib ∧ 1 ≠ ic
    · by_cases h2 : 2 ≠ ib ∧ 2 ≠ ic
      · exact ⟨1, 2, by omega, by omega, h1.1, h1.2, h2.1, h2.2⟩
      · exact ⟨1, 3, by omega, by omega, h1.1, h1.2, by omega, by omega⟩
    · exact ⟨2, 3, by omega, by omega, by omega, by omega, by omega, by omega⟩

theorem window_index_unique (z : Point) (d : Int × Int) (hd : d ∈ directions) (k : Nat)
    (u : Point) : ∃ iu : Nat, ∀ i : Nat, along z d ((i : Int) - k) = u → i = iu := by
  by_cases h : ∃ i : Nat, along z d ((i : Int) - k) = u
  · obtain ⟨iu, hiu⟩ := h
    refine ⟨iu, fun i hi => ?_⟩
    have := along_injective z d hd _ _ (hi.trans hiu.symm)
    omega
  · exact ⟨0, fun i hi => absurd ⟨i, hi⟩ h⟩

/-- On a board on which (7,6) and (7,11) do not hold `USER` and every `USER` stone is one
of (7,7), (7,8), (7,9), (7,10) or one of two further points, `USER` has no five. -/
theorem blocked_row_no_five (b : Board) (u1 u2 : Point)
    (h6 : getCell b ⟨7, 6⟩ ≠ Role.USER) (h11 : getCell b ⟨7, 11⟩ ≠ Role.USER)
    (hU : ∀ x, getCell b x = Role.USER → (x.x = 7 ∧ 7 ≤ x.y ∧ x.y ≤ 10) ∨ x = u1 ∨ x = u2)
    (z : Point) : checkWinner b z ≠ Role.USER := by
  intro hw
  have hcell : getCell b z = Role.USER := by
    rcases checkWinner_own b z with h1 | h1
    · rw [← h1]; exact hw
    · rw [h1] at hw; exact absurd hw (by decide)
  have hr : isRangeValidP z = true := by
    by_contra hr
    rw [getCell_of_not_valid b z (by simpa using hr)] at hcell
    exact absurd hcell (by decide)
  obtain ⟨d, hd, h5⟩ := (checkWinner_eq_side_iff b z Role.USER (by decide) hcell).mp hw
  obtain ⟨k, hk, hwin⟩ := window_of_five_le_runLength b Role.USER z d
    ((holdsAt_zero_iff b _ z d).mpr ⟨hr, hcell⟩) h5
  have hcellU : ∀ i : Nat, i < 5 → getCell b (along z d ((i : Int) - k)) = Role.USER :=
    fun i hi => ((holdsAt_iff _ _ _ _ _).mp (hwin i hi)).2
  obtain ⟨ib, hib⟩ := window_index_unique z d hd k u1
  obtain ⟨ic, hic⟩ := window_index_unique z d hd k u2
  obtain ⟨i, j, hij, hj, hi1, hi2, hj1, hj2⟩ := exists_two_avoiding ib ic
  have hA : ∀ m : Nat, m < 5 → m ≠ ib → m ≠ ic →
      z.x + d.1 * ((m : Int) - k) = 7 ∧ 7 ≤ z.y + d.2 * ((m : Int) - k)
        ∧ z.y + d.2 * ((m : Int) - k) ≤ 10 := by
    intro m hm hmb hmc
    rcases hU _ (hcellU m hm) with h | h | h
    · exact h
    · exact absurd (hib m h) hmb
    · exact absurd (hic m h) hmc
  have hAi := hA i (by omega) hi1 hi2
  have hAj := hA j hj hj1 hj2
  have hnot : ∀ m : Nat, m < 5 → ∀ y : Int, y = 6 ∨ y = 11 →
      ¬ (z.x + d.1 * ((m : Int) - k) = 7 ∧ z.y + d.2 * ((m : Int) - k) = y) := by
    intro m hm y hy hxy
    have hp : along z d ((m : Int) - k) = ⟨7, y⟩ := by
      simp only [along, hxy.1, hxy.2]
    have hc := hcellU m hm
    rw [hp] at hc
    rcases hy with rfl | rfl
    · exact h6 hc
    · exact h11 hc
  rcases directions_cases d hd with rfl | rfl | rfl | rfl
  · simp only [] at hAi hAj; omega
  · simp only [] at hAi hAj hnot
    by_cases hlow : z.y - k ≤ 6
    · have h := hnot (6 - (z.y - k)).toNat (by omega) 6 (Or.inl rfl)
      apply h
      constructor <;> omega
    · have h := hnot (11 - (z.y - k)).toNat (by omega) 11 (Or.inr rfl)
      apply h
      constructor <;> omega
  · simp only [] at hAi hAj; omega
  · simp only [] at hAi hAj; omega

/-! ## The position after the block is not lost -/

theorem exhaustive_of_leaf (stdSort : List (Int × Point) → List (Int × Point))
    (depth : Nat) (b : Board) (role : Role) (lastMove : Point)
    (hw : checkWinner b lastMove = Role.EMPTY) (hl : depth = 0 ∨ isFull b = true) :
    exhaustive stdSort depth b role lastMove = evaluate b Role.BOT := by
  have h := minimax_full_window stdSort depth b role lastMove
  rcases hl with hl | hl
  · subst hl
    rw [minimax_of_no_winner_zero stdSort b role lastMove _ _ hw] at h
    exact (congrArg Prod.fst h).symm
  · rw [minimax_of_no_winner_full stdSort depth b role lastMove _ _ hw hl] at h
    exact (congrArg Prod.fst h).symm

theorem getCell_write_keeps (b : Board) (x u : Point) (r s : Role) (hs : s ≠ Role.EMPTY)
    (hx : getCell b x = s) (hu : getCell b u = Role.EMPTY) :
    getCell (b.write u r) x = s := by
  have hxu : x ≠ u := by
    intro h; rw [h, hu] at hx; exact hs hx.symm
  rw [getCell_write, if_neg (fun h => hxu h.1)]; exact hx

theorem getCell_write_user (b : Board) (x u : Point) (r : Role)
    (h : getCell (b.write u r) x = Role.USER) : x = u ∨ getCell b x = Role.USER := by
  rw [getCell_write] at h
  by_cases hc : x = u ∧ isRangeValidP u = true
  · exact Or.inl hc.1
  · rw [if_neg hc] at h; exact Or.inr h

theorem getCell_write_bot (b : Board) (x u : Point)
    (h : getCell (b.write u Role.BOT) x = Role.BOT) : x = u ∨ getCell b x = Role.BOT := by
  rw [getCell_write] at h
  by_cases hc : x = u ∧ isRangeValidP u = true
  · exact Or.inl hc.1
  · rw [if_neg hc] at h; exact Or.inr h

/-- A node of the search on a board of the blocked row on which `USER` has at most 10
stones, and at which the search stops, has a value above `LOSE`. -/
theorem safe_leaf (stdSort : List (Int × Point) → List (Int × Point)) (b : Board)
    (u1 u2 : Point)
    (h6 : getCell b ⟨7, 6⟩ = Role.BOT) (h11 : getCell b ⟨7, 11⟩ = Role.BOT)
    (hU : ∀ x, getCell b x = Role.USER → (x.x = 7 ∧ 7 ≤ x.y ∧ x.y ≤ 10) ∨ x = u1 ∨ x = u2)
    (hs : stoneCount b Role.USER ≤ 10) (depth : Nat) (role : Role) (z : Point)
    (hl : depth = 0 ∨ isFull b = true) :
    LOSE < exhaustive stdSort depth b role z := by
  have hno := blocked_row_no_five b u1 u2 (by rw [h6]; decide) (by rw [h11]; decide) hU z
  cases hw : checkWinner b z with
  | USER => exact absurd hw hno
  | BOT =>
    rw [exhaustive_of_winner _ _ _ _ _ (by rw [hw]; decide), if_pos hw]; decide
  | EMPTY =>
    rw [exhaustive_of_leaf stdSort depth b role z hw hl]
    have h := (evaluate_stone_bounds b).1
    simp only [LOSE]
    omega

theorem safe_user1 (stdSort : List (Int × Point) → List (Int × Point))
    (hperm : ∀ l, (stdSort l).Perm l) (b : Board) (u : Point)
    (h6 : getCell b ⟨7, 6⟩ = Role.BOT) (h11 : getCell b ⟨7, 11⟩ = Role.BOT)
    (hU : ∀ x, getCell b x = Role.USER → (x.x = 7 ∧ 7 ≤ x.y ∧ x.y ≤ 10) ∨ x = u ∨ x = u)
    (hs : stoneCount b Role.USER ≤ 9) (z : Point) :
    LOSE < exhaustive stdSort 1 b Role.USER z := by
  by_cases hf : isFull b = true
  · exact safe_leaf stdSort b u u h6 h11 hU (by omega) 1 Role.USER z (Or.inr hf)
  · have hno := blocked_row_no_five b u u (by rw [h6]; decide) (by rw [h11]; decide) hU z
    cases hw : checkWinner b z with
    | USER => exact absurd hw hno
    | BOT =>
      rw [exhaustive_of_winner _ _ _ _ _ (by rw [hw]; decide), if_pos hw]; decide
    | EMPTY =>
      have h : LOSE + 1 ≤ exhaustive stdSort 1 b Role.USER z :=
        userNode_ge stdSort hperm 0 b z (LOSE + 1) hw (by simpa using hf) (by decide)
        (by
          intro u2 hu2
          have hue := getCandidates_empty_cells b u2 hu2
          have hc := stoneCount_write_le b u2 Role.USER Role.USER
          rw [if_pos rfl] at hc
          have := safe_leaf stdSort (b.write u2 Role.USER) u u2
            (getCell_write_keeps b _ u2 _ _ (by decide) h6 hue)
            (getCell_write_keeps b _ u2 _ _ (by decide) h11 hue)
            (by
              intro x hx
              rcases getCell_write_user b x u2 _ hx with h | h
              · exact Or.inr (Or.inr h)
              · rcases hU x h with h | h | h
                · exact Or.inl h
                · exact Or.inr (Or.inl h)
                · exact Or.inr (Or.inl h))
            (by omega) 0 Role.BOT u2 (Or.inl rfl)
          omega)
      omega

theorem safe_bot2 (stdSort : List (Int × Point) → List (Int × Point))
    (hperm : ∀ l, (stdSort l).Perm l) (b : Board) (u : Point)
    (h6 : getCell b ⟨7, 6⟩ = Role.BOT) (h11 : getCell b ⟨7, 11⟩ = Role.BOT)
    (hU : ∀ x, getCell b x = Role.USER → (x.x = 7 ∧ 7 ≤ x.y ∧ x.y ≤ 10) ∨ x = u ∨ x = u)
    (hs : stoneCount b Role.USER ≤ 9) (z : Point) :
    LOSE < exhaustive stdSort 2 b Role.BOT z := by
  by_cases hf : isFull b = true
  · exact safe_leaf stdSort b u u h6 h11 hU (by omega) 2 Role.BOT z (Or.inr hf)
  · have hno := blocked_row_no_five b u u (by rw [h6]; decide) (by rw [h11]; decide) hU z
    cases hw : checkWinner b z with
    | USER => exact absurd hw hno
    | BOT =>
      rw [exhaustive_of_winner _ _ _ _ _ (by rw [hw]; decide), if_pos hw]; decide
    | EMPTY =>
      have hf2 : isFull b = false := by simpa using hf
      obtain ⟨c, hc⟩ := List.exists_mem_of_ne_nil _ (getCandidates_ne_nil b hf2)
      have hce := getCandidates_empty_cells b c hc
      have h1 : exhaustive stdSort 1 (b.write c Role.BOT) Role.USER c
          ≤ exhaustive stdSort 2 b Role.BOT z :=
        botNode_ge_child stdSort hperm 1 b z c hw hf2 hc
      have hcnt := stoneCount_write_le b c Role.BOT Role.USER
      rw [if_neg (by decide)] at hcnt
      have h2 := safe_user1 stdSort hperm (b.write c Role.BOT) u
        (getCell_write_keeps b _ c _ _ (by decide) h6 hce)
        (getCell_write_keeps b _ c _ _ (by decide) h11 hce)
        (by
          intro x hx
          rcases getCell_write_user b x c _ hx with h | h
          · rw [h, getCell_write, if_pos ⟨rfl, getCandidates_valid b c hc⟩] at hx
            exact absurd hx (by decide)
          · exact hU x h)
        (by omega) c
      omega

theorem safe_user3 (stdSort : List (Int × Point) → List (Int × Point))
    (hperm : ∀ l, (stdSort l).Perm l) (b : Board)
    (h6 : getCell b ⟨7, 6⟩ = Role.BOT) (h11 : getCell b ⟨7, 11⟩ = Role.BOT)
    (hU : ∀ x, getCell b x = Role.USER → (x.x = 7 ∧ 7 ≤ x.y ∧ x.y ≤ 10))
    (hs : stoneCount b Role.USER ≤ 8) (z : Point) :
    LOSE < exhaustive stdSort 3 b Role.USER z := by
  have hU2 : ∀ x, getCell b x = Role.USER →
      (x.x = 7 ∧ 7 ≤ x.y ∧ x.y ≤ 10) ∨ x = z ∨ x = z := fun x hx => Or.inl (hU x hx)
  by_cases hf : isFull b = true
  · exact safe_leaf stdSort b z z h6 h11 hU2 (by omega) 3 Role.USER z (Or.inr hf)
  · have hno := blocked_row_no_five b z z (by rw [h6]; decide) (by rw [h11]; decide) hU2 z
    cases hw : checkWinner b z with
    | USER => exact absurd hw hno
    | BOT =>
      rw [exhaustive_of_winner _ _ _ _ _ (by rw [hw]; decide), if_pos hw]; decide
    | EMPTY =>
      have h : LOSE + 1 ≤ exhaustive stdSort 3 b Role.USER z :=
        userNode_ge stdSort hperm 2 b z (LOSE + 1) hw (by simpa using hf) (by decide)
        (by
          intro u hu
          have hue := getCandidates_empty_cells b u hu
          have hc := stoneCount_write_le b u Role.USER Role.USER
          rw [if_pos rfl] at hc
          have := safe_bot2 stdSort hperm (b.write u Role.USER) u
            (getCell_write_keeps b _ u _ _ (by decide) h6 hue)
            (getCell_write_keeps b _ u _ _ (by decide) h11 hue)
            (by
              intro x hx
              rcases getCell_write_user b x u _ hx with h | h
              · exact Or.inr (Or.inl h)
              · exact Or.inl (hU x h))
            (by omega) u
          omega)
      omega

/-- C16 (amended): on a board on which `USER` has four consecutive stones `q`, `q + d`,
`q + 2d`, `q + 3d` on one axis and `e` is an adjacent end cell of the four that is in range
and `EMPTY`, `getBestMove` returns `e`, provided that no other candidate makes five for
`BOT` and that the search value of `e` is above `LOSE`; the library sort is assumed to
return a permutation of its input. -/
theorem getBestMove_blocks_four (stdSort : List (Int × Point) → List (Int × Point))
    (hperm : ∀ l, (stdSort l).Perm l) (b : Board) (q : Point) (d : Int × Int)
    (hd : d ∈ directions)
    (h4 : ∀ i : Nat, i < 4 → holdsAt b Role.USER q d (i : Int) = true)
    (e : Point) (he : e = along q d (-1) ∨ e = along q d 4)
    (her : isRangeValidP e = true) (hee : getCell b e = Role.EMPTY)
    (hnow : ∀ p ∈ getCandidates b, p ≠ e →
      checkWinner (makeMove b p Role.BOT).2 p ≠ Role.BOT)
    (hsafe : LOSE < (minimax stdSort (SEARCH_DEPTH - 1) (makeMove b e Role.BOT).2 Role.USER e
      INT_MIN INT_MAX).1) :
    (getBestMove stdSort b).1 = e :=
  blocks_four stdSort hperm b q d hd h4 e he her hee hnow hsafe

theorem checkWinner_ne_of_pair (b : Board) (s : Role) (hs : s ≠ Role.EMPTY) (p x0 : Point)
    (h : ∀ x, getCell b x = s → x = p ∨ x = x0) : checkWinner b p ≠ s := by
  intro hw
  have hcell : getCell b p = s := by
    rcases checkWinner_own b p with h1 | h1
    · rw [← h1]; exact hw
    · rw [h1] at hw; exact absurd hw.symm hs
  obtain ⟨d, hd, h5⟩ := (checkWinner_eq_side_iff b p s hs hcell).mp hw
  have hat : ∀ a : Int, a ≠ 0 → holdsAt b s p d a = true → along p d a = x0 := by
    intro a ha hh
    rcases h _ ((holdsAt_iff b s p d a).mp hh).2 with h1 | h1
    · exact absurd h1 (along_ne_self p d hd a ha)
    · exact h1
  have hno : ∀ a c : Int, a ≠ 0 → c ≠ 0 → a ≠ c →
      ¬ (holdsAt b s p d a = true ∧ holdsAt b s p d c = true) := by
    rintro a c ha hc hac ⟨h1, h2⟩
    exact hac (along_injective p d hd a c ((hat a ha h1).trans (hat c hc h2).symm))
  have h12 := hno 1 2 (by decide) (by decide) (by decide)
  have h1m := hno 1 (-1) (by decide) (by decide) (by decide)
  have hmm := hno (-1) (-2) (by decide) (by decide) (by decide)
  rw [five_le_runLength_iff] at h5
  cases e1 : holdsAt b s p d 1 <;> cases e2 : holdsAt b s p d 2
    <;> cases e3 : holdsAt b s p d (-1) <;> cases e4 : holdsAt b s p d (-2)
    <;> simp [e1, e2, e3, e4] at h5 h12 h1m hmm

set_option maxRecDepth 1000000 in
theorem userFourBlocked_bot_cells :
    ∀ i j : Fin 15, userFourBlocked.board i j = Role.BOT →
      (⟨(i.val : Int), (j.val : Int)⟩ : Point) = ⟨7, 6⟩ := by decide!

set_option maxRecDepth 1000000 in
theorem userFourBlocked_user_cells :
    ∀ i j : Fin 15, (userFourBlocked.write ⟨7, 11⟩ Role.BOT).board i j = Role.USER →
      ((i.val : Int) = 7 ∧ 7 ≤ (j.val : Int) ∧ (j.val : Int) ≤ 10) := by decide!

theorem userFourBlocked_safe (stdSort : List (Int × Point) → List (Int × Point))
    (hperm : ∀ l, (stdSort l).Perm l) :
    LOSE < (minimax stdSort (SEARCH_DEPTH - 1) (makeMove userFourBlocked ⟨7, 11⟩ Role.BOT).2
      Role.USER ⟨7, 11⟩ INT_MIN INT_MAX).1 := by
  have hmem : (⟨7, 11⟩ : Point) ∈ getCandidates userFourBlocked :=
    mem_getCandidates_of_near userFourBlocked ⟨7, 10⟩ ⟨7, 11⟩ (by decide) (by decide)
      (by decide) (by decide) (by decide)
  rw [candidate_score_eq stdSort _ _ hmem]
  refine safe_user3 stdSort hperm _ (by decide) (by decide) ?_ (by decide!) _
  intro x hx
  by_cases hr : isRangeValidP x = true
  · obtain ⟨i, j, rfl⟩ := exists_fin_of_valid x hr
    rw [getCell_coe] at hx
    exact userFourBlocked_user_cells i j hx
  · rw [getCell_of_not_valid _ x (by simpa using hr)] at hx
    exact absurd hx (by decide)

theorem userFourBlocked_no_win :
    ∀ p ∈ getCandidates userFourBlocked, p ≠ ⟨7, 11⟩ →
      checkWinner (makeMove userFourBlocked p Role.BOT).2 p ≠ Role.BOT := by
  intro p hp _
  rw [makeMove_snd_of_empty _ _ _ (getCandidates_empty_cells _ p hp)]
  apply checkWinner_ne_of_pair _ Role.BOT (by decide) p ⟨7, 6⟩
  intro x hx
  rcases getCell_write_bot userFourBlocked x p hx with h | h
  · exact Or.inl h
  · right
    by_cases hr : isRangeValidP x = true
    · obtain ⟨i, j, rfl⟩ := exists_fin_of_valid x hr
      rw [getCell_coe] at h
      exact userFourBlocked_bot_cells i j h
    · rw [getCell_of_not_valid _ x (by simpa using hr)] at h
      exact absurd h (by decide)

theorem getBestMove_blocks_four_witness :
    (0, 1) ∈ directions
    ∧ (∀ i : Nat, i < 4 → holdsAt userFourBlocked Role.USER ⟨7, 7⟩ (0, 1) (i : Int) = true)
    ∧ getCell userFourBlocked (along ⟨7, 7⟩ (0, 1) (-1)) = Role.BOT
    ∧ (isRangeValidP (along ⟨7, 7⟩ (0, 1) 4) = true
        ∧ getCell userFourBlocked (along ⟨7, 7⟩ (0, 1) 4) = Role.EMPTY)
    ∧ (∀ p ∈ getCandidates userFourBlocked, p ≠ ⟨7, 11⟩ →
        checkWinner (makeMove userFourBlocked p Role.BOT).2 p ≠ Role.BOT)
    ∧ LOSE < (minimax sortDesc (SEARCH_DEPTH - 1)
        (makeMove userFourBlocked ⟨7, 11⟩ Role.BOT).2 Role.USER ⟨7, 11⟩ INT_MIN INT_MAX).1
    ∧ (getBestMove sortDesc userFourBlocked).1 = ⟨7, 11⟩ :=
  ⟨by decide, by decide, by decide, by decide, userFourBlocked_no_win,
    userFourBlocked_safe sortDesc sortDesc_perm,
    getBestMove_blocks_four sortDesc sortDesc_perm userFourBlocked ⟨7, 7⟩ (0, 1) (by decide)
      (by decide) ⟨7, 11⟩ (Or.inr (by decide)) (by decide) (by decide) userFourBlocked_no_win
      (userFourBlocked_safe sortDesc sortDesc_perm)⟩

/-! ## Cells, fullness and removal -/

/-- C22: on the empty board `getCandidates()` returns exactly one point, the centre
(7,7). -/
theorem getCandidates_empty_board : getCandidates Board.empty = [⟨7, 7⟩] := by decide

/-- C26: a point is out of range exactly when a coordinate is below 0 or at least 15;
`getCell` returns `EMPTY` for every point out of range and the stored cell `board[x][y]`
for every point in range. -/
theorem getCell_spec (b : Board) (p : Point) :
    (isRangeValidP p = false ↔ (p.x < 0 ∨ p.x ≥ 15 ∨ p.y < 0 ∨ p.y ≥ 15))
    ∧ (isRangeValidP p = false → getCell b p = Role.EMPTY)
    ∧ (isRangeValidP p = true →
        ∃ i j : Fin 15, p = ⟨(i.val : Int), (j.val : Int)⟩ ∧ getCell b p = b.board i j) := by
  refine ⟨?_, getCell_of_not_valid b p, ?_⟩
  · have h := isRangeValidP_iff p
    cases hv : isRangeValidP p with
    | true => rw [hv] at h; simp only [Bool.true_eq_false, false_iff]; have := h.mp rfl; omega
    | false =>
      rw [hv] at h
      simp only [true_iff]
      by_contra hc
      exact absurd (h.mpr (by omega)) (by decide)
  · intro hv
    obtain ⟨i, j, rfl⟩ := exists_fin_of_valid p hv
    exact ⟨i, j, rfl, getCell_coe b i j⟩

/-- C27: `isFull()` returns `true` if and only if no cell in range is `EMPTY`. -/
theorem isFull_iff (b : Board) :
    isFull b = true ↔ ∀ p : Point, isRangeValidP p = true → getCell b p ≠ Role.EMPTY := by
  constructor
  · intro hf p hr he
    have := isFull_false_of_empty b p hr he
    rw [hf] at this
    exact absurd this (by decide)
  · intro h
    cases hf : isFull b with
    | true => rfl
    | false =>
      obtain ⟨p, hr, he⟩ := exists_empty_of_not_full b hf
      exact absurd he (h p hr)

/-- C28: for a point `p` in range, `undoMove(p)` leaves `EMPTY` at `p`, whatever the cell
held before, and leaves every other cell as it was. -/
theorem undoMove_resets (b : Board) (p : Point) (hr : isRangeValidP p = true) :
    getCell (undoMove b p) p = Role.EMPTY
    ∧ ∀ q : Point, q ≠ p → getCell (undoMove b p) q = getCell b q := by
  unfold undoMove
  refine ⟨by rw [getCell_write, if_pos ⟨rfl, hr⟩], ?_⟩
  intro q hq
  rw [getCell_write, if_neg (fun h => hq h.1)]

theorem undoMove_resets_witness :
    (getCell userFourBlocked ⟨7, 7⟩ = Role.USER ∧ isRangeValidP ⟨7, 7⟩ = true
      ∧ getCell (undoMove userFourBlocked ⟨7, 7⟩) ⟨7, 7⟩ = Role.EMPTY
      ∧ ∀ q : Point, q ≠ ⟨7, 7⟩ →
          getCell (undoMove userFourBlocked ⟨7, 7⟩) q = getCell userFourBlocked q)
    ∧ (getCell userFourBlocked ⟨7, 6⟩ = Role.BOT ∧ isRangeValidP ⟨7, 6⟩ = true
      ∧ getCell (undoMove userFourBlocked ⟨7, 6⟩) ⟨7, 6⟩ = Role.EMPTY
      ∧ ∀ q : Point, q ≠ ⟨7, 6⟩ →
          getCell (undoMove userFourBlocked ⟨7, 6⟩) q = getCell userFourBlocked q)
    ∧ (getCell userFourBlocked ⟨0, 0⟩ = Role.EMPTY ∧ isRangeValidP ⟨0, 0⟩ = true
      ∧ getCell (undoMove userFourBlocked ⟨0, 0⟩) ⟨0, 0⟩ = Role.EMPTY
      ∧ ∀ q : Point, q ≠ ⟨0, 0⟩ →
          getCell (undoMove userFourBlocked ⟨0, 0⟩) q = getCell userFourBlocked q) :=
  ⟨⟨by decide, by decide, undoMove_resets userFourBlocked ⟨7, 7⟩ (by decide)⟩,
   ⟨by decide, by decide, undoMove_resets userFourBlocked ⟨7, 6⟩ (by decide)⟩,
   ⟨by decide, by decide, undoMove_resets userFourBlocked ⟨0, 0⟩ (by decide)⟩⟩

/-- C29: `minimax` returns with the board it was called with, for every sort function,
depth, board, side, last move and window; so does each of its two candidate loops, for
every candidate list and whether or not the loop is left by the cut-off.  With a sort that
returns a permutation of its input, every candidate that a loop tries is in range and
`makeMove` succeeds for it, so that the cell reset by `undoMove` is the cell that
`makeMove` has just written. -/
theorem minimax_restores_board (stdSort : List (Int × Point) → List (Int × Point))
    (depth : Nat) (b : Board) (role : Role) (lastMove : Point) (alpha beta : Int) :
    (minimax stdSort depth b role lastMove alpha beta).2 = b
    ∧ (∀ ps : List Point,
        (maxLoop (fun b1 p a be => minimax stdSort depth b1 Role.USER p a be) role beta ps b
          alpha).2 = b)
    ∧ (∀ ps : List Point,
        (minLoop (fun b1 p a be => minimax stdSort depth b1 Role.BOT p a be) role alpha ps b
          beta).2 = b)
    ∧ ((∀ l, (stdSort l).Perm l) →
        ∀ p ∈ (getSortedCandidates stdSort b role).1,
          isRangeValidP p = true ∧ (makeMove b p role).1 = true
          ∧ undoMove (makeMove b p role).2 p = b) :=
  ⟨minimax_board stdSort depth b role lastMove alpha beta,
   fun ps => maxLoop_board _ (fun b1 p a be => minimax_board stdSort depth b1 _ p a be)
    role beta ps b alpha,
   fun ps => minLoop_board _ (fun b1 p a be => minimax_board stdSort depth b1 _ p a be)
    role alpha ps b beta,
   fun hperm p hp =>
    ⟨getCandidates_valid b p ((mem_sortedCandidates stdSort hperm b role p).mp hp),
      sortedCandidates_legal stdSort hperm b role role p hp,
      undo_makeMove b p role (sortedCandidates_legal stdSort hperm b role role p hp)⟩⟩

/-- C30: `getSortedCandidates(s)` returns with the board it was called with: every
candidate is in range and `EMPTY`, it is scored on the board with `s` written at it, and
resetting it to `EMPTY` gives the board back before the next candidate is scored. -/
theorem getSortedCandidates_restores_board
    (stdSort : List (Int × Point) → List (Int × Point)) (b : Board) (s : Role) :
    (getSortedCandidates stdSort b s).2 = b
    ∧ (∀ p ∈ getCandidates b, isRangeValidP p = true ∧ getCell b p = Role.EMPTY
        ∧ (b.write p s).write p Role.EMPTY = b)
    ∧ scoreMoves s (getCandidates b) b
        = ((getCandidates b).map fun p => (evaluatePoint (b.write p s) p s, p), b) := by
  refine ⟨getSortedCandidates_board stdSort b s, ?_, ?_⟩
  · intro p hp
    exact ⟨getCandidates_valid b p hp, getCandidates_empty_cells b p hp,
      write_write_empty b p s (getCandidates_empty_cells b p hp)⟩
  · exact Prod.ext (scoreMoves_fst s _ b (getCandidates_empty_cells b))
      (scoreMoves_board s _ b (getCandidates_empty_cells b))

/-! ## Side-swap symmetry of the evaluation -/

theorem swapRole_beq (a c : Role) : (swapRole a == swapRole c) = (a == c) := by
  cases a <;> cases c <;> rfl

theorem swapRole_beq_empty (a : Role) : (swapRole a == Role.EMPTY) = (a == Role.EMPTY) := by
  cases a <;> rfl

theorem swapRole_bne_empty (a : Role) : (swapRole a != Role.EMPTY) = (a != Role.EMPTY) := by
  cases a <;> rfl

theorem getCell_swapSides (b : Board) (p : Point) :
    getCell (swapSides b) p = swapRole (getCell b p) := by
  by_cases hv : isRangeValidP p = true
  · obtain ⟨i, j, rfl⟩ := exists_fin_of_valid p hv
    rw [getCell_coe, getCell_coe]
    rfl
  · have hv2 : isRangeValidP p = false := by simpa using hv
    rw [getCell_of_not_valid _ p hv2, getCell_of_not_valid _ p hv2]
    rfl

theorem at_swapSides (b : Board) (l : LineView) :
    l.at (swapSides b) = fun i => swapRole (l.at b i) := by
  funext i
  simp only [LineView.at, getCell_swapSides]

theorem getActualLengthLoop_swapSides (b : Board) (l : LineView) :
    ∀ (fuel : Nat) (count : Int) (p : Point),
      getActualLengthLoop (swapSides b) l fuel count p = getActualLengthLoop b l fuel count p := by
  intro fuel
  induction fuel with
  | zero => intro count p; rfl
  | succ n ih =>
    intro count p
    simp only [getActualLengthLoop, getCell_swapSides, swapRole_bne_empty, ih]

theorem countRun_swap (cellAt : Int → Role) (role : Role) (length : Int) :
    ∀ (fuel : Nat) (index count : Int),
      countRun (fun i => swapRole (cellAt i)) (swapRole role) length fuel index count
        = countRun cellAt role length fuel index count := by
  intro fuel
  induction fuel with
  | zero => intro index count; rfl
  | succ n ih =>
    intro index count
    simp only [countRun, swapRole_beq, ih]

theorem scanGroup_swap (cellAt : Int → Role) (role : Role) (length index : Int) :
    scanGroup (fun i => swapRole (cellAt i)) (swapRole role) length index
      = scanGroup cellAt role length index := by
  simp only [scanGroup, countRun_swap, swapRole_beq, swapRole_beq_empty]

theorem analyzeLineLoop_swap (cellAt : Int → Role) (role : Role) (length : Int) :
    ∀ (fuel : Nat) (index score : Int),
      analyzeLineLoop (fun i => swapRole (cellAt i)) (swapRole role) length fuel index score
        = analyzeLineLoop cellAt role length fuel index score := by
  intro fuel
  induction fuel with
  | zero => intro index score; rfl
  | succ n ih =>
    intro index score
    simp only [analyzeLineLoop, scanGroup_swap, swapRole_beq, ih]

theorem analyzeLine_swapSides (b : Board) (l : LineView) (role : Role) :
    analyzeLine (swapSides b) l (swapRole role) = analyzeLine b l role := by
  simp only [analyzeLine, getActualLength, getActualLengthLoop_swapSides, at_swapSides,
    analyzeLineLoop_swap]

theorem evaluate_swapSides (b : Board) (s : Role) (hs : s = Role.USER ∨ s = Role.BOT) :
    evaluate (swapSides b) (opponentOf s) = evaluate b s := by
  have h1 : opponentOf s = swapRole s := by
    rcases hs with rfl | rfl <;> rfl
  have h2 : opponentOf (swapRole s) = swapRole (opponentOf s) := by
    rcases hs with rfl | rfl <;> rfl
  simp only [evaluate, h1, h2, analyzeLine_swapSides]

/-- C21: for a side `s` of `USER` and `BOT` and the board `swapSides b`, on which every
`USER` stone of `b` is a `BOT` stone and every `BOT` stone a `USER` stone, `evaluate` for
the other side on the swapped board equals `evaluate` for `s` on `b`; the same holds for
the score of every single line. -/
theorem evaluate_side_swap (b : Board) (s : Role) (hs : s = Role.USER ∨ s = Role.BOT) :
    evaluate (swapSides b) (opponentOf s) = evaluate b s
    ∧ (∀ p : Point, getCell (swapSides b) p = swapRole (getCell b p))
    ∧ (∀ l : LineView, analyzeLine (swapSides b) l (opponentOf s) = analyzeLine b l s) := by
  refine ⟨evaluate_swapSides b s hs, getCell_swapSides b, ?_⟩
  intro l
  have h1 : opponentOf s = swapRole s := by
    rcases hs with rfl | rfl <;> rfl
  rw [h1, analyzeLine_swapSides]

theorem evaluate_side_swap_witness :
    (Role.BOT = Role.USER ∨ Role.BOT = Role.BOT)
    ∧ opponentOf Role.BOT = Role.USER
    ∧ getCell (swapSides userFourBlocked) ⟨7, 7⟩ = Role.BOT
    ∧ getCell (swapSides userFourBlocked) ⟨7, 6⟩ = Role.USER
    ∧ evaluate (swapSides userFourBlocked) (opponentOf Role.BOT)
        = evaluate userFourBlocked Role.BOT :=
  ⟨Or.inr rfl, by decide, by decide, by decide,
    (evaluate_side_swap userFourBlocked Role.BOT (Or.inr rfl)).1⟩

/-! ## The candidate list -/

theorem foldl_invariant_mem {σ α : Type} (P : σ → Prop) (f : σ → α → σ) :
    ∀ (l : List α), (∀ st x, x ∈ l → P st → P (f st x)) →
      ∀ init : σ, P init → P (l.foldl f init) := by
  intro l
  induction l with
  | nil => intro _ init h; exact h
  | cons a l ih =>
    intro hf init h
    simp only [List.foldl_cons]
    exact ih (fun st x hx hst => hf st x (List.mem_cons_of_mem _ hx) hst) _
      (hf init a (List.mem_cons_self _ _) h)

theorem candFold_invariant_mem (b : Board) (P : CandState → Prop) (occupied : List Point)
    (hstep : ∀ p ∈ occupied, ∀ i ∈ searchOffsets, ∀ j ∈ searchOffsets, ∀ st,
      P st → P (candStep b p st i j))
    (init : CandState) (h : P init) :
    P (occupied.foldl (fun st p =>
      searchOffsets.foldl (fun st i =>
        searchOffsets.foldl (fun st j => candStep b p st i j) st) st) init) := by
  apply foldl_invariant_mem P _ occupied _ init h
  intro st p hp hst
  apply foldl_invariant_mem P _ searchOffsets _ st hst
  intro st i hi hst
  apply foldl_invariant_mem P _ searchOffsets _ st hst
  intro st j hj hst
  exact hstep p hp i hi j hj st hst

/-- The invariant of the loop nest of `getCandidates`: the candidates are pairwise
different, each of them is marked in `visited`, and each lies within `SEARCH_RANGE` of an
occupied point. -/
theorem candStep_nodup_near (b : Board) (occupied : List Point) (p : Point)
    (hp : p ∈ occupied) (i j : Int) (hi : i ∈ searchOffsets) (hj : j ∈ searchOffsets)
    (st : CandState)
    (h : st.candidates.Nodup
      ∧ (∀ q ∈ st.candidates, st.visited q.x q.y = true)
      ∧ (∀ q ∈ st.candidates, ∃ o ∈ occupied,
          (-3 ≤ q.x - o.x ∧ q.x - o.x ≤ 3) ∧ (-3 ≤ q.y - o.y ∧ q.y - o.y ≤ 3))) :
    (candStep b p st i j).candidates.Nodup
      ∧ (∀ q ∈ (candStep b p st i j).candidates, (candStep b p st i j).visited q.x q.y = true)
      ∧ (∀ q ∈ (candStep b p st i j).candidates, ∃ o ∈ occupied,
          (-3 ≤ q.x - o.x ∧ q.x - o.x ≤ 3) ∧ (-3 ≤ q.y - o.y ∧ q.y - o.y ≤ 3)) := by
  obtain ⟨h1, h2, h3⟩ := h
  have hi2 := (mem_searchOffsets i).mp hi
  have hj2 := (mem_searchOffsets j).mp hj
  unfold candStep
  simp only []
  split_ifs with hc he
  · simp only [Bool.and_eq_true, Bool.not_eq_true'] at hc
    refine ⟨?_, ?_, ?_⟩
    · refine List.nodup_append.mpr ⟨h1, List.nodup_singleton _, ?_⟩
      rw [List.disjoint_left]
      intro q hq hq2
      rw [List.mem_singleton] at hq2
      subst hq2
      have := h2 _ hq
      simp only [] at this
      rw [hc.2] at this
      exact absurd this (by decide)
    · intro q hq
      rcases List.mem_append.mp hq with hq | hq
      · have := h2 q hq
        simp only []
        split_ifs
        · rfl
        · exact this
      · rw [List.mem_singleton] at hq
        subst hq
        simp
    · intro q hq
      rcases List.mem_append.mp hq with hq | hq
      · exact h3 q hq
      · rw [List.mem_singleton] at hq
        subst hq
        exact ⟨p, hp, ⟨by simp only []; omega, by simp only []; omega⟩,
          ⟨by simp only []; omega, by simp only []; omega⟩⟩
  · refine ⟨h1, ?_, h3⟩
    intro q hq
    have := h2 q hq
    simp only []
    split_ifs
    · rfl
    · exact this
  · exact ⟨h1, h2, h3⟩

theorem occupiedPoints_ne_nil_iff (b : Board) :
    occupiedPoints b ≠ [] ↔ ∃ q : Point, isRangeValidP q = true ∧ getCell b q ≠ Role.EMPTY := by
  constructor
  · intro h
    obtain ⟨q, hq⟩ := List.exists_mem_of_ne_nil _ h
    exact ⟨q, (mem_occupiedPoints b q).mp hq⟩
  · rintro ⟨q, hq⟩ hnil
    have := (mem_occupiedPoints b q).mpr hq
    rw [hnil] at this
    exact absurd this (List.not_mem_nil _)

theorem getCandidates_nodup_near (b : Board) (hne : occupiedPoints b ≠ []) :
    (getCandidates b).Nodup
    ∧ (∀ q ∈ getCandidates b, ∃ o ∈ occupiedPoints b,
        (-3 ≤ q.x - o.x ∧ q.x - o.x ≤ 3) ∧ (-3 ≤ q.y - o.y ∧ q.y - o.y ≤ 3)) := by
  have hemp : (occupiedPoints b).isEmpty = false := by
    cases hl : occupiedPoints b with
    | nil => exact absurd hl hne
    | cons a l => rfl
  unfold getCandidates
  simp only [hemp, Bool.false_eq_true, if_false]
  have h := candFold_invariant_mem b
    (fun st : CandState => st.candidates.Nodup
      ∧ (∀ q ∈ st.candidates, st.visited q.x q.y = true)
      ∧ (∀ q ∈ st.candidates, ∃ o ∈ occupiedPoints b,
          (-3 ≤ q.x - o.x ∧ q.x - o.x ≤ 3) ∧ (-3 ≤ q.y - o.y ∧ q.y - o.y ≤ 3)))
    (occupiedPoints b)
    (fun p hp i hi j hj st hst => candStep_nodup_near b (occupiedPoints b) p hp i j hi hj st hst)
    ⟨fun _ _ => false, []⟩
    ⟨List.nodup_nil, fun q hq => absurd hq (List.not_mem_nil _),
      fun q hq => absurd hq (List.not_mem_nil _)⟩
  exact ⟨h.1, h.2.2⟩

theorem getCandidates_nodup (b : Board) : (getCandidates b).Nodup := by
  by_cases hne : occupiedPoints b = []
  · unfold getCandidates
    simp only [hne, List.isEmpty_nil, if_true]
    exact List.nodup_singleton _
  · exact (getCandidates_nodup_near b hne).1

theorem chebyshev_le_iff (p q : Point) :
    max |p.x - q.x| |p.y - q.y| ≤ SEARCH_RANGE
      ↔ (-3 ≤ p.x - q.x ∧ p.x - q.x ≤ 3) ∧ (-3 ≤ p.y - q.y ∧ p.y - q.y ≤ 3) := by
  rw [max_le_iff, abs_le, abs_le]

theorem mem_getCandidates_iff (b : Board) (hne : occupiedPoints b ≠ []) (p : Point) :
    p ∈ getCandidates b ↔
      isRangeValidP p = true ∧ getCell b p = Role.EMPTY
      ∧ ∃ q : Point, isRangeValidP q = true ∧ getCell b q ≠ Role.EMPTY
          ∧ max |p.x - q.x| |p.y - q.y| ≤ SEARCH_RANGE := by
  constructor
  · intro hp
    obtain ⟨o, ho, hnear⟩ := (getCandidates_nodup_near b hne).2 p hp
    have ho2 := (mem_occupiedPoints b o).mp ho
    exact ⟨getCandidates_valid b p hp, getCandidates_empty_cells b p hp, o, ho2.1, ho2.2,
      (chebyshev_le_iff p o).mpr hnear⟩
  · rintro ⟨hr, he, q, hqr, hqe, hd⟩
    have hnear := (chebyshev_le_iff p q).mp hd
    exact mem_getCandidates_of_near b q p ⟨hqr, hqe⟩ hr he hnear.1 hnear.2

/-- C23: on a board with at least one stone, a point occurs in `getCandidates()` if and
only if it is in range, its cell is `EMPTY`, and some occupied cell `q` has
`max(|p.x - q.x|, |p.y - q.y|) <= SEARCH_RANGE`; and no point occurs in the list more than
once. -/
theorem getCandidates_characterization (b : Board)
    (hocc : ∃ q : Point, isRangeValidP q = true ∧ getCell b q ≠ Role.EMPTY) :
    (∀ p : Point, p ∈ getCandidates b ↔
      isRangeValidP p = true ∧ getCell b p = Role.EMPTY
      ∧ ∃ q : Point, isRangeValidP q = true ∧ getCell b q ≠ Role.EMPTY
          ∧ max |p.x - q.x| |p.y - q.y| ≤ SEARCH_RANGE)
    ∧ (getCandidates b).Nodup :=
  ⟨mem_getCandidates_iff b ((occupiedPoints_ne_nil_iff b).mpr hocc), getCandidates_nodup b⟩

theorem getCandidates_characterization_witness :
    (∃ q : Point, isRangeValidP q = true ∧ getCell userFourBlocked q ≠ Role.EMPTY)
    ∧ (∀ p : Point, p ∈ getCandidates userFourBlocked ↔
      isRangeValidP p = true ∧ getCell userFourBlocked p = Role.EMPTY
      ∧ ∃ q : Point, isRangeValidP q = true ∧ getCell userFourBlocked q ≠ Role.EMPTY
          ∧ max |p.x - q.x| |p.y - q.y| ≤ SEARCH_RANGE)
    ∧ (getCandidates userFourBlocked).Nodup :=
  ⟨⟨⟨7, 7⟩, by decide, by decide⟩,
    getCandidates_characterization userFourBlocked ⟨⟨7, 7⟩, by decide, by decide⟩⟩

theorem getSortedCandidates_scores_sorted
    (stdSort : List (Int × Point) → List (Int × Point))
    (hperm : ∀ l, (stdSort l).Perm l)
    (hsorted : ∀ l, (stdSort l).Pairwise (fun a c => a.1 ≥ c.1)) (b : Board) (s : Role) :
    (getSortedCandidates stdSort b s).1.Pairwise
      (fun p q => evaluatePoint (b.write p s) p s ≥ evaluatePoint (b.write q s) q s) := by
  simp only [getSortedCandidates]
  rw [scoreMoves_fst s _ b (getCandidates_empty_cells b), List.pairwise_map]
  refine (hsorted _).imp_of_mem ?_
  intro a c ha hc hac
  have hkey : ∀ y ∈ stdSort
      ((getCandidates b).map fun p => (evaluatePoint (b.write p s) p s, p)),
      y.1 = evaluatePoint (b.write y.2 s) y.2 s := by
    intro y hy
    obtain ⟨p, _, rfl⟩ := List.mem_map.mp ((hperm _).mem_iff.mp hy)
    rfl
  rw [← hkey a ha, ← hkey c hc]
  exact hac

theorem scoreGreater_strictWeakOrdering : StrictWeakOrdering scoreGreater := by
  refine ⟨?_, ?_, ?_⟩
  · intro a
    simp [scoreGreater]
  · intro a b c h1 h2
    simp only [scoreGreater, decide_eq_true_eq] at h1 h2 ⊢
    omega
  · intro a b c h1 h2 h3 h4
    simp only [scoreGreater, decide_eq_false_iff_not] at h1 h2 h3 h4 ⊢
    constructor <;> omega

theorem insertionSortWith_contract : SortContract insertionSortWith := by
  intro comp hc l
  obtain ⟨hirr, htr, heq⟩ := hc
  have hneg : ∀ a b c, comp b a = false → comp c b = false → comp c a = false := by
    intro a b c h1 h2
    cases hca : comp c a with
    | false => rfl
    | true =>
      exfalso
      have hac : comp a c = false := by
        cases h : comp a c with
        | false => rfl
        | true =>
          have := htr c a c hca h
          rw [hirr c] at this
          exact absurd this (by decide)
      have hab : comp a b = false := by
        cases h : comp a b with
        | false => rfl
        | true =>
          have := htr c a b hca h
          rw [h2] at this
          exact absurd this (by decide)
      have hbc : comp b c = false := by
        cases h : comp b c with
        | false => rfl
        | true =>
          have := htr b c a h hca
          rw [h1] at this
          exact absurd this (by decide)
      have := (heq a b c hab h1 hbc h2).2
      rw [hca] at this
      exact absurd this (by decide)
  haveI : IsTotal (Int × Point) (fun a c => comp c a = false) := ⟨by
    intro a c
    cases h1 : comp c a with
    | false => exact Or.inl rfl
    | true =>
      right
      cases h2 : comp a c with
      | false => rfl
      | true =>
        have := htr c a c h1 h2
        rw [hirr c] at this
        exact absurd this (by decide)⟩
  haveI : IsTrans (Int × Point) (fun a c => comp c a = false) :=
    ⟨fun a b c h1 h2 => hneg a b c h1 h2⟩
  exact ⟨List.perm_insertionSort _ l, List.sorted_insertionSort _ l⟩

theorem getSortedCandidatesWith_eq
    (sortWith : ((Int × Point) → (Int × Point) → Bool) → List (Int × Point) → List (Int × Point))
    (b : Board) (s : Role) :
    getSortedCandidatesWith sortWith b s = getSortedCandidates (sortWith scoreGreater) b s :=
  rfl

theorem sortWith_scoreGreater_desc
    (sortWith : ((Int × Point) → (Int × Point) → Bool) → List (Int × Point) → List (Int × Point))
    (hsort : SortContract sortWith) :
    (∀ l, (sortWith scoreGreater l).Perm l)
      ∧ ∀ l, (sortWith scoreGreater l).Pairwise (fun a c => a.1 ≥ c.1) := by
  refine ⟨fun l => (hsort _ scoreGreater_strictWeakOrdering l).1, fun l => ?_⟩
  refine (hsort _ scoreGreater_strictWeakOrdering l).2.imp ?_
  intro a c h
  simp only [scoreGreater, decide_eq_false_iff_not] at h
  omega

/-- C24: with a library `sort` that meets its contract for every comparator,
`getSortedCandidates(s)`, which passes the comparator `a.first > b.first`, returns a
permutation of `getCandidates()` along which the scores are non-increasing: every point of
the list has a score at least as large as every later point, the score of `p` being
`evaluatePoint(p, s)` on the board with `s` written at `p`.  The comparator is a strict weak
ordering, as the library requires, and the method is the one the search calls with the
library sort applied to this comparator. -/
theorem getSortedCandidates_sorted_perm
    (sortWith : ((Int × Point) → (Int × Point) → Bool) → List (Int × Point) → List (Int × Point))
    (hsort : SortContract sortWith) (b : Board) (s : Role) :
    StrictWeakOrdering scoreGreater
    ∧ getSortedCandidatesWith sortWith b s = getSortedCandidates (sortWith scoreGreater) b s
    ∧ (getSortedCandidatesWith sortWith b s).1.Perm (getCandidates b)
    ∧ (getSortedCandidatesWith sortWith b s).1.Pairwise
        (fun p q => evaluatePoint (b.write p s) p s ≥ evaluatePoint (b.write q s) q s) := by
  obtain ⟨hperm, hsorted⟩ := sortWith_scoreGreater_desc sortWith hsort
  refine ⟨scoreGreater_strictWeakOrdering, rfl, ?_, ?_⟩
  · rw [getSortedCandidatesWith_eq]
    exact getSortedCandidates_perm _ hperm b s
  · rw [getSortedCandidatesWith_eq]
    exact getSortedCandidates_scores_sorted _ hperm hsorted b s

theorem getSortedCandidates_sorted_perm_witness :
    SortContract insertionSortWith
    ∧ (getSortedCandidatesWith insertionSortWith userFourBlocked Role.BOT).1.Perm
        (getCandidates userFourBlocked)
    ∧ (getSortedCandidatesWith insertionSortWith userFourBlocked Role.BOT).1.Pairwise
        (fun p q => evaluatePoint (userFourBlocked.write p Role.BOT) p Role.BOT
          ≥ evaluatePoint (userFourBlocked.write q Role.BOT) q Role.BOT) :=
  ⟨insertionSortWith_contract,
    (getSortedCandidates_sorted_perm insertionSortWith insertionSortWith_contract userFourBlocked
      Role.BOT).2.2⟩

/-! ## Termination of the search -/

theorem maxLoopFuel_eq (searchF : Board → Point → Int → Int → Option (Int × Board))
    (search : Board → Point → Int → Int → Int × Board)
    (h : ∀ b1 p a be, searchF b1 p a be = some (search b1 p a be)) (role : Role)
    (beta : Int) :
    ∀ (ps : List Point) (b : Board) (alpha : Int),
      maxLoopFuel searchF role beta ps b alpha = some (maxLoop search role beta ps b alpha) := by
  intro ps
  induction ps with
  | nil => intro b alpha; rfl
  | cons p ps ih =>
    intro b alpha
    simp only [maxLoopFuel, maxLoop, h]
    split_ifs
    · rfl
    · exact ih _ _
    · exact ih _ _

theorem minLoopFuel_eq (searchF : Board → Point → Int → Int → Option (Int × Board))
    (search : Board → Point → Int → Int → Int × Board)
    (h : ∀ b1 p a be, searchF b1 p a be = some (search b1 p a be)) (role : Role)
    (alpha : Int) :
    ∀ (ps : List Point) (b : Board) (beta : Int),
      minLoopFuel searchF role alpha ps b beta = some (minLoop search role alpha ps b beta) := by
  intro ps
  induction ps with
  | nil => intro b beta; rfl
  | cons p ps ih =>
    intro b beta
    simp only [minLoopFuel, minLoop, h]
    split_ifs
    · rfl
    · exact ih _ _
    · exact ih _ _

theorem minimaxFuel_eq (stdSort : List (Int × Point) → List (Int × Point)) :
    ∀ (fuel d : Nat), d < fuel →
      ∀ (b : Board) (role : Role) (lastMove : Point) (alpha beta : Int),
        minimaxFuel stdSort fuel (d : Int) b role lastMove alpha beta
          = some (minimax stdSort d b role lastMove alpha beta) := by
  intro fuel
  induction fuel with
  | zero => intro d hd; exact absurd hd (Nat.not_lt_zero d)
  | succ n ih =>
    intro d hd b role lastMove alpha beta
    unfold minimaxFuel minimax
    simp only []
    by_cases hw : checkWinner b lastMove ≠ Role.EMPTY
    · rw [if_pos hw, if_pos hw]
    · rw [if_neg hw, if_neg hw]
      cases d with
      | zero => simp
      | succ d2 =>
        have hne : ¬ (((d2 + 1 : Nat) : Int) = 0) := by omega
        have hsub : ((d2 + 1 : Nat) : Int) - 1 = (d2 : Int) := by omega
        by_cases hf : isFull b = true
        · simp [hf]
        · simp only [hne, hf, false_or, if_false, hsub, Bool.false_eq_true]
          split_ifs
          · exact maxLoopFuel_eq _ _ (fun b1 p a be => ih d2 (by omega) b1 _ p a be) _ _ _ _ _
          · exact minLoopFuel_eq _ _ (fun b1 p a be => ih d2 (by omega) b1 _ p a be) _ _ _ _ _

/-- C25: `minimax` returns for every depth that is not negative.  The model
`minimaxFuel`, which answers `none` for a call nested deeper than its bound, returns a
result whenever the bound exceeds `depth`: each recursive call is made with `depth - 1`
and a call with `depth = 0` makes none, so the calls are nested at most `depth + 1` deep.
The result is that of `minimax`, the function defined by recursion on the depth. -/
theorem minimax_terminates (stdSort : List (Int × Point) → List (Int × Point))
    (depth : Int) (hd : 0 ≤ depth) (fuel : Nat) (hf : depth < fuel)
    (b : Board) (role : Role) (lastMove : Point) (alpha beta : Int) :
    minimaxFuel stdSort fuel depth b role lastMove alpha beta
      = some (minimax stdSort depth.toNat b role lastMove alpha beta) := by
  have h := minimaxFuel_eq stdSort fuel depth.toNat (by omega) b role lastMove alpha beta
  rw [Int.toNat_of_nonneg hd] at h
  exact h

theorem minimax_terminates_witness :
    (0 : Int) ≤ 3 ∧ (3 : Int) < ((4 : Nat) : Int)
    ∧ minimaxFuel sortDesc 4 3 userFourBlocked Role.BOT ⟨7, 6⟩ INT_MIN INT_MAX
        = some (minimax sortDesc (3 : Int).toNat userFourBlocked Role.BOT ⟨7, 6⟩
            INT_MIN INT_MAX) :=
  ⟨by decide, by decide,
    minimax_terminates sortDesc 3 (by decide) 4 (by decide) userFourBlocked Role.BOT ⟨7, 6⟩
      INT_MIN INT_MAX⟩


/-! ## Candidates exist exactly on the boards that are not full -/

/-- Claim C35: `getCandidates` returns the empty list exactly on the full boards, so on
every board that is not full the list holds at least one point for the search to try. -/
theorem getCandidates_nil_iff_full (b : Board) :
    (getCandidates b = [] ↔ isFull b = true)
      ∧ (isFull b = false → ∃ p : Point, p ∈ getCandidates b) := by
  refine ⟨⟨?_, ?_⟩, ?_⟩
  · intro h
    cases hf : isFull b with
    | true => rfl
    | false => exact absurd h (getCandidates_ne_nil b hf)
  · intro hf
    cases hc : getCandidates b with
    | nil => rfl
    | cons q rest =>
      have hq : q ∈ getCandidates b := by rw [hc]; exact List.mem_cons_self _ _
      have := isFull_false_of_empty b q (getCandidates_valid b q hq)
        (getCandidates_empty_cells b q hq)
      rw [hf] at this
      exact absurd this (by decide)
  · intro hf
    exact List.exists_mem_of_ne_nil _ (getCandidates_ne_nil b hf)

/-! ## The point evaluation and the two sides -/

/-- Claim C38: `evaluatePoint` is antisymmetric in the side: for every board and every
point, in range or not, the value for `USER` is the negation of the value for `BOT`. -/
theorem evaluatePoint_antisymmetric (b : Board) (p : Point) :
    evaluatePoint b p Role.USER = - evaluatePoint b p Role.BOT := by
  have h1 : opponentOf Role.USER = Role.BOT := by decide
  have h2 : opponentOf Role.BOT = Role.USER := by decide
  simp only [evaluatePoint, directions, List.foldl, h1, h2]
  ring

/-! ## The length of a line view -/

theorem getActualLengthLoop_eq_min (b : Board) (l : LineView) :
    ∀ (fuel n : Nat) (count : Int) (p : Point), count < l.length →
      (∀ j : Nat, j < n → isRangeValidP ⟨p.x + l.dir.x * j, p.y + l.dir.y * j⟩ = true) →
      isRangeValidP ⟨p.x + l.dir.x * n, p.y + l.dir.y * n⟩ = false →
      ((n : Int) ≤ fuel ∨ l.length - count ≤ fuel) →
      getActualLengthLoop b l fuel count p = min l.length (count + n) := by
  intro fuel
  induction fuel with
  | zero =>
    intro n count p hc _ _ hf
    have hn : n = 0 := by omega
    subst hn
    simp only [getActualLengthLoop, Nat.cast_zero, add_zero]
    omega
  | succ f ih =>
    intro n count p hc hin hout hf
    cases n with
    | zero =>
      have hv : isRangeValidP p = false := by simpa using hout
      simp only [getActualLengthLoop, hv, getCell_of_not_valid b p hv, bne_self_eq_false,
        Bool.and_false, Bool.or_false, Bool.false_eq_true, if_false, Nat.cast_zero, add_zero]
      omega
    | succ m =>
      have hv : isRangeValidP p = true := by simpa using hin 0 (by omega)
      simp only [getActualLengthLoop, hv, Bool.or_true, if_true, Bool.not_true,
        Bool.false_eq_true, if_false]
      by_cases hlen : count + 1 ≥ l.length
      · rw [if_pos hlen]
        push_cast
        omega
      · rw [if_neg hlen]
        have hin2 : ∀ j : Nat, j < m →
            isRangeValidP ⟨p.x + l.dir.x + l.dir.x * j, p.y + l.dir.y + l.dir.y * j⟩ = true := by
          intro j hj
          have h := hin (j + 1) (by omega)
          have e1 : p.x + l.dir.x * ((j + 1 : Nat) : Int) = p.x + l.dir.x + l.dir.x * j := by
            push_cast; ring
          have e2 : p.y + l.dir.y * ((j + 1 : Nat) : Int) = p.y + l.dir.y + l.dir.y * j := by
            push_cast; ring
          rw [e1, e2] at h
          exact h
        have hout2 : isRangeValidP
            ⟨p.x + l.dir.x + l.dir.x * m, p.y + l.dir.y + l.dir.y * m⟩ = false := by
          have e1 : p.x + l.dir.x * ((m + 1 : Nat) : Int) = p.x + l.dir.x + l.dir.x * m := by
            push_cast; ring
          have e2 : p.y + l.dir.y * ((m + 1 : Nat) : Int) = p.y + l.dir.y + l.dir.y * m := by
            push_cast; ring
          rw [e1, e2] at hout
          exact hout
        have h := ih m (count + 1) ⟨p.x + l.dir.x, p.y + l.dir.y⟩ (by omega) hin2 hout2
          (by push_cast at hf ⊢; omega)
        rw [h]
        push_cast
        omega

theorem exists_first_out_of_range (start dir : Point)
    (hd : (dir.x, dir.y) ∈ directions) :
    ∃ n : Nat, n ≤ 15
      ∧ (∀ j : Nat, j < n → isRangeValidP ⟨start.x + dir.x * j, start.y + dir.y * j⟩ = true)
      ∧ isRangeValidP ⟨start.x + dir.x * n, start.y + dir.y * n⟩ = false := by
  have hex : ∃ j : Nat,
      isRangeValidP ⟨start.x + dir.x * j, start.y + dir.y * j⟩ = false := by
    by_cases hs : isRangeValidP start = true
    · refine ⟨15, ?_⟩
      rw [isRangeValidP_iff] at hs
      rw [← Bool.not_eq_true, isRangeValidP_iff]
      have hx : dir.x = (dir.x, dir.y).1 := rfl
      have hy : dir.y = (dir.x, dir.y).2 := rfl
      rcases directions_cases _ hd with h | h | h | h <;> rw [hx, hy, h] <;>
        simp only [] <;> omega
    · refine ⟨0, ?_⟩
      simpa using hs
  classical
  refine ⟨Nat.find hex, ?_, ?_, Nat.find_spec hex⟩
  · by_cases hs : isRangeValidP start = true
    · apply Nat.find_min' hex
      rw [isRangeValidP_iff] at hs
      rw [← Bool.not_eq_true, isRangeValidP_iff]
      have hx : dir.x = (dir.x, dir.y).1 := rfl
      have hy : dir.y = (dir.x, dir.y).2 := rfl
      rcases directions_cases _ hd with h | h | h | h <;> rw [hx, hy, h] <;>
        simp only [] <;> omega
    · have h0 : Nat.find hex ≤ 0 := by
        apply Nat.find_min' hex
        simpa using hs
      omega
  · intro j hj
    have := Nat.find_min hex hj
    simpa using this

/-- Claim C32: for a direction among the four scan directions and a requested bound of at
least 1, `getActualLength` is the minimum of the bound and the number `n` of consecutive
in-range points from the start (`n` is the index of the first point off the grid, at most
15, and 0 when the start is off the grid); more iterations of the loop than the model
allows give the same value, and the value is the same on every board. -/
theorem getActualLength_eq_min (b : Board) (l : LineView)
    (hd : (l.dir.x, l.dir.y) ∈ directions) (hL : 1 ≤ l.length) :
    (∃ n : Nat, n ≤ 15
        ∧ (∀ j : Nat, j < n → isRangeValidP (l.point j) = true)
        ∧ isRangeValidP (l.point n) = false)
      ∧ (∀ n : Nat, (∀ j : Nat, j < n → isRangeValidP (l.point j) = true) →
          isRangeValidP (l.point n) = false →
          getActualLength b l = min l.length n
          ∧ ∀ fuel : Nat, l.length.toNat + 1 ≤ fuel →
              getActualLengthLoop b l fuel 0 l.start = min l.length n)
      ∧ (∀ b2 : Board, getActualLength b2 l = getActualLength b l) := by
  have hex := exists_first_out_of_range l.start l.dir hd
  have key : ∀ (c : Board) (n : Nat), (∀ j : Nat, j < n → isRangeValidP (l.point j) = true) →
      isRangeValidP (l.point n) = false → ∀ fuel : Nat, l.length.toNat + 1 ≤ fuel →
        getActualLengthLoop c l fuel 0 l.start = min l.length n := by
    intro c n hin hout fuel hf
    have h := getActualLengthLoop_eq_min c l fuel n 0 l.start (by omega) hin hout
      (Or.inr (by omega))
    rw [h, zero_add]
  refine ⟨hex, fun n hin hout => ⟨key b n hin hout _ (le_refl _), key b n hin hout⟩, ?_⟩
  intro b2
  obtain ⟨n, _, hin, hout⟩ := hex
  exact (key b2 n hin hout _ (le_refl _)).trans (key b n hin hout _ (le_refl _)).symm

theorem getActualLength_eq_min_witness :
    (((1 : Int), (1 : Int)) ∈ directions) ∧ (1 : Int) ≤ 9
      ∧ getActualLength userFour ⟨⟨12, 3⟩, ⟨1, 1⟩, 9⟩ = min 9 ((3 : Nat) : Int) :=
  ⟨by decide, by decide,
    ((getActualLength_eq_min userFour ⟨⟨12, 3⟩, ⟨1, 1⟩, 9⟩ (by decide) (by decide)).2.1 3
      (by decide) (by decide)).1⟩

/-! ## The window of the point evaluation -/

theorem countRun_congr (c1 c2 : Int → Role) (role : Role) (length : Int)
    (h : ∀ j : Int, 0 ≤ j → j < length → c1 j = c2 j) :
    ∀ (fuel : Nat) (index count : Int), 0 ≤ index →
      countRun c1 role length fuel index count = countRun c2 role length fuel index count := by
  intro fuel
  induction fuel with
  | zero => intro index count _; rfl
  | succ f ih =>
    intro index count h0
    simp only [countRun]
    by_cases hlt : index < length
    · rw [h index h0 hlt, ih (index + 1) (count + 1) (by omega)]
    · simp [hlt]

theorem countRun_index_ge (cellAt : Int → Role) (role : Role) (length : Int) :
    ∀ (fuel : Nat) (index count : Int),
      index ≤ (countRun cellAt role length fuel index count).1 := by
  intro fuel index count
  obtain ⟨n, hn, _, _⟩ := countRun_count cellAt role length fuel index count
  rw [hn]
  simp

theorem scanGroup_congr (c1 c2 : Int → Role) (role : Role) (length : Int)
    (h : ∀ j : Int, 0 ≤ j → j < length → c1 j = c2 j) (index : Int) (h0 : 0 ≤ index)
    (hlt : index < length) :
    scanGroup c1 role length index = scanGroup c2 role length index := by
  have hr1 := countRun_congr c1 c2 role length h (length - index).toNat index 0 h0
  have hge := countRun_index_ge c2 role length (length - index).toNat index 0
  simp only [scanGroup, hr1]
  generalize countRun c2 role length (length - index).toNat index 0 = r1 at hge ⊢
  have hleft : (decide (index > 0) && (c1 (index - 1) == Role.EMPTY))
      = (decide (index > 0) && (c2 (index - 1) == Role.EMPTY)) := by
    by_cases hi : index > 0
    · rw [h (index - 1) (by omega) (by omega)]
    · simp [hi]
  have hgap : (decide (r1.1 < length) && (c1 r1.1 == Role.EMPTY)
        && decide (r1.1 + 1 < length) && (c1 (r1.1 + 1) == role))
      = (decide (r1.1 < length) && (c2 r1.1 == Role.EMPTY)
        && decide (r1.1 + 1 < length) && (c2 (r1.1 + 1) == role)) := by
    by_cases hi : r1.1 + 1 < length
    · rw [h r1.1 (by omega) (by omega), h (r1.1 + 1) (by omega) hi]
    · simp [hi]
  have hr2 := countRun_congr c1 c2 role length h (length - (r1.1 + 1)).toNat (r1.1 + 1) r1.2
    (by omega)
  have hge2 := countRun_index_ge c2 role length (length - (r1.1 + 1)).toNat (r1.1 + 1) r1.2
  rw [hleft, hgap, hr2]
  have hright : ∀ i : Int, 0 ≤ i → (decide (i < length) && (c1 i == Role.EMPTY))
      = (decide (i < length) && (c2 i == Role.EMPTY)) := by
    intro i hi0
    by_cases hi : i < length
    · rw [h i hi0 hi]
    · simp [hi]
  split_ifs
  · rw [hright _ (by omega)]
  · rw [hright _ (by omega)]

theorem scanGroup_index_ge (cellAt : Int → Role) (role : Role) (length index : Int) :
    index ≤ (scanGroup cellAt role length index).1 := by
  have hge := countRun_index_ge cellAt role length (length - index).toNat index 0
  simp only [scanGroup]
  generalize countRun cellAt role length (length - index).toNat index 0 = r1 at hge ⊢
  have hge2 := countRun_index_ge cellAt role length (length - (r1.1 + 1)).toNat (r1.1 + 1) r1.2
  split_ifs <;> omega

theorem analyzeLineLoop_congr (c1 c2 : Int → Role) (role : Role) (length : Int)
    (h : ∀ j : Int, 0 ≤ j → j < length → c1 j = c2 j) :
    ∀ (fuel : Nat) (index score : Int), 0 ≤ index →
      analyzeLineLoop c1 role length fuel index score
        = analyzeLineLoop c2 role length fuel index score := by
  intro fuel
  induction fuel with
  | zero => intro index score _; rfl
  | succ f ih =>
    intro index score h0
    simp only [analyzeLineLoop]
    by_cases hlt : index < length
    · have hge := scanGroup_index_ge c2 role length index
      rw [if_pos hlt, if_pos hlt, h index h0 hlt, scanGroup_congr c1 c2 role length h index h0 hlt,
        ih _ _ (by omega), ih (index + 1) score (by omega)]
    · rw [if_neg hlt, if_neg hlt]
theorem clampStartFuel_steps (dx dy : Int) :
    ∀ (m : Nat) (sx sy : Int),
      (∀ j : Nat, j < m → isRangeValid (sx + dx * j) (sy + dy * j) = false) →
      isRangeValid (sx + dx * m) (sy + dy * m) = true →
      clampStartFuel dx dy (m + 1) sx sy = some ⟨sx + dx * m, sy + dy * m⟩
      ∧ ∀ fuel : Nat, fuel ≤ m → clampStartFuel dx dy fuel sx sy = none := by
  intro m
  induction m with
  | zero =>
    intro sx sy _ hv
    simp only [Nat.cast_zero, mul_zero, add_zero] at hv
    refine ⟨?_, ?_⟩
    · simp [clampStartFuel, hv]
    · intro fuel hf
      have : fuel = 0 := by omega
      subst this
      rfl
  | succ m ih =>
    intro sx sy hout hv
    have h0 : isRangeValid sx sy = false := by simpa using hout 0 (by omega)
    have e1 : ∀ j : Nat, sx + dx + dx * (j : Int) = sx + dx * ((j + 1 : Nat) : Int) := by
      intro j; push_cast; ring
    have e2 : ∀ j : Nat, sy + dy + dy * (j : Int) = sy + dy * ((j + 1 : Nat) : Int) := by
      intro j; push_cast; ring
    obtain ⟨I1, I2⟩ := ih (sx + dx) (sy + dy)
      (fun j hj => by rw [e1, e2]; exact hout (j + 1) (by omega))
      (by rw [e1, e2]; exact hv)
    refine ⟨?_, ?_⟩
    · have step : clampStartFuel dx dy (m + 1 + 1) sx sy
          = clampStartFuel dx dy (m + 1) (sx + dx) (sy + dy) := by
        conv_lhs => unfold clampStartFuel
        simp only [h0, Bool.not_false, if_true]
      rw [step, I1, e1, e2]
    · intro fuel hf
      cases fuel with
      | zero => rfl
      | succ f =>
        simp only [clampStartFuel, h0, Bool.not_false, if_true]
        exact I2 f (by omega)

theorem clampStart_of_fuel (dx dy : Int) :
    ∀ (fuel : Nat) (sx sy : Int) (q : Point), clampStartFuel dx dy fuel sx sy = some q →
      ∀ fuel2 : Nat, fuel ≤ fuel2 → clampStart dx dy fuel2 sx sy = q := by
  intro fuel
  induction fuel with
  | zero => intro sx sy q h; simp [clampStartFuel] at h
  | succ f ih =>
    intro sx sy q h fuel2 hf
    cases fuel2 with
    | zero => omega
    | succ g =>
      simp only [clampStartFuel] at h
      simp only [clampStart]
      by_cases hv : isRangeValid sx sy = true
      · simp only [hv, Bool.not_true, Bool.false_eq_true, if_false, Option.some.injEq] at h ⊢
        exact h
      · have hv2 : isRangeValid sx sy = false := by simpa using hv
        simp only [hv2, Bool.not_false, if_true] at h ⊢
        exact ih _ _ q h g (by omega)

theorem clamp_steps_exist (p : Point) (d : Int × Int) (hp : isRangeValidP p = true) :
    ∃ m : Nat, m ≤ 4
      ∧ (∀ j : Nat, j < m →
          isRangeValid (p.x - d.1 * 4 + d.1 * j) (p.y - d.2 * 4 + d.2 * j) = false)
      ∧ isRangeValid (p.x - d.1 * 4 + d.1 * m) (p.y - d.2 * 4 + d.2 * m) = true := by
  have hex : ∃ m : Nat,
      isRangeValid (p.x - d.1 * 4 + d.1 * m) (p.y - d.2 * 4 + d.2 * m) = true := by
    refine ⟨4, ?_⟩
    have e1 : p.x - d.1 * 4 + d.1 * ((4 : Nat) : Int) = p.x := by push_cast; ring
    have e2 : p.y - d.2 * 4 + d.2 * ((4 : Nat) : Int) = p.y := by push_cast; ring
    rw [e1, e2]
    exact hp
  classical
  refine ⟨Nat.find hex, ?_, ?_, Nat.find_spec hex⟩
  · apply Nat.find_min' hex
    have e1 : p.x - d.1 * 4 + d.1 * ((4 : Nat) : Int) = p.x := by push_cast; ring
    have e2 : p.y - d.2 * 4 + d.2 * ((4 : Nat) : Int) = p.y := by push_cast; ring
    rw [e1, e2]
    exact hp
  · intro j hj
    have := Nat.find_min hex hj
    simpa using this

theorem segment_in_range (p : Point) (d : Int × Int) (hd : d ∈ directions) (k : Nat)
    (hp : isRangeValidP p = true)
    (hs : isRangeValidP ⟨p.x - d.1 * k, p.y - d.2 * k⟩ = true) (j : Int) (h0 : 0 ≤ j)
    (hj : j ≤ k) :
    isRangeValidP ⟨p.x - d.1 * k + d.1 * j, p.y - d.2 * k + d.2 * j⟩ = true := by
  rw [isRangeValidP_iff] at hp hs ⊢
  rcases directions_cases d hd with rfl | rfl | rfl | rfl <;> simp only [] at hs ⊢ <;> omega
/-- Claim C31: window construction in `evaluatePoint`.  For an in-range point `p` and each
of the four directions `d` the start-clamping loop ends after `4 - k` executions of its
body, for some `k` from 0 to 4, at the in-range point `p - k * d`; `p` is the cell at index
`k` of the line of requested length 9 from that start, `k` is smaller than the actual
length of the line, every index below the actual length is an in-range point, and the
score of the line depends on no other cell. -/
theorem evaluatePoint_window (b : Board) (p : Point) (d : Int × Int) (hd : d ∈ directions)
    (hp : isRangeValidP p = true) :
    ∃ (k : Nat) (line : LineView), k ≤ 4
      ∧ line = ⟨⟨p.x - d.1 * k, p.y - d.2 * k⟩, ⟨d.1, d.2⟩, 9⟩
      ∧ clampStartFuel d.1 d.2 (5 - k) (p.x - d.1 * 4) (p.y - d.2 * 4) = some line.start
      ∧ (∀ fuel : Nat, fuel < 5 - k →
          clampStartFuel d.1 d.2 fuel (p.x - d.1 * 4) (p.y - d.2 * 4) = none)
      ∧ clampStart d.1 d.2 ((p.x - d.1 * 4).natAbs + (p.y - d.2 * 4).natAbs + 15)
          (p.x - d.1 * 4) (p.y - d.2 * 4) = line.start
      ∧ isRangeValidP line.start = true
      ∧ line.point k = p
      ∧ (k : Int) < getActualLength b line
      ∧ getActualLength b line ≤ 9
      ∧ (∀ j : Int, 0 ≤ j → j < getActualLength b line → isRangeValidP (line.point j) = true)
      ∧ (∀ (role : Role) (cellAt : Int → Role),
          (∀ j : Int, 0 ≤ j → j < getActualLength b line → cellAt j = line.at b j) →
          analyzeLineLoop cellAt role (getActualLength b line)
            (getActualLength b line).toNat 0 0 = analyzeLine b line role) := by
  obtain ⟨m, hm, hout, hin⟩ := clamp_steps_exist p d hp
  have ek : ((4 - m : Nat) : Int) = 4 - (m : Int) := by omega
  have ex : p.x - d.1 * 4 + d.1 * (m : Int) = p.x - d.1 * ((4 - m : Nat) : Int) := by
    rw [ek]; ring
  have ey : p.y - d.2 * 4 + d.2 * (m : Int) = p.y - d.2 * ((4 - m : Nat) : Int) := by
    rw [ek]; ring
  obtain ⟨S1, S2⟩ := clampStartFuel_steps d.1 d.2 m _ _ hout hin
  rw [ex, ey] at S1 hin
  have hfuel : 5 - (4 - m) = m + 1 := by omega
  have hstart : isRangeValidP ⟨p.x - d.1 * ((4 - m : Nat) : Int),
      p.y - d.2 * ((4 - m : Nat) : Int)⟩ = true := hin
  have hseg := segment_in_range p d hd (4 - m) hp hstart
  obtain ⟨n, hn15, hnin, hnout⟩ := exists_first_out_of_range
    ⟨p.x - d.1 * ((4 - m : Nat) : Int), p.y - d.2 * ((4 - m : Nat) : Int)⟩ ⟨d.1, d.2⟩ hd
  have hlen := getActualLengthLoop_eq_min b
    ⟨⟨p.x - d.1 * ((4 - m : Nat) : Int), p.y - d.2 * ((4 - m : Nat) : Int)⟩, ⟨d.1, d.2⟩, 9⟩
    ((9 : Int).toNat + 1) n 0 _ (by show (0 : Int) < 9; decide) hnin hnout
    (Or.inr (by show (9 : Int) - 0 ≤ (((9 : Int).toNat + 1 : Nat) : Int); decide))
  have hlen2 : getActualLength b
      ⟨⟨p.x - d.1 * ((4 - m : Nat) : Int), p.y - d.2 * ((4 - m : Nat) : Int)⟩, ⟨d.1, d.2⟩, 9⟩
      = min 9 (0 + (n : Int)) := hlen
  have hkn : 4 - m < n := by
    by_contra hle
    have h1 := hseg n (by omega) (by omega)
    rw [h1] at hnout
    exact absurd hnout (by decide)
  refine ⟨4 - m, _, by omega, rfl, ?_, ?_, ?_, hstart, ?_, ?_, ?_, ?_, ?_⟩
  · rw [hfuel]; exact S1
  · intro fuel hf
    exact S2 fuel (by omega)
  · exact clampStart_of_fuel d.1 d.2 (m + 1) _ _ _ S1 _ (by omega)
  · simp only [LineView.point]
    congr 1 <;> ring
  · rw [hlen2]; omega
  · rw [hlen2]; omega
  · intro j hj0 hj
    rw [hlen2] at hj
    have h := hnin j.toNat (by omega)
    have e : ((j.toNat : Nat) : Int) = j := by omega
    rw [e] at h
    exact h
  · intro role cellAt hc
    exact analyzeLineLoop_congr cellAt _ role _ hc _ 0 0 (le_refl _)

theorem evaluatePoint_window_witness :
    ((1 : Int), (1 : Int)) ∈ directions ∧ isRangeValidP ⟨2, 9⟩ = true
      ∧ ∃ (k : Nat) (line : LineView), k ≤ 4
      ∧ line = ⟨⟨2 - (1, 1).1 * k, 9 - (1, 1).2 * k⟩, ⟨(1, 1).1, (1, 1).2⟩, 9⟩
      ∧ clampStartFuel (1, 1).1 (1, 1).2 (5 - k) (2 - (1, 1).1 * 4) (9 - (1, 1).2 * 4)
          = some line.start
      ∧ (∀ fuel : Nat, fuel < 5 - k →
          clampStartFuel (1, 1).1 (1, 1).2 fuel (2 - (1, 1).1 * 4) (9 - (1, 1).2 * 4) = none)
      ∧ clampStart (1, 1).1 (1, 1).2 ((2 - (1, 1).1 * 4 : Int).natAbs
            + (9 - (1, 1).2 * 4 : Int).natAbs + 15)
          (2 - (1, 1).1 * 4) (9 - (1, 1).2 * 4) = line.start
      ∧ isRangeValidP line.start = true
      ∧ line.point k = ⟨2, 9⟩
      ∧ (k : Int) < getActualLength userFour line
      ∧ getActualLength userFour line ≤ 9
      ∧ (∀ j : Int, 0 ≤ j → j < getActualLength userFour line →
          isRangeValidP (line.point j) = true)
      ∧ (∀ (role : Role) (cellAt : Int → Role),
          (∀ j : Int, 0 ≤ j → j < getActualLength userFour line → cellAt j = line.at userFour j) →
          analyzeLineLoop cellAt role (getActualLength userFour line)
            (getActualLength userFour line).toNat 0 0 = analyzeLine userFour line role) :=
  ⟨by decide, by decide, evaluatePoint_window userFour ⟨2, 9⟩ (1, 1) (by decide) (by decide)⟩

/-! ## The evaluation stays inside the 32-bit integers -/

theorem pointLine_score_bounds (b : Board) (p : Point) (d : Int × Int) (hd : d ∈ directions)
    (role : Role) :
    0 ≤ analyzeLine b (pointLine p d) role ∧ analyzeLine b (pointLine p d) role ≤ 9000000 := by
  obtain ⟨n, _, hnin, hnout⟩ := exists_first_out_of_range (pointLine p d).start
    (pointLine p d).dir hd
  have hlen : getActualLength b (pointLine p d) = min 9 (0 + (n : Int)) :=
    getActualLengthLoop_eq_min b (pointLine p d) ((9 : Int).toNat + 1) n 0 _
      (by show (0 : Int) < 9; decide) hnin hnout
      (Or.inr (by show (9 : Int) - 0 ≤ (((9 : Int).toNat + 1 : Nat) : Int); decide))
  have h := analyzeLineLoop_bounds ((pointLine p d).at b) role (getActualLength b (pointLine p d))
    (getActualLength b (pointLine p d)).toNat 0 0
  simp only [FIVE] at h
  have ht : (((getActualLength b (pointLine p d)).toNat : Nat) : Int) ≤ 9 := by
    rw [hlen]; omega
  simp only [analyzeLine]
  constructor
  · exact h.1
  · omega

theorem pointFold_bounds (b : Board) (p : Point) (role : Role) :
    ∀ (dirs : List (Int × Int)) (s : Int), (∀ d ∈ dirs, d ∈ directions) →
      s - 9000000 * dirs.length
        ≤ dirs.foldl (fun score dir => score + analyzeLine b (pointLine p dir) role
            - analyzeLine b (pointLine p dir) (opponentOf role)) s
      ∧ dirs.foldl (fun score dir => score + analyzeLine b (pointLine p dir) role
            - analyzeLine b (pointLine p dir) (opponentOf role)) s
        ≤ s + 9000000 * dirs.length := by
  intro dirs
  induction dirs with
  | nil => intro s _; simp
  | cons d ds ih =>
    intro s h
    have h1 := pointLine_score_bounds b p d (h d (List.mem_cons_self _ _)) role
    have h2 := pointLine_score_bounds b p d (h d (List.mem_cons_self _ _)) (opponentOf role)
    have h3 := ih (s + analyzeLine b (pointLine p d) role
      - analyzeLine b (pointLine p d) (opponentOf role))
      (fun x hx => h x (List.mem_cons_of_mem _ hx))
    simp only [List.foldl_cons, List.length_cons]
    push_cast
    constructor <;> omega

theorem pointScoreAfter_bounds (b : Board) (p : Point) (role : Role) (k : Nat) :
    -36000000 ≤ pointScoreAfter b p role (directions.take k)
      ∧ pointScoreAfter b p role (directions.take k) ≤ 36000000 := by
  have h := pointFold_bounds b p role (directions.take k) 0
    (fun d hd => List.mem_of_mem_take hd)
  have hl : ((directions.take k).length : Int) ≤ 4 := by
    have : (directions.take k).length ≤ directions.length := by
      rw [List.length_take]; exact Nat.min_le_right _ _
    have h4 : directions.length = 4 := rfl
    omega
  unfold pointScoreAfter
  omega

theorem prefixSum_bounds (b : Board) (role : Role) (k : Nat) :
    0 ≤ ((evaluateLines.take k).map fun line => analyzeLine b line role).sum
      ∧ ((evaluateLines.take k).map fun line => analyzeLine b line role).sum ≤ 1320000000 := by
  have h := sum_map_bounds (fun line => analyzeLine b line role) 0 15000000
    (evaluateLines.take k) (fun l hl => analyzeLine_bounds b l role (List.mem_of_mem_take hl))
  have hl : ((evaluateLines.take k).length : Int) ≤ 88 := by
    have : (evaluateLines.take k).length ≤ evaluateLines.length := by
      rw [List.length_take]; exact Nat.min_le_right _ _
    have h88 := evaluateLines_length
    omega
  omega

theorem maxLoop_ge_alpha (search : Board → Point → Int → Int → Int × Board) (role : Role)
    (beta : Int) : ∀ (ps : List Point) (b : Board) (alpha : Int),
      alpha ≤ (maxLoop search role beta ps b alpha).1 := by
  intro ps
  induction ps with
  | nil => intro b alpha; exact le_refl _
  | cons p ps ih =>
    intro b alpha
    simp only [maxLoop]
    split_ifs
    · exact le_max_left _ _
    · exact le_trans (le_max_left _ _) (ih _ _)
    · exact ih _ _

theorem maxLoop_gt_int_min (search : Board → Point → Int → Int → Int × Board) (role : Role)
    (beta : Int) (hs : ∀ b1 p a, INT_MIN < (search b1 p a beta).1) (b : Board) (p : Point)
    (ps : List Point) (alpha : Int) (hp : (makeMove b p role).1 = true) :
    INT_MIN < (maxLoop search role beta (p :: ps) b alpha).1 := by
  simp only [maxLoop, hp, if_true]
  have h1 := hs (makeMove b p role).2 p alpha
  split_ifs
  · exact lt_of_lt_of_le h1 (le_max_right _ _)
  · exact lt_of_lt_of_le (lt_of_lt_of_le h1 (le_max_right _ _)) (maxLoop_ge_alpha _ _ _ _ _ _)

theorem minLoop_gt_int_min (search : Board → Point → Int → Int → Int × Board) (role : Role)
    (alpha : Int) (hs : ∀ b1 p be, INT_MIN < be → INT_MIN < (search b1 p alpha be).1) :
    ∀ (ps : List Point) (b : Board) (beta : Int), INT_MIN < beta →
      INT_MIN < (minLoop search role alpha ps b beta).1 := by
  intro ps
  induction ps with
  | nil => intro b beta h; exact h
  | cons p ps ih =>
    intro b beta h
    simp only [minLoop]
    have h1 := hs (makeMove b p role).2 p beta h
    have h2 : INT_MIN < min beta (search (makeMove b p role).2 p alpha beta).1 := lt_min h h1
    split_ifs
    · exact h2
    · exact ih _ _ h2
    · exact ih _ _ h

theorem minimax_gt_int_min (stdSort : List (Int × Point) → List (Int × Point))
    (hperm : ∀ l, (stdSort l).Perm l) :
    ∀ (depth : Nat) (b : Board) (role : Role) (lastMove : Point) (alpha beta : Int),
      INT_MIN < beta → INT_MIN < (minimax stdSort depth b role lastMove alpha beta).1 := by
  intro depth
  induction depth with
  | zero =>
    intro b role lastMove alpha beta _
    have h := evaluate_in_int b Role.BOT
    unfold minimax
    simp only []
    split_ifs
    · show INT_MIN < WIN; decide
    · show INT_MIN < LOSE; decide
    · exact h.1
  | succ d ih =>
    intro b role lastMove alpha beta hbeta
    have h := evaluate_in_int b Role.BOT
    unfold minimax
    simp only []
    split_ifs with h1 h2 h3 h4
    · show INT_MIN < WIN; decide
    · show INT_MIN < LOSE; decide
    · exact h.1
    · have hf : isFull b = false := by simpa using h3
      have hne := sortedCandidates_ne_nil stdSort hperm b role hf
      have hleg := sortedCandidates_legal stdSort hperm b role role
      rw [getSortedCandidates_board]
      cases hc : (getSortedCandidates stdSort b role).1 with
      | nil => exact absurd hc hne
      | cons p ps =>
        apply maxLoop_gt_int_min
        · intro b1 q a
          exact ih b1 Role.USER q a beta hbeta
        · exact hleg p (by rw [hc]; exact List.mem_cons_self _ _)
    · apply minLoop_gt_int_min
      · intro b1 q be hbe
        exact ih b1 Role.BOT q alpha be hbe
      · exact hbeta
/-- Claim C37: no 32-bit overflow in the evaluation.  For every board and side, the two
running sums of `evaluate` after any number of lines, the weighted opponent sum and the
result of `evaluate` are smaller than 2^31 in absolute value; so are the running score of
`evaluatePoint` after any number of directions, also between its addition and its
subtraction, and its result; and every score returned by `minimax` for a window whose upper
end is above `INT_MIN` is strictly greater than `INT_MIN`. -/
theorem evaluate_no_overflow (stdSort : List (Int × Point) → List (Int × Point))
    (hperm : ∀ l, (stdSort l).Perm l) (b : Board) (role : Role) :
    (∀ k : Nat,
        (0 ≤ ((evaluateLines.take k).map fun line => analyzeLine b line role).sum
          ∧ ((evaluateLines.take k).map fun line => analyzeLine b line role).sum < 2147483648)
        ∧ (0 ≤ ((evaluateLines.take k).map fun line =>
              analyzeLine b line (opponentOf role)).sum
          ∧ ((evaluateLines.take k).map fun line =>
              analyzeLine b line (opponentOf role)).sum < 2147483648))
      ∧ (0 ≤ defenseWeighted
            (evaluateLines.map fun line => analyzeLine b line (opponentOf role)).sum
          ∧ defenseWeighted
            (evaluateLines.map fun line => analyzeLine b line (opponentOf role)).sum
              < 2147483648)
      ∧ (-2147483648 < evaluate b role ∧ evaluate b role < 2147483648)
      ∧ (∀ p : Point, evaluatePoint b p role = pointScoreAfter b p role directions
          ∧ (-2147483648 < evaluatePoint b p role ∧ evaluatePoint b p role < 2147483648)
          ∧ ∀ (k : Nat) (d : Int × Int), d ∈ directions →
              (-2147483648 < pointScoreAfter b p role (directions.take k)
                ∧ pointScoreAfter b p role (directions.take k) < 2147483648)
              ∧ (-2147483648 < pointScoreAfter b p role (directions.take k)
                    + analyzeLine b (pointLine p d) role
                ∧ pointScoreAfter b p role (directions.take k)
                    + analyzeLine b (pointLine p d) role < 2147483648))
      ∧ (∀ (depth : Nat) (side : Role) (lastMove : Point) (alpha beta : Int),
          INT_MIN < beta →
          INT_MIN < (minimax stdSort depth b side lastMove alpha beta).1) := by
  refine ⟨?_, ?_, ?_, ?_, ?_⟩
  · intro k
    have h1 := prefixSum_bounds b role k
    have h2 := prefixSum_bounds b (opponentOf role) k
    exact ⟨⟨h1.1, by omega⟩, ⟨h2.1, by omega⟩⟩
  · have h := lineSum_facts b (opponentOf role)
    simp only [defenseWeighted]
    rw [Int.tdiv_eq_ediv (by omega) (by omega)]
    constructor <;> omega
  · have h := evaluate_range b role
    constructor <;> omega
  · intro p
    have h4 : directions.take 4 = directions := rfl
    have hall := pointScoreAfter_bounds b p role 4
    rw [h4] at hall
    have he : evaluatePoint b p role = pointScoreAfter b p role directions := rfl
    refine ⟨he, ?_, ?_⟩
    · rw [he]; constructor <;> omega
    · intro k d hd
      have h1 := pointScoreAfter_bounds b p role k
      have h2 := pointLine_score_bounds b p d hd role
      refine ⟨⟨?_, ?_⟩, ⟨?_, ?_⟩⟩ <;> omega
  · intro depth side lastMove alpha beta hbeta
    exact minimax_gt_int_min stdSort hperm depth b side lastMove alpha beta hbeta

theorem evaluate_no_overflow_witness :
    (∀ l, (sortDesc l).Perm l)
      ∧ (-2147483648 < evaluate userFour Role.BOT ∧ evaluate userFour Role.BOT < 2147483648) :=
  ⟨sortDesc_perm, (evaluate_no_overflow sortDesc sortDesc_perm userFour Role.BOT).2.2.1⟩

/-! ## A line with three runs -/

theorem scanGroup_gapped_stop (cellAt : Int → Role) (role : Role) (length : Int) (s a c : Nat)
    (ha : 1 ≤ a) (hc : 1 ≤ c) (hle : (s : Int) + a + 1 + c ≤ length)
    (hrun1 : ∀ j : Int, (s : Int) ≤ j → j < s + a → cellAt j = role)
    (hgap : cellAt ((s : Int) + a) = Role.EMPTY) (hne : role ≠ Role.EMPTY)
    (hrun2 : ∀ j : Int, (s : Int) + a + 1 ≤ j → j < s + a + 1 + c → cellAt j = role)
    (hstop : (s : Int) + a + 1 + c < length → cellAt ((s : Int) + a + 1 + c) ≠ role) :
    scanGroup cellAt role length s
      = ((s : Int) + a + 1 + c, analyzeShape ((a : Int) + c)
          (decide ((s : Int) > 0) && (cellAt ((s : Int) - 1) == Role.EMPTY))
          (decide ((s : Int) + a + 1 + c < length)
            && (cellAt ((s : Int) + a + 1 + c) == Role.EMPTY)) true) := by
  have h1 : countRun cellAt role length (length - (s : Int)).toNat s 0 = ((s : Int) + a, (a : Int)) := by
    have := countRun_run cellAt role length a (length - (s : Int)).toNat s 0 (by omega) hrun1
      (by omega) (fun _ => by rw [hgap]; exact fun e => hne e.symm)
    simpa using this
  have h2 : countRun cellAt role length (length - ((s : Int) + a + 1)).toNat ((s : Int) + a + 1) a
      = ((s : Int) + a + 1 + c, (a : Int) + c) :=
    countRun_run cellAt role length c (length - ((s : Int) + a + 1)).toNat ((s : Int) + a + 1) a
      (by omega) hrun2 hle hstop
  have hg : (decide ((s : Int) + a < length) && (cellAt ((s : Int) + a) == Role.EMPTY)
      && decide ((s : Int) + a + 1 < length) && (cellAt ((s : Int) + a + 1) == role)) = true := by
    have e1 : (s : Int) + a < length := by omega
    have e2 : (s : Int) + a + 1 < length := by omega
    have e3 := hrun2 ((s : Int) + a + 1) (le_refl _) (by omega)
    simp [e1, e2, e3, hgap]
  simp only [scanGroup, h1, hg, if_true, h2]

theorem analyzeLineLoop_three_runs (cellAt : Int → Role) (role : Role) (length : Int)
    (s a m c : Nat) (hne : role ≠ Role.EMPTY) (ha : 1 ≤ a) (hm : 1 ≤ m) (hc : 1 ≤ c)
    (hle : (s : Int) + a + 1 + m + 1 + c ≤ length)
    (hrun1 : ∀ j : Int, (s : Int) ≤ j → j < s + a → cellAt j = role)
    (hgap1 : cellAt ((s : Int) + a) = Role.EMPTY)
    (hrun2 : ∀ j : Int, (s : Int) + a + 1 ≤ j → j < s + a + 1 + m → cellAt j = role)
    (hgap2 : cellAt ((s : Int) + a + 1 + m) = Role.EMPTY)
    (hrun3 : ∀ j : Int, (s : Int) + a + 1 + m + 1 ≤ j → j < s + a + 1 + m + 1 + c →
      cellAt j = role)
    (hother : ∀ j : Int, 0 ≤ j → j < length →
      (j < s ∨ (s : Int) + a + 1 + m + 1 + c ≤ j) → cellAt j ≠ role) :
    analyzeLineLoop cellAt role length length.toNat 0 0
      = analyzeShape ((a : Int) + m)
          (decide ((s : Int) > 0) && (cellAt ((s : Int) - 1) == Role.EMPTY)) true true
        + analyzeShape c true
          (decide ((s : Int) + a + 1 + m + 1 + c < length)
            && (cellAt ((s : Int) + a + 1 + m + 1 + c) == Role.EMPTY)) false := by
  have hne2 : Role.EMPTY ≠ role := fun e => hne e.symm
  have hf : length.toNat = (((length.toNat - s - 3) + 1 + 1) + 1) + s := by omega
  have g1 := scanGroup_gapped_stop cellAt role length s a m ha hm (by omega) hrun1 hgap1 hne
    hrun2 (fun _ => by rw [hgap2]; exact hne2)
  have hro : (decide ((s : Int) + a + 1 + m < length)
      && (cellAt ((s : Int) + a + 1 + m) == Role.EMPTY)) = true := by
    have e1 : (s : Int) + a + 1 + m < length := by omega
    simp [e1, hgap2]
  rw [hro] at g1
  have e3 : (s : Int) + a + 1 + m + 1 = ((s + a + 1 + m + 1 : Nat) : Int) := by push_cast; ring
  have g2 := scanGroup_single cellAt role length (s + a + 1 + m + 1) c hc
    (by rw [← e3]; exact hle)
    (fun j h1 h2 => hrun3 j (by rw [e3]; exact h1) (by rw [e3]; exact h2))
    (fun j h1 h2 => hother j (by omega) h2 (Or.inr (by rw [e3]; exact h1)))
  have hlo : (decide ((((s + a + 1 + m + 1 : Nat) : Int)) > 0)
      && (cellAt (((s + a + 1 + m + 1 : Nat) : Int) - 1) == Role.EMPTY)) = true := by
    have e1 : (((s + a + 1 + m + 1 : Nat) : Int)) > 0 := by push_cast; omega
    have e2 : ((s + a + 1 + m + 1 : Nat) : Int) - 1 = (s : Int) + a + 1 + m := by
      push_cast; ring
    rw [e2, decide_eq_true e1, hgap2]
    rfl
  rw [hlo, ← e3] at g2
  rw [hf, analyzeLineLoop_skip cellAt role length s _ 0 0
    (fun j h1 h2 => hother j h1 (by omega) (Or.inl (by omega))) (by omega)]
  have hs : (0 : Int) + s < length := by omega
  have hrole : cellAt ((0 : Int) + s) = role := hrun1 _ (by omega) (by omega)
  have step1 : ∀ (f : Nat) (score : Int),
      analyzeLineLoop cellAt role length (f + 1) (0 + s) score
        = analyzeLineLoop cellAt role length f ((s : Int) + a + 1 + m)
            (score + analyzeShape ((a : Int) + m)
              (decide ((s : Int) > 0) && (cellAt ((s : Int) - 1) == Role.EMPTY)) true true) := by
    intro f score
    simp only [analyzeLineLoop, hs, if_true, hrole, beq_self_eq_true]
    simp only [zero_add, g1]
  rw [step1]
  rw [analyzeLineLoop_skip cellAt role length 1 _ ((s : Int) + a + 1 + m) _
    (fun j h1 h2 => by
      have : j = (s : Int) + a + 1 + m := by push_cast at h2; omega
      rw [this, hgap2]; exact hne2)
    (by push_cast; omega)]
  have hs3 : (s : Int) + a + 1 + m + ((1 : Nat) : Int) < length := by push_cast; omega
  have hrole3 : cellAt ((s : Int) + a + 1 + m + ((1 : Nat) : Int)) = role :=
    hrun3 _ (by push_cast; omega) (by push_cast; omega)
  have e4 : (s : Int) + a + 1 + m + ((1 : Nat) : Int) = (s : Int) + a + 1 + m + 1 := by
    push_cast; ring
  simp only [analyzeLineLoop, hs3, if_true, hrole3, beq_self_eq_true]
  rw [e4, g2]
  simp only []
  rw [analyzeLineLoop_rest cellAt role length _ _ _
    (fun j h1 h2 => hother j (by omega) h2 (Or.inr (by omega)))]
  ring

/-- Claim C33: at most one gap is absorbed per group.  On a line whose stones of the side
form exactly three maximal runs of `a`, `m` and `c` stones, the first starting at index
`s`, with exactly one `EMPTY` cell between consecutive runs, `analyzeLine` returns
`analyzeShape(a + m, leftOpen, true, true) + analyzeShape(c, true, rightOpen, false)`:
the first two runs form one gapped group and the third run is a group of its own.
`leftOpen` is taken at the cell before the first run and `rightOpen` at the cell after the
third run. -/
theorem analyzeLine_three_runs (b : Board) (line : LineView) (role : Role)
    (hs : role = Role.USER ∨ role = Role.BOT) (s a m c : Nat)
    (ha : 1 ≤ a) (hm : 1 ≤ m) (hc : 1 ≤ c)
    (hle : (s : Int) + a + 1 + m + 1 + c ≤ getActualLength b line)
    (hrun1 : ∀ j : Int, (s : Int) ≤ j → j < s + a → line.at b j = role)
    (hgap1 : line.at b ((s : Int) + a) = Role.EMPTY)
    (hrun2 : ∀ j : Int, (s : Int) + a + 1 ≤ j → j < s + a + 1 + m → line.at b j = role)
    (hgap2 : line.at b ((s : Int) + a + 1 + m) = Role.EMPTY)
    (hrun3 : ∀ j : Int, (s : Int) + a + 1 + m + 1 ≤ j → j < s + a + 1 + m + 1 + c →
      line.at b j = role)
    (hother : ∀ j : Int, 0 ≤ j → j < getActualLength b line →
      (j < s ∨ (s : Int) + a + 1 + m + 1 + c ≤ j) → line.at b j ≠ role) :
    analyzeLine b line role
      = analyzeShape ((a : Int) + m)
          (decide ((s : Int) > 0) && (line.at b ((s : Int) - 1) == Role.EMPTY)) true true
        + analyzeShape c true
          (decide ((s : Int) + a + 1 + m + 1 + c < getActualLength b line)
            && (line.at b ((s : Int) + a + 1 + m + 1 + c) == Role.EMPTY)) false := by
  have hne : role ≠ Role.EMPTY := by
    rcases hs with h | h <;> rw [h] <;> decide
  simp only [analyzeLine]
  exact analyzeLineLoop_three_runs (line.at b) role (getActualLength b line) s a m c hne ha hm hc
    hle hrun1 hgap1 hrun2 hgap2 hrun3 hother

theorem analyzeLine_three_runs_witness :
    analyzeLine userThreeRuns rowSevenWindow Role.USER
      = analyzeShape 3 true true true + analyzeShape 2 true true false := by
  have hL : getActualLength userThreeRuns rowSevenWindow = 9 := by decide
  have h := analyzeLine_three_runs userThreeRuns rowSevenWindow Role.USER (Or.inl rfl) 1 2 1 2
    (by decide) (by decide) (by decide) (by rw [hL]; decide)
    (by intro j h1 h2; have : j = 1 ∨ j = 2 := by omega
        rcases this with rfl | rfl <;> decide)
    (by decide)
    (by intro j h1 h2; have : j = 4 := by omega
        subst this; decide)
    (by decide)
    (by intro j h1 h2; have : j = 6 ∨ j = 7 := by omega
        rcases this with rfl | rfl <;> decide)
    (by intro j h1 h2 h3; rw [hL] at h2
        have : j = 0 ∨ j = 8 := by omega
        rcases this with rfl | rfl <;> decide)
  rw [h, hL]
  decide

/-! ## When the line scanner awards `FIVE` -/

theorem countRun_cells (cellAt : Int → Role) (role : Role) (length : Int) :
    ∀ (fuel : Nat) (i c : Int),
      ∃ n : Nat, countRun cellAt role length fuel i c = (i + n, c + n)
        ∧ (n = 0 ∨ i + n ≤ length) ∧ ∀ j : Nat, j < n → cellAt (i + j) = role := by
  intro fuel
  induction fuel with
  | zero => intro i c; exact ⟨0, by simp [countRun], Or.inl rfl, fun j hj => by omega⟩
  | succ f ih =>
    intro i c
    simp only [countRun]
    by_cases h : (decide (i < length) && (cellAt i == role)) = true
    · rw [if_pos h]
      simp only [Bool.and_eq_true, decide_eq_true_eq, beq_iff_eq] at h
      obtain ⟨n, h1, h2, h3⟩ := ih (i + 1) (c + 1)
      refine ⟨n + 1, ?_, Or.inr ?_, ?_⟩
      · rw [h1]; push_cast; congr 1 <;> omega
      · rcases h2 with h2 | h2
        · subst h2; push_cast; omega
        · push_cast; omega
      · intro j hj
        cases j with
        | zero => simpa using h.2
        | succ k =>
          have := h3 k (by omega)
          have e : i + ((k + 1 : Nat) : Int) = i + 1 + k := by push_cast; ring
          rw [e]
          exact this
    · rw [if_neg h]
      exact ⟨0, by simp, Or.inl rfl, fun j hj => by omega⟩

theorem analyzeShape_le_small (count : Int) (l r g : Bool) (h0 : 0 ≤ count) (h4 : count ≤ 4) :
    analyzeShape count l r g ≤ 25000 * count := by
  have hc : count = 0 ∨ count = 1 ∨ count = 2 ∨ count = 3 ∨ count = 4 := by omega
  rcases hc with rfl | rfl | rfl | rfl | rfl <;> cases l <;> cases r <;> cases g <;> decide

theorem scanGroup_below_five (cellAt : Int → Role) (role : Role) (length index : Int)
    (h0 : 0 ≤ index) (hi : index < length)
    (h5 : ∀ i : Int, 0 ≤ i → i + 5 ≤ length → ∃ j : Nat, j < 5 ∧ cellAt (i + j) ≠ role)
    (h6 : ∀ (i : Int) (g : Nat), 0 ≤ i → i + 6 ≤ length → 1 ≤ g → g ≤ 4 →
      cellAt (i + g) = Role.EMPTY → ∃ j : Nat, j < 6 ∧ j ≠ g ∧ cellAt (i + j) ≠ role) :
    ∃ n : Nat, (scanGroup cellAt role length index).1 = index + n ∧ index + n ≤ length
      ∧ (scanGroup cellAt role length index).2 ≤ 25000 * (n : Int) := by
  obtain ⟨n1, h1, h1b, h1c⟩ := countRun_cells cellAt role length (length - index).toNat index 0
  have hn1 : index + n1 ≤ length := by
    rcases h1b with h | h
    · subst h; push_cast; omega
    · exact h
  have hn1lt : n1 < 5 := by
    by_contra hge
    obtain ⟨j, hj, hc⟩ := h5 index h0 (by omega)
    exact hc (h1c j (by omega))
  simp only [scanGroup]
  rw [h1]
  simp only []
  by_cases hg : (decide (index + (n1 : Int) < length) && (cellAt (index + n1) == Role.EMPTY)
      && decide (index + (n1 : Int) + 1 < length) && (cellAt (index + n1 + 1) == role)) = true
  · rw [if_pos hg, hg]
    obtain ⟨n2, h2, h2b, h2c⟩ := countRun_cells cellAt role length
      (length - (index + n1 + 1)).toNat (index + n1 + 1) (0 + n1)
    rw [h2]
    dsimp only
    simp only [Bool.and_eq_true, decide_eq_true_eq, beq_iff_eq] at hg
    have hn2 : index + n1 + 1 + n2 ≤ length := by
      rcases h2b with h | h
      · subst h; push_cast; omega
      · exact h
    have hsum : n1 + n2 ≤ 4 := by
      by_contra hge
      have hn1pos : 1 ≤ n1 := by
        by_contra hz
        have hz0 : n1 = 0 := by omega
        subst hz0
        obtain ⟨j, hj, hc⟩ := h5 (index + 1) (by omega) (by push_cast at hn2; omega)
        apply hc
        have := h2c j (by omega)
        simpa using this
      -- the last `n1` cells of the first run, the gap, and `5 - n1` cells of the second
      obtain ⟨j, hj, hjg, hc⟩ := h6 index n1 h0 (by omega) hn1pos (by omega) hg.1.1.2
      apply hc
      by_cases hjl : j < n1
      · exact h1c j hjl
      · have hk := h2c (j - n1 - 1) (by omega)
        have e : index + (n1 : Int) + 1 + ((j - n1 - 1 : Nat) : Int) = index + j := by omega
        rw [e] at hk
        exact hk
    refine ⟨n1 + (1 + n2), by push_cast; omega, by push_cast; omega, ?_⟩
    have hs := analyzeShape_le_small (0 + (n1 : Int) + n2)
      (decide (index > 0) && (cellAt (index - 1) == Role.EMPTY))
      (decide (index + (n1 : Int) + 1 + n2 < length)
        && (cellAt (index + n1 + 1 + n2) == Role.EMPTY)) true (by omega) (by omega)
    push_cast
    omega
  · rw [if_neg hg]
    dsimp only
    refine ⟨n1, rfl, hn1, ?_⟩
    have hs := analyzeShape_le_small (0 + (n1 : Int))
      (decide (index > 0) && (cellAt (index - 1) == Role.EMPTY))
      (decide (index + (n1 : Int) < length) && (cellAt (index + n1) == Role.EMPTY))
      false (by omega) (by omega)
    simp only [Bool.not_eq_true] at hg
    rw [hg]
    omega

theorem analyzeLineLoop_below_five (cellAt : Int → Role) (role : Role) (length : Int)
    (h5 : ∀ i : Int, 0 ≤ i → i + 5 ≤ length → ∃ j : Nat, j < 5 ∧ cellAt (i + j) ≠ role)
    (h6 : ∀ (i : Int) (g : Nat), 0 ≤ i → i + 6 ≤ length → 1 ≤ g → g ≤ 4 →
      cellAt (i + g) = Role.EMPTY → ∃ j : Nat, j < 6 ∧ j ≠ g ∧ cellAt (i + j) ≠ role) :
    ∀ (fuel : Nat) (index score : Int), 0 ≤ index → index ≤ length →
      analyzeLineLoop cellAt role length fuel index score
        ≤ score + 25000 * (length - index) := by
  intro fuel
  induction fuel with
  | zero => intro index score _ _; simp only [analyzeLineLoop]; omega
  | succ f ih =>
    intro index score h0 hle
    simp only [analyzeLineLoop]
    by_cases hi : index < length
    · rw [if_pos hi]
      by_cases hr : (cellAt index == role) = true
      · rw [if_pos hr]
        obtain ⟨n, e1, e2, e3⟩ := scanGroup_below_five cellAt role length index h0 hi h5 h6
        have := ih (scanGroup cellAt role length index).1
          (score + (scanGroup cellAt role length index).2) (by rw [e1]; omega) (by rw [e1]; exact e2)
        rw [e1] at this ⊢
        omega
      · rw [if_neg hr]
        have := ih (index + 1) score (by omega) (by omega)
        omega
    · rw [if_neg hi]
      omega

/-- Claim C34 (counterexample): on the board `userGappedFive` the nine-cell window of row 7
from (7,3) holds no five consecutive `USER` cells, a run of three and a run of two with one
empty cell between them, and `analyzeLine` returns the `FIVE` score 1,000,000 for it. -/
theorem analyzeLine_five_without_five_in_a_row :
    getActualLength userGappedFive rowSevenWindow = 9
      ∧ (∀ i : Fin 5, ∃ j : Fin 5,
          rowSevenWindow.at userGappedFive ((i.val : Int) + (j.val : Int)) ≠ Role.USER)
      ∧ analyzeLine userGappedFive rowSevenWindow Role.USER = 1000000 := by
  decide

/-- Claim C34, amended: the `FIVE` score is awarded only for five or more stones in one
group.  On a line of at most 15 cells that contains neither five consecutive cells of the
side nor six consecutive cells made of five cells of the side and one `EMPTY` cell that is
neither the first nor the last of the six, `analyzeLine` returns less than 1,000,000. -/
theorem analyzeLine_below_five (b : Board) (line : LineView) (role : Role)
    (hlen : getActualLength b line ≤ 15)
    (h5 : ∀ i : Int, 0 ≤ i → i + 5 ≤ getActualLength b line →
      ∃ j : Nat, j < 5 ∧ line.at b (i + j) ≠ role)
    (h6 : ∀ (i : Int) (g : Nat), 0 ≤ i → i + 6 ≤ getActualLength b line → 1 ≤ g → g ≤ 4 →
      line.at b (i + g) = Role.EMPTY →
      ∃ j : Nat, j < 6 ∧ j ≠ g ∧ line.at b (i + j) ≠ role) :
    analyzeLine b line role < 1000000 := by
  simp only [analyzeLine]
  by_cases h0 : 0 ≤ getActualLength b line
  · have h := analyzeLineLoop_below_five (line.at b) role (getActualLength b line) h5 h6
      (getActualLength b line).toNat 0 0 (le_refl _) h0
    omega
  · have ht : (getActualLength b line).toNat = 0 := by omega
    rw [ht]
    simp [analyzeLineLoop]

theorem analyzeLine_below_five_witness :
    analyzeLine userFour rowSevenWindow Role.USER < 1000000 := by
  have hL : getActualLength userFour rowSevenWindow = 9 := by decide
  refine analyzeLine_below_five userFour rowSevenWindow Role.USER (by rw [hL]; decide) ?_ ?_
  · intro i h0 h1
    rw [hL] at h1
    have : i = 0 ∨ i = 1 ∨ i = 2 ∨ i = 3 ∨ i = 4 := by omega
    rcases this with rfl | rfl | rfl | rfl | rfl <;> decide
  · intro i g h0 h1 hg1 hg4 _
    rw [hL] at h1
    have hi : i = 0 ∨ i = 1 ∨ i = 2 ∨ i = 3 := by omega
    have hg : g = 1 ∨ g = 2 ∨ g = 3 ∨ g = 4 := by omega
    rcases hi with rfl | rfl | rfl | rfl <;> rcases hg with rfl | rfl | rfl | rfl <;> decide

/-! ## Scanning a line in the opposite direction -/

theorem analyzeShape_comm (count : Int) (l r g : Bool) :
    analyzeShape count l r g = analyzeShape count r l g := by
  cases l <;> cases r <;> rfl

theorem reverseLine_at (b : Board) (line : LineView) (j : Int) :
    (reverseLine b line).at b j = line.at b (getActualLength b line - 1 - j) := by
  simp only [LineView.at, reverseLine, LineView.point]
  congr 2 <;> ring

theorem getActualLengthLoop_full (b : Board) (l : LineView) :
    ∀ (m fuel : Nat) (count : Int) (p : Point), count + m = l.length → 1 ≤ m → m ≤ fuel →
      (∀ j : Nat, j < m → isRangeValidP ⟨p.x + l.dir.x * j, p.y + l.dir.y * j⟩ = true) →
      getActualLengthLoop b l fuel count p = l.length := by
  intro m
  induction m with
  | zero => intro fuel count p _ h; omega
  | succ k ih =>
    intro fuel count p hc _ hf hin
    cases fuel with
    | zero => omega
    | succ f =>
      have hv : isRangeValidP p = true := by simpa using hin 0 (by omega)
      simp only [getActualLengthLoop, hv, Bool.or_true, if_true, Bool.not_true,
        Bool.false_eq_true, if_false]
      by_cases hlen : count + 1 ≥ l.length
      · rw [if_pos hlen]
        push_cast at hc
        omega
      · rw [if_neg hlen]
        have hk : 1 ≤ k := by push_cast at hc; omega
        apply ih f (count + 1) _ (by push_cast at hc; omega) hk (by omega)
        intro j hj
        have h := hin (j + 1) (by omega)
        have e1 : p.x + l.dir.x * ((j + 1 : Nat) : Int) = p.x + l.dir.x + l.dir.x * j := by
          push_cast; ring
        have e2 : p.y + l.dir.y * ((j + 1 : Nat) : Int) = p.y + l.dir.y + l.dir.y * j := by
          push_cast; ring
        rw [e1, e2] at h
        exact h

theorem line_points_in_range (b : Board) (l : LineView) (j : Nat)
    (hj : (j : Int) < getActualLength b l) : isRangeValidP (l.point j) = true := by
  have h := (getActualLengthLoop_spec b l (l.length.toNat + 1) 0 l.start).1 j
    (by simpa [getActualLength] using hj)
  exact h

theorem reverseLine_length (b : Board) (line : LineView) (h1 : 1 ≤ getActualLength b line) :
    getActualLength b (reverseLine b line) = getActualLength b line := by
  have hk : ((getActualLength b line).toNat : Int) = getActualLength b line := by omega
  have h := getActualLengthLoop_full b (reverseLine b line) (getActualLength b line).toNat
    ((reverseLine b line).length.toNat + 1) 0 (reverseLine b line).start
    (by rw [zero_add, hk]; rfl) (by omega)
    (by show (getActualLength b line).toNat ≤ (getActualLength b line).toNat + 1; omega)
    (by
      intro j hj
      have hp := line_points_in_range b line ((getActualLength b line).toNat - 1 - j) (by omega)
      have e : (((getActualLength b line).toNat - 1 - j : Nat) : Int)
          = getActualLength b line - 1 - j := by omega
      simp only [LineView.point, e] at hp
      simp only [reverseLine, LineView.point]
      have ex : line.start.x + line.dir.x * (getActualLength b line - 1) + -line.dir.x * (j : Int)
          = line.start.x + line.dir.x * (getActualLength b line - 1 - j) := by ring
      have ey : line.start.y + line.dir.y * (getActualLength b line - 1) + -line.dir.y * (j : Int)
          = line.start.y + line.dir.y * (getActualLength b line - 1 - j) := by ring
      rw [ex, ey]
      exact hp)
  exact h

theorem analyzeLineLoop_single (cellAt : Int → Role) (role : Role) (n : Int) (s k : Nat)
    (hk : 1 ≤ k) (hle : (s : Int) + k ≤ n)
    (hrun : ∀ j : Int, (s : Int) ≤ j → j < s + k → cellAt j = role)
    (hother : ∀ j : Int, 0 ≤ j → j < n → (j < s ∨ (s : Int) + k ≤ j) → cellAt j ≠ role) :
    analyzeLineLoop cellAt role n n.toNat 0 0
      = analyzeShape k (decide ((s : Int) > 0) && (cellAt ((s : Int) - 1) == Role.EMPTY))
          (decide ((s : Int) + k < n) && (cellAt ((s : Int) + k) == Role.EMPTY)) false :=
  analyzeLineLoop_one_group cellAt role n s _ _ (by omega) (hrun s (le_refl _) (by omega))
    (scanGroup_single cellAt role n s k hk hle hrun
      (fun j h1 h2 => hother j (by omega) h2 (Or.inr h1)))
    (fun j h1 h2 => hother j h1 (by omega) (Or.inl h2))
    (fun j h1 h2 => hother j (by omega) h2 (Or.inr h1))

theorem analyzeLineLoop_gapped (cellAt : Int → Role) (role : Role) (n : Int) (s a c : Nat)
    (hne : role ≠ Role.EMPTY) (ha : 1 ≤ a) (hc : 1 ≤ c) (hle : (s : Int) + a + 1 + c ≤ n)
    (hrun1 : ∀ j : Int, (s : Int) ≤ j → j < s + a → cellAt j = role)
    (hgap : cellAt ((s : Int) + a) = Role.EMPTY)
    (hrun2 : ∀ j : Int, (s : Int) + a + 1 ≤ j → j < s + a + 1 + c → cellAt j = role)
    (hother : ∀ j : Int, 0 ≤ j → j < n → (j < s ∨ (s : Int) + a + 1 + c ≤ j) →
      cellAt j ≠ role) :
    analyzeLineLoop cellAt role n n.toNat 0 0
      = analyzeShape ((a : Int) + c)
          (decide ((s : Int) > 0) && (cellAt ((s : Int) - 1) == Role.EMPTY))
          (decide ((s : Int) + a + 1 + c < n)
            && (cellAt ((s : Int) + a + 1 + c) == Role.EMPTY)) true :=
  analyzeLineLoop_one_group cellAt role n s _ _ (by omega) (hrun1 s (le_refl _) (by omega))
    (scanGroup_gapped cellAt role n s a c ha hc hle hrun1 hgap hne hrun2
      (fun j h1 h2 => hother j (by omega) h2 (Or.inr h1)))
    (fun j h1 h2 => hother j h1 (by omega) (Or.inl h2))
    (fun j h1 h2 => hother j (by omega) h2 (Or.inr h1))

theorem analyzeLineLoop_reverse (c1 c2 : Int → Role) (role : Role) (n : Int)
    (hne : role ≠ Role.EMPTY) (hrev : ∀ j : Int, c2 j = c1 (n - 1 - j))
    (hg : AtMostOneGroup c1 n role) :
    analyzeLineLoop c2 role n n.toNat 0 0 = analyzeLineLoop c1 role n n.toNat 0 0 := by
  rcases hg with h0 | ⟨s, k, hk, hle, hrun, hother⟩ | ⟨s, a, c, ha, hc, hle, hrun1, hgap, hrun2, hother⟩
  · rw [analyzeLineLoop_rest c1 role n _ 0 0 (fun j h1 h2 => h0 j h1 h2),
      analyzeLineLoop_rest c2 role n _ 0 0
        (fun j h1 h2 => by rw [hrev]; exact h0 _ (by omega) (by omega))]
  · obtain ⟨t, ht⟩ : ∃ t : Nat, (t : Int) = n - s - k := ⟨(n - s - k).toNat, by omega⟩
    rw [analyzeLineLoop_single c1 role n s k hk hle hrun hother,
      analyzeLineLoop_single c2 role n t k hk (by omega)
        (fun j h1 h2 => by rw [hrev]; exact hrun _ (by omega) (by omega))
        (fun j h1 h2 h3 => by
          rw [hrev]
          exact hother _ (by omega) (by omega) (by omega)),
      analyzeShape_comm, hrev, hrev]
    have e1 : n - 1 - ((t : Int) + k) = (s : Int) - 1 := by omega
    have e2 : n - 1 - ((t : Int) - 1) = (s : Int) + k := by omega
    have d1 : decide ((t : Int) + k < n) = decide ((s : Int) > 0) :=
      decide_eq_decide.mpr (by omega)
    have d2 : decide ((t : Int) > 0) = decide ((s : Int) + k < n) :=
      decide_eq_decide.mpr (by omega)
    rw [e1, e2, d1, d2]
  · obtain ⟨t, ht⟩ : ∃ t : Nat, (t : Int) = n - s - a - 1 - c :=
      ⟨(n - s - a - 1 - c).toNat, by omega⟩
    rw [analyzeLineLoop_gapped c1 role n s a c hne ha hc hle hrun1 hgap hrun2 hother,
      analyzeLineLoop_gapped c2 role n t c a hne hc ha (by omega)
        (fun j h1 h2 => by rw [hrev]; exact hrun2 _ (by omega) (by omega))
        (by
          rw [hrev]
          have e : n - 1 - ((t : Int) + c) = (s : Int) + a := by omega
          rw [e]
          exact hgap)
        (fun j h1 h2 => by rw [hrev]; exact hrun1 _ (by omega) (by omega))
        (fun j h1 h2 h3 => by
          rw [hrev]
          exact hother _ (by omega) (by omega) (by omega)),
      analyzeShape_comm, hrev, hrev]
    have e1 : n - 1 - ((t : Int) + c + 1 + a) = (s : Int) - 1 := by omega
    have e2 : n - 1 - ((t : Int) - 1) = (s : Int) + a + 1 + c := by omega
    have d1 : decide ((t : Int) + c + 1 + a < n) = decide ((s : Int) > 0) :=
      decide_eq_decide.mpr (by omega)
    have d2 : decide ((t : Int) > 0) = decide ((s : Int) + a + 1 + c < n) :=
      decide_eq_decide.mpr (by omega)
    have e3 : (c : Int) + a = (a : Int) + c := by ring
    rw [e1, e2, d1, d2, e3]

/-! ## Splitting a line between two groups -/

theorem analyzeLineLoop_score_add (cellAt : Int → Role) (role : Role) (length : Int) :
    ∀ (fuel : Nat) (index score x : Int),
      analyzeLineLoop cellAt role length fuel index (score + x)
        = analyzeLineLoop cellAt role length fuel index score + x := by
  intro fuel
  induction fuel with
  | zero => intro index score x; rfl
  | succ f ih =>
    intro index score x
    simp only [analyzeLineLoop]
    split_ifs
    · rw [← ih]; congr 1; ring
    · exact ih _ _ _
    · rfl

theorem scanGroup_index_gt (cellAt : Int → Role) (role : Role) (length index : Int)
    (hi : index < length) (hr : cellAt index = role) :
    index + 1 ≤ (scanGroup cellAt role length index).1 := by
  obtain ⟨f, hf⟩ : ∃ f : Nat, (length - index).toNat = f + 1 :=
    ⟨(length - index).toNat - 1, by omega⟩
  have h1 : countRun cellAt role length (length - index).toNat index 0
      = countRun cellAt role length f (index + 1) (0 + 1) := by
    rw [hf]
    simp only [countRun, hi, hr, decide_True, beq_self_eq_true, Bool.and_self, if_true]
  have hge := countRun_index_ge cellAt role length f (index + 1) (0 + 1)
  rw [← h1] at hge
  simp only [scanGroup]
  generalize countRun cellAt role length (length - index).toNat index 0 = r1 at hge ⊢
  have hge2 := countRun_index_ge cellAt role length (length - (r1.1 + 1)).toNat (r1.1 + 1) r1.2
  split_ifs <;> omega

theorem analyzeLineLoop_fuel (cellAt : Int → Role) (role : Role) (length : Int) :
    ∀ (f1 f2 : Nat) (index score : Int), length - index ≤ f1 → length - index ≤ f2 →
      analyzeLineLoop cellAt role length f1 index score
        = analyzeLineLoop cellAt role length f2 index score := by
  intro f1
  induction f1 with
  | zero =>
    intro f2 index score h1 _
    have hn : ¬ index < length := by push_cast at h1; omega
    cases f2 with
    | zero => rfl
    | succ g => simp only [analyzeLineLoop, hn, if_false]
  | succ f ih =>
    intro f2 index score h1 h2
    by_cases hlt : index < length
    · cases f2 with
      | zero => push_cast at h2; omega
      | succ g =>
        simp only [analyzeLineLoop, hlt, if_true]
        by_cases hr : (cellAt index == role) = true
        · rw [if_pos hr, if_pos hr]
          have hgt := scanGroup_index_gt cellAt role length index hlt (by simpa using hr)
          exact ih g _ _ (by push_cast at h1; omega) (by push_cast at h2; omega)
        · rw [if_neg hr, if_neg hr]
          exact ih g _ _ (by push_cast at h1; omega) (by push_cast at h2; omega)
    · cases f2 with
      | zero => simp only [analyzeLineLoop, hlt, if_false]
      | succ g => simp only [analyzeLineLoop, hlt, if_false]

theorem exists_run (cellAt : Int → Role) (role : Role) (length : Int) :
    ∀ (k : Nat) (i : Int), length - i ≤ k → i < length → cellAt i = role →
      ∃ a : Nat, 1 ≤ a ∧ i + a ≤ length
        ∧ (∀ j : Int, i ≤ j → j < i + a → cellAt j = role)
        ∧ (i + a < length → cellAt (i + a) ≠ role) := by
  intro k
  induction k with
  | zero => intro i h1 h2 _; push_cast at h1; omega
  | succ k ih =>
    intro i h1 h2 hr
    by_cases hnext : i + 1 < length ∧ cellAt (i + 1) = role
    · obtain ⟨a, ha, hle, hrun, hstop⟩ := ih (i + 1) (by push_cast at h1; omega) hnext.1 hnext.2
      refine ⟨a + 1, by omega, by push_cast; omega, ?_, ?_⟩
      · intro j hj1 hj2
        by_cases hji : j = i
        · rw [hji]; exact hr
        · exact hrun j (by omega) (by push_cast at hj2; omega)
      · intro hlt
        have e : i + ((a + 1 : Nat) : Int) = i + 1 + a := by push_cast; ring
        rw [e] at hlt ⊢
        exact hstop hlt
    · refine ⟨1, le_refl _, by push_cast; omega, ?_, ?_⟩
      · intro j hj1 hj2
        have : j = i := by push_cast at hj2; omega
        rw [this]; exact hr
      · intro hlt hc
        exact hnext ⟨by push_cast at hlt; exact hlt, by push_cast at hc; exact hc⟩

theorem scanGroup_single_stop (cellAt : Int → Role) (role : Role) (length : Int) (s k : Nat)
    (hk : 1 ≤ k) (hle : (s : Int) + k ≤ length)
    (hrun : ∀ j : Int, (s : Int) ≤ j → j < s + k → cellAt j = role)
    (hstop : (s : Int) + k < length → cellAt ((s : Int) + k) ≠ role)
    (hnogap : ¬ ((s : Int) + k + 1 < length ∧ cellAt ((s : Int) + k) = Role.EMPTY
      ∧ cellAt ((s : Int) + k + 1) = role)) :
    scanGroup cellAt role length s
      = ((s : Int) + k, analyzeShape k
          (decide ((s : Int) > 0) && (cellAt ((s : Int) - 1) == Role.EMPTY))
          (decide ((s : Int) + k < length) && (cellAt ((s : Int) + k) == Role.EMPTY)) false) := by
  have h1 : countRun cellAt role length (length - (s : Int)).toNat s 0 = ((s : Int) + k, (k : Int)) := by
    have := countRun_run cellAt role length k (length - (s : Int)).toNat s 0 (by omega) hrun hle
      hstop
    simpa using this
  have hgap : (decide ((s : Int) + k < length) && (cellAt ((s : Int) + k) == Role.EMPTY)
      && decide ((s : Int) + k + 1 < length) && (cellAt ((s : Int) + k + 1) == role)) = false := by
    rw [Bool.eq_false_iff]
    intro h
    simp only [Bool.and_eq_true, decide_eq_true_eq, beq_iff_eq] at h
    exact hnogap ⟨h.1.2, h.1.1.2, h.2⟩
  simp only [scanGroup, h1, hgap, Bool.false_eq_true, if_false]

theorem scanGroup_left (c c2 : Int → Role) (role : Role) (n m : Int) (s : Nat)
    (hne : role ≠ Role.EMPTY) (hs : (s : Int) < m) (hm : m ≤ n) (hr : c s = role)
    (hns : NoSpan c m role)
    (HL1 : ∀ j : Int, 0 ≤ j → j < m → c2 j = c j)
    (HL2 : c2 m = Role.EMPTY ↔ c m = Role.EMPTY)
    (HL3 : ∀ j : Int, m ≤ j → c2 j ≠ role) :
    scanGroup c2 role n s = scanGroup c role n s ∧ (scanGroup c role n s).1 ≤ m := by
  obtain ⟨N1, N2, N3⟩ := hns
  have hrunle : ∀ (i : Int) (a : Nat), (s : Int) ≤ i → i < m → 1 ≤ a →
      (∀ j : Int, i ≤ j → j < i + a → c j = role) → i + a ≤ m := by
    intro i a h0 hi ha hrun
    by_contra hgt
    exact N1 ⟨hrun (m - 1) (by omega) (by omega), hrun m (by omega) (by omega)⟩
  have hlo : (decide ((s : Int) > 0) && (c2 ((s : Int) - 1) == Role.EMPTY))
      = (decide ((s : Int) > 0) && (c ((s : Int) - 1) == Role.EMPTY)) := by
    by_cases h0 : (s : Int) > 0
    · rw [HL1 _ (by omega) (by omega)]
    · simp [h0]
  have hro : ∀ e : Int, 0 ≤ e → e ≤ m → (decide (e < n) && (c2 e == Role.EMPTY))
      = (decide (e < n) && (c e == Role.EMPTY)) := by
    intro e h0 he
    by_cases hem : e = m
    · subst hem
      have : (c2 e == Role.EMPTY) = (c e == Role.EMPTY) := by
        rw [Bool.eq_iff_iff]
        simp only [beq_iff_eq]
        exact HL2
      rw [this]
    · rw [HL1 e h0 (by omega)]
  have hstop2 : ∀ e : Int, 0 ≤ e → e ≤ m → (e < n → c e ≠ role) → (e < n → c2 e ≠ role) := by
    intro e h0 he hc hlt
    by_cases hem : e = m
    · exact HL3 e (by omega)
    · rw [HL1 e h0 (by omega)]; exact hc hlt
  obtain ⟨a, ha, hale, hrun1, hstop1⟩ := exists_run c role n (n - s).toNat s (by omega)
    (by omega) hr
  have he1 := hrunle s a (le_refl _) hs ha hrun1
  have hrun1' : ∀ j : Int, (s : Int) ≤ j → j < s + a → c2 j = role := by
    intro j h1 h2
    rw [HL1 j (by omega) (by omega)]
    exact hrun1 j h1 h2
  by_cases hG : (s : Int) + a + 1 < n ∧ c ((s : Int) + a) = Role.EMPTY
      ∧ c ((s : Int) + a + 1) = role
  · obtain ⟨hG1, hG2, hG3⟩ := hG
    have hlast : c ((s : Int) + a - 1) = role := hrun1 _ (by omega) (by omega)
    have hlt2 : (s : Int) + a + 1 < m := by
      by_contra hge
      have hcase : (s : Int) + a = m ∨ (s : Int) + a = m - 1 := by omega
      rcases hcase with h | h
      · apply N3
        refine ⟨?_, ?_, ?_⟩
        · rw [← h]; exact hlast
        · rw [← h]; exact hG2
        · rw [← h]; exact hG3
      · apply N2
        have e1 : m - 2 = (s : Int) + a - 1 := by omega
        have e2 : m - 1 = (s : Int) + a := by omega
        have e3 : m = (s : Int) + a + 1 := by omega
        refine ⟨?_, ?_, ?_⟩
        · rw [e1]; exact hlast
        · rw [e2]; exact hG2
        · rw [e3]; exact hG3
    obtain ⟨a2, ha2, ha2le, hrun2, hstop2c⟩ := exists_run c role n
      (n - ((s : Int) + a + 1)).toNat ((s : Int) + a + 1) (by omega) hG1 hG3
    have he2 := hrunle ((s : Int) + a + 1) a2 (by omega) hlt2 ha2 hrun2
    have g1 := scanGroup_gapped_stop c role n s a a2 ha ha2 ha2le hrun1 hG2 hne hrun2 hstop2c
    have g2 := scanGroup_gapped_stop c2 role n s a a2 ha ha2 ha2le hrun1'
      (by rw [HL1 _ (by omega) (by omega)]; exact hG2) hne
      (fun j h1 h2 => by rw [HL1 j (by omega) (by omega)]; exact hrun2 j h1 h2)
      (hstop2 _ (by omega) he2 hstop2c)
    rw [g1, g2, hlo, hro _ (by omega) he2]
    exact ⟨rfl, he2⟩
  · have g1 := scanGroup_single_stop c role n s a ha hale hrun1 hstop1 hG
    have hG' : ¬ ((s : Int) + a + 1 < n ∧ c2 ((s : Int) + a) = Role.EMPTY
        ∧ c2 ((s : Int) + a + 1) = role) := by
      rintro ⟨h1, h2, h3⟩
      by_cases hlt : (s : Int) + a + 1 < m
      · rw [HL1 _ (by omega) (by omega)] at h2 h3
        exact hG ⟨h1, h2, h3⟩
      · exact HL3 _ (by omega) h3
    have g2 := scanGroup_single_stop c2 role n s a ha hale hrun1'
      (hstop2 _ (by omega) he1 hstop1) hG'
    rw [g1, g2, hlo, hro _ (by omega) he1]
    exact ⟨rfl, he1⟩

theorem analyzeLineLoop_prefix (c c2 : Int → Role) (role : Role) (n m : Int)
    (hne : role ≠ Role.EMPTY) (hm : m ≤ n) (hns : NoSpan c m role)
    (HL1 : ∀ j : Int, 0 ≤ j → j < m → c2 j = c j)
    (HL2 : c2 m = Role.EMPTY ↔ c m = Role.EMPTY)
    (HL3 : ∀ j : Int, m ≤ j → c2 j ≠ role) :
    ∀ (fuel : Nat) (i s : Int), 0 ≤ i → i ≤ m → n - i ≤ fuel →
      ∀ fuel2 : Nat, n - m ≤ fuel2 →
      analyzeLineLoop c role n fuel i s
        = analyzeLineLoop c role n fuel2 m (analyzeLineLoop c2 role n fuel i s) := by
  intro fuel
  induction fuel with
  | zero =>
    intro i s h0 him hf fuel2 hf2
    have him2 : i = m := by push_cast at hf; omega
    subst him2
    rw [analyzeLineLoop_rest c2 role n 0 i s (fun j h1 _ => HL3 j h1)]
    exact analyzeLineLoop_fuel c role n _ _ i s hf hf2
  | succ f ih =>
    intro i s h0 him hf fuel2 hf2
    by_cases him2 : i = m
    · subst him2
      rw [analyzeLineLoop_rest c2 role n _ i s (fun j h1 _ => HL3 j h1)]
      exact analyzeLineLoop_fuel c role n _ _ i s hf hf2
    · have hlt : i < n := by omega
      have hc : c2 i = c i := HL1 i h0 (by omega)
      simp only [analyzeLineLoop, hlt, if_true, hc]
      by_cases hr : (c i == role) = true
      · rw [if_pos hr, if_pos hr]
        have hr2 : c i = role := by simpa using hr
        obtain ⟨t, ht⟩ : ∃ t : Nat, (t : Int) = i := ⟨i.toNat, by omega⟩
        subst ht
        obtain ⟨g1, g2⟩ := scanGroup_left c c2 role n m t hne (by omega) hm hr2 hns HL1 HL2 HL3
        have hgt := scanGroup_index_gt c role n t hlt hr2
        rw [g1]
        exact ih _ _ (by omega) g2 (by push_cast at hf; omega) fuel2 hf2
      · rw [if_neg hr, if_neg hr]
        exact ih _ _ (by omega) (by omega) (by push_cast at hf; omega) fuel2 hf2

theorem countRun_congr_from (c1 c2 : Int → Role) (role : Role) (length m : Int)
    (h : ∀ j : Int, m ≤ j → j < length → c1 j = c2 j) :
    ∀ (fuel : Nat) (index count : Int), m ≤ index →
      countRun c1 role length fuel index count = countRun c2 role length fuel index count := by
  intro fuel
  induction fuel with
  | zero => intro index count _; rfl
  | succ f ih =>
    intro index count h0
    simp only [countRun]
    by_cases hlt : index < length
    · rw [h index h0 hlt, ih (index + 1) (count + 1) (by omega)]
    · simp [hlt]

theorem scanGroup_congr_from (c1 c2 : Int → Role) (role : Role) (length m : Int)
    (h : ∀ j : Int, m ≤ j → j < length → c1 j = c2 j)
    (hE : c1 (m - 1) = Role.EMPTY ↔ c2 (m - 1) = Role.EMPTY)
    (index : Int) (h0 : m ≤ index) (hlt : index < length) :
    scanGroup c1 role length index = scanGroup c2 role length index := by
  have hr1 := countRun_congr_from c1 c2 role length m h (length - index).toNat index 0 h0
  have hge := countRun_index_ge c2 role length (length - index).toNat index 0
  simp only [scanGroup, hr1]
  generalize countRun c2 role length (length - index).toNat index 0 = r1 at hge ⊢
  have hleft : (decide (index > 0) && (c1 (index - 1) == Role.EMPTY))
      = (decide (index > 0) && (c2 (index - 1) == Role.EMPTY)) := by
    by_cases hi : index = m
    · have : (c1 (index - 1) == Role.EMPTY) = (c2 (index - 1) == Role.EMPTY) := by
        rw [Bool.eq_iff_iff]
        simp only [beq_iff_eq]
        rw [hi]
        exact hE
      rw [this]
    · rw [h (index - 1) (by omega) (by omega)]
  have hgap : (decide (r1.1 < length) && (c1 r1.1 == Role.EMPTY)
        && decide (r1.1 + 1 < length) && (c1 (r1.1 + 1) == role))
      = (decide (r1.1 < length) && (c2 r1.1 == Role.EMPTY)
        && decide (r1.1 + 1 < length) && (c2 (r1.1 + 1) == role)) := by
    by_cases hi : r1.1 + 1 < length
    · rw [h r1.1 (by omega) (by omega), h (r1.1 + 1) (by omega) hi]
    · simp [hi]
  have hr2 := countRun_congr_from c1 c2 role length m h (length - (r1.1 + 1)).toNat (r1.1 + 1)
    r1.2 (by omega)
  have hge2 := countRun_index_ge c2 role length (length - (r1.1 + 1)).toNat (r1.1 + 1) r1.2
  rw [hleft, hgap, hr2]
  have hright : ∀ i : Int, m ≤ i → (decide (i < length) && (c1 i == Role.EMPTY))
      = (decide (i < length) && (c2 i == Role.EMPTY)) := by
    intro i hi0
    by_cases hi : i < length
    · rw [h i hi0 hi]
    · simp [hi]
  split_ifs
  · rw [hright _ (by omega)]
  · rw [hright _ (by omega)]

theorem analyzeLineLoop_congr_from (c1 c2 : Int → Role) (role : Role) (length m : Int)
    (h : ∀ j : Int, m ≤ j → j < length → c1 j = c2 j)
    (hE : c1 (m - 1) = Role.EMPTY ↔ c2 (m - 1) = Role.EMPTY) :
    ∀ (fuel : Nat) (index score : Int), m ≤ index →
      analyzeLineLoop c1 role length fuel index score
        = analyzeLineLoop c2 role length fuel index score := by
  intro fuel
  induction fuel with
  | zero => intro index score _; rfl
  | succ f ih =>
    intro index score h0
    simp only [analyzeLineLoop]
    by_cases hlt : index < length
    · have hge := scanGroup_index_ge c2 role length index
      rw [if_pos hlt, if_pos hlt, h index h0 hlt,
        scanGroup_congr_from c1 c2 role length m h hE index h0 hlt,
        ih _ _ (by omega), ih (index + 1) score (by omega)]
    · rw [if_neg hlt, if_neg hlt]

/-- A line splits at a cut that no group extends across: its score is the score of the
cells before the cut plus the score of the cells from the cut on, each part seeing of the
other part only whether the cell next to the cut is `EMPTY`. -/
theorem analyzeLineLoop_split (c c2 c3 : Int → Role) (role : Role) (n m : Int)
    (hne : role ≠ Role.EMPTY) (hm0 : 0 ≤ m) (hm : m ≤ n) (hns : NoSpan c m role)
    (HL1 : ∀ j : Int, 0 ≤ j → j < m → c2 j = c j)
    (HL2 : c2 m = Role.EMPTY ↔ c m = Role.EMPTY)
    (HL3 : ∀ j : Int, m ≤ j → c2 j ≠ role)
    (HR1 : ∀ j : Int, m ≤ j → j < n → c3 j = c j)
    (HR2 : c3 (m - 1) = Role.EMPTY ↔ c (m - 1) = Role.EMPTY)
    (HR3 : ∀ j : Int, j < m → c3 j ≠ role) :
    analyzeLineLoop c role n n.toNat 0 0
      = analyzeLineLoop c2 role n n.toNat 0 0 + analyzeLineLoop c3 role n n.toNat 0 0 := by
  have h1 := analyzeLineLoop_prefix c c2 role n m hne hm hns HL1 HL2 HL3 n.toNat 0 0
    (le_refl _) hm0 (by omega) (n.toNat - m.toNat) (by omega)
  have h2 := analyzeLineLoop_score_add c role n (n.toNat - m.toNat) m 0
    (analyzeLineLoop c2 role n n.toNat 0 0)
  rw [zero_add] at h2
  have h3 := analyzeLineLoop_congr_from c3 c role n m HR1 HR2 (n.toNat - m.toNat) m 0 (le_refl _)
  have hf : n.toNat = (n.toNat - m.toNat) + m.toNat := by omega
  have h4 := analyzeLineLoop_skip c3 role n m.toNat (n.toNat - m.toNat) 0 0
    (fun j _ hj2 => HR3 j (by omega)) (by omega)
  rw [← hf] at h4
  have e : (0 : Int) + ((m.toNat : Nat) : Int) = m := by omega
  rw [e] at h4
  rw [h1, h2, h4, h3]
  ring

theorem leftPart_lt (c : Int → Role) (m : Int) (w : Role) (j : Int) (h : j < m) :
    leftPart c m w j = c j := by
  simp only [leftPart, h, if_true]

theorem leftPart_at (c : Int → Role) (m : Int) (w : Role) (hw : w ≠ Role.EMPTY) :
    leftPart c m w m = Role.EMPTY ↔ c m = Role.EMPTY := by
  simp only [leftPart, lt_irrefl, if_false, true_and]
  by_cases h : c m = Role.EMPTY
  · simp [h]
  · simp [h, hw]

theorem leftPart_ge (c : Int → Role) (m : Int) (w role : Role) (hw : w ≠ role)
    (hne : role ≠ Role.EMPTY) (j : Int) (h : m ≤ j) : leftPart c m w j ≠ role := by
  have h2 : ¬ j < m := by omega
  simp only [leftPart, h2, if_false]
  split_ifs
  · exact fun e => hne e.symm
  · exact hw

theorem rightPart_ge (c : Int → Role) (m : Int) (w : Role) (j : Int) (h : m ≤ j) :
    rightPart c m w j = c j := by
  simp only [rightPart, h, if_true]

theorem rightPart_at (c : Int → Role) (m : Int) (w : Role) (hw : w ≠ Role.EMPTY) :
    rightPart c m w (m - 1) = Role.EMPTY ↔ c (m - 1) = Role.EMPTY := by
  have h2 : ¬ m ≤ m - 1 := by omega
  simp only [rightPart, h2, if_false, true_and]
  by_cases h : c (m - 1) = Role.EMPTY
  · simp [h]
  · simp [h, hw]

theorem rightPart_lt (c : Int → Role) (m : Int) (w role : Role) (hw : w ≠ role)
    (hne : role ≠ Role.EMPTY) (j : Int) (h : j < m) : rightPart c m w j ≠ role := by
  have h2 : ¬ m ≤ j := by omega
  simp only [rightPart, h2, if_false]
  split_ifs
  · exact fun e => hne e.symm
  · exact hw

theorem noSpan_reverse (c : Int → Role) (n e : Int) (role : Role) (h : NoSpan c e role) :
    NoSpan (fun j => c (n - 1 - j)) (n - e) role := by
  obtain ⟨N1, N2, N3⟩ := h
  have e1 : n - 1 - (n - e - 1) = e := by ring
  have e2 : n - 1 - (n - e) = e - 1 := by ring
  have e3 : n - 1 - (n - e - 2) = e + 1 := by ring
  have e4 : n - 1 - (n - e + 1) = e - 2 := by ring
  refine ⟨?_, ?_, ?_⟩
  · simp only [e1, e2]
    exact fun h => N1 ⟨h.2, h.1⟩
  · simp only [e1, e2, e3]
    exact fun h => N3 ⟨h.2.2, h.2.1, h.1⟩
  · simp only [e1, e2, e4]
    exact fun h => N2 ⟨h.2.2, h.2.1, h.1⟩

theorem first_group (c : Int → Role) (role w : Role) (n : Int) (hw1 : w ≠ role)
    (hne : role ≠ Role.EMPTY)
    (hwall : ∀ j : Int, (j < 0 ∨ n ≤ j) → c j = w) (hntc : NoTripleChain c n role)
    (s : Nat) (hs : (s : Int) < n) (hr : c s = role)
    (hbefore : ∀ j : Int, 0 ≤ j → j < s → c j ≠ role) :
    ∃ e : Int, (s : Int) < e ∧ e ≤ n ∧ NoSpan c e role
      ∧ AtMostOneGroup (leftPart c e w) n role := by
  have hin : ∀ j : Int, c j = role → 0 ≤ j ∧ j < n := by
    intro j hj
    by_contra hc
    have := hwall j (by omega)
    rw [hj] at this
    exact hw1 this.symm
  obtain ⟨a, ha, hale, hrun1, hstop1⟩ := exists_run c role n (n - s).toNat s (by omega) hs hr
  have hend1 : c ((s : Int) + a) ≠ role := by
    by_cases hlt : (s : Int) + a < n
    · exact hstop1 hlt
    · intro h; exact hlt (hin _ h).2
  have hlast1 : c ((s : Int) + a - 1) = role := hrun1 _ (by omega) (by omega)
  by_cases hG : c ((s : Int) + a) = Role.EMPTY ∧ c ((s : Int) + a + 1) = role
  · obtain ⟨hG1, hG2⟩ := hG
    have hlt2 := (hin _ hG2).2
    obtain ⟨a2, ha2, ha2le, hrun2, hstop2⟩ := exists_run c role n
      (n - ((s : Int) + a + 1)).toNat ((s : Int) + a + 1) (by omega) hlt2 hG2
    have hend2 : c ((s : Int) + a + 1 + a2) ≠ role := by
      by_cases hlt : (s : Int) + a + 1 + a2 < n
      · exact hstop2 hlt
      · intro h; exact hlt (hin _ h).2
    refine ⟨(s : Int) + a + 1 + a2, by omega, ha2le, ⟨?_, ?_, ?_⟩, ?_⟩
    · exact fun h => hend2 h.2
    · exact fun h => hend2 h.2.2
    · rintro ⟨_, h2, h3⟩
      have hq := (hin _ h3).2
      refine hntc ((s : Int) + a - 1) ((s : Int) + a + a2) (by omega) (by omega) (by omega)
        hlast1 ?_ ?_ ?_ ?_
      · have e : (s : Int) + a - 1 + 1 = (s : Int) + a := by ring
        rw [e]; exact hG1
      · intro j h4 h5
        exact hrun2 j (by omega) (by omega)
      · have e : (s : Int) + a + a2 + 1 = (s : Int) + a + 1 + a2 := by ring
        rw [e]; exact h2
      · have e : (s : Int) + a + a2 + 2 = (s : Int) + a + 1 + a2 + 1 := by ring
        rw [e]; exact h3
    · refine Or.inr (Or.inr ⟨s, a, a2, ha, ha2, ha2le, ?_, ?_, ?_, ?_⟩)
      · intro j h1 h2
        rw [leftPart_lt c _ w j (by omega)]
        exact hrun1 j h1 h2
      · rw [leftPart_lt c _ w _ (by omega)]
        exact hG1
      · intro j h1 h2
        rw [leftPart_lt c _ w j (by omega)]
        exact hrun2 j h1 h2
      · intro j h1 _ h3
        rcases h3 with h3 | h3
        · rw [leftPart_lt c _ w j (by omega)]
          exact hbefore j h1 h3
        · exact leftPart_ge c _ w role hw1 hne j h3
  · refine ⟨(s : Int) + a, by omega, hale, ⟨?_, ?_, ?_⟩, ?_⟩
    · exact fun h => hend1 h.2
    · exact fun h => hend1 h.2.2
    · exact fun h => hG ⟨h.2.1, h.2.2⟩
    · refine Or.inr (Or.inl ⟨s, a, ha, hale, ?_, ?_⟩)
      · intro j h1 h2
        rw [leftPart_lt c _ w j (by omega)]
        exact hrun1 j h1 h2
      · intro j h1 _ h3
        rcases h3 with h3 | h3
        · rw [leftPart_lt c _ w j (by omega)]
          exact hbefore j h1 h3
        · exact leftPart_ge c _ w role hw1 hne j h3

theorem analyzeLineLoop_reverse_walled (role w : Role) (n : Int) (hw1 : w ≠ role)
    (hw2 : w ≠ Role.EMPTY) (hne : role ≠ Role.EMPTY) :
    ∀ (k : Nat) (c : Int → Role), (∀ j : Int, (j < 0 ∨ n ≤ j) → c j = w) →
      NoTripleChain c n role → (∀ j : Int, 0 ≤ j → j < n - k → c j ≠ role) →
      analyzeLineLoop (fun j => c (n - 1 - j)) role n n.toNat 0 0
        = analyzeLineLoop c role n n.toNat 0 0 := by
  intro k
  induction k with
  | zero =>
    intro c _ _ hno
    exact analyzeLineLoop_reverse c _ role n hne (fun _ => rfl)
      (Or.inl (fun j h1 h2 => hno j h1 (by push_cast; omega)))
  | succ k ih =>
    intro c hwall hntc hno
    by_cases hs : 0 ≤ n - ((k + 1 : Nat) : Int) ∧ c (n - ((k + 1 : Nat) : Int)) = role
    · obtain ⟨hs0, hr⟩ := hs
      obtain ⟨s, hsn⟩ : ∃ s : Nat, (s : Int) = n - ((k + 1 : Nat) : Int) :=
        ⟨(n - ((k + 1 : Nat) : Int)).toNat, by omega⟩
      rw [← hsn] at hr hno
      obtain ⟨e, hse, hen, hns, hone⟩ := first_group c role w n hw1 hne hwall hntc s
        (by push_cast at hsn; omega) hr hno
      have hL := analyzeLineLoop_split c (leftPart c e w) (rightPart c e w) role n e hne
        (by omega) hen hns
        (fun j _ h => leftPart_lt c e w j h) (leftPart_at c e w hw2)
        (fun j h => leftPart_ge c e w role hw1 hne j h)
        (fun j h _ => rightPart_ge c e w j h) (rightPart_at c e w hw2)
        (fun j h => rightPart_lt c e w role hw1 hne j h)
      have e1 : n - 1 - (n - e) = e - 1 := by ring
      have e2 : n - 1 - (n - e - 1) = e := by ring
      have hR := analyzeLineLoop_split (fun j => c (n - 1 - j))
        (fun j => rightPart c e w (n - 1 - j)) (fun j => leftPart c e w (n - 1 - j)) role n
        (n - e) hne (by omega) (by omega) (noSpan_reverse c n e role hns)
        (fun j _ h => rightPart_ge c e w _ (by omega))
        (by simp only [e1]; exact rightPart_at c e w hw2)
        (fun j h => rightPart_lt c e w role hw1 hne _ (by omega))
        (fun j h _ => leftPart_lt c e w _ (by omega))
        (by simp only [e2]; exact leftPart_at c e w hw2)
        (fun j h => leftPart_ge c e w role hw1 hne _ (by omega))
      have hbase := analyzeLineLoop_reverse (leftPart c e w) _ role n hne (fun _ => rfl) hone
      have hrec := ih (rightPart c e w)
        (by
          intro j hj
          rcases hj with hj | hj
          · have h2 : ¬ e ≤ j := by omega
            have h3 : ¬ (j = e - 1 ∧ c (e - 1) = Role.EMPTY) := by omega
            simp only [rightPart, h2, h3, if_false]
          · rw [rightPart_ge c e w j (by omega)]
            exact hwall j (Or.inr hj))
        (by
          intro p q hp hpq hq h1 h2 h3 h4
          have hpe : e ≤ p := by
            by_contra hlt
            exact rightPart_lt c e w role hw1 hne p (by omega) h1
          rw [rightPart_ge c e w _ (by omega)] at h1 h2 h4 ⊢
          exact hntc p q hp hpq hq h1 h2
            (fun j h5 h6 => by
              have := h3 j h5 h6
              rw [rightPart_ge c e w j (by omega)] at this
              exact this) h4)
        (fun j _ hj => rightPart_lt c e w role hw1 hne j (by push_cast at hsn; omega))
      rw [hL, hR, hbase, hrec]
      ring
    · apply ih c hwall hntc
      intro j h0 hj
      by_cases hjs : j = n - ((k + 1 : Nat) : Int)
      · intro hc
        exact hs ⟨by omega, by rw [← hjs]; exact hc⟩
      · exact hno j h0 (by push_cast at hjs ⊢; omega)

/-- The scan of a line in the opposite order gives the same score when no three runs of the
side are chained by single gaps. -/
theorem analyzeLineLoop_reverse_chain (c1 c2 : Int → Role) (role : Role) (n : Int)
    (hs : role = Role.USER ∨ role = Role.BOT) (hrev : ∀ j : Int, c2 j = c1 (n - 1 - j))
    (hntc : NoTripleChain c1 n role) :
    analyzeLineLoop c2 role n n.toNat 0 0 = analyzeLineLoop c1 role n n.toNat 0 0 := by
  have hne : role ≠ Role.EMPTY := by
    rcases hs with h | h <;> rw [h] <;> decide
  have hw1 : opponentOf role ≠ role := by
    rcases hs with h | h <;> rw [h] <;> decide
  have hw2 : opponentOf role ≠ Role.EMPTY := by
    rcases hs with h | h <;> rw [h] <;> decide
  have hbar : ∀ j : Int, 0 ≤ j → j < n →
      (fun i : Int => if 0 ≤ i ∧ i < n then c1 i else opponentOf role) j = c1 j := by
    intro j h0 h1
    simp only [h0, h1, and_self, if_true]
  have h1 := analyzeLineLoop_congr c1
    (fun i : Int => if 0 ≤ i ∧ i < n then c1 i else opponentOf role) role n
    (fun j h0 h1 => (hbar j h0 h1).symm) n.toNat 0 0 (le_refl _)
  have h2 := analyzeLineLoop_congr c2
    (fun j : Int => (fun i : Int => if 0 ≤ i ∧ i < n then c1 i else opponentOf role) (n - 1 - j))
    role n
    (fun j h0 h1 => by
      rw [hrev j]
      exact (hbar (n - 1 - j) (by omega) (by omega)).symm) n.toNat 0 0 (le_refl _)
  rw [h1, h2]
  refine analyzeLineLoop_reverse_walled role (opponentOf role) n hw1 hw2 hne n.toNat
    (fun i : Int => if 0 ≤ i ∧ i < n then c1 i else opponentOf role) ?_ ?_ ?_
  · intro j hj
    have hn : ¬ (0 ≤ j ∧ j < n) := by omega
    simp only [hn, if_false]
  · intro p q hp hpq hq g1 g2 g3 g4
    rw [hbar _ (by omega) (by omega)] at g1 g2 g4 ⊢
    exact hntc p q hp hpq hq g1 g2
      (fun j h5 h6 => by
        have := g3 j h5 h6
        rw [hbar j (by omega) (by omega)] at this
        exact this) g4
  · intro j h0 hj
    omega

theorem noTripleChain_of_no_gap (c : Int → Role) (n : Int) (role : Role)
    (h : ∀ p : Int, 0 ≤ p → p + 2 < n →
      ¬ (c p = role ∧ c (p + 1) = Role.EMPTY ∧ c (p + 2) = role)) :
    NoTripleChain c n role := by
  intro p q hp hpq hq g1 g2 g3 _ _
  exact h p hp (by omega) ⟨g1, g2, g3 (p + 2) (le_refl _) hpq⟩

/-! ## The mirror image of a board -/

theorem getCell_mirrorBoard (b : Board) (p : Point) :
    getCell (mirrorBoard b) p = getCell b ⟨p.x, 14 - p.y⟩ := by
  by_cases hv : isRangeValidP p = true
  · obtain ⟨i, j, rfl⟩ := exists_fin_of_valid p hv
    have e : (⟨(i.val : Int), 14 - (j.val : Int)⟩ : Point)
        = ⟨(i.val : Int), ((Fin.rev j).val : Int)⟩ := by
      have hj := j.isLt
      rw [Fin.val_rev]
      congr 1
      omega
    show getCell (mirrorBoard b) ⟨(i.val : Int), (j.val : Int)⟩
      = getCell b ⟨(i.val : Int), 14 - (j.val : Int)⟩
    rw [e, getCell_coe, getCell_coe]
    rfl
  · have hv1 : isRangeValidP p = false := by simpa using hv
    have hv2 : isRangeValidP ⟨p.x, 14 - p.y⟩ = false := by
      rw [← Bool.not_eq_true, isRangeValidP_iff] at hv1 ⊢
      simp only []
      omega
    rw [getCell_of_not_valid _ _ hv1, getCell_of_not_valid _ _ hv2]

theorem mirrorLine_at (b : Board) (l : LineView) (j : Int) :
    l.at (mirrorBoard b) j = (mirrorLine l).at b j := by
  simp only [LineView.at, mirrorLine, getCell_mirrorBoard]
  congr 2
  ring

theorem getActualLengthLoop_valid_congr (b1 b2 : Board) (l1 l2 : LineView)
    (hlen : l1.length = l2.length) :
    ∀ (fuel : Nat) (count : Int) (p1 p2 : Point),
      (∀ j : Nat, isRangeValidP ⟨p1.x + l1.dir.x * j, p1.y + l1.dir.y * j⟩
        = isRangeValidP ⟨p2.x + l2.dir.x * j, p2.y + l2.dir.y * j⟩) →
      getActualLengthLoop b1 l1 fuel count p1 = getActualLengthLoop b2 l2 fuel count p2 := by
  intro fuel
  induction fuel with
  | zero => intro count p1 p2 _; rfl
  | succ f ih =>
    intro count p1 p2 h
    have h0 : isRangeValidP p1 = isRangeValidP p2 := by simpa using h 0
    simp only [getActualLengthLoop]
    by_cases hv : isRangeValidP p1 = true
    · have hv2 : isRangeValidP p2 = true := by rw [← h0]; exact hv
      simp only [hv, hv2, Bool.or_true, if_true, Bool.not_true, Bool.false_eq_true, if_false,
        hlen]
      have hrec := ih (count + 1) ⟨p1.x + l1.dir.x, p1.y + l1.dir.y⟩
        ⟨p2.x + l2.dir.x, p2.y + l2.dir.y⟩
        (by
          intro j
          have hj := h (j + 1)
          have e : ∀ (x d : Int), x + d * ((j + 1 : Nat) : Int) = x + d + d * j := by
            intro x d; push_cast; ring
          rw [e, e, e, e] at hj
          exact hj)
      rw [hrec]
    · have hv1 : isRangeValidP p1 = false := by simpa using hv
      have hv2 : isRangeValidP p2 = false := by rw [← h0]; exact hv1
      simp only [hv1, hv2, getCell_of_not_valid b1 p1 hv1, getCell_of_not_valid b2 p2 hv2,
        bne_self_eq_false, Bool.and_false, Bool.or_false, Bool.false_eq_true, if_false]

theorem isRangeValidP_mirror (x y : Int) :
    isRangeValidP ⟨x, 14 - y⟩ = isRangeValidP ⟨x, y⟩ := by
  rw [Bool.eq_iff_iff, isRangeValidP_iff, isRangeValidP_iff]
  simp only []
  omega

theorem getActualLength_mirror (b : Board) (l : LineView) :
    getActualLength (mirrorBoard b) l = getActualLength b (mirrorLine l) := by
  unfold getActualLength
  apply getActualLengthLoop_valid_congr (mirrorBoard b) b l (mirrorLine l) rfl
  intro j
  simp only [mirrorLine]
  have e : 14 - l.start.y + -l.dir.y * (j : Int) = 14 - (l.start.y + l.dir.y * j) := by ring
  rw [e, isRangeValidP_mirror]

theorem getActualLength_board_free (b1 b2 : Board) (l : LineView) :
    getActualLength b1 l = getActualLength b2 l :=
  getActualLengthLoop_valid_congr b1 b2 l l rfl _ _ _ _ (fun _ => rfl)

theorem analyzeLine_mirror (b : Board) (l : LineView) (role : Role) :
    analyzeLine (mirrorBoard b) l role = analyzeLine b (mirrorLine l) role := by
  have hf : l.at (mirrorBoard b) = (mirrorLine l).at b := funext (mirrorLine_at b l)
  simp only [analyzeLine, getActualLength_mirror, hf]

theorem row_length (b : Board) (i : Nat) (hi : i < 15) :
    getActualLength b ⟨⟨(i : Int), 0⟩, ⟨0, 1⟩, INT_MAX⟩ = 15
      ∧ getActualLength b (mirrorLine ⟨⟨(i : Int), 0⟩, ⟨0, 1⟩, INT_MAX⟩) = 15 := by
  constructor
  · have h := getActualLengthLoop_eq_min b ⟨⟨(i : Int), 0⟩, ⟨0, 1⟩, INT_MAX⟩
      (INT_MAX.toNat + 1) 15 0 ⟨(i : Int), 0⟩ (by show (0 : Int) < INT_MAX; decide)
      (fun j hj => by rw [isRangeValidP_iff]; simp only []; omega)
      (by rw [← Bool.not_eq_true, isRangeValidP_iff]; simp only []; omega)
      (Or.inl (by simp only [INT_MAX]; decide))
    rw [getActualLength]
    exact h.trans (by show min INT_MAX (0 + ((15 : Nat) : Int)) = 15; decide)
  · have h := getActualLengthLoop_eq_min b (mirrorLine ⟨⟨(i : Int), 0⟩, ⟨0, 1⟩, INT_MAX⟩)
      (INT_MAX.toNat + 1) 15 0 ⟨(i : Int), 14 - 0⟩ (by show (0 : Int) < INT_MAX; decide)
      (fun j hj => by rw [isRangeValidP_iff]; simp only [mirrorLine]; omega)
      (by rw [← Bool.not_eq_true, isRangeValidP_iff]; simp only [mirrorLine]; omega)
      (Or.inl (by simp only [INT_MAX]; decide))
    rw [getActualLength]
    exact h.trans (by show min INT_MAX (0 + ((15 : Nat) : Int)) = 15; decide)

theorem row_mirror (b : Board) (role : Role) (hs : role = Role.USER ∨ role = Role.BOT)
    (i : Nat) (hi : i < 15)
    (hg : NoTripleChain ((⟨⟨(i : Int), 0⟩, ⟨0, 1⟩, INT_MAX⟩ : LineView).at b) 15 role) :
    analyzeLine b (mirrorLine ⟨⟨(i : Int), 0⟩, ⟨0, 1⟩, INT_MAX⟩) role
      = analyzeLine b ⟨⟨(i : Int), 0⟩, ⟨0, 1⟩, INT_MAX⟩ role := by
  obtain ⟨h1, h2⟩ := row_length b i hi
  simp only [analyzeLine, h1, h2]
  apply analyzeLineLoop_reverse_chain _ _ role 15 hs _ hg
  intro j
  simp only [LineView.at, mirrorLine]
  congr 2 <;> ring

theorem sum_range_fifteen_rev (g : Nat → Int) :
    ((List.range 15).map fun j => g (14 - j)).sum = ((List.range 15).map g).sum := by
  have h : List.range 15 = [0, 1, 2, 3, 4, 5, 6, 7, 8, 9, 10, 11, 12, 13, 14] := by decide
  rw [h]
  simp only [List.map, List.sum_cons, List.sum_nil]
  norm_num
  ring

theorem sum_range_fourteen_rev (g : Nat → Int) :
    ((List.range 14).map fun j => g (13 - j)).sum = ((List.range 14).map g).sum := by
  have h : List.range 14 = [0, 1, 2, 3, 4, 5, 6, 7, 8, 9, 10, 11, 12, 13] := by decide
  rw [h]
  simp only [List.map, List.sum_cons, List.sum_nil]
  norm_num
  ring

theorem blockSum_mirror (b : Board) (r : Role) (N : Nat) (L1 L2 : Nat → LineView)
    (h : ∀ j : Nat, j < N → mirrorLine (L1 j) = L2 j) :
    ((List.range N).map fun j => analyzeLine (mirrorBoard b) (L1 j) r).sum
      = ((List.range N).map fun j => analyzeLine b (L2 j) r).sum := by
  congr 1
  apply List.map_congr_left
  intro j hj
  rw [analyzeLine_mirror, h j (List.mem_range.mp hj)]

theorem lineSum_mirror (b : Board) (r : Role) (hs : r = Role.USER ∨ r = Role.BOT)
    (hrows : ∀ i : Nat, i < 15 →
      NoTripleChain ((⟨⟨(i : Int), 0⟩, ⟨0, 1⟩, INT_MAX⟩ : LineView).at b) 15 r) :
    (evaluateLines.map fun line => analyzeLine (mirrorBoard b) line r).sum
      = (evaluateLines.map fun line => analyzeLine b line r).sum := by
  have B1 : ((List.range 15).map fun (i : Nat) =>
        analyzeLine (mirrorBoard b) ⟨⟨(i : Int), 0⟩, ⟨0, 1⟩, INT_MAX⟩ r).sum
      = ((List.range 15).map fun (i : Nat) =>
        analyzeLine b ⟨⟨(i : Int), 0⟩, ⟨0, 1⟩, INT_MAX⟩ r).sum := by
    congr 1
    apply List.map_congr_left
    intro i hi
    rw [analyzeLine_mirror, row_mirror b r hs i (List.mem_range.mp hi)
      (hrows i (List.mem_range.mp hi))]
  have B2 : ((List.range 15).map fun (j : Nat) =>
        analyzeLine (mirrorBoard b) ⟨⟨0, (j : Int)⟩, ⟨1, 0⟩, INT_MAX⟩ r).sum
      = ((List.range 15).map fun (j : Nat) =>
        analyzeLine b ⟨⟨0, (j : Int)⟩, ⟨1, 0⟩, INT_MAX⟩ r).sum := by
    rw [blockSum_mirror b r 15 _
      (fun j => (⟨⟨0, ((14 - j : Nat) : Int)⟩, ⟨1, 0⟩, INT_MAX⟩ : LineView))
      (fun j hj => by
        simp only [mirrorLine, neg_zero, LineView.mk.injEq, Point.mk.injEq, true_and, and_true]
        omega)]
    exact sum_range_fifteen_rev
      (fun j => analyzeLine b ⟨⟨0, (j : Int)⟩, ⟨1, 0⟩, INT_MAX⟩ r)
  have B3 : ((List.range 15).map fun (i : Nat) =>
        analyzeLine (mirrorBoard b) ⟨⟨(i : Int), 0⟩, ⟨1, 1⟩, INT_MAX⟩ r).sum
      = ((List.range 15).map fun (i : Nat) =>
        analyzeLine b ⟨⟨(i : Int), BOARD_SIZE - 1⟩, ⟨1, -1⟩, INT_MAX⟩ r).sum :=
    blockSum_mirror b r 15 _ _ (fun j hj => by
      simp only [mirrorLine, BOARD_SIZE, LineView.mk.injEq, Point.mk.injEq, true_and, and_true]
      omega)
  have B4 : ((List.range 14).map fun (j : Nat) =>
        analyzeLine (mirrorBoard b) ⟨⟨0, (j : Int) + 1⟩, ⟨1, 1⟩, INT_MAX⟩ r).sum
      = ((List.range 14).map fun (j : Nat) =>
        analyzeLine b ⟨⟨0, (j : Int)⟩, ⟨1, -1⟩, INT_MAX⟩ r).sum := by
    rw [blockSum_mirror b r 14 _
      (fun j => (⟨⟨0, ((13 - j : Nat) : Int)⟩, ⟨1, -1⟩, INT_MAX⟩ : LineView))
      (fun j hj => by
        simp only [mirrorLine, LineView.mk.injEq, Point.mk.injEq, true_and, and_true]
        omega)]
    exact sum_range_fourteen_rev
      (fun j => analyzeLine b ⟨⟨0, (j : Int)⟩, ⟨1, -1⟩, INT_MAX⟩ r)
  have B5 : ((List.range 15).map fun (i : Nat) =>
        analyzeLine (mirrorBoard b) ⟨⟨(i : Int), BOARD_SIZE - 1⟩, ⟨1, -1⟩, INT_MAX⟩ r).sum
      = ((List.range 15).map fun (i : Nat) =>
        analyzeLine b ⟨⟨(i : Int), 0⟩, ⟨1, 1⟩, INT_MAX⟩ r).sum :=
    blockSum_mirror b r 15 _ _ (fun j hj => by
      simp only [mirrorLine, BOARD_SIZE, neg_neg, LineView.mk.injEq, Point.mk.injEq, true_and,
        and_true]
      omega)
  have B6 : ((List.range 14).map fun (j : Nat) =>
        analyzeLine (mirrorBoard b) ⟨⟨0, (j : Int)⟩, ⟨1, -1⟩, INT_MAX⟩ r).sum
      = ((List.range 14).map fun (j : Nat) =>
        analyzeLine b ⟨⟨0, (j : Int) + 1⟩, ⟨1, 1⟩, INT_MAX⟩ r).sum := by
    rw [blockSum_mirror b r 14 _
      (fun j => (⟨⟨0, ((13 - j : Nat) : Int) + 1⟩, ⟨1, 1⟩, INT_MAX⟩ : LineView))
      (fun j hj => by
        simp only [mirrorLine, neg_neg, LineView.mk.injEq, Point.mk.injEq, true_and, and_true]
        omega)]
    exact sum_range_fourteen_rev
      (fun j => analyzeLine b ⟨⟨0, (j : Int) + 1⟩, ⟨1, 1⟩, INT_MAX⟩ r)
  simp only [evaluateLines, List.map_append, List.sum_append, List.map_map, Function.comp_def]
  rw [B1, B2, B3, B4, B5, B6]
  ring

set_option maxRecDepth 100000 in
/-- Claim C39 (counterexample): on the board `userChain` row 7 scores 1000 for `USER` when
read from (7,0) and 550 when read in the opposite order, and `evaluate` for `USER` is 1000
on the board and 550 on its mirror image. -/
theorem analyzeLine_reverse_differs :
    analyzeLine userChain ⟨⟨7, 0⟩, ⟨0, 1⟩, INT_MAX⟩ Role.USER = 1000
      ∧ analyzeLine userChain (reverseLine userChain ⟨⟨7, 0⟩, ⟨0, 1⟩, INT_MAX⟩) Role.USER = 550
      ∧ evaluate userChain Role.USER = 1000
      ∧ evaluate (mirrorBoard userChain) Role.USER = 550 := by
  decide!

/-- Claim C39, amended: the line score does not depend on the scan direction when no three
runs of the side are chained by single gaps.  For every line with at least one cell on which
no run of stones of the side has, on both of its sides, exactly one `EMPTY` cell followed by
another stone of the side, the line read in the opposite order has the same length, holds
the same cells in reverse, and gets the same score from `analyzeLine`; and `evaluate` gives
the same value on a board and on its mirror image when every row of the board is such a
line for both sides. -/
theorem analyzeLine_reverse_no_chain (b : Board) (role : Role)
    (hs : role = Role.USER ∨ role = Role.BOT) :
    (∀ line : LineView, 1 ≤ getActualLength b line →
        NoTripleChain (line.at b) (getActualLength b line) role →
        getActualLength b (reverseLine b line) = getActualLength b line
        ∧ (∀ j : Int, (reverseLine b line).at b j = line.at b (getActualLength b line - 1 - j))
        ∧ analyzeLine b (reverseLine b line) role = analyzeLine b line role)
      ∧ ((∀ i : Nat, i < 15 →
            NoTripleChain ((⟨⟨(i : Int), 0⟩, ⟨0, 1⟩, INT_MAX⟩ : LineView).at b) 15 role
            ∧ NoTripleChain ((⟨⟨(i : Int), 0⟩, ⟨0, 1⟩, INT_MAX⟩ : LineView).at b) 15
                (opponentOf role)) →
          (∀ p : Point, getCell (mirrorBoard b) p = getCell b ⟨p.x, 14 - p.y⟩)
          ∧ evaluate (mirrorBoard b) role = evaluate b role) := by
  have hs2 : opponentOf role = Role.USER ∨ opponentOf role = Role.BOT := by
    rcases hs with h | h <;> rw [h] <;> decide
  refine ⟨?_, ?_⟩
  · intro line h1 hg
    have hlen := reverseLine_length b line h1
    refine ⟨hlen, reverseLine_at b line, ?_⟩
    simp only [analyzeLine, hlen]
    exact analyzeLineLoop_reverse_chain (line.at b) ((reverseLine b line).at b) role _ hs
      (reverseLine_at b line) hg
  · intro hrows
    refine ⟨getCell_mirrorBoard b, ?_⟩
    simp only [evaluate]
    rw [lineSum_mirror b role hs (fun i hi => (hrows i hi).1),
      lineSum_mirror b (opponentOf role) hs2 (fun i hi => (hrows i hi).2)]

set_option maxRecDepth 100000 in
theorem userTwoPairs_rows :
    ∀ (i : Fin 15) (p : Fin 13),
      ¬ ((⟨⟨(i.val : Int), 0⟩, ⟨0, 1⟩, INT_MAX⟩ : LineView).at userTwoPairs (p.val : Int)
            = Role.USER
          ∧ (⟨⟨(i.val : Int), 0⟩, ⟨0, 1⟩, INT_MAX⟩ : LineView).at userTwoPairs ((p.val : Int) + 1)
            = Role.EMPTY
          ∧ (⟨⟨(i.val : Int), 0⟩, ⟨0, 1⟩, INT_MAX⟩ : LineView).at userTwoPairs ((p.val : Int) + 2)
            = Role.USER)
      ∧ ¬ ((⟨⟨(i.val : Int), 0⟩, ⟨0, 1⟩, INT_MAX⟩ : LineView).at userTwoPairs (p.val : Int)
            = Role.BOT
          ∧ (⟨⟨(i.val : Int), 0⟩, ⟨0, 1⟩, INT_MAX⟩ : LineView).at userTwoPairs ((p.val : Int) + 1)
            = Role.EMPTY
          ∧ (⟨⟨(i.val : Int), 0⟩, ⟨0, 1⟩, INT_MAX⟩ : LineView).at userTwoPairs ((p.val : Int) + 2)
            = Role.BOT) := by
  decide!

theorem userTwoPairs_no_chain (i : Nat) (hi : i < 15) :
    NoTripleChain ((⟨⟨(i : Int), 0⟩, ⟨0, 1⟩, INT_MAX⟩ : LineView).at userTwoPairs) 15 Role.USER
    ∧ NoTripleChain ((⟨⟨(i : Int), 0⟩, ⟨0, 1⟩, INT_MAX⟩ : LineView).at userTwoPairs) 15
        Role.BOT := by
  constructor
  · apply noTripleChain_of_no_gap
    intro p h0 h1
    have h := (userTwoPairs_rows ⟨i, hi⟩ ⟨p.toNat, by omega⟩).1
    have e : ((p.toNat : Nat) : Int) = p := by omega
    simp only [e] at h
    exact h
  · apply noTripleChain_of_no_gap
    intro p h0 h1
    have h := (userTwoPairs_rows ⟨i, hi⟩ ⟨p.toNat, by omega⟩).2
    have e : ((p.toNat : Nat) : Int) = p := by omega
    simp only [e] at h
    exact h

set_option maxRecDepth 100000 in
theorem analyzeLine_reverse_no_chain_witness :
    (Role.USER = Role.USER ∨ Role.USER = Role.BOT)
      ∧ analyzeLine userTwoPairs
          (reverseLine userTwoPairs ⟨⟨((7 : Nat) : Int), 0⟩, ⟨0, 1⟩, INT_MAX⟩) Role.USER
          = analyzeLine userTwoPairs ⟨⟨((7 : Nat) : Int), 0⟩, ⟨0, 1⟩, INT_MAX⟩ Role.USER
      ∧ evaluate (mirrorBoard userTwoPairs) Role.USER = evaluate userTwoPairs Role.USER := by
  have hL := (row_length userTwoPairs 7 (by decide)).1
  have hT := analyzeLine_reverse_no_chain userTwoPairs Role.USER (Or.inl rfl)
  refine ⟨Or.inl rfl, (hT.1 _ (by rw [hL]; decide) ?_).2.2, (hT.2 ?_).2⟩
  · rw [hL]
    exact (userTwoPairs_no_chain 7 (by decide)).1
  · intro i hi
    exact userTwoPairs_no_chain i hi

/-! ## The variant of `getBestMove` that starts from `LOSE` -/

theorem getBestMoveCore_board (stdSort : List (Int × Point) → List (Int × Point)) (b : Board) :
    (getBestMoveCore stdSort b).2 = b := by
  simp only [getBestMoveCore]
  rw [bestLoop_board _ (fun b1 p => minimax_board stdSort _ b1 Role.USER p LOSE WIN)]
  exact getSortedCandidates_board stdSort b Role.BOT

/-- When every candidate has a search value of at most `LOSE`, the variant never replaces
its initial best move, the default-constructed point (0,0). -/
theorem getBestMoveCore_default_of_all_lose (stdSort : List (Int × Point) → List (Int × Point))
    (hperm : ∀ l, (stdSort l).Perm l) (b : Board)
    (hall : ∀ p ∈ getCandidates b,
      exhaustive stdSort 3 (b.write p Role.BOT) Role.USER p ≤ LOSE) :
    (getBestMoveCore stdSort b).1 = ⟨0, 0⟩ := by
  have hscore : ∀ q ∈ (getSortedCandidates stdSort b Role.BOT).1,
      (minimax stdSort (SEARCH_DEPTH - 1) (makeMove b q Role.BOT).2 Role.USER q LOSE WIN).1
        ≤ LOSE := by
    intro q hq
    have hq2 := (mem_sortedCandidates stdSort hperm b Role.BOT q).mp hq
    have hW := minimax_spec stdSort (SEARCH_DEPTH - 1) (makeMove b q Role.BOT).2 Role.USER q
      LOSE WIN (by decide) (by decide) (by decide)
    rw [makeMove_snd_of_empty b q _ (getCandidates_empty_cells b q hq2), searchDepth_pred] at hW ⊢
    exact hW.2.2.1 (hall q hq2)
  have hspec := bestLoop_spec
    (fun b1 p => minimax stdSort (SEARCH_DEPTH - 1) b1 Role.USER p LOSE WIN)
    (fun b1 p => minimax_board stdSort _ b1 Role.USER p LOSE WIN) b
    (getSortedCandidates stdSort b Role.BOT).1
    ⟨(getSortedCandidates stdSort b Role.BOT).2, ⟨0, 0⟩, LOSE⟩
    (getSortedCandidates_board stdSort b Role.BOT)
    (sortedCandidates_legal stdSort hperm b Role.BOT Role.BOT)
  simp only [getBestMoveCore]
  generalize bestLoop (fun b1 p => minimax stdSort (SEARCH_DEPTH - 1) b1 Role.USER p LOSE WIN)
    (getSortedCandidates stdSort b Role.BOT).1
    ⟨(getSortedCandidates stdSort b Role.BOT).2, ⟨0, 0⟩, LOSE⟩ = R at hspec ⊢
  rcases hspec with ⟨h1, _, _⟩ | ⟨pre, post, h1, h2, h3, _, _⟩
  · exact h1
  · exfalso
    have hmem : R.bestMove ∈ (getSortedCandidates stdSort b Role.BOT).1 := by
      rw [h1]
      exact List.mem_append_right _ (List.mem_cons_self _ _)
    have hle := hscore _ hmem
    rw [h2] at h3
    simp only [] at h3
    omega

theorem getBestMoveCore_open_four (stdSort : List (Int × Point) → List (Int × Point))
    (hperm : ∀ l, (stdSort l).Perm l) (b : Board) (q : Point) (d : Int × Int)
    (hd : d ∈ directions)
    (h4 : ∀ i : Nat, i < 4 → holdsAt b Role.USER q d (i : Int) = true)
    (he1 : isRangeValidP (along q d (-1)) = true ∧ getCell b (along q d (-1)) = Role.EMPTY)
    (he2 : isRangeValidP (along q d 4) = true ∧ getCell b (along q d 4) = Role.EMPTY)
    (hnow : ∀ p ∈ getCandidates b, checkWinner (b.write p Role.BOT) p ≠ Role.BOT) :
    (getBestMoveCore stdSort b).1 = ⟨0, 0⟩ := by
  apply getBestMoveCore_default_of_all_lose stdSort hperm
  intro p hp
  by_cases hpe : p = along q d (-1)
  · have hne : p ≠ along q d 4 := by
      rw [hpe]
      exact fun h => absurd (along_injective q d hd _ _ h) (by decide)
    exact unblocked_four_loses stdSort hperm b q d hd h4 _ (Or.inr rfl) he2.1 he2.2 p hp hne
      (hnow p hp)
  · exact unblocked_four_loses stdSort hperm b q d hd h4 _ (Or.inl rfl) he1.1 he1.2 p hp hpe
      (hnow p hp)

set_option maxRecDepth 1000000 in
theorem userFourCorner_bot_cells :
    ∀ i j : Fin 15, userFourCorner.board i j = Role.BOT →
      (⟨(i.val : Int), (j.val : Int)⟩ : Point) = ⟨0, 0⟩ := by decide!

theorem userFourCorner_no_win :
    ∀ p ∈ getCandidates userFourCorner,
      checkWinner (userFourCorner.write p Role.BOT) p ≠ Role.BOT := by
  intro p _
  apply checkWinner_ne_of_pair _ Role.BOT (by decide) p ⟨0, 0⟩
  intro x hx
  rcases getCell_write_bot userFourCorner x p hx with h | h
  · exact Or.inl h
  · right
    by_cases hr : isRangeValidP x = true
    · obtain ⟨i, j, rfl⟩ := exists_fin_of_valid x hr
      rw [getCell_coe] at h
      exact userFourCorner_bot_cells i j h
    · rw [getCell_of_not_valid _ x (by simpa using hr)] at h
      exact absurd h (by decide)

/-- Claim C36 fails: on the board `userFourCorner`, which is not full, every candidate has a
search value of at most `LOSE`, so the variant of `getBestMove` that starts from the best
score `LOSE` returns its initial point (0,0).  That point is not a member of the candidate
list, its cell holds a `BOT` stone, and `makeMove` with `BOT` at the returned point on the
board left by the call fails; the variant that starts from `INT_MIN` returns a candidate on
the same board. -/
theorem getBestMoveCore_returns_default (stdSort : List (Int × Point) → List (Int × Point))
    (hperm : ∀ l, (stdSort l).Perm l) :
    isFull userFourCorner = false
      ∧ (getBestMoveCore stdSort userFourCorner).1 = ⟨0, 0⟩
      ∧ (getBestMoveCore stdSort userFourCorner).1 ∉ getCandidates userFourCorner
      ∧ getCell userFourCorner (getBestMoveCore stdSort userFourCorner).1 = Role.BOT
      ∧ (makeMove (getBestMoveCore stdSort userFourCorner).2
          (getBestMoveCore stdSort userFourCorner).1 Role.BOT).1 = false
      ∧ (getBestMove stdSort userFourCorner).1 ∈ getCandidates userFourCorner := by
  have hnf : isFull userFourCorner = false :=
    isFull_false_of_empty userFourCorner ⟨7, 6⟩ (by decide) (by decide)
  have hr : (getBestMoveCore stdSort userFourCorner).1 = ⟨0, 0⟩ :=
    getBestMoveCore_open_four stdSort hperm userFourCorner ⟨7, 7⟩ (0, 1) (by decide)
      (by decide) (by decide) (by decide) userFourCorner_no_win
  have hc : getCell userFourCorner ⟨0, 0⟩ = Role.BOT := by decide
  refine ⟨hnf, hr, ?_, ?_, ?_, getBestMove_mem stdSort hperm userFourCorner hnf⟩
  · rw [hr]
    intro hm
    have := getCandidates_empty_cells userFourCorner _ hm
    rw [hc] at this
    exact absurd this (by decide)
  · rw [hr]; exact hc
  · rw [getBestMoveCore_board, hr, makeMove_fst]
    decide

theorem getBestMoveCore_returns_default_witness :
    (∀ l, (sortDesc l).Perm l)
      ∧ (getBestMoveCore sortDesc userFourCorner).1 = ⟨0, 0⟩
      ∧ (makeMove (getBestMoveCore sortDesc userFourCorner).2
          (getBestMoveCore sortDesc userFourCorner).1 Role.BOT).1 = false :=
  ⟨sortDesc_perm, (getBestMoveCore_returns_default sortDesc sortDesc_perm).2.1,
    (getBestMoveCore_returns_default sortDesc sortDesc_perm).2.2.2.2.1⟩

end Gomoku
